import Mathlib

set_option autoImplicit false

namespace Hungarian

/-! ## priqueue.h -/

/-- One heap slot (`arrType`): the stored value `x` and its handle `ridx`. -/
structure arrType (T : Type) where
  x : T
  ridx : Nat

/-- The class `priqueue<T, C>`: element count `n`, capacity `maxsize`, the
1-indexed heap array `arr` and the handle table `idx`.  The two arrays are
total maps from indices; slots above `n` hold stale data, as in the source. -/
structure priqueue (T : Type) where
  n : Nat
  maxsize : Nat
  arr : Nat → arrType T
  idx : Nat → Nat

/-- The helper `swap(i, j, a)`: `X t=a[i]; a[i]=a[j]; a[j]=t`. -/
def swap {X : Type} (i j : Nat) (a : Nat → X) : Nat → X :=
  let t := a i
  Function.update (Function.update a i (a j)) j t

namespace priqueue

variable {T : Type} {κ : Type} [LinearOrder κ]

/-- Constructor `priqueue(C s)`: `n(0), maxsize(s)` and two fresh arrays. -/
def new [Inhabited T] (s : Nat) : priqueue T :=
  { n := 0, maxsize := s, arr := fun _ => ⟨default, 0⟩, idx := fun _ => 0 }

/-- Source `swapEntries(i, j)`: swap the two handle-table entries, then the slots. -/
def swapEntries (q : priqueue T) (i j : Nat) : priqueue T :=
  { q with idx := swap (q.arr i).ridx (q.arr j).ridx q.idx, arr := swap i j q.arr }

/-- The loop of `siftdown(l, u)`, one iteration per unit of fuel. -/
def siftdownLoop (key : T → κ) (u : Nat) : Nat → priqueue T → Nat → priqueue T
  | 0, q, _ => q
  | fuel + 1, q, i =>
    if 2 * i ≤ u then
      let c := if 2 * i + 1 ≤ q.n ∧ key (q.arr (2 * i + 1)).x < key (q.arr (2 * i)).x
        then 2 * i + 1 else 2 * i
      if key (q.arr i).x ≤ key (q.arr c).x then q
      else siftdownLoop key u fuel (q.swapEntries i c) c
    else q

/-- Source `siftdown(l, u)`; the index at least doubles in every iteration, so `u`
iterations are never exceeded for `l ≥ 1`. -/
def siftdown (key : T → κ) (q : priqueue T) (l u : Nat) : priqueue T :=
  siftdownLoop key u u q l

/-- The loop of `siftup(u)`. -/
def siftupLoop (key : T → κ) : Nat → priqueue T → Nat → priqueue T
  | 0, q, _ => q
  | fuel + 1, q, i =>
    if 1 < i ∧ key (q.arr (i / 2)).x > key (q.arr i).x then
      siftupLoop key fuel (q.swapEntries i (i / 2)) (i / 2)
    else q

/-- Source `siftup(u)`; the index halves in every iteration. -/
def siftup (key : T → κ) (q : priqueue T) (u : Nat) : priqueue T :=
  siftupLoop key u q u

/-- The loop of `heapify`: `for (i = n; i > 0; i--) siftdown(i, n)`. -/
def heapifyLoop (key : T → κ) : Nat → priqueue T → priqueue T
  | 0, q => q
  | i + 1, q => heapifyLoop key i (siftdown key q (i + 1) q.n)

/-- Source `heapify()`. -/
def heapify (key : T → κ) (q : priqueue T) : priqueue T :=
  heapifyLoop key q.n q

/-- One iteration of the loading loop of `set_priqueue`:
`n++; idx[n]=n; arr[n].x = *first; arr[n].ridx=n`. -/
def load (q : priqueue T) (t : T) : priqueue T :=
  { q with n := q.n + 1,
           idx := Function.update q.idx (q.n + 1) (q.n + 1),
           arr := Function.update q.arr (q.n + 1) ⟨t, q.n + 1⟩ }

/-- Source `set_priqueue(first, last)` on the range holding `xs`. -/
def set_priqueue (key : T → κ) (q : priqueue T) (xs : List T) : priqueue T :=
  heapify key (xs.foldl load { q with n := 0 })

/-- Source `insert(t)`. -/
def insert (key : T → κ) (q : priqueue T) (t : T) : priqueue T :=
  siftup key (load q t) (q.n + 1)

/-- Source `popmin()`: the returned value and the queue afterwards. -/
def popmin (key : T → κ) (q : priqueue T) : T × priqueue T :=
  let t := (q.arr 1).x
  let q1 : priqueue T :=
    { q with idx := Function.update q.idx (q.arr q.n).ridx 1,
             arr := Function.update q.arr 1 (q.arr q.n),
             n := q.n - 1 }
  (t, siftdown key q1 1 q1.n)

/-- Source `get_key_entry(k)`. -/
def get_key_entry (q : priqueue T) (k : Nat) : T :=
  (q.arr (q.idx k)).x

/-- Source `update_dec_key(k)`. -/
def update_dec_key (key : T → κ) (q : priqueue T) (k : Nat) : priqueue T :=
  siftup key q (q.idx k)

/-- Source `empty()`. -/
def empty (q : priqueue T) : Bool :=
  q.n == 0

/-- Repeated `popmin` until `empty()`: the values in the order returned. -/
def drain (key : T → κ) : Nat → priqueue T → List T
  | 0, _ => []
  | fuel + 1, q =>
    if q.empty then [] else
      let r := popmin key q
      r.1 :: drain key fuel r.2

end priqueue

/-! ## indexedlist.h -/

/-- Address of an `ll` object: the `first` or `second` member of the list
object number `l`, or the `c`-th cell obtained from `new`. -/
inductive Ptr where
  | first (l : Nat)
  | second (l : Nat)
  | cell (c : Nat)
  deriving DecidableEq, Repr

/-- The class `ll<T>`; a pointer is `none` when it is `NULL`. -/
structure ll (T : Type) where
  val : T
  head : Option Ptr
  next : Option Ptr
  prev : Option Ptr

/-- The memory in which the `ll` objects live, and the number of cells
allocated so far. -/
structure Store (T : Type) where
  mem : Ptr → ll T
  ncells : Nat

namespace ll

variable {T : Type}

/-- Source `this->insert(n)`. -/
def insert (m : Ptr → ll T) (this n : Ptr) : Ptr → ll T :=
  let m1 := Function.update m n { m n with next := (m this).next }
  let m2 := Function.update m1 n { m1 n with prev := some this }
  let m3 := Function.update m2 this { m2 this with next := some n }
  let m4 := Function.update m3 n { m3 n with head := (m3 this).head }
  match (m4 n).next with
  | some nx => Function.update m4 nx { m4 nx with prev := some n }
  | none => m4

/-- Source `this->detach()`; fails when `prev` is `NULL`. -/
def detach (m : Ptr → ll T) (this : Ptr) : Option (Ptr → ll T) :=
  match (m this).prev with
  | none => none
  | some p =>
    let m1 := Function.update m p { m p with next := (m this).next }
    match (m1 this).next with
    | some nx => some (Function.update m1 nx { m1 nx with prev := (m1 this).prev })
    | none => some m1

end ll

namespace indexedList

variable {T : Type}

/-- Constructor of the list object `l`: two default `ll` members with
`first.head=&first; second.head=&second`. -/
def new [Inhabited T] (s : Store T) (l : Nat) : Store T :=
  let m1 := Function.update s.mem (Ptr.first l) ⟨default, some (Ptr.first l), none, none⟩
  let m2 := Function.update m1 (Ptr.second l) ⟨default, some (Ptr.second l), none, none⟩
  { s with mem := m2 }

/-- Source `insert(val, outedge)` on list object `l`: the new store and the handle. -/
def insert (s : Store T) (l : Nat) (val : T) (outedge : Bool) : Store T × Ptr :=
  let n := Ptr.cell s.ncells
  let m := Function.update s.mem n ⟨val, none, none, none⟩
  let m := if outedge then ll.insert m (Ptr.first l) n else ll.insert m (Ptr.second l) n
  ({ mem := m, ncells := s.ncells + 1 }, n)

/-- Source `change_list(l)` on list object `this`. -/
def change_list (s : Store T) (this : Nat) (l : Ptr) : Option (Store T) :=
  match ll.detach s.mem l with
  | none => none
  | some m =>
    if (m l).head = some (Ptr.first this) then
      some { s with mem := ll.insert m (Ptr.second this) l }
    else
      some { s with mem := ll.insert m (Ptr.first this) l }

/-- Source `remove(l)`. -/
def remove (s : Store T) (l : Ptr) : Option (Store T) :=
  match ll.detach s.mem l with
  | none => none
  | some m => some { s with mem := m }

/-- Source `begin_first()`: the `lp` of the iterator. -/
def begin_first (s : Store T) (l : Nat) : Option Ptr := (s.mem (Ptr.first l)).next

/-- Source `begin_second()`. -/
def begin_second (s : Store T) (l : Nat) : Option Ptr := (s.mem (Ptr.second l)).next

/-- The positions an iterator visits from `lp` until it equals `end()`. -/
def walk (m : Ptr → ll T) : Nat → Option Ptr → List Ptr
  | 0, _ => []
  | _ + 1, none => []
  | fuel + 1, some p => p :: walk m fuel (m p).next

/-- The handles of the first sublist, in iteration order. -/
def handles_first (s : Store T) (l : Nat) : List Ptr :=
  walk s.mem (s.ncells + 1) (begin_first s l)

/-- The handles of the second sublist, in iteration order. -/
def handles_second (s : Store T) (l : Nat) : List Ptr :=
  walk s.mem (s.ncells + 1) (begin_second s l)

/-- The values `*it` seen when iterating the first sublist. -/
def iter_first (s : Store T) (l : Nat) : List T :=
  (handles_first s l).map fun p => (s.mem p).val

/-- The values `*it` seen when iterating the second sublist. -/
def iter_second (s : Store T) (l : Nat) : List T :=
  (handles_second s l).map fun p => (s.mem p).val

end indexedList


/-! ## klein-tardos.cc -/

/-- Source `INF = INT_MAX`. -/
def INF : Int := 2147483647

/-- A value of type `Cost` (`int`) after an arithmetic operation: the result
is reduced to the 32-bit twos-complement range. -/
def wrap (v : Int) : Int := (v + 2147483648) % 4294967296 - 2147483648

/-- What happens when the program leaves defined behaviour. -/
inductive Fault where
  | null_deref
  | no_fuel
  deriving DecidableEq, Repr

deriving instance DecidableEq for Except

/-- The class `SP`: shortest-path scratch data of a node; `prev` names an
edge object, `none` is `NULL`. -/
structure SP where
  price : Int
  dist : Int
  done : Bool
  key : Nat
  prev : Option Nat

/-- Source `SP::reset()`. -/
def SP.reset (sp : SP) : SP := { sp with dist := INF, done := false, prev := none }

/-- The class `Node`.  Its member `edges` is the list object that carries the
node own number in the store of `ll` objects. -/
structure Node where
  name : Nat
  sp : SP

/-- The class `Edge`; `head` and `tail` name node objects, `hkey` and `tkey`
are list handles. -/
structure Edge where
  cost : Int
  back_edge : Bool
  head : Nat
  tail : Nat
  hkey : Option Ptr
  tkey : Option Ptr

/-- The class `Digraph` together with the objects it reaches: the node
objects (`nodes` holds node `0, 1, …` in this order), the edge objects and the
`ll` objects of all adjacency lists. -/
structure Digraph where
  node : Nat → Node
  nnodes : Nat
  edge : Nat → Edge
  nedges : Nat
  store : Store Nat

/-- The enumeration `NodeType`. -/
inductive NodeType where
  | SourceNode
  | TargetNode
  | XNode
  | YNode
  deriving DecidableEq, Repr

/-- The class `BiDigraph`. -/
structure BiDigraph extends Digraph where
  s : Option Nat
  t : Option Nat
  x : List Nat
  y : List Nat

namespace Digraph

/-- An empty graph. -/
def new : Digraph :=
  { node := fun _ => ⟨0, ⟨0, 0, false, 0, none⟩⟩, nnodes := 0,
    edge := fun _ => ⟨0, false, 0, 0, none, none⟩, nedges := 0,
    store := ⟨fun _ => ⟨0, none, none, none⟩, 0⟩ }

/-- Overwrite the `sp` member of node `v`. -/
def setSP (g : Digraph) (v : Nat) (sp : SP) : Digraph :=
  { g with node := Function.update g.node v { g.node v with sp := sp } }

/-- Source `Digraph::add_node(name)`: the graph and the new node. -/
def add_node (g : Digraph) (name : Nat) : Digraph × Nat :=
  let v := g.nnodes
  ({ g with node := Function.update g.node v ⟨name, ⟨0, 0, false, 0, none⟩⟩,
            nnodes := g.nnodes + 1,
            store := indexedList.new g.store v }, v)

/-- Source `Digraph::add_edge(x, y, c)`: `new Edge(x, y, c)`, then
`x->add_out_edge(e)` and `y->add_in_edge(e)`. -/
def add_edge (g : Digraph) (x y : Nat) (c : Int) : Digraph :=
  let e := g.nedges
  let r1 := indexedList.insert g.store x e true
  let r2 := indexedList.insert r1.1 y e false
  { g with edge := Function.update g.edge e ⟨c, false, y, x, some r2.2, some r1.2⟩,
           nedges := g.nedges + 1,
           store := r2.1 }

/-- Source `Edge::get_red_cost()`. -/
def get_red_cost (g : Digraph) (e : Nat) : Int :=
  wrap (wrap ((g.node (g.edge e).tail).sp.price + (g.edge e).cost)
    - (g.node (g.edge e).head).sp.price)

/-- Source `Edge::relax_red()`. -/
def relax_red (g : Digraph) (e : Nat) : Digraph :=
  let newc := wrap ((g.node (g.edge e).tail).sp.dist + g.get_red_cost e)
  let prec := (g.node (g.edge e).head).sp.dist
  if newc ≤ prec then
    g.setSP (g.edge e).head { (g.node (g.edge e).head).sp with dist := newc, prev := some e }
  else g

/-- Source `Edge::remove()`. -/
def remove (g : Digraph) (e : Nat) : Except Fault Digraph :=
  match (g.edge e).hkey, (g.edge e).tkey with
  | some hk, some tk =>
    match indexedList.remove g.store hk with
    | none => .error .null_deref
    | some s1 =>
      match indexedList.remove s1 tk with
      | none => .error .null_deref
      | some s2 => .ok { g with store := s2 }
  | _, _ => .error .null_deref

/-- Source `Edge::reverse_dir()`. -/
def reverse_dir (g : Digraph) (e : Nat) : Except Fault Digraph :=
  match (g.edge e).hkey, (g.edge e).tkey with
  | some hk, some tk =>
    match indexedList.change_list g.store (g.edge e).head hk with
    | none => .error .null_deref
    | some s1 =>
      match indexedList.change_list s1 (g.edge e).tail tk with
      | none => .error .null_deref
      | some s2 =>
        .ok { g with store := s2,
                     edge := Function.update g.edge e
                       { g.edge e with cost := wrap (-(g.edge e).cost),
                                       back_edge := !(g.edge e).back_edge,
                                       head := (g.edge e).tail,
                                       tail := (g.edge e).head } }
  | _, _ => .error .null_deref

/-- The ordering of `NodeP`: the node current `dist`. -/
def distKey (g : Digraph) (v : Nat) : Int := (g.node v).sp.dist

/-- The first loop of `dijkstra_spath`: `init_node(*nit)` and `sp.key = i`
for the nodes `v, v+1, …`. -/
def initNodes (g : Digraph) : Nat → Nat → Digraph
  | 0, _ => g
  | k + 1, v =>
    initNodes (g.setSP v { (g.node v).sp.reset with key := v + 1 }) k (v + 1)

/-- The inner loop of `dijkstra_spath` over the out-list of the popped node,
from iterator position `it`. -/
def relaxLoop : Nat → Digraph → priqueue Nat → Option Ptr →
    Except Fault (Digraph × priqueue Nat)
  | _, g, q, none => .ok (g, q)
  | 0, _, _, some _ => .error .no_fuel
  | fuel + 1, g, q, some p =>
    let e := (g.store.mem p).val
    if !(g.node (g.edge e).head).sp.done then
      let g1 := g.relax_red e
      let q1 := q.update_dec_key g1.distKey (g1.node (g1.edge e).head).sp.key
      relaxLoop fuel g1 q1 (g1.store.mem p).next
    else relaxLoop fuel g q (g.store.mem p).next

/-- The `while (!q->empty())` loop of `dijkstra_spath`. -/
def dijkstraLoop : Nat → Digraph → priqueue Nat → Except Fault Digraph
  | 0, g, q => if q.empty then .ok g else .error .no_fuel
  | fuel + 1, g, q =>
    if q.empty then .ok g else
      let r := q.popmin g.distKey
      let g1 := g.setSP r.1 { (g.node r.1).sp with done := true }
      match relaxLoop (g1.store.ncells + 1) g1 r.2 (indexedList.begin_first g1.store r.1) with
      | .error f => .error f
      | .ok (g2, q2) => dijkstraLoop fuel g2 q2

/-- Source `Digraph::dijkstra_spath(s)`. -/
def dijkstra_spath (g : Digraph) (s : Nat) : Except Fault Digraph :=
  let g1 := initNodes g g.nnodes 0
  let g2 := g1.setSP s { (g1.node s).sp with dist := 0 }
  let q := priqueue.set_priqueue g2.distKey (priqueue.new g2.nnodes) (List.range g2.nnodes)
  dijkstraLoop g2.nnodes g2 q

end Digraph

namespace BiDigraph

/-- An empty bipartite graph; `s` and `t` are not yet set. -/
def new : BiDigraph := { Digraph.new with s := none, t := none, x := [], y := [] }

/-- Replace the `Digraph` part. -/
def withGraph (b : BiDigraph) (g : Digraph) : BiDigraph := { b with toDigraph := g }

/-- Source `BiDigraph::add_node(name, nt)`. -/
def add_node (b : BiDigraph) (name : Nat) (nt : NodeType) : BiDigraph × Nat :=
  let r := b.toDigraph.add_node name
  let b1 := b.withGraph r.1
  match nt with
  | .XNode => ({ b1 with x := b1.x ++ [r.2] }, r.2)
  | .YNode => ({ b1 with y := b1.y ++ [r.2] }, r.2)
  | .SourceNode => ({ b1 with s := some r.2 }, r.2)
  | .TargetNode => ({ b1 with t := some r.2 }, r.2)

/-- Source `std::min_element(first, last)` on a range of `Edge*` values, after the
first element was taken as `smallest`; `addr` gives the address of each edge
object, which is what `operator<` on two `Edge*` compares. -/
def min_element_loop (addr : Nat → Nat) (m : Ptr → ll Nat) :
    Nat → Ptr → Option Ptr → Except Fault Ptr
  | _, smallest, none => .ok smallest
  | 0, _, some _ => .error .no_fuel
  | fuel + 1, smallest, some p =>
    if addr (m p).val < addr (m smallest).val then
      min_element_loop addr m fuel p (m p).next
    else min_element_loop addr m fuel smallest (m p).next

/-- Source `*min_element(n->in_begin(), n->in_end())`: on an empty range the result
is `in_end()`, whose `lp` is `NULL`. -/
def min_in_edge (addr : Nat → Nat) (g : Digraph) (n : Nat) : Except Fault Nat :=
  match indexedList.begin_second g.store n with
  | none => .error .null_deref
  | some p =>
    match min_element_loop addr g.store.mem (g.store.ncells + 1) p (g.store.mem p).next with
    | .error f => .error f
    | .ok sm => .ok (g.store.mem sm).val

/-- The loop of `initiate_node_prices` over `x`. -/
def zeroPrices (g : Digraph) : List Nat → Digraph
  | [] => g
  | v :: vs => zeroPrices (g.setSP v { (g.node v).sp with price := 0 }) vs

/-- The loop of `initiate_node_prices` over `y`. -/
def minPrices (addr : Nat → Nat) (g : Digraph) : List Nat → Except Fault Digraph
  | [] => .ok g
  | n :: ns =>
    match min_in_edge addr g n with
    | .error f => .error f
    | .ok e => minPrices addr (g.setSP n { (g.node n).sp with price := (g.edge e).cost }) ns

/-- Source `BiDigraph::initiate_node_prices()`. -/
def initiate_node_prices (addr : Nat → Nat) (b : BiDigraph) : Except Fault BiDigraph :=
  match b.s, b.t with
  | some s, some t =>
    let g1 := b.toDigraph.setSP t { (b.node t).sp with price := 0 }
    let g2 := g1.setSP s { (g1.node s).sp with price := 0 }
    match minPrices addr (zeroPrices g2 b.x) b.y with
    | .error f => .error f
    | .ok g3 => .ok (b.withGraph g3)
  | _, _ => .error .null_deref

/-- Source `BiDigraph::reduce_price(n)`. -/
def reduce_price (g : Digraph) (n : Nat) : Digraph :=
  g.setSP n { (g.node n).sp with price := wrap ((g.node n).sp.dist + (g.node n).sp.price) }

/-- Source `BiDigraph::reduce_node_prices()`. -/
def reduce_node_prices (b : BiDigraph) : BiDigraph :=
  b.withGraph (b.y.foldl reduce_price (b.x.foldl reduce_price b.toDigraph))

/-- The first loop of `augment_spath`, over the in-list of `t`: the current
`minc` and `e`. -/
def pickLoop (g : Digraph) : Nat → Int → Nat → Option Ptr → Except Fault Nat
  | _, _, e, none => .ok e
  | 0, _, _, some _ => .error .no_fuel
  | fuel + 1, minc, e, some p =>
    let n := (g.edge (g.store.mem p).val).tail
    let c := wrap ((g.node n).sp.dist + (g.node n).sp.price)
    if c < minc then pickLoop g fuel c (g.store.mem p).val (g.store.mem p).next
    else pickLoop g fuel minc e (g.store.mem p).next

/-- The second loop of `augment_spath`, entered with the value of `e`:
`for ( ; (tmp=e->get_tail())!=s; e=tmp->sp.prev) e->reverse_dir();` and the
value of `e` on exit. -/
def switchLoop (s : Nat) : Nat → Digraph → Option Nat → Except Fault (Digraph × Nat)
  | _, _, none => .error .null_deref
  | 0, _, some _ => .error .no_fuel
  | fuel + 1, g, some e =>
    let tmp := (g.edge e).tail
    if tmp ≠ s then
      match g.reverse_dir e with
      | .error f => .error f
      | .ok g1 => switchLoop s fuel g1 (g1.node tmp).sp.prev
    else .ok (g, e)

/-- Source `BiDigraph::augment_spath()`. -/
def augment_spath (b : BiDigraph) : Except Fault BiDigraph :=
  match b.s, b.t with
  | some s, some t =>
    match indexedList.begin_second b.store t with
    | none => .error .null_deref
    | some p0 =>
      match pickLoop b.toDigraph (b.store.ncells + 1) INF (b.store.mem p0).val (some p0) with
      | .error f => .error f
      | .ok e =>
        match b.toDigraph.remove e with
        | .error f => .error f
        | .ok g1 =>
          match switchLoop s (g1.nedges + 1) g1 (g1.node (g1.edge e).tail).sp.prev with
          | .error f => .error f
          | .ok (g2, e2) =>
            match g2.remove e2 with
            | .error f => .error f
            | .ok g3 => .ok (b.withGraph g3)
  | _, _ => .error .null_deref

/-- The first loop of `print_mapping`: the running `tcost`. -/
def totalCost (g : Digraph) : List Nat → Int → Except Fault Int
  | [], tcost => .ok tcost
  | v :: vs, tcost =>
    match indexedList.begin_first g.store v with
    | none => .error .null_deref
    | some p => totalCost g vs (wrap (tcost + wrap (-(g.edge (g.store.mem p).val).cost)))

/-- The second loop of `print_mapping`: the pairs printed. -/
def pairs (g : Digraph) : List Nat → Except Fault (List (Nat × Nat))
  | [] => .ok []
  | v :: vs =>
    match indexedList.begin_first g.store v with
    | none => .error .null_deref
    | some p =>
      match pairs g vs with
      | .error f => .error f
      | .ok ps => .ok (((g.node (g.edge (g.store.mem p).val).head).name, (g.node v).name) :: ps)

/-- Source `BiDigraph::print_mapping()`: the total printed on the first line and the
pairs printed on the second. -/
def print_mapping (b : BiDigraph) : Except Fault (Int × List (Nat × Nat)) :=
  match totalCost b.toDigraph b.y 0 with
  | .error f => .error f
  | .ok tcost =>
    match pairs b.toDigraph b.y with
    | .error f => .error f
    | .ok ps => .ok (tcost, ps)

/-- One round of the loop of `min_weight_assignment`. -/
def round (b : BiDigraph) : Except Fault BiDigraph :=
  match b.s with
  | none => .error .null_deref
  | some s =>
    match b.toDigraph.dijkstra_spath s with
    | .error f => .error f
    | .ok g1 =>
      match augment_spath (b.withGraph g1) with
      | .error f => .error f
      | .ok b2 => .ok (reduce_node_prices b2)

/-- The loop of `min_weight_assignment`, with `k` rounds left. -/
def rounds : Nat → BiDigraph → Except Fault BiDigraph
  | 0, b => .ok b
  | k + 1, b =>
    match round b with
    | .error f => .error f
    | .ok b1 => rounds k b1

/-- Source `BiDigraph::min_weight_assignment()`: what `print_mapping` prints. -/
def min_weight_assignment (addr : Nat → Nat) (b : BiDigraph) :
    Except Fault (Int × List (Nat × Nat)) :=
  match initiate_node_prices addr b with
  | .error f => .error f
  | .ok b1 =>
    match rounds b1.x.length b1 with
    | .error f => .error f
    | .ok b2 => print_mapping b2

end BiDigraph

/-! ### `prepare_graph` -/

/-- Source `std::map<Name, Node*>::find`. -/
def mapFind (m : List (Nat × Nat)) (k : Nat) : Option Nat :=
  (m.find? fun p => p.1 == k).map Prod.snd

/-- Insertion of a new key into a `std::map<Name, Node*>`, kept in key order. -/
def mapInsert (m : List (Nat × Nat)) (k v : Nat) : List (Nat × Nat) :=
  match m with
  | [] => [(k, v)]
  | p :: ps => if k < p.1 then (k, v) :: p :: ps else p :: mapInsert ps k v

/-- The state of the reading loop of `prepare_graph`: `g`, `lstx`, `lsty`. -/
structure Reader where
  g : BiDigraph
  lstx : List (Nat × Nat)
  lsty : List (Nat × Nat)

/-- One iteration of the reading loop of `prepare_graph` on the triple
`x y cost`. -/
def readTriple (r : Reader) (tr : Nat × Nat × Int) : Reader :=
  let r1 : Reader × Nat :=
    match mapFind r.lstx tr.1 with
    | some xn => (r, xn)
    | none =>
      let a := r.g.add_node tr.1 .XNode
      ({ r with g := a.1, lstx := mapInsert r.lstx tr.1 a.2 }, a.2)
  let r2 : Reader × Nat :=
    match mapFind r1.1.lsty tr.2.1 with
    | some yn => (r1.1, yn)
    | none =>
      let a := r1.1.g.add_node tr.2.1 .YNode
      ({ r1.1 with g := a.1, lsty := mapInsert r1.1.lsty tr.2.1 a.2 }, a.2)
  { r2.1 with g := r2.1.g.withGraph (r2.1.g.toDigraph.add_edge r1.2 r2.2 tr.2.2) }

/-- Source `prepare_graph` on a file holding the given triples. -/
def prepare_graph (triples : List (Nat × Nat × Int)) : BiDigraph :=
  let r := triples.foldl readTriple ⟨BiDigraph.new, [], []⟩
  let a := r.g.add_node 0 .SourceNode
  let c := a.1.add_node 0 .TargetNode
  let g1 := r.lstx.foldl (fun (b : BiDigraph) p => b.withGraph (b.toDigraph.add_edge a.2 p.2 0)) c.1
  r.lsty.foldl (fun (b : BiDigraph) p => b.withGraph (b.toDigraph.add_edge p.2 c.2 0)) g1

/-- The program: `prepare_graph` followed by `min_weight_assignment`. -/
def solve (addr : Nat → Nat) (triples : List (Nat × Nat × Int)) :
    Except Fault (Int × List (Nat × Nat)) :=
  (prepare_graph triples).min_weight_assignment addr


open Hungarian



end Hungarian

namespace Hungarian

variable {T : Type}

/-- The cells `cs` are linked, in this order, behind the object `pv`: `next`
leads from `pv` through `cs` to `NULL`, each `prev` leads one step back and
every cell carries the list mark `hd` in `head`. -/
def Chain (m : Ptr → ll T) (hd : Option Ptr) : Ptr → List Ptr → Prop
  | pv, [] => (m pv).next = none
  | pv, c :: cs =>
    (m pv).next = some c ∧ (m c).prev = some pv ∧ (m c).head = hd ∧ Chain m hd c cs

/-- Whether `p` is the `first` or `second` member of a constructed list object. -/
def Ptr.IsSent (C : Nat → Prop) : Ptr → Prop
  | .first l => C l
  | .second l => C l
  | .cell _ => False

/-- The `first` (for `true`) or `second` member of list object `l`. -/
def Ptr.sent (l : Nat) (b : Bool) : Ptr := if b then Ptr.first l else Ptr.second l

/-- The store represents the sublists `L`: for the two members `p` of every
constructed list object (those with `C`), the cells linked behind `p` are
`L p`; cells are allocated, and no cell is linked twice. -/
structure Store.WF (s : Store T) (C : Nat → Prop) (L : Ptr → List Ptr) : Prop where
  head : ∀ p, p.IsSent C → (s.mem p).head = some p
  chain : ∀ p, p.IsSent C → Chain s.mem (some p) p (L p)
  empty : ∀ p, ¬ p.IsSent C → L p = []
  bound : ∀ p c, c ∈ L p → ∃ i, c = Ptr.cell i ∧ i < s.ncells
  nodup : ∀ p, (L p).Nodup
  disj : ∀ p q c, c ∈ L p → c ∈ L q → p = q

end Hungarian

namespace Hungarian

variable {T : Type}

/-- One call on the interface of `indexedList`. -/
inductive ListOp (T : Type) where
  | insert (v : T) (outedge : Bool)
  | remove (h : Ptr)
  | change_list (h : Ptr)

/-- What is recorded about an element that was inserted and not yet removed:
the handle `insert` returned, the value, the sublist it was inserted into
(`true` for the first) and how often `change_list` was called on it. -/
structure Entry (T : Type) where
  handle : Ptr
  val : T
  side : Bool
  moves : Nat

/-- Why a sequence of calls is not carried on. -/
inductive Stop where
  | bad_handle
  | null_deref
  deriving DecidableEq, Repr

/-- A store holding one freshly constructed list object, number 0, and no cell. -/
def indexedList.fresh [Inhabited T] : Store T :=
  indexedList.new ⟨fun _ => ⟨default, none, none, none⟩, 0⟩ 0

/-- Runs the calls `ops` on list object `l`, keeping the record of the
inserted and not yet removed elements.  A call that passes a handle which is
not in the record stops the run with `bad_handle`. -/
def ListOp.run (l : Nat) :
    List (ListOp T) → Store T → List (Entry T) → Except Stop (Store T × List (Entry T))
  | [], s, log => .ok (s, log)
  | .insert v b :: ops, s, log =>
    ListOp.run l ops (indexedList.insert s l v b).1
      (log ++ [⟨(indexedList.insert s l v b).2, v, b, 0⟩])
  | .remove h :: ops, s, log =>
    if h ∈ log.map Entry.handle then
      match indexedList.remove s h with
      | none => .error .null_deref
      | some s1 => ListOp.run l ops s1 (log.filter fun e => e.handle ≠ h)
    else .error .bad_handle
  | .change_list h :: ops, s, log =>
    if h ∈ log.map Entry.handle then
      match indexedList.change_list s l h with
      | none => .error .null_deref
      | some s1 =>
        ListOp.run l ops s1
          (log.map fun e => if e.handle = h then { e with moves := e.moves + 1 } else e)
    else .error .bad_handle

/-- The store represents sublists that hold exactly the recorded elements,
each with its recorded value and on the side its record demands. -/
def ListInv (l : Nat) (s : Store T) (log : List (Entry T)) : Prop :=
  ∃ L, s.WF (fun k => k = l) L ∧ (log.map Entry.handle).Nodup ∧
    (∀ c, c ∈ log.map Entry.handle ↔ c ∈ L (Ptr.first l) ∨ c ∈ L (Ptr.second l)) ∧
    ∀ e ∈ log, (s.mem e.handle).val = e.val ∧
      (e.handle ∈ L (Ptr.first l) ↔
        (e.side = true ∧ Even e.moves) ∨ (e.side = false ∧ Odd e.moves))

end Hungarian

namespace Hungarian

namespace priqueue

variable {T : Type} {κ : Type} [LinearOrder κ]

/-- The min-heap order on the slots `1 … n`: the key in the parent slot `i / 2`
is at most the key in slot `i`. -/
def heapOrdered (key : T → κ) (q : priqueue T) : Prop :=
  ∀ i, 2 ≤ i → i ≤ q.n → key (q.arr (i / 2)).x ≤ key (q.arr i).x

/-- The handle table is exact: the handle carried by an occupied slot is sent
back to that slot. -/
def handlesExact (q : priqueue T) : Prop :=
  ∀ i, 1 ≤ i → i ≤ q.n → q.idx (q.arr i).ridx = i

/-- The handles in use are among `1 … n`. -/
def handlesBounded (q : priqueue T) : Prop :=
  ∀ i, 1 ≤ i → i ≤ q.n → (q.arr i).ridx ≤ q.n

/-- The occupied slots `1 … n`, in slot order. -/
def slots (q : priqueue T) : List (arrType T) :=
  (List.range' 1 q.n).map q.arr

/-- The values stored in the slots `1 … n`, in slot order. -/
def elems (q : priqueue T) : List T :=
  q.slots.map fun e => e.x

/-- The heap order holds between every slot and its parent except possibly
between slot `i` and its parent; the parent of `i` is at most the children of
`i`.  This is what `siftup(i)` starts from. -/
def upReady (key : T → κ) (q : priqueue T) (i : Nat) : Prop :=
  (∀ j, 2 ≤ j → j ≤ q.n → j ≠ i → key (q.arr (j / 2)).x ≤ key (q.arr j).x) ∧
  (∀ c, 2 ≤ i → c ≤ q.n → c / 2 = i → key (q.arr (i / 2)).x ≤ key (q.arr c).x)

/-- The heap order holds between every slot and its parent when the parent is
`lo` or later. -/
def heapFrom (key : T → κ) (q : priqueue T) (lo : Nat) : Prop :=
  ∀ j, 2 ≤ j → j ≤ q.n → lo ≤ j / 2 → key (q.arr (j / 2)).x ≤ key (q.arr j).x

/-- The heap order holds from `lo` on except possibly between slot `i` and its
children; the parent of `i`, when it is `lo` or later, is at most the
children of `i`.  This is what `siftdown(i, n)` starts from. -/
def downReady (key : T → κ) (q : priqueue T) (lo i : Nat) : Prop :=
  (∀ j, 2 ≤ j → j ≤ q.n → lo ≤ j / 2 → j / 2 ≠ i → key (q.arr (j / 2)).x ≤ key (q.arr j).x) ∧
  (∀ c, 2 ≤ i → lo ≤ i / 2 → c ≤ q.n → c / 2 = i → key (q.arr (i / 2)).x ≤ key (q.arr c).x)

/-- The queue after `k` calls of `popmin`. -/
def popN (key : T → κ) : Nat → priqueue T → priqueue T
  | 0, q => q
  | k + 1, q => popN key k (popmin key q).2

/-- The queue between the move `arr[1] = arr[n--]` of `popmin` and its call of
`siftdown`. -/
def moved (q : priqueue T) : priqueue T :=
  ⟨q.n - 1, q.maxsize, Function.update q.arr 1 (q.arr q.n),
    Function.update q.idx (q.arr q.n).ridx 1⟩

end priqueue

end Hungarian

namespace Hungarian

/-- The cost of the input edge from `x` to `y` in a list of triples (0 when
there is none). -/
def costOf (triples : List (Nat × Nat × Int)) (x y : Nat) : Int :=
  match triples.find? fun t => t.1 == x && t.2.1 == y with
  | some t => t.2.2
  | none => 0

/-- The sum of the chosen edge costs when the `i`-th element of `xs` is
assigned to the `i`-th element of `ys`. -/
def assignmentCost (triples : List (Nat × Nat × Int)) (xs ys : List Nat) : Int :=
  (List.zipWith (costOf triples) xs ys).sum

/-- Exhaustive permutation search: the least assignment cost over all
orderings of `ys`. -/
def bruteForceMin (triples : List (Nat × Nat × Int)) (xs ys : List Nat) : Option Int :=
  (ys.permutations.map (assignmentCost triples xs)).min?

end Hungarian

namespace Hungarian

namespace Digraph

/-- The step of the inner loop of `dijkstra_spath` for the edge `e` met in the
out-list of the popped node. -/
def relaxEdge (st : Digraph × priqueue Nat) (e : Nat) : Digraph × priqueue Nat :=
  if !(st.1.node (st.1.edge e).head).sp.done then
    ((st.1.relax_red e),
      st.2.update_dec_key (st.1.relax_red e).distKey
        ((st.1.relax_red e).node ((st.1.relax_red e).edge e).head).sp.key)
  else st

/-- What `dijkstra_spath(s)` needs of a graph with `N` nodes whose sublists
are `L`: every entry of an out-list is an edge that leaves or enters the owner,
with its other end among the nodes; edge costs are at most `C` and prices at
most `P` in absolute value, small enough for 32-bit arithmetic; the price of
`s` is 0; and every node is reached from `s` along edges that leave the owner
of the out-list they are in. -/
structure DijkReady (g : Digraph) (L : Ptr → List Ptr) (s N : Nat) (C P : Int) : Prop where
  nn : g.nnodes = N
  sN : s < N
  wf : g.store.WF (fun k => k < N) L
  ends : ∀ u, u < N → ∀ c ∈ L (Ptr.first u),
    ((g.edge (g.store.mem c).val).tail = u ∨ (g.edge (g.store.mem c).val).head = u) ∧
    (g.edge (g.store.mem c).val).head < N
  cost : ∀ u, u < N → ∀ c ∈ L (Ptr.first u), |(g.edge (g.store.mem c).val).cost| ≤ C
  price : ∀ v, v < N → |(g.node v).sp.price| ≤ P
  sprice : (g.node s).sp.price = 0
  cpos : 0 ≤ C
  small : (N : Int) * C + C + 2 * P < 2147483647
  conn : ∀ D : Nat → Prop, D s →
    (∀ u, u < N → D u → ∀ c ∈ L (Ptr.first u),
      (g.edge (g.store.mem c).val).tail = u → D (g.edge (g.store.mem c).val).head) →
    ∀ v, v < N → D v

/-- What `dijkstra_spath(s)` leaves behind: the graph is unchanged except for
`dist`, `done`, `prev` and `key`; every node other than `s` has a `prev` edge
that enters it, sits in the out-list of its tail, and whose tail comes earlier
in the order `rank`; `dist + price` is bounded, and so is `rank`. -/
structure DijkPost (g0 g : Digraph) (L : Ptr → List Ptr) (s N : Nat) (C : Int)
    (rank : Nat → Nat) : Prop where
  store : g.store = g0.store
  edge : g.edge = g0.edge
  nnodes : g.nnodes = g0.nnodes
  nedges : g.nedges = g0.nedges
  price : ∀ v, (g.node v).sp.price = (g0.node v).sp.price
  name : ∀ v, (g.node v).name = (g0.node v).name
  prev : ∀ v, v < N → v ≠ s → ∃ e, (g.node v).sp.prev = some e ∧ (g.edge e).head = v ∧
    (g.edge e).tail < N ∧ rank (g.edge e).tail < rank v ∧
    ∃ c ∈ L (Ptr.first (g.edge e).tail), (g.store.mem c).val = e
  bound : ∀ v, v < N → |(g.node v).sp.dist + (g.node v).sp.price| ≤ (N : Int) * C
  rlt : ∀ v, v < N → rank v < N

/-- The invariant of the `while` loop of `dijkstra_spath` after `k` pops; in
the middle of the inner loop over the out-list of the node `u` just popped,
`rem` holds the cells not yet visited. -/
structure DInv (g0 g : Digraph) (q : priqueue Nat) (L : Ptr → List Ptr) (s N : Nat) (C : Int)
    (k : Nat) (rank : Nat → Nat) (u : Nat) (rem : List Ptr) : Prop where
  store : g.store = g0.store
  edge : g.edge = g0.edge
  nnodes : g.nnodes = g0.nnodes
  nedges : g.nedges = g0.nedges
  price : ∀ v, (g.node v).sp.price = (g0.node v).sp.price
  name : ∀ v, (g.node v).name = (g0.node v).name
  key : ∀ v, v < N → (g.node v).sp.key = v + 1
  qord : q.heapOrdered g.distKey
  qex : q.handlesExact
  qn : q.n + k = N
  qslots : ∀ e ∈ q.slots, e.ridx = e.x + 1 ∧ e.x < N
  qnodup : q.elems.Nodup
  qmem : ∀ v, v < N → (v ∈ q.elems ↔ (g.node v).sp.done = false)
  rdone : ∀ v, v < N → (g.node v).sp.done = true → rank v < k
  prevok : ∀ v, v < N → ∀ e, (g.node v).sp.prev = some e →
    (g.edge e).head = v ∧ (g.edge e).tail < N ∧ (g.node (g.edge e).tail).sp.done = true ∧
    ((g.node v).sp.done = true → rank (g.edge e).tail < rank v) ∧
    (∃ c ∈ L (Ptr.first (g.edge e).tail), (g.store.mem c).val = e) ∧ v ≠ s
  unreached : ∀ v, v < N → v ≠ s → (g.node v).sp.prev = none → (g.node v).sp.dist = INF
  sdist : (g.node s).sp.dist = 0 ∧ (g.node s).sp.prev = none
  bound : ∀ v, v < N → ((g.node v).sp.prev ≠ none ∨ v = s) →
    |(g.node v).sp.dist + (g.node v).sp.price| ≤ (k : Int) * C
  done_reached : ∀ v, v < N → (g.node v).sp.done = true → ((g.node v).sp.prev ≠ none ∨ v = s)
  covered : ∀ w, w < N → (g.node w).sp.done = true → ∀ c ∈ L (Ptr.first w),
    (w = u → c ∉ rem) → (g.edge (g.store.mem c).val).tail = w →
    ((g.node (g.edge (g.store.mem c).val).head).sp.prev ≠ none ∨
      (g.edge (g.store.mem c).val).head = s)
  sdone : 1 ≤ k → (g.node s).sp.done = true

end Digraph

end Hungarian

namespace Hungarian

/-- How often an edge has gone through `reverse_dir`, as far as the places of
its two list cells are concerned: never (`F0`), once (`B1`), an even number of
times (`F2`), an odd number of times above one (`B3`); `gone` after `remove`. -/
inductive EState where
  | F0
  | B1
  | F2
  | B3
  | gone
  deriving DecidableEq

namespace EState

/-- The state after one more `reverse_dir`. -/
def rev : EState → EState
  | F0 => B1
  | B1 => F2
  | F2 => B3
  | B3 => F2
  | gone => gone

/-- Whether the edge currently points against its original direction. -/
def back : EState → Bool
  | B1 => true
  | B3 => true
  | _ => false

/-- The sublist that holds the cell `hkey` of an edge created as `o`. -/
def locH (o : Edge) : EState → Option Ptr
  | F0 => some (Ptr.second o.head)
  | B1 => some (Ptr.first o.head)
  | F2 => some (Ptr.first o.tail)
  | B3 => some (Ptr.first o.head)
  | gone => none

/-- The sublist that holds the cell `tkey` of an edge created as `o`. -/
def locT (o : Edge) : EState → Option Ptr
  | F0 => some (Ptr.first o.tail)
  | B1 => some (Ptr.second o.tail)
  | F2 => some (Ptr.first o.head)
  | B3 => some (Ptr.first o.tail)
  | gone => none

/-- The current `cost` member of an edge object created with the cost `c`:
every `reverse_dir` negates it in 32-bit arithmetic. -/
def cost (c : Int) : EState → Int
  | F0 => c
  | B1 => wrap (-c)
  | F2 => wrap (-(wrap (-c)))
  | B3 => wrap (-c)
  | gone => c

/-- The current content of an edge object created as `o`. -/
def cur (o : Edge) (σ : EState) : Edge :=
  if σ.back then ⟨σ.cost o.cost, true, o.tail, o.head, o.hkey, o.tkey⟩
  else ⟨σ.cost o.cost, o.back_edge, o.head, o.tail, o.hkey, o.tkey⟩

end EState

/-- The graph as `prepare_graph` leaves it: `N` node objects, `E` edge objects
with the content `orig`, the nodes `s` and `t`, the vectors `x` and `y`, and
the node names. -/
structure Net where
  N : Nat
  E : Nat
  s : Nat
  t : Nat
  X : List Nat
  Y : List Nat
  orig : Nat → Edge
  name : Nat → Nat

/-- The network is that of a complete bipartite instance: the nodes are `s`,
`t`, the X-nodes and the Y-nodes; every edge object leads from an X-node to a
Y-node, from `s` to an X-node or from a Y-node to `t`; its two list cells are
the cells `2e` and `2e+1`; all pairs are joined; and costs are at most `C` in
absolute value. -/
structure Net.OK (n : Net) (C : Int) : Prop where
  sN : n.s < n.N
  tN : n.t < n.N
  xN : ∀ x ∈ n.X, x < n.N
  yN : ∀ y ∈ n.Y, y < n.N
  st : n.s ≠ n.t
  sX : n.s ∉ n.X
  sY : n.s ∉ n.Y
  tX : n.t ∉ n.X
  tY : n.t ∉ n.Y
  xY : ∀ x ∈ n.X, x ∉ n.Y
  cover : ∀ v, v < n.N → v = n.s ∨ v = n.t ∨ v ∈ n.X ∨ v ∈ n.Y
  xnodup : n.X.Nodup
  ynodup : n.Y.Nodup
  len : n.X.length = n.Y.length
  kind : ∀ e, e < n.E →
    ((n.orig e).tail ∈ n.X ∧ (n.orig e).head ∈ n.Y) ∨
    ((n.orig e).tail = n.s ∧ (n.orig e).head ∈ n.X) ∨
    ((n.orig e).tail ∈ n.Y ∧ (n.orig e).head = n.t)
  keys : ∀ e, e < n.E → (n.orig e).hkey = some (Ptr.cell (2 * e + 1)) ∧
    (n.orig e).tkey = some (Ptr.cell (2 * e)) ∧ (n.orig e).back_edge = false
  cost : ∀ e, e < n.E → |(n.orig e).cost| ≤ C
  complete : ∀ x ∈ n.X, ∀ y ∈ n.Y, ∃ e, e < n.E ∧ (n.orig e).tail = x ∧ (n.orig e).head = y
  sx : ∀ x ∈ n.X, ∃ e, e < n.E ∧ (n.orig e).tail = n.s ∧ (n.orig e).head = x
  sx_unique : ∀ e1 e2, e1 < n.E → e2 < n.E → (n.orig e1).tail = n.s → (n.orig e2).tail = n.s →
    (n.orig e1).head = (n.orig e2).head → e1 = e2
  yt : ∀ y ∈ n.Y, ∃ e, e < n.E ∧ (n.orig e).tail = y ∧ (n.orig e).head = n.t
  yt_unique : ∀ e1 e2, e1 < n.E → e2 < n.E → (n.orig e1).head = n.t → (n.orig e2).head = n.t →
    (n.orig e1).tail = (n.orig e2).tail → e1 = e2
  EN : n.N ≤ n.E + 1
  cpos : 0 ≤ C
  small : (3 * (n.N : Int) + 1) * C < 2147483647

/-- The memory of the graph `g` represents the network `n` with its edges in
the states `st`: the edge objects have the content that belongs to their
state, and the sublists `L` hold the cells of the edges where their state puts
them. -/
structure MInv (n : Net) (g : Digraph) (st : Nat → EState) (L : Ptr → List Ptr) : Prop where
  nnodes : g.nnodes = n.N
  nedges : g.nedges = n.E
  name : ∀ v, (g.node v).name = n.name v
  wf : g.store.WF (fun k => k < n.N) L
  val : ∀ i, i < 2 * n.E → (g.store.mem (Ptr.cell i)).val = i / 2
  edge : ∀ e, e < n.E → g.edge e = (st e).cur (n.orig e)
  loc : ∀ p c, c ∈ L p ↔ ∃ e, e < n.E ∧
    ((c = Ptr.cell (2 * e + 1) ∧ (st e).locH (n.orig e) = some p) ∨
     (c = Ptr.cell (2 * e) ∧ (st e).locT (n.orig e) = some p))

end Hungarian

namespace Hungarian

/-- Where `augment_spath` stands: between rounds (`clean`), after the Y-node
`y` lost its edge to `t` or its matching edge (`freeY`), or after the X-node
`x` got the new matching edge `e` while still holding what it had (`pendX`). -/
inductive Mode where
  | clean
  | freeY (y : Nat)
  | pendX (x e : Nat)
  deriving DecidableEq

/-- The graph `g` holds a matching of the network `n`: `mx` and `my` give the
reversed edge at each matched node, `ux` and `uy` list the X-nodes that still
have their edge from `s` and the Y-nodes that still have their edge to `t`,
and the first cell of the out-list of a matched Y-node is that of its matching
edge. -/
structure GInv (n : Net) (C : Int) (g : Digraph) (st : Nat → EState)
    (mx my : Nat → Option Nat) (ux uy : List Nat) (L : Ptr → List Ptr) (mode : Mode) : Prop where
  mem : MInv n g st L
  price : ∀ v, v < n.N → |(g.node v).sp.price| ≤ (n.N : Int) * C
  sprice : (g.node n.s).sp.price = 0
  xy : ∀ e, e < n.E → (n.orig e).tail ∈ n.X → st e ≠ EState.gone
  sx : ∀ e, e < n.E → (n.orig e).tail = n.s →
    (st e = EState.F0 ∧ (n.orig e).head ∈ ux) ∨ (st e = EState.gone ∧ (n.orig e).head ∉ ux)
  yt : ∀ e, e < n.E → (n.orig e).head = n.t →
    (st e = EState.F0 ∧ (n.orig e).tail ∈ uy) ∨ (st e = EState.gone ∧ (n.orig e).tail ∉ uy)
  ux_sub : ∀ x ∈ ux, x ∈ n.X
  uy_sub : ∀ y ∈ uy, y ∈ n.Y
  ux_nodup : ux.Nodup
  uy_nodup : uy.Nodup
  len : ux.length = uy.length + (if mode = Mode.clean then 0 else 1)
  my_some : ∀ y e, my y = some e →
    e < n.E ∧ (n.orig e).tail ∈ n.X ∧ (n.orig e).head = y ∧ (st e).back = true
  mx_some : ∀ x e, mx x = some e →
    e < n.E ∧ (n.orig e).tail = x ∧ x ∈ n.X ∧ (st e).back = true ∧ mode ≠ Mode.pendX x e
  back_my : ∀ e, e < n.E → (n.orig e).tail ∈ n.X → (st e).back = true →
    my (n.orig e).head = some e
  back_mx : ∀ e, e < n.E → (n.orig e).tail ∈ n.X → (st e).back = true →
    mx (n.orig e).tail = some e ∨ mode = Mode.pendX (n.orig e).tail e
  ux_mx : ∀ x ∈ n.X, (mx x = none ↔ x ∈ ux)
  uy_my : ∀ y ∈ n.Y, (my y = none ↔ (y ∈ uy ∨ mode = Mode.freeY y))
  front : ∀ y e, my y = some e → ∃ rest, L (Ptr.first y) = Ptr.cell (2 * e + 1) :: rest
  free : ∀ y, mode = Mode.freeY y → y ∈ n.Y ∧ y ∉ uy
  pend : ∀ x e, mode = Mode.pendX x e →
    e < n.E ∧ (n.orig e).tail = x ∧ x ∈ n.X ∧ (st e).back = true ∧ mx x ≠ some e

end Hungarian

namespace Hungarian

/-- What the `prev` members hold after `dijkstra_spath` on a graph with the
edge states `stD`: every node other than `s` has a `prev` edge that enters it
and whose tail comes earlier in the order `rank`. -/
def PrevOK (n : Net) (stD : Nat → EState) (pv : Nat → Option Nat) (rank : Nat → Nat) : Prop :=
  ∀ v, v < n.N → v ≠ n.s → ∃ e, e < n.E ∧ pv v = some e ∧
    ((stD e).cur (n.orig e)).head = v ∧
    rank ((stD e).cur (n.orig e)).tail < rank v ∧ stD e ≠ EState.gone

end Hungarian

namespace Hungarian

/-- The distinct values of a list, in the order of their first occurrence. -/
def firstSeen (l : List Nat) : List Nat :=
  l.foldl (fun acc a => if a ∈ acc then acc else acc ++ [a]) []

/-- The memory of a graph built by `add_node` and `add_edge` alone: the edge
object `e` owns the cells `2e` and `2e+1`, linked in the out-list of its tail
and the in-list of its head. -/
structure Built (g : Digraph) (L : Ptr → List Ptr) : Prop where
  wf : g.store.WF (fun k => k < g.nnodes) L
  cells : g.store.ncells = 2 * g.nedges
  val : ∀ i, i < 2 * g.nedges → (g.store.mem (Ptr.cell i)).val = i / 2
  loc : ∀ p c, c ∈ L p ↔ ∃ e, e < g.nedges ∧
    ((c = Ptr.cell (2 * e + 1) ∧ p = Ptr.second (g.edge e).head) ∨
     (c = Ptr.cell (2 * e) ∧ p = Ptr.first (g.edge e).tail))
  keys : ∀ e, e < g.nedges → (g.edge e).hkey = some (Ptr.cell (2 * e + 1)) ∧
    (g.edge e).tkey = some (Ptr.cell (2 * e)) ∧ (g.edge e).back_edge = false
  ends : ∀ e, e < g.nedges → (g.edge e).tail < g.nnodes ∧ (g.edge e).head < g.nnodes

/-- The first half of an iteration of the reading loop of `prepare_graph`: the
X-node for the name `a`, created when `lstx` does not have it. -/
def Reader.getX (r : Reader) (a : Nat) : Reader × Nat :=
  match mapFind r.lstx a with
  | some xn => (r, xn)
  | none =>
    ({ r with g := (r.g.add_node a .XNode).1,
              lstx := mapInsert r.lstx a (r.g.add_node a .XNode).2 },
      (r.g.add_node a .XNode).2)

/-- The second half: the Y-node for the name `a`, created when `lsty` does not
have it. -/
def Reader.getY (r : Reader) (a : Nat) : Reader × Nat :=
  match mapFind r.lsty a with
  | some yn => (r, yn)
  | none =>
    ({ r with g := (r.g.add_node a .YNode).1,
              lsty := mapInsert r.lsty a (r.g.add_node a .YNode).2 },
      (r.g.add_node a .YNode).2)

/-- The end of an iteration: `g->add_edge(xnode, ynode, cost)`. -/
def Reader.link (r : Reader) (xn yn : Nat) (c : Int) : Reader :=
  { r with g := r.g.withGraph (r.g.toDigraph.add_edge xn yn c) }

/-- The state of the reading loop of `prepare_graph` after the triples `done`,
whose X-names are `xs` and whose Y-names are `ys`: every node is an X-node or a
Y-node, the two maps send the names seen to their nodes, and the edge objects
are those of the triples, in their order. -/
structure RInv (xs ys : List Nat) (done : List (Nat × Nat × Int)) (r : Reader)
    (L : Ptr → List Ptr) : Prop where
  built : Built r.g.toDigraph L
  part : (r.g.x ++ r.g.y).Perm (List.range r.g.nnodes)
  lstx_snd : (r.lstx.map Prod.snd).Perm r.g.x
  lstx_key : ∀ p ∈ r.lstx, (r.g.node p.2).name = p.1
  lsty_snd : (r.lsty.map Prod.snd).Perm r.g.y
  lsty_key : ∀ p ∈ r.lsty, (r.g.node p.2).name = p.1
  xnames : r.g.x.map (fun v => (r.g.node v).name) = firstSeen xs
  ynames : r.g.y.map (fun v => (r.g.node v).name) = firstSeen ys
  ne : r.g.nedges = done.length
  edges : ∀ e t, done[e]? = some t →
    (r.g.edge e).tail ∈ r.g.x ∧ (r.g.node (r.g.edge e).tail).name = t.1 ∧
    (r.g.edge e).head ∈ r.g.y ∧ (r.g.node (r.g.edge e).head).name = t.2.1 ∧
    (r.g.edge e).cost = t.2.2

/-- The triples describe a complete bipartite instance on the X-names `xs` and
the Y-names `ys`, equally many and at least one, with every pair joined and
with costs at most `C` in absolute value, `C` small enough for the 32-bit
arithmetic of the program. -/
structure Complete (tr : List (Nat × Nat × Int)) (xs ys : List Nat) (C : Int) : Prop where
  xnodup : xs.Nodup
  ynodup : ys.Nodup
  len : xs.length = ys.length
  pos : 1 ≤ xs.length
  mem : ∀ t ∈ tr, t.1 ∈ xs ∧ t.2.1 ∈ ys ∧ |t.2.2| ≤ C
  all : ∀ x ∈ xs, ∀ y ∈ ys, ∃ c, (x, y, c) ∈ tr
  small : (6 * (xs.length : Int) + 7) * C < 2147483647

end Hungarian

namespace Hungarian

end Hungarian

namespace Hungarian

namespace Digraph

/-- What `dijkstra_spath(s)` needs of the memory of a graph with `N` nodes
whose sublists are `L`: every entry of an out-list is an edge that leaves or
enters the owner, and its head is among the nodes. -/
structure SReady (g : Digraph) (L : Ptr → List Ptr) (s N : Nat) : Prop where
  nn : g.nnodes = N
  sN : s < N
  wf : g.store.WF (fun k => k < N) L
  ends : ∀ u, u < N → ∀ c ∈ L (Ptr.first u),
    ((g.edge (g.store.mem c).val).tail = u ∨ (g.edge (g.store.mem c).val).head = u) ∧
    (g.edge (g.store.mem c).val).head < N

/-- The arithmetic side of what `dijkstra_spath(s)` needs: the edges that
leave the owner of the out-list they are in have a reduced cost that is not
negative, costs are at most `C` and prices at most `P` in absolute value, and
these are small enough for 32-bit arithmetic and for every distance to stay
below `INF`. -/
structure Arith (g : Digraph) (L : Ptr → List Ptr) (N : Nat) (C P : Int) : Prop where
  cost : ∀ u, u < N → ∀ c ∈ L (Ptr.first u), |(g.edge (g.store.mem c).val).cost| ≤ C
  price : ∀ v, v < N → |(g.node v).sp.price| ≤ P
  cpos : 0 ≤ C
  small : (N : Int) * C + C + 2 * P < 2147483647
  nonneg : ∀ u, u < N → ∀ c ∈ L (Ptr.first u), (g.edge (g.store.mem c).val).tail = u →
    0 ≤ (g.node u).sp.price + (g.edge (g.store.mem c).val).cost -
      (g.node (g.edge (g.store.mem c).val).head).sp.price

/-- A directed path from `s` to a node along edges that leave the owner of the
out-list they are in, with the sum of the reduced costs of its edges. -/
inductive PathL (g : Digraph) (L : Ptr → List Ptr) (s : Nat) : Nat → Int → Prop
  | nil : PathL g L s s 0
  | snoc {u : Nat} {d : Int} {c : Ptr} : PathL g L s u d → c ∈ L (Ptr.first u) →
      (g.edge (g.store.mem c).val).tail = u →
      PathL g L s (g.edge (g.store.mem c).val).head (d + g.get_red_cost (g.store.mem c).val)

/-- The node `v` is reachable from `s` along out-list edges. -/
def Reach (g : Digraph) (L : Ptr → List Ptr) (s v : Nat) : Prop := ∃ d, PathL g L s v d

/-- What `dijkstra_spath(s)` leaves behind whatever the costs are: the graph
is unchanged except for `dist`, `done`, `prev` and `key`; `s` has distance 0
and no `prev` edge; every `prev` edge enters its node, sits in the out-list of
its tail, and its tail comes earlier in the order `rank`. -/
structure SPost (g0 g : Digraph) (L : Ptr → List Ptr) (s N : Nat) (rank : Nat → Nat) : Prop where
  store : g.store = g0.store
  edge : g.edge = g0.edge
  nnodes : g.nnodes = g0.nnodes
  nedges : g.nedges = g0.nedges
  price : ∀ v, (g.node v).sp.price = (g0.node v).sp.price
  name : ∀ v, (g.node v).name = (g0.node v).name
  sdist : (g.node s).sp.dist = 0 ∧ (g.node s).sp.prev = none
  prev : ∀ v, v < N → ∀ e, (g.node v).sp.prev = some e → (g.edge e).head = v ∧
    (g.edge e).tail < N ∧ rank (g.edge e).tail < rank v ∧
    (∃ c ∈ L (Ptr.first (g.edge e).tail), (g.store.mem c).val = e) ∧ v ≠ s
  rlt : ∀ v, v < N → rank v < N

/-- The part of the loop invariant of `dijkstra_spath` that holds whatever the
costs are, after `k` pops. -/
structure SInv (g0 g : Digraph) (q : priqueue Nat) (L : Ptr → List Ptr) (s N : Nat)
    (k : Nat) (rank : Nat → Nat) : Prop where
  store : g.store = g0.store
  edge : g.edge = g0.edge
  nnodes : g.nnodes = g0.nnodes
  nedges : g.nedges = g0.nedges
  price : ∀ v, (g.node v).sp.price = (g0.node v).sp.price
  name : ∀ v, (g.node v).name = (g0.node v).name
  key : ∀ v, v < N → (g.node v).sp.key = v + 1
  qord : q.heapOrdered g.distKey
  qex : q.handlesExact
  qn : q.n + k = N
  qslots : ∀ e ∈ q.slots, e.ridx = e.x + 1 ∧ e.x < N
  qnodup : q.elems.Nodup
  qmem : ∀ v, v < N → (v ∈ q.elems ↔ (g.node v).sp.done = false)
  rdone : ∀ v, v < N → (g.node v).sp.done = true → rank v < k
  prevok : ∀ v, v < N → ∀ e, (g.node v).sp.prev = some e →
    (g.edge e).head = v ∧ (g.edge e).tail < N ∧ (g.node (g.edge e).tail).sp.done = true ∧
    ((g.node v).sp.done = true → rank (g.edge e).tail < rank v) ∧
    (∃ c ∈ L (Ptr.first (g.edge e).tail), (g.store.mem c).val = e) ∧ v ≠ s
  sdist : (g.node s).sp.dist = 0 ∧ (g.node s).sp.prev = none
  fresh : k = 0 → ∀ v, v < N → v ≠ s → (g.node v).sp.dist = INF
  sdone : 1 ≤ k → (g.node s).sp.done = true

/-- The part of the loop invariant of `dijkstra_spath` that rests on the
arithmetic assumptions, after `k` pops and in the middle of the inner loop
over the out-list of the node `u` popped last, with the cells `rem` still to
be visited.  It speaks of the nodes reachable from `s` only. -/
structure CInv (g0 g : Digraph) (L : Ptr → List Ptr) (s N : Nat) (C : Int) (k : Nat) (u : Nat)
    (rem : List Ptr) : Prop where
  phase : (∀ v, v < N → Reach g0 L s v → (g.node v).sp.done = true) ∨
    (∀ v, v < N → ¬ Reach g0 L s v →
      (g.node v).sp.done = false ∧ (g.node v).sp.dist = INF ∧ (g.node v).sp.prev = none)
  unreached : ∀ v, v < N → Reach g0 L s v → v ≠ s → (g.node v).sp.prev = none →
    (g.node v).sp.dist = INF
  bound : ∀ v, v < N → Reach g0 L s v → ((g.node v).sp.prev ≠ none ∨ v = s) →
    |(g.node v).sp.dist + (g.node v).sp.price - (g.node s).sp.price| ≤ (k : Int) * C
  ub : ∀ j, k = j + 1 → Reach g0 L s u →
    |(g.node u).sp.dist + (g.node u).sp.price - (g.node s).sp.price| ≤ (j : Int) * C
  path : ∀ v, v < N → Reach g0 L s v → ((g.node v).sp.prev ≠ none ∨ v = s) →
    PathL g0 L s v (g.node v).sp.dist
  tight : ∀ v, v < N → Reach g0 L s v → ∀ e, (g.node v).sp.prev = some e →
    (g.node v).sp.dist = (g.node (g0.edge e).tail).sp.dist + g0.get_red_cost e
  feas : ∀ w, w < N → Reach g0 L s w → (g.node w).sp.done = true → ∀ c ∈ L (Ptr.first w),
    (w = u → c ∉ rem) → (g0.edge (g0.store.mem c).val).tail = w →
    (g.node (g0.edge (g0.store.mem c).val).head).sp.dist ≤
      (g.node w).sp.dist + g0.get_red_cost (g0.store.mem c).val
  mono : ∀ w v, w < N → v < N → Reach g0 L s w → Reach g0 L s v →
    (g.node w).sp.done = true → (g.node v).sp.done = false →
    (g.node w).sp.dist ≤ (g.node v).sp.dist
  last : Reach g0 L s u → ∀ w, w < N → Reach g0 L s w → (g.node w).sp.done = true →
    (g.node w).sp.dist ≤ (g.node u).sp.dist
  done_reached : ∀ v, v < N → Reach g0 L s v → (g.node v).sp.done = true →
    ((g.node v).sp.prev ≠ none ∨ v = s)

/-- What `dijkstra_spath(s)` leaves behind under the arithmetic assumptions,
for the nodes reachable from `s`: the distance is the sum of reduced costs of
some path and at most that of every path, every node other than `s` has a
`prev` edge that is tight, every out-list edge is feasible, and `dist + price`
is bounded. -/
structure CPost (g0 g : Digraph) (L : Ptr → List Ptr) (s N : Nat) (C : Int) : Prop where
  path : ∀ v, v < N → Reach g0 L s v → PathL g0 L s v (g.node v).sp.dist
  least : ∀ v d, PathL g0 L s v d → (g.node v).sp.dist ≤ d
  tight : ∀ v, v < N → Reach g0 L s v → v ≠ s → ∃ e, (g.node v).sp.prev = some e ∧
    (g.node (g0.edge e).tail).sp.dist + g0.get_red_cost e = (g.node v).sp.dist
  feas : ∀ u, u < N → Reach g0 L s u → ∀ c ∈ L (Ptr.first u),
    (g0.edge (g0.store.mem c).val).tail = u →
    (g.node (g0.edge (g0.store.mem c).val).head).sp.dist ≤
      (g.node u).sp.dist + g0.get_red_cost (g0.store.mem c).val
  bound : ∀ v, v < N → Reach g0 L s v →
    |(g.node v).sp.dist + (g.node v).sp.price - (g.node s).sp.price| ≤ (N : Int) * C

end Digraph

end Hungarian

namespace Hungarian

namespace Digraph

/-- A directed path from `s` to a node along out-list edges, with the sum of
the reduced costs (`get_red_cost`) of its edges: each step takes a cell that
iterating the out-list of the node reached so far visits, whose edge has that
node as its tail, and moves to the head of the edge. -/
inductive Path (g : Digraph) (s : Nat) : Nat → Int → Prop
  | nil : Path g s s 0
  | snoc {u : Nat} {d : Int} {c : Ptr} : Path g s u d →
      c ∈ indexedList.handles_first g.store u →
      (g.edge (g.store.mem c).val).tail = u →
      Path g s (g.edge (g.store.mem c).val).head (d + g.get_red_cost (g.store.mem c).val)

end Digraph

end Hungarian

namespace Hungarian

/-- The network is that of any instance: the nodes `s`, `t`, the X-nodes and
the Y-nodes are distinct nodes; every edge object leads from an X-node to a
Y-node, from `s` to an X-node or from a Y-node to `t`; its two list cells are
the cells `2e` and `2e+1`; there is exactly one edge from `s` to each X-node
and from each Y-node to `t`. Nothing is asked of the costs. -/
structure Net.Shape (n : Net) : Prop where
  sN : n.s < n.N
  tN : n.t < n.N
  xN : ∀ x ∈ n.X, x < n.N
  yN : ∀ y ∈ n.Y, y < n.N
  st : n.s ≠ n.t
  sX : n.s ∉ n.X
  sY : n.s ∉ n.Y
  tX : n.t ∉ n.X
  tY : n.t ∉ n.Y
  xY : ∀ x ∈ n.X, x ∉ n.Y
  xnodup : n.X.Nodup
  ynodup : n.Y.Nodup
  kind : ∀ e, e < n.E →
    ((n.orig e).tail ∈ n.X ∧ (n.orig e).head ∈ n.Y) ∨
    ((n.orig e).tail = n.s ∧ (n.orig e).head ∈ n.X) ∨
    ((n.orig e).tail ∈ n.Y ∧ (n.orig e).head = n.t)
  keys : ∀ e, e < n.E → (n.orig e).hkey = some (Ptr.cell (2 * e + 1)) ∧
    (n.orig e).tkey = some (Ptr.cell (2 * e)) ∧ (n.orig e).back_edge = false
  sx_unique : ∀ e1 e2, e1 < n.E → e2 < n.E → (n.orig e1).tail = n.s → (n.orig e2).tail = n.s →
    (n.orig e1).head = (n.orig e2).head → e1 = e2
  yt_unique : ∀ e1 e2, e1 < n.E → e2 < n.E → (n.orig e1).head = n.t → (n.orig e2).head = n.t →
    (n.orig e1).tail = (n.orig e2).tail → e1 = e2
  sx : ∀ x ∈ n.X, ∃ e, e < n.E ∧ (n.orig e).tail = n.s ∧ (n.orig e).head = x
  yt : ∀ y ∈ n.Y, ∃ e, e < n.E ∧ (n.orig e).tail = y ∧ (n.orig e).head = n.t

/-- The graph `g` holds a matching of the network `n`, whatever the prices
are: `mx` and `my` give the reversed edge at each matched node, `ux` and `uy`
list the X-nodes that still have their edge from `s` and the Y-nodes that
still have their edge to `t`, and the first cell of the out-list of a matched
Y-node is that of its matching edge. -/
structure TInv (n : Net) (g : Digraph) (st : Nat → EState)
    (mx my : Nat → Option Nat) (ux uy : List Nat) (L : Ptr → List Ptr) (mode : Mode) : Prop where
  mem : MInv n g st L
  xy : ∀ e, e < n.E → (n.orig e).tail ∈ n.X → st e ≠ EState.gone
  sx : ∀ e, e < n.E → (n.orig e).tail = n.s →
    (st e = EState.F0 ∧ (n.orig e).head ∈ ux) ∨ (st e = EState.gone ∧ (n.orig e).head ∉ ux)
  yt : ∀ e, e < n.E → (n.orig e).head = n.t →
    (st e = EState.F0 ∧ (n.orig e).tail ∈ uy) ∨ (st e = EState.gone ∧ (n.orig e).tail ∉ uy)
  ux_sub : ∀ x ∈ ux, x ∈ n.X
  uy_sub : ∀ y ∈ uy, y ∈ n.Y
  ux_nodup : ux.Nodup
  uy_nodup : uy.Nodup
  my_some : ∀ y e, my y = some e →
    e < n.E ∧ (n.orig e).tail ∈ n.X ∧ (n.orig e).head = y ∧ (st e).back = true
  mx_some : ∀ x e, mx x = some e →
    e < n.E ∧ (n.orig e).tail = x ∧ x ∈ n.X ∧ (st e).back = true ∧ mode ≠ Mode.pendX x e
  back_my : ∀ e, e < n.E → (n.orig e).tail ∈ n.X → (st e).back = true →
    my (n.orig e).head = some e
  back_mx : ∀ e, e < n.E → (n.orig e).tail ∈ n.X → (st e).back = true →
    mx (n.orig e).tail = some e ∨ mode = Mode.pendX (n.orig e).tail e
  ux_mx : ∀ x ∈ n.X, (mx x = none ↔ x ∈ ux)
  uy_my : ∀ y ∈ n.Y, (my y = none ↔ (y ∈ uy ∨ mode = Mode.freeY y))
  front : ∀ y e, my y = some e → ∃ rest, L (Ptr.first y) = Ptr.cell (2 * e + 1) :: rest
  free : ∀ y, mode = Mode.freeY y → y ∈ n.Y ∧ y ∉ uy
  pend : ∀ x e, mode = Mode.pendX x e →
    e < n.E ∧ (n.orig e).tail = x ∧ x ∈ n.X ∧ (st e).back = true ∧ mx x ≠ some e

end Hungarian

namespace Hungarian

/-- What the `prev` members hold after `dijkstra_spath` on a graph with the
edge states `stD`, whatever the costs are: a `prev` edge enters its node, has
not been removed, and its tail comes earlier in the order `rank`. -/
def PrevPart (n : Net) (stD : Nat → EState) (pv : Nat → Option Nat) (rank : Nat → Nat) : Prop :=
  ∀ v, v < n.N → ∀ e, pv v = some e → e < n.E ∧
    ((stD e).cur (n.orig e)).head = v ∧
    rank ((stD e).cur (n.orig e)).tail < rank v ∧ stD e ≠ EState.gone

/-- The backward walk of `augment_spath` from the node `v`, with `pv` the
`prev` member of each node and `tl` the tail of each edge when the walk
starts: `path` lists the edges met whose tail is not `s`, in the order of the
walk, and the last argument is the edge at which the walk stops, the first
whose tail is `s`. -/
inductive PrevWalk (pv : Nat → Option Nat) (tl : Nat → Nat) (s : Nat) :
    Nat → List Nat → Nat → Prop
  | last {v e : Nat} : pv v = some e → tl e = s → PrevWalk pv tl s v [] e
  | step {v e el : Nat} {path : List Nat} : pv v = some e → tl e ≠ s →
      PrevWalk pv tl s (tl e) path el → PrevWalk pv tl s v (e :: path) el

/-- The quantity that the first loop of `augment_spath` minimises, for the
edge `e` of the in-list of `t`: `n->sp.dist + n->sp.price` of its tail. -/
def Digraph.pickKey (g : Digraph) (e : Nat) : Int :=
  wrap ((g.node (g.edge e).tail).sp.dist + (g.node (g.edge e).tail).sp.price)

end Hungarian

namespace Hungarian

/-- Whether the cell `hkey` of an edge created as `o` sits in one of the two
sublists of the node `x`. -/
def EState.atH (o : Edge) (x : Nat) : EState → Bool
  | EState.F0 => o.head == x
  | EState.B1 => o.head == x
  | EState.F2 => o.tail == x
  | EState.B3 => o.head == x
  | EState.gone => false

end Hungarian

/-! ## Theorems -/

namespace Hungarian

variable {T : Type}

theorem Chain.congr {m m' : Ptr → ll T} {hd : Option Ptr} :
    ∀ {cs : List Ptr} {pv : Ptr}, Chain m hd pv cs →
      (m' pv).next = (m pv).next → (∀ c ∈ cs, m' c = m c) → Chain m' hd pv cs
  | [], pv, h, hn, _ => by
    simp only [Chain] at h ⊢
    rw [hn]; exact h
  | c :: cs, pv, h, hn, hc => by
    simp only [Chain] at h ⊢
    have e := hc c (List.mem_cons_self _ _)
    refine ⟨by rw [hn]; exact h.1, by rw [e]; exact h.2.1, by rw [e]; exact h.2.2.1, ?_⟩
    exact Chain.congr h.2.2.2 (by rw [e]) (fun d hd => hc d (List.mem_cons_of_mem _ hd))

theorem ll.insert_apply {m : Ptr → ll T} {p n : Ptr} (hnp : n ≠ p)
    (hx : (m p).next ≠ some n) (hy : (m p).next ≠ some p) (q : Ptr) :
    ll.insert m p n q =
      if q = n then ⟨(m n).val, (m p).head, (m p).next, some p⟩
      else if q = p then { m p with next := some n }
      else if (m p).next = some q then { m q with prev := some n }
      else m q := by
  have hpn : p ≠ n := hnp.symm
  cases hnx : (m p).next with
  | none =>
    by_cases hqn : q = n
    · subst hqn
      simp [ll.insert, Function.update_apply, hnp, hpn, hnx]
    · by_cases hqp : q = p
      · subst hqp
        simp [ll.insert, Function.update_apply, hnp, hpn, hnx]
      · simp [ll.insert, Function.update_apply, hnp, hpn, hnx, hqn, hqp]
  | some c =>
    have hcn : c ≠ n := fun e => hx (by rw [hnx, e])
    have hcp : c ≠ p := fun e => hy (by rw [hnx, e])
    by_cases hqn : q = n
    · subst hqn
      simp [ll.insert, Function.update_apply, hnp, hpn, hnx, hcn, hcp, Ne.symm hcn]
    · by_cases hqp : q = p
      · subst hqp
        simp [ll.insert, Function.update_apply, hnp, hpn, hnx, hcn, hcp, Ne.symm hcp]
      · by_cases hqc : q = c
        · subst hqc
          simp [ll.insert, Function.update_apply, hnp, hpn, hnx, hcn, hcp]
        · have hcq : c ≠ q := Ne.symm hqc
          simp [ll.insert, Function.update_apply, hnp, hpn, hnx, hcn, hcp, hqn, hqp, hqc, hcq]

theorem ll.detach_eq {m : Ptr → ll T} {c pv : Ptr} (hpv : (m c).prev = some pv)
    (hx : (m c).next ≠ some pv) :
    ll.detach m c = some (fun q =>
      if (m c).next = some q then { m q with prev := some pv }
      else if q = pv then { m pv with next := (m c).next }
      else m q) := by
  have h1 : (Function.update m pv { m pv with next := (m c).next } c).next = (m c).next := by
    by_cases h : c = pv
    · subst h; simp
    · simp [Function.update_noteq h]
  have h2 : (Function.update m pv { m pv with next := (m c).next } c).prev = some pv := by
    by_cases h : c = pv
    · subst h; simp [hpv]
    · simp [Function.update_noteq h, hpv]
  unfold ll.detach
  rw [hpv]
  simp only [h1, h2]
  cases hnx : (m c).next with
  | none =>
    simp only [Option.some.injEq]
    funext q
    by_cases hq : q = pv
    · subst hq; simp
    · simp [Function.update_noteq hq, hq]
  | some nx =>
    have hnp : nx ≠ pv := fun e => hx (by rw [hnx, e])
    simp only [Option.some.injEq]
    funext q
    by_cases hq : q = nx
    · subst hq; simp [Function.update_noteq hnp]
    · have hq' : nx ≠ q := Ne.symm hq
      by_cases hq2 : q = pv
      · subst hq2; simp [Function.update_noteq hq, hq']
      · simp [Function.update_noteq hq, Function.update_noteq hq2, hq', hq2]

theorem Chain.next_ne {m : Ptr → ll T} {hd : Option Ptr} {pv q : Ptr} {cs : List Ptr}
    (h : Chain m hd pv cs) (hq : q ∉ cs) : (m pv).next ≠ some q := by
  cases cs with
  | nil => simp only [Chain] at h; rw [h]; simp
  | cons c cs =>
    simp only [Chain] at h
    rw [h.1]
    intro e
    exact hq (by simp at e; simp [e])

theorem Chain.head_of_mem {m : Ptr → ll T} {hd : Option Ptr} {c : Ptr} :
    ∀ {cs : List Ptr} {pv : Ptr}, Chain m hd pv cs → c ∈ cs → (m c).head = hd
  | [], _, _, hc => by simp at hc
  | d :: ds, _, h, hc => by
    simp only [Chain] at h
    rcases List.mem_cons.mp hc with e | e
    · rw [e]; exact h.2.2.1
    · exact Chain.head_of_mem h.2.2.2 e

/-- Effect of `ll::insert` on the list behind `p`. -/
theorem ll.insert_chain {m : Ptr → ll T} {hd : Option Ptr} {p n : Ptr} {cs : List Ptr}
    (hc : Chain m hd p cs) (hh : (m p).head = hd) (hnp : n ≠ p) (hn : n ∉ cs) (hp : p ∉ cs)
    (hnd : cs.Nodup) :
    Chain (ll.insert m p n) hd p (n :: cs) := by
  have hx := hc.next_ne hn
  have hy := hc.next_ne hp
  have hpn : p ≠ n := hnp.symm
  simp only [Chain]
  refine ⟨?_, ?_, ?_, ?_⟩
  · rw [ll.insert_apply hnp hx hy]; simp [hpn]
  · rw [ll.insert_apply hnp hx hy]; simp
  · rw [ll.insert_apply hnp hx hy]; simp [hh]
  · cases cs with
    | nil =>
      simp only [Chain] at hc ⊢
      rw [ll.insert_apply hnp hx hy]; simp [hc]
    | cons c cs =>
      simp only [Chain] at hc ⊢
      obtain ⟨h1, h2, h3, h4⟩ := hc
      have hcn : c ≠ n := fun e => hn (e ▸ List.mem_cons_self _ _)
      have hcp : c ≠ p := fun e => hp (e ▸ List.mem_cons_self _ _)
      have hcc : c ∉ cs := (List.nodup_cons.mp hnd).1
      refine ⟨?_, ?_, ?_, ?_⟩
      · rw [ll.insert_apply hnp hx hy]; simp [h1]
      · rw [ll.insert_apply hnp hx hy]; simp [hcn, hcp, h1]
      · rw [ll.insert_apply hnp hx hy]; simp [hcn, hcp, h1, h3]
      · apply Chain.congr h4
        · rw [ll.insert_apply hnp hx hy]; simp [hcn, hcp, h1]
        · intro d hd'
          have hdn : d ≠ n := fun e => hn (e ▸ List.mem_cons_of_mem _ hd')
          have hdp : d ≠ p := fun e => hp (e ▸ List.mem_cons_of_mem _ hd')
          have hdc : c ≠ d := fun e => hcc (e ▸ hd')
          rw [ll.insert_apply hnp hx hy]; simp [hdn, hdp, h1, hdc]

/-- What `ll::insert` leaves unchanged. -/
theorem ll.insert_frame {m : Ptr → ll T} {hd : Option Ptr} {p n : Ptr} {cs : List Ptr}
    (hc : Chain m hd p cs) (hnp : n ≠ p) (hn : n ∉ cs) (hp : p ∉ cs) :
    (∀ q, q ≠ n → q ≠ p → q ∉ cs → ll.insert m p n q = m q) ∧
    (∀ q, (ll.insert m p n q).val = (m q).val) ∧
    (∀ q, q ≠ n → (ll.insert m p n q).head = (m q).head) ∧
    (∀ q, q ≠ n → q ≠ p → (ll.insert m p n q).next = (m q).next) := by
  have hx := hc.next_ne hn
  have hy := hc.next_ne hp
  refine ⟨?_, ?_, ?_, ?_⟩
  · intro q h1 h2 h3
    rw [ll.insert_apply hnp hx hy]
    simp [h1, h2, hc.next_ne h3]
  · intro q
    rw [ll.insert_apply hnp hx hy]
    by_cases a : q = n
    · subst a; simp
    · by_cases b : q = p
      · subst b; simp [a]
      · by_cases c : (m p).next = some q <;> simp [a, b, c]
  · intro q a
    rw [ll.insert_apply hnp hx hy]
    by_cases b : q = p
    · subst b; simp [a]
    · by_cases c : (m p).next = some q <;> simp [a, b, c]
  · intro q a b
    rw [ll.insert_apply hnp hx hy]
    by_cases c : (m p).next = some q <;> simp [a, b, c]

/-- Effect of `ll::detach` of a cell `c` of the list behind `pv`. -/
theorem Chain.detach {m : Ptr → ll T} {hd : Option Ptr} {c : Ptr} :
    ∀ (cs : List Ptr) (pv : Ptr), Chain m hd pv cs → (pv :: cs).Nodup → c ∈ cs →
      ∃ m', ll.detach m c = some m' ∧ Chain m' hd pv (cs.erase c) ∧
        (∀ q, q ≠ pv → q ∉ cs → m' q = m q) ∧
        (∀ q, (m' q).val = (m q).val ∧ (m' q).head = (m q).head) ∧
        (m' pv).prev = (m pv).prev
  | [], _, _, _, hc => by simp at hc
  | d :: ds, pv, h, hnd, hc => by
    simp only [Chain] at h
    obtain ⟨h1, h2, h3, h4⟩ := h
    have hpv_d : pv ≠ d := fun e => (List.nodup_cons.mp hnd).1 (e ▸ List.mem_cons_self _ _)
    have hpv_ds : pv ∉ ds := fun e => (List.nodup_cons.mp hnd).1 (List.mem_cons_of_mem _ e)
    have hnd' : (d :: ds).Nodup := (List.nodup_cons.mp hnd).2
    have hd_ds : d ∉ ds := (List.nodup_cons.mp hnd').1
    by_cases hcd : c = d
    · subst hcd
      have hx : (m c).next ≠ some pv := h4.next_ne hpv_ds
      refine ⟨_, ll.detach_eq h2 hx, ?_, ?_, ?_, ?_⟩
      · rw [List.erase_cons_head]
        cases ds with
        | nil =>
          simp only [Chain] at h4 ⊢
          simp [h4]
        | cons e es =>
          simp only [Chain] at h4 ⊢
          obtain ⟨g1, g2, g3, g4⟩ := h4
          have hpe : pv ≠ e := fun e' => hpv_ds (e' ▸ List.mem_cons_self _ _)
          have hee : e ∉ es := (List.nodup_cons.mp (List.nodup_cons.mp hnd').2).1
          refine ⟨by simp [g1, hpe, Ne.symm hpe], by simp [g1], by simp [g1, g3], ?_⟩
          apply Chain.congr g4
          · simp [g1]
          · intro x hx'
            have hxe : e ≠ x := fun e' => hee (e' ▸ hx')
            have hxp : x ≠ pv := fun e' => hpv_ds (e' ▸ List.mem_cons_of_mem _ hx')
            simp [g1, hxe, hxp]
      · intro q hq1 hq2
        have : (m c).next ≠ some q := h4.next_ne (fun e => hq2 (List.mem_cons_of_mem _ e))
        simp [this, hq1]
      · intro q
        constructor <;> (split_ifs with a b <;> first | rfl | (rw [b]))
      · simp [hx]
    · have hc' : c ∈ ds := by
        rcases List.mem_cons.mp hc with e | e
        · exact absurd e hcd
        · exact e
      obtain ⟨m', e1, e2, e3, e4, e5⟩ := Chain.detach ds d h4 hnd' hc'
      refine ⟨m', e1, ?_, ?_, e4, ?_⟩
      · rw [List.erase_cons_tail (by simpa using Ne.symm hcd)]
        simp only [Chain]
        refine ⟨?_, ?_, ?_, e2⟩
        · rw [e3 pv hpv_d hpv_ds]; exact h1
        · rw [e5]; exact h2
        · rw [(e4 d).2]; exact h3
      · intro q hq1 hq2
        exact e3 q (fun e => hq2 (e ▸ List.mem_cons_self _ _))
          (fun e => hq2 (List.mem_cons_of_mem _ e))
      · rw [e3 pv hpv_d hpv_ds]

/-- Iterating from `begin` visits exactly the linked cells. -/
theorem Chain.walk {m : Ptr → ll T} {hd : Option Ptr} :
    ∀ (cs : List Ptr) (pv : Ptr) (fuel : Nat), Chain m hd pv cs → cs.length < fuel →
      indexedList.walk m fuel (m pv).next = cs
  | [], pv, fuel, h, hf => by
    simp only [Chain] at h
    cases fuel with
    | zero => simp at hf
    | succ k => rw [h]; rfl
  | c :: cs, pv, fuel, h, hf => by
    simp only [Chain] at h
    cases fuel with
    | zero => simp at hf
    | succ k =>
      rw [h.1]
      simp only [indexedList.walk]
      rw [Chain.walk cs c k h.2.2.2 (by simpa using hf)]

theorem Ptr.IsSent.ne_cell {C : Nat → Prop} {p : Ptr} (h : p.IsSent C) (i : Nat) :
    p ≠ Ptr.cell i := by
  intro e; subst e; exact h

theorem Ptr.isSent_sent {C : Nat → Prop} {l : Nat} (h : C l) (b : Bool) :
    (Ptr.sent l b).IsSent C := by
  cases b <;> exact h

namespace Store.WF

variable {s : Store T} {C : Nat → Prop} {L : Ptr → List Ptr}

theorem sent_of_mem (h : s.WF C L) {p c : Ptr} (hc : c ∈ L p) : p.IsSent C := by
  by_contra hn
  rw [h.empty p hn] at hc
  simp at hc

theorem sent_not_mem (h : s.WF C L) {p q : Ptr} (hp : p.IsSent C) : p ∉ L q := by
  intro hc
  obtain ⟨i, e, _⟩ := h.bound q p hc
  exact hp.ne_cell i e

theorem mem_head (h : s.WF C L) {p c : Ptr} (hc : c ∈ L p) : (s.mem c).head = some p :=
  (h.chain p (h.sent_of_mem hc)).head_of_mem hc

/-- A list object is constructed. -/
theorem wf_new [Inhabited T] (h : s.WF C L) {l : Nat} (hl : ¬ C l) :
    (indexedList.new s l).WF (fun k => C k ∨ k = l) L := by
  have key : ∀ q, q ≠ Ptr.first l → q ≠ Ptr.second l → (indexedList.new s l).mem q = s.mem q := by
    intro q h1 h2
    simp [indexedList.new, Function.update_noteq h1, Function.update_noteq h2]
  have hcell : ∀ p c, c ∈ L p → (indexedList.new s l).mem c = s.mem c := by
    intro p c hc
    obtain ⟨i, e, _⟩ := h.bound p c hc
    subst e
    exact key _ (by simp) (by simp)
  have hold : ∀ p, p.IsSent C → p ≠ Ptr.first l ∧ p ≠ Ptr.second l := by
    intro p hp
    constructor <;> (intro e; subst e; exact hl hp)
  constructor
  · intro p hp
    by_cases hC : p.IsSent C
    · rw [key p (hold p hC).1 (hold p hC).2]; exact h.head p hC
    · cases p with
      | first k =>
        have : k = l := by rcases hp with a | a; exact absurd a hC; exact a
        subst this; simp [indexedList.new]
      | second k =>
        have : k = l := by rcases hp with a | a; exact absurd a hC; exact a
        subst this; simp [indexedList.new]
      | cell i => exact absurd hp (by simp [Ptr.IsSent])
  · intro p hp
    by_cases hC : p.IsSent C
    · exact (h.chain p hC).congr (by rw [key p (hold p hC).1 (hold p hC).2])
        (fun c hc => hcell p c hc)
    · rw [h.empty p hC]
      simp only [Chain]
      cases p with
      | first k =>
        have : k = l := by rcases hp with a | a; exact absurd a hC; exact a
        subst this; simp [indexedList.new]
      | second k =>
        have : k = l := by rcases hp with a | a; exact absurd a hC; exact a
        subst this; simp [indexedList.new]
      | cell i => exact absurd hp (by simp [Ptr.IsSent])
  · intro p hp
    apply h.empty
    intro hC
    apply hp
    cases p with
    | first k => exact Or.inl hC
    | second k => exact Or.inl hC
    | cell i => exact hC
  · exact h.bound
  · exact h.nodup
  · exact h.disj

/-- The cell number `ncells` is overwritten and counted as allocated. -/
theorem wf_alloc (h : s.WF C L) (x : ll T) :
    (⟨Function.update s.mem (Ptr.cell s.ncells) x, s.ncells + 1⟩ : Store T).WF C L := by
  have hne : ∀ p c, c ∈ L p → c ≠ Ptr.cell s.ncells := by
    intro p c hc e
    obtain ⟨i, e', hi⟩ := h.bound p c hc
    rw [e] at e'
    simp at e'
    omega
  constructor
  · intro p hp
    simp only [Function.update_noteq (hp.ne_cell _)]
    exact h.head p hp
  · intro p hp
    exact (h.chain p hp).congr (by simp only [Function.update_noteq (hp.ne_cell _)])
      (fun c hc => by simp only [Function.update_noteq (hne p c hc)])
  · exact h.empty
  · intro p c hc
    obtain ⟨i, e, hi⟩ := h.bound p c hc
    exact ⟨i, e, by simp only; omega⟩
  · exact h.nodup
  · exact h.disj

/-- An allocated cell that is in no sublist is linked in behind `p`. -/
theorem wf_link (h : s.WF C L) {p c : Ptr} (hp : p.IsSent C) (hc : ∀ q, c ∉ L q)
    {i : Nat} (hi : c = Ptr.cell i) (hlt : i < s.ncells) :
    (⟨ll.insert s.mem p c, s.ncells⟩ : Store T).WF C (Function.update L p (c :: L p)) ∧
    (∀ q, (ll.insert s.mem p c q).val = (s.mem q).val) := by
  have hcp : c ≠ p := by rw [hi]; exact (hp.ne_cell i).symm
  have hpL : p ∉ L p := h.sent_not_mem hp
  have hfr := ll.insert_frame (h.chain p hp) hcp (hc p) hpL
  refine ⟨?_, hfr.2.1⟩
  constructor
  · intro q hq
    have : q ≠ c := by rw [hi]; exact hq.ne_cell i
    simp only
    rw [hfr.2.2.1 q this]
    exact h.head q hq
  · intro q hq
    by_cases e : q = p
    · subst e
      simp only [Function.update_same]
      exact ll.insert_chain (h.chain q hq) (h.head q hq) hcp (hc q) hpL (h.nodup q)
    · simp only [Function.update_noteq e]
      have hqc : q ≠ c := by rw [hi]; exact hq.ne_cell i
      apply (h.chain q hq).congr
      · exact hfr.2.2.2 q hqc e
      · intro d hd
        apply hfr.1 d
        · intro e'; exact hc q (e' ▸ hd)
        · intro e'; exact h.sent_not_mem hp (e' ▸ hd)
        · intro hd'; exact e (h.disj q p d hd hd')
  · intro q hq
    have : q ≠ p := fun e => hq (e ▸ hp)
    simp only [Function.update_noteq this]
    exact h.empty q hq
  · intro q d hd
    by_cases e : q = p
    · subst e
      simp only [Function.update_same] at hd
      rcases List.mem_cons.mp hd with e' | e'
      · exact ⟨i, by rw [e', hi], hlt⟩
      · exact h.bound q d e'
    · simp only [Function.update_noteq e] at hd
      exact h.bound q d hd
  · intro q
    by_cases e : q = p
    · subst e
      simp only [Function.update_same]
      exact List.nodup_cons.mpr ⟨hc q, h.nodup q⟩
    · simp only [Function.update_noteq e]
      exact h.nodup q
  · intro q1 q2 d h1 h2
    by_cases e1 : q1 = p <;> by_cases e2 : q2 = p
    · rw [e1, e2]
    · subst e1
      simp only [Function.update_same, Function.update_noteq e2] at h1 h2
      rcases List.mem_cons.mp h1 with e' | e'
      · exact absurd (e' ▸ h2) (hc q2)
      · exact h.disj _ _ d e' h2
    · subst e2
      simp only [Function.update_same, Function.update_noteq e1] at h1 h2
      rcases List.mem_cons.mp h2 with e' | e'
      · exact absurd (e' ▸ h1) (hc q1)
      · exact h.disj _ _ d h1 e'
    · simp only [Function.update_noteq e1, Function.update_noteq e2] at h1 h2
      exact h.disj _ _ d h1 h2

/-- A linked cell is unlinked by `ll::detach`. -/
theorem wf_unlink (h : s.WF C L) {p c : Ptr} (hc : c ∈ L p) :
    ∃ m', ll.detach s.mem c = some m' ∧
      (⟨m', s.ncells⟩ : Store T).WF C (Function.update L p ((L p).erase c)) ∧
      (∀ q, (m' q).val = (s.mem q).val ∧ (m' q).head = (s.mem q).head) := by
  have hp := h.sent_of_mem hc
  have hpL : p ∉ L p := h.sent_not_mem hp
  obtain ⟨m', e1, e2, e3, e4, _⟩ :=
    Chain.detach (L p) p (h.chain p hp) (List.nodup_cons.mpr ⟨hpL, h.nodup p⟩) hc
  refine ⟨m', e1, ?_, e4⟩
  constructor
  · intro q hq
    simp only
    rw [(e4 q).2]
    exact h.head q hq
  · intro q hq
    by_cases e : q = p
    · subst e
      simp only [Function.update_same]
      exact e2
    · simp only [Function.update_noteq e]
      apply (h.chain q hq).congr
      · rw [e3 q e (h.sent_not_mem hq)]
      · intro d hd
        apply e3 d
        · intro e'; exact h.sent_not_mem hp (e' ▸ hd)
        · intro hd'; exact e (h.disj q p d hd hd')
  · intro q hq
    have : q ≠ p := fun e => hq (e ▸ hp)
    simp only [Function.update_noteq this]
    exact h.empty q hq
  · intro q d hd
    by_cases e : q = p
    · subst e
      simp only [Function.update_same] at hd
      exact h.bound q d (List.mem_of_mem_erase hd)
    · simp only [Function.update_noteq e] at hd
      exact h.bound q d hd
  · intro q
    by_cases e : q = p
    · subst e
      simp only [Function.update_same]
      exact (h.nodup q).erase c
    · simp only [Function.update_noteq e]
      exact h.nodup q
  · intro q1 q2 d h1 h2
    have g1 : d ∈ L q1 := by
      by_cases e : q1 = p
      · subst e
        simp only [Function.update_same] at h1
        exact List.mem_of_mem_erase h1
      · simpa only [Function.update_noteq e] using h1
    have g2 : d ∈ L q2 := by
      by_cases e : q2 = p
      · subst e
        simp only [Function.update_same] at h2
        exact List.mem_of_mem_erase h2
      · simpa only [Function.update_noteq e] using h2
    exact h.disj _ _ d g1 g2

/-- After unlinking, the cell is in no sublist. -/
theorem not_mem_erase (h : s.WF C L) {p c : Ptr} (hc : c ∈ L p) (q : Ptr) :
    c ∉ Function.update L p ((L p).erase c) q := by
  by_cases e : q = p
  · subst e
    simp only [Function.update_same]
    exact fun hm => (List.Nodup.mem_erase_iff (h.nodup q)).mp hm |>.1 rfl
  · simp only [Function.update_noteq e]
    intro hm
    exact e (h.disj q p c hm hc)

/-- Effect of `indexedList::insert`. -/
theorem wf_insert (h : s.WF C L) {l : Nat} (hl : C l) (v : T) (b : Bool) :
    (indexedList.insert s l v b).1.WF C
      (Function.update L (Ptr.sent l b) (Ptr.cell s.ncells :: L (Ptr.sent l b))) ∧
    (indexedList.insert s l v b).2 = Ptr.cell s.ncells ∧
    ((indexedList.insert s l v b).1.mem (Ptr.cell s.ncells)).val = v ∧
    (∀ q, q ≠ Ptr.cell s.ncells →
      ((indexedList.insert s l v b).1.mem q).val = (s.mem q).val) ∧
    (indexedList.insert s l v b).1.ncells = s.ncells + 1 := by
  have h1 := h.wf_alloc ⟨v, none, none, none⟩
  have hfresh : ∀ q, Ptr.cell s.ncells ∉ L q := by
    intro q hq
    obtain ⟨i, e, hi⟩ := h.bound q _ hq
    simp at e
    omega
  have h2 := h1.wf_link (Ptr.isSent_sent hl b) hfresh rfl (Nat.lt_succ_self _)
  have e : (indexedList.insert s l v b).1 =
      ⟨ll.insert (Function.update s.mem (Ptr.cell s.ncells) ⟨v, none, none, none⟩)
        (Ptr.sent l b) (Ptr.cell s.ncells), s.ncells + 1⟩ := by
    cases b <;> simp [indexedList.insert, Ptr.sent]
  rw [e]
  refine ⟨h2.1, rfl, ?_, ?_, rfl⟩
  · simp only
    rw [h2.2]
    simp
  · intro q hq
    simp only
    rw [h2.2]
    simp [Function.update_noteq hq]

/-- Effect of `indexedList::remove` on a linked cell. -/
theorem wf_remove (h : s.WF C L) {p c : Ptr} (hc : c ∈ L p) :
    ∃ s', indexedList.remove s c = some s' ∧
      s'.WF C (Function.update L p ((L p).erase c)) ∧
      (∀ q, (s'.mem q).val = (s.mem q).val) ∧ s'.ncells = s.ncells := by
  obtain ⟨m', e1, e2, e3⟩ := h.wf_unlink hc
  refine ⟨⟨m', s.ncells⟩, ?_, e2, fun q => (e3 q).1, rfl⟩
  simp [indexedList.remove, e1]

/-- Effect of `indexedList::change_list`, called on the constructed list
object `k`, on a cell linked behind `p`: the cell goes to the front of the
second sublist of `k` when `p` is the first sublist of `k`, and to the
front of the first sublist of `k` in every other case. -/
theorem wf_change_list (h : s.WF C L) {p c : Ptr} (hc : c ∈ L p) {k : Nat} (hl : C k) :
    ∃ s' tgt, (tgt = if p = Ptr.first k then Ptr.second k else Ptr.first k) ∧
      indexedList.change_list s k c = some s' ∧
      s'.WF C
        (Function.update (Function.update L p ((L p).erase c)) tgt
          (c :: Function.update L p ((L p).erase c) tgt)) ∧
      (∀ q, (s'.mem q).val = (s.mem q).val) ∧ s'.ncells = s.ncells := by
  obtain ⟨m', e1, e2, e3⟩ := h.wf_unlink hc
  obtain ⟨i, hi, hlt⟩ := h.bound p c hc
  have hhead : (m' c).head = some p := by rw [(e3 c).2]; exact h.mem_head hc
  have hno := h.not_mem_erase hc
  by_cases hpf : p = Ptr.first k
  · have h4 := e2.wf_link (p := Ptr.second k) hl hno hi hlt
    refine ⟨⟨ll.insert m' (Ptr.second k) c, s.ncells⟩, Ptr.second k, by rw [if_pos hpf],
      ?_, h4.1, ?_, rfl⟩
    · simp [indexedList.change_list, e1, hhead, hpf]
    · intro q
      simp only
      rw [h4.2 q, (e3 q).1]
  · have h4 := e2.wf_link (p := Ptr.first k) hl hno hi hlt
    refine ⟨⟨ll.insert m' (Ptr.first k) c, s.ncells⟩, Ptr.first k, by rw [if_neg hpf],
      ?_, h4.1, ?_, rfl⟩
    · simp [indexedList.change_list, e1, hhead, hpf]
    · intro q
      simp only
      rw [h4.2 q, (e3 q).1]

/-- A sublist has at most `ncells` cells. -/
theorem length_le (h : s.WF C L) (p : Ptr) : (L p).length ≤ s.ncells := by
  have hsub : L p ⊆ (List.range s.ncells).map Ptr.cell := by
    intro c hc
    obtain ⟨i, e, hi⟩ := h.bound p c hc
    exact List.mem_map.mpr ⟨i, List.mem_range.mpr hi, e.symm⟩
  have := (List.subperm_of_subset (h.nodup p) hsub).length_le
  simpa using this

/-- Iterating the first sublist visits `L (first l)`. -/
theorem handles_first (h : s.WF C L) {l : Nat} (hl : C l) :
    indexedList.handles_first s l = L (Ptr.first l) := by
  unfold indexedList.handles_first indexedList.begin_first
  exact (h.chain (Ptr.first l) hl).walk _ _ _ (Nat.lt_succ_of_le (h.length_le _))

/-- Iterating the second sublist visits `L (second l)`. -/
theorem handles_second (h : s.WF C L) {l : Nat} (hl : C l) :
    indexedList.handles_second s l = L (Ptr.second l) := by
  unfold indexedList.handles_second indexedList.begin_second
  exact (h.chain (Ptr.second l) hl).walk _ _ _ (Nat.lt_succ_of_le (h.length_le _))

end Store.WF

end Hungarian

namespace Hungarian

variable {T : Type}

theorem indexedList.fresh_wf [Inhabited T] :
    (indexedList.fresh : Store T).WF (fun k => k = 0) (fun _ => []) := by
  have h0 : (⟨fun _ => ⟨default, none, none, none⟩, 0⟩ : Store T).WF (fun _ => False)
      (fun _ => []) := by
    constructor
    · intro p hp; cases p <;> exact absurd hp (by simp [Ptr.IsSent])
    · intro p hp; cases p <;> exact absurd hp (by simp [Ptr.IsSent])
    · intro p _; rfl
    · intro p c hc; simp at hc
    · intro p; exact List.nodup_nil
    · intro p q c hc; simp at hc
  have := h0.wf_new (l := 0) (by simp)
  simpa using this

theorem ListInv.fresh [Inhabited T] : ListInv 0 (indexedList.fresh : Store T) [] := by
  refine ⟨fun _ => [], indexedList.fresh_wf, by simp, by simp, by simp⟩

theorem ListInv.mem_cases {l : Nat} {s : Store T} {L : Ptr → List Ptr}
    (h : s.WF (fun k => k = l) L) {p c : Ptr} (hc : c ∈ L p) :
    p = Ptr.first l ∨ p = Ptr.second l := by
  have := h.sent_of_mem hc
  cases p with
  | first k => left; rw [show k = l from this]
  | second k => right; rw [show k = l from this]
  | cell i => exact absurd this (by simp [Ptr.IsSent])

theorem ListInv.inv_insert {l : Nat} {s : Store T} {log : List (Entry T)} (h : ListInv l s log)
    (v : T) (b : Bool) :
    ListInv l (indexedList.insert s l v b).1
      (log ++ [⟨(indexedList.insert s l v b).2, v, b, 0⟩]) := by
  obtain ⟨L, hwf, hnd, hmem, hent⟩ := h
  obtain ⟨h1, h2, h3, h4, _⟩ := hwf.wf_insert (l := l) rfl v b
  have hfresh : ∀ q, Ptr.cell s.ncells ∉ L q := by
    intro q hq
    obtain ⟨i, e, hi⟩ := hwf.bound q _ hq
    simp at e
    omega
  have hnew : Ptr.cell s.ncells ∉ log.map Entry.handle := by
    intro hc
    rcases (hmem _).mp hc with a | a
    · exact hfresh _ a
    · exact hfresh _ a
  have e12 : Ptr.first l ≠ Ptr.second l := by simp
  refine ⟨_, h1, ?_, ?_, ?_⟩
  · rw [h2, List.map_append, List.nodup_append]
    refine ⟨hnd, by simp, ?_⟩
    intro a ha hb
    simp at hb
    exact hnew (hb ▸ ha)
  · intro c
    rw [h2, List.map_append, List.mem_append, hmem c]
    cases b
    · simp [Ptr.sent, Function.update_noteq e12]
      tauto
    · simp [Ptr.sent, Function.update_noteq e12.symm]
      tauto
  · intro e he
    rcases List.mem_append.mp he with he | he
    · have hne : e.handle ≠ Ptr.cell s.ncells := by
        intro e'
        exact hnew (e' ▸ List.mem_map_of_mem _ he)
      obtain ⟨g1, g2⟩ := hent e he
      refine ⟨by rw [h4 _ hne]; exact g1, ?_⟩
      rw [← g2]
      cases b
      · simp [Ptr.sent, Function.update_noteq e12]
      · simp [Ptr.sent, hne]
    · simp at he
      subst he
      simp only [h2]
      refine ⟨h3, ?_⟩
      cases b
      · simp [Ptr.sent, Function.update_noteq e12, hfresh]
      · simp [Ptr.sent]

theorem ListInv.inv_remove {l : Nat} {s : Store T} {log : List (Entry T)} (h : ListInv l s log)
    {c : Ptr} (hc : c ∈ log.map Entry.handle) :
    ∃ s1, indexedList.remove s c = some s1 ∧
      ListInv l s1 (log.filter fun e => e.handle ≠ c) := by
  obtain ⟨L, hwf, hnd, hmem, hent⟩ := h
  have e12 : Ptr.first l ≠ Ptr.second l := by simp
  have hfilter : ∀ d, d ∈ (log.filter fun e => e.handle ≠ c).map Entry.handle ↔
      d ≠ c ∧ d ∈ log.map Entry.handle := by
    intro d
    simp only [List.mem_map, List.mem_filter, decide_eq_true_eq]
    constructor
    · rintro ⟨e, ⟨h1, h2⟩, rfl⟩; exact ⟨h2, e, h1, rfl⟩
    · rintro ⟨h1, e, h2, rfl⟩; exact ⟨e, ⟨h2, h1⟩, rfl⟩
  have hnd' : ((log.filter fun e => e.handle ≠ c).map Entry.handle).Nodup :=
    hnd.sublist (List.Sublist.map _ (List.filter_sublist _))
  have hp : ∃ p, c ∈ L p ∧ (p = Ptr.first l ∨ p = Ptr.second l) := by
    rcases (hmem c).mp hc with a | a
    · exact ⟨_, a, Or.inl rfl⟩
    · exact ⟨_, a, Or.inr rfl⟩
  obtain ⟨p, hcp, hpl⟩ := hp
  obtain ⟨s1, e1, e2, e3, _⟩ := hwf.wf_remove hcp
  refine ⟨s1, e1, _, e2, hnd', ?_, ?_⟩
  · intro d
    rw [hfilter d, hmem d]
    rcases hpl with rfl | rfl
    · simp only [Function.update_same, Function.update_noteq e12.symm,
        (hwf.nodup _).mem_erase_iff]
      constructor
      · rintro ⟨h1, h2 | h2⟩
        · exact Or.inl ⟨h1, h2⟩
        · exact Or.inr h2
      · rintro (⟨h1, h2⟩ | h2)
        · exact ⟨h1, Or.inl h2⟩
        · exact ⟨fun e => e12 (hwf.disj _ _ c hcp (e ▸ h2)), Or.inr h2⟩
    · simp only [Function.update_same, Function.update_noteq e12,
        (hwf.nodup _).mem_erase_iff]
      constructor
      · rintro ⟨h1, h2 | h2⟩
        · exact Or.inl h2
        · exact Or.inr ⟨h1, h2⟩
      · rintro (h2 | ⟨h1, h2⟩)
        · exact ⟨fun e => e12.symm (hwf.disj _ _ c hcp (e ▸ h2)), Or.inl h2⟩
        · exact ⟨h1, Or.inr h2⟩
  · intro e he
    have he' := (List.mem_filter.mp he)
    have hne : e.handle ≠ c := by simpa using he'.2
    obtain ⟨g1, g2⟩ := hent e he'.1
    refine ⟨by rw [e3]; exact g1, ?_⟩
    rw [← g2]
    rcases hpl with rfl | rfl
    · simp only [Function.update_same, (hwf.nodup _).mem_erase_iff]
      simp [hne]
    · simp only [Function.update_noteq e12]

theorem ListInv.inv_change_list {l : Nat} {s : Store T} {log : List (Entry T)}
    (h : ListInv l s log) {c : Ptr} (hc : c ∈ log.map Entry.handle) :
    ∃ s1, indexedList.change_list s l c = some s1 ∧
      ListInv l s1
        (log.map fun e => if e.handle = c then { e with moves := e.moves + 1 } else e) := by
  obtain ⟨L, hwf, hnd, hmem, hent⟩ := h
  have e12 : Ptr.first l ≠ Ptr.second l := by simp
  have hmap : (log.map fun e => if e.handle = c then { e with moves := e.moves + 1 } else e).map
      Entry.handle = log.map Entry.handle := by
    rw [List.map_map]
    apply List.map_congr_left
    intro e _
    simp only [Function.comp]
    split_ifs <;> rfl
  have hp : ∃ p, c ∈ L p ∧ (p = Ptr.first l ∨ p = Ptr.second l) := by
    rcases (hmem c).mp hc with a | a
    · exact ⟨_, a, Or.inl rfl⟩
    · exact ⟨_, a, Or.inr rfl⟩
  obtain ⟨p, hcp, hpl⟩ := hp
  obtain ⟨s1, tgt, ht, e1, e2, e3, _⟩ := hwf.wf_change_list hcp (k := l) rfl
  refine ⟨s1, e1, _, e2, by rw [hmap]; exact hnd, ?_, ?_⟩
  · intro d
    rw [hmap, hmem d]
    rcases hpl with rfl | rfl
    · rw [if_pos rfl] at ht
      subst ht
      simp only [Function.update_same, Function.update_noteq e12,
        Function.update_noteq e12.symm, (hwf.nodup _).mem_erase_iff, List.mem_cons]
      constructor
      · rintro (h2 | h2)
        · by_cases hdc : d = c
          · exact Or.inr (Or.inl hdc)
          · exact Or.inl ⟨hdc, h2⟩
        · exact Or.inr (Or.inr h2)
      · rintro (⟨_, h2⟩ | h2 | h2)
        · exact Or.inl h2
        · exact Or.inl (h2 ▸ hcp)
        · exact Or.inr h2
    · rw [if_neg e12.symm] at ht
      subst ht
      simp only [Function.update_same, Function.update_noteq e12,
        Function.update_noteq e12.symm, (hwf.nodup _).mem_erase_iff, List.mem_cons]
      constructor
      · rintro (h2 | h2)
        · exact Or.inl (Or.inr h2)
        · by_cases hdc : d = c
          · exact Or.inl (Or.inl hdc)
          · exact Or.inr ⟨hdc, h2⟩
      · rintro ((h2 | h2) | ⟨_, h2⟩)
        · exact Or.inr (h2 ▸ hcp)
        · exact Or.inl h2
        · exact Or.inr h2
  · intro e he
    obtain ⟨e0, he0, rfl⟩ := List.mem_map.mp he
    obtain ⟨g1, g2⟩ := hent e0 he0
    by_cases hh : e0.handle = c
    · simp only [hh, if_true]
      refine ⟨by rw [e3, ← hh]; exact g1, ?_⟩
      rw [hh] at g2
      rcases hpl with rfl | rfl
      · have : c ∈ L (Ptr.first l) := hcp
        rw [if_pos rfl] at ht
        subst ht
        simp only [Function.update_same, Function.update_noteq e12,
          Function.update_noteq e12.symm, (hwf.nodup _).mem_erase_iff]
        have g3 := g2.mp this
        simp only [ne_eq, not_true_eq_false, false_and, false_iff, not_or, not_and]
        rcases g3 with ⟨a, b⟩ | ⟨a, b⟩
        · exact ⟨fun _ => by simpa [Nat.even_add_one] using b,
            fun h => by rw [a] at h; exact absurd h (by simp)⟩
        · refine ⟨fun h => by rw [a] at h; exact absurd h (by simp), fun _ => ?_⟩
          rw [Nat.odd_add_one]
          simpa using b
      · have hn : c ∉ L (Ptr.first l) := fun h => e12 (hwf.disj _ _ c h hcp)
        rw [if_neg e12.symm] at ht
        subst ht
        simp only [Function.update_same, List.mem_cons, true_or, true_iff]
        have g3 : ¬ ((e0.side = true ∧ Even e0.moves) ∨ (e0.side = false ∧ Odd e0.moves)) :=
          fun h => hn (g2.mpr h)
        simp only [not_or, not_and] at g3
        cases hs : e0.side
        · right
          refine ⟨rfl, ?_⟩
          have := g3.2 hs
          rw [Nat.odd_add_one]
          exact this
        · left
          refine ⟨rfl, ?_⟩
          have := g3.1 hs
          rw [Nat.even_add_one]
          exact this
    · simp only [hh, if_false]
      refine ⟨by rw [e3]; exact g1, ?_⟩
      rw [← g2]
      rcases hpl with rfl | rfl
      · rw [if_pos rfl] at ht
        subst ht
        simp only [Function.update_same, Function.update_noteq e12,
          Function.update_noteq e12.symm, (hwf.nodup _).mem_erase_iff]
        simp [hh]
      · rw [if_neg e12.symm] at ht
        subst ht
        simp only [Function.update_same, List.mem_cons]
        simp [hh]

/-- Every run from a state with the invariant stops for a bad handle or ends
in a state with the invariant. -/
theorem ListOp.run_inv {l : Nat} :
    ∀ (ops : List (ListOp T)) (s : Store T) (log : List (Entry T)), ListInv l s log →
      ListOp.run l ops s log = .error .bad_handle ∨
      ∃ s1 log1, ListOp.run l ops s log = .ok (s1, log1) ∧ ListInv l s1 log1
  | [], s, log, h => Or.inr ⟨s, log, rfl, h⟩
  | .insert v b :: ops, s, log, h => by
    simp only [ListOp.run]
    exact ListOp.run_inv ops _ _ (h.inv_insert v b)
  | .remove c :: ops, s, log, h => by
    simp only [ListOp.run]
    by_cases hc : c ∈ log.map Entry.handle
    · obtain ⟨s1, e1, e2⟩ := h.inv_remove hc
      rw [if_pos hc, e1]
      exact ListOp.run_inv ops _ _ e2
    · rw [if_neg hc]
      exact Or.inl rfl
  | .change_list c :: ops, s, log, h => by
    simp only [ListOp.run]
    by_cases hc : c ∈ log.map Entry.handle
    · obtain ⟨s1, e1, e2⟩ := h.inv_change_list hc
      rw [if_pos hc, e1]
      exact ListOp.run_inv ops _ _ e2
    · rw [if_neg hc]
      exact Or.inl rfl

theorem ListInv.of_run [Inhabited T] {ops : List (ListOp T)} {s : Store T}
    {log : List (Entry T)} (h : ListOp.run 0 ops indexedList.fresh [] = .ok (s, log)) :
    ListInv 0 s log := by
  rcases ListOp.run_inv ops _ _ (ListInv.fresh (T := T)) with e | ⟨s1, log1, e, hi⟩
  · rw [e] at h; cases h
  · rw [e] at h
    cases h
    exact hi

theorem Store.WF.iter_insert {s : Store T} {C : Nat → Prop} {L : Ptr → List Ptr}
    (h : s.WF C L) {l : Nat} (hl : C l) (v : T) (b : Bool) :
    (indexedList.handles_first (indexedList.insert s l v b).1 l).map
        (fun p => ((indexedList.insert s l v b).1.mem p).val) =
      (if b then [v] else []) ++ (indexedList.handles_first s l).map (fun p => (s.mem p).val) ∧
    (indexedList.handles_second (indexedList.insert s l v b).1 l).map
        (fun p => ((indexedList.insert s l v b).1.mem p).val) =
      (if b then [] else [v]) ++ (indexedList.handles_second s l).map (fun p => (s.mem p).val) := by
  obtain ⟨h1, _, h3, h4, _⟩ := h.wf_insert hl v b
  have e12 : Ptr.first l ≠ Ptr.second l := by simp
  have hfresh : ∀ q, ∀ c ∈ L q, c ≠ Ptr.cell s.ncells := by
    intro q c hq e
    obtain ⟨i, e', hi⟩ := h.bound q _ hq
    rw [e] at e'
    simp at e'
    omega
  have hmap : ∀ q, (L q).map (fun p => ((indexedList.insert s l v b).1.mem p).val) =
      (L q).map (fun p => (s.mem p).val) := by
    intro q
    apply List.map_congr_left
    intro c hc
    exact h4 c (hfresh q c hc)
  rw [h1.handles_first hl, h1.handles_second hl, h.handles_first hl, h.handles_second hl]
  cases b
  · rw [show Ptr.sent l false = Ptr.second l from rfl]
    simp only [Function.update_same, Function.update_noteq e12, Bool.false_eq_true,
      if_false, List.map_cons, h3, hmap, List.nil_append, List.singleton_append, and_self]
  · rw [show Ptr.sent l true = Ptr.first l from rfl]
    simp only [Function.update_same, Function.update_noteq e12.symm,
      if_true, List.map_cons, h3, hmap, List.nil_append, List.singleton_append, and_self]

theorem Store.WF.iter_inserts {C : Nat → Prop} {l : Nat} (hl : C l) (b : Bool) :
    ∀ (vs : List T) (s : Store T) (L : Ptr → List Ptr), s.WF C L →
      indexedList.iter_first (vs.foldl (fun st v => (indexedList.insert st l v b).1) s) l =
        (if b then vs.reverse else []) ++ indexedList.iter_first s l ∧
      indexedList.iter_second (vs.foldl (fun st v => (indexedList.insert st l v b).1) s) l =
        (if b then [] else vs.reverse) ++ indexedList.iter_second s l
  | [], s, L, _ => by cases b <;> simp
  | v :: vs, s, L, h => by
    have ih := Store.WF.iter_inserts hl b vs _ _ (h.wf_insert hl v b).1
    have h1 := h.iter_insert hl v b
    simp only [List.foldl_cons]
    unfold indexedList.iter_first indexedList.iter_second at ih ⊢
    rw [ih.1, ih.2, h1.1, h1.2]
    cases b <;> simp

/-- C5: after any run of insert, remove and change_list calls whose handles
were returned by insert and not yet removed, the handles visited by iterating
the first and then the second sublist are the recorded (inserted and not
removed) elements, each exactly once, each cell carries the value inserted,
and an element is in the first sublist exactly when it was inserted there and
moved an even number of times or inserted into the second and moved an odd
number of times. -/
theorem C5_sublists_hold_the_live_elements [Inhabited T] (ops : List (ListOp T)) :
    ListOp.run 0 ops indexedList.fresh [] = .error .bad_handle ∨
    ∃ s log, ListOp.run 0 ops indexedList.fresh [] = .ok (s, log) ∧
      (indexedList.handles_first s 0 ++ indexedList.handles_second s 0).Perm
        (log.map Entry.handle) ∧
      (indexedList.handles_first s 0 ++ indexedList.handles_second s 0).Nodup ∧
      ∀ e ∈ log, (s.mem e.handle).val = e.val ∧
        (e.handle ∈ indexedList.handles_first s 0 ↔
          (e.side = true ∧ Even e.moves) ∨ (e.side = false ∧ Odd e.moves)) := by
  rcases ListOp.run_inv ops _ _ (ListInv.fresh (T := T)) with e | ⟨s, log, e, L, hwf, hnd, hmem, hent⟩
  · exact Or.inl e
  · refine Or.inr ⟨s, log, e, ?_⟩
    rw [hwf.handles_first rfl, hwf.handles_second rfl]
    have hnd2 : (L (Ptr.first 0) ++ L (Ptr.second 0)).Nodup := by
      rw [List.nodup_append]
      refine ⟨hwf.nodup _, hwf.nodup _, ?_⟩
      intro c h1 h2
      have := hwf.disj _ _ c h1 h2
      simp at this
    refine ⟨?_, hnd2, hent⟩
    rw [List.perm_ext_iff_of_nodup hnd2 hnd]
    intro c
    rw [List.mem_append, hmem c]

/-- C6 fails as stated: after inserting 1 and then 2 into the first sublist,
iteration does not yield 1, 2. -/
theorem C6_insertion_order_counterexample :
    indexedList.iter_first
      (indexedList.insert (indexedList.insert (indexedList.fresh : Store Nat) 0 1 true).1
        0 2 true).1 0 ≠ [1, 2] := by
  decide

/-- C6 amended: in a state reached by calls on the interface, values inserted
one after the other into one sublist, with no removal or move in between, are
met by iteration of that sublist in the reverse of the order of insertion
(last inserted first), in front of the elements the sublist held before; the
other sublist is iterated as before. -/
theorem C6_iteration_is_last_inserted_first [Inhabited T] (ops : List (ListOp T))
    (s : Store T) (log : List (Entry T))
    (hrun : ListOp.run 0 ops indexedList.fresh [] = .ok (s, log)) (vs : List T) (b : Bool) :
    indexedList.iter_first (vs.foldl (fun st v => (indexedList.insert st 0 v b).1) s) 0 =
      (if b then vs.reverse else []) ++ indexedList.iter_first s 0 ∧
    indexedList.iter_second (vs.foldl (fun st v => (indexedList.insert st 0 v b).1) s) 0 =
      (if b then [] else vs.reverse) ++ indexedList.iter_second s 0 := by
  obtain ⟨L, hwf, _⟩ := ListInv.of_run hrun
  exact Store.WF.iter_inserts (C := fun k => k = 0) rfl b vs s L hwf

/-- Witness of C6 amended: 7, 8, 9 inserted into the first sublist after one
element 5 was inserted there and 6 into the second. -/
theorem C6_iteration_is_last_inserted_first_witness :
    ListOp.run 0 [ListOp.insert 5 true, ListOp.insert 6 false] (indexedList.fresh : Store Nat) []
      = .ok ((indexedList.insert (indexedList.insert indexedList.fresh 0 5 true).1 0 6 false).1,
          [⟨Ptr.cell 0, 5, true, 0⟩, ⟨Ptr.cell 1, 6, false, 0⟩]) ∧
    indexedList.iter_first ([7, 8, 9].foldl (fun st v => (indexedList.insert st 0 v true).1)
      (indexedList.insert (indexedList.insert (indexedList.fresh : Store Nat) 0 5 true).1
        0 6 false).1) 0 = [9, 8, 7, 5] :=
  ⟨rfl, (C6_iteration_is_last_inserted_first
    [ListOp.insert 5 true, ListOp.insert 6 false] _ _ rfl [7, 8, 9] true).1.trans (by decide)⟩

/-- C7: in a state reached by calls on the interface, for a live handle `h`:
remove and change_list on `h` succeed and, like an insert, leave the value of
every cell unchanged and leave both sublists, with the handle concerned taken
out, exactly as they were (same elements on the same side in the same order);
the handle a new insert returns is none of the live ones. -/
theorem C7_other_elements_are_untouched [Inhabited T] (ops : List (ListOp T))
    (s : Store T) (log : List (Entry T))
    (hrun : ListOp.run 0 ops indexedList.fresh [] = .ok (s, log))
    (h : Ptr) (hh : h ∈ log.map Entry.handle) :
    (∃ s1, indexedList.remove s h = some s1 ∧
      indexedList.handles_first s1 0 = (indexedList.handles_first s 0).erase h ∧
      indexedList.handles_second s1 0 = (indexedList.handles_second s 0).erase h ∧
      ∀ q, (s1.mem q).val = (s.mem q).val) ∧
    (∃ s1, indexedList.change_list s 0 h = some s1 ∧
      (indexedList.handles_first s1 0).erase h = (indexedList.handles_first s 0).erase h ∧
      (indexedList.handles_second s1 0).erase h = (indexedList.handles_second s 0).erase h ∧
      ∀ q, (s1.mem q).val = (s.mem q).val) ∧
    (∀ (v : T) (b : Bool),
      (indexedList.insert s 0 v b).2 ∉ log.map Entry.handle ∧
      (indexedList.handles_first (indexedList.insert s 0 v b).1 0).erase
          (indexedList.insert s 0 v b).2 = indexedList.handles_first s 0 ∧
      (indexedList.handles_second (indexedList.insert s 0 v b).1 0).erase
          (indexedList.insert s 0 v b).2 = indexedList.handles_second s 0 ∧
      ∀ q, q ≠ (indexedList.insert s 0 v b).2 →
        ((indexedList.insert s 0 v b).1.mem q).val = (s.mem q).val) := by
  obtain ⟨L, hwf, hnd, hmem, hent⟩ := ListInv.of_run hrun
  have e12 : Ptr.first 0 ≠ Ptr.second 0 := by simp
  have hp : ∃ p, h ∈ L p ∧ (p = Ptr.first 0 ∨ p = Ptr.second 0) := by
    rcases (hmem h).mp hh with a | a
    · exact ⟨_, a, Or.inl rfl⟩
    · exact ⟨_, a, Or.inr rfl⟩
  obtain ⟨p, hcp, hpl⟩ := hp
  rw [hwf.handles_first rfl, hwf.handles_second rfl]
  refine ⟨?_, ?_, ?_⟩
  · obtain ⟨s1, e1, e2, e3, _⟩ := hwf.wf_remove hcp
    refine ⟨s1, e1, ?_, ?_, e3⟩
    · rw [e2.handles_first rfl]
      rcases hpl with rfl | rfl
      · simp only [Function.update_same]
      · simp only [Function.update_noteq e12]
        rw [List.erase_of_not_mem]
        exact fun hm => e12 (hwf.disj _ _ h hm hcp)
    · rw [e2.handles_second rfl]
      rcases hpl with rfl | rfl
      · simp only [Function.update_noteq e12.symm]
        rw [List.erase_of_not_mem]
        exact fun hm => e12 (hwf.disj _ _ h hcp hm)
      · simp only [Function.update_same]
  · obtain ⟨s1, tgt, ht, e1, e2, e3, _⟩ := hwf.wf_change_list hcp (k := 0) rfl
    refine ⟨s1, e1, ?_, ?_, e3⟩
    · rw [e2.handles_first rfl]
      rcases hpl with rfl | rfl
      · rw [if_pos rfl] at ht
        subst ht
        simp only [Function.update_same, Function.update_noteq e12]
        rw [List.erase_of_not_mem]
        exact fun hm => (hwf.nodup _).mem_erase_iff.mp hm |>.1 rfl
      · rw [if_neg e12.symm] at ht
        subst ht
        simp only [Function.update_same, Function.update_noteq e12, List.erase_cons_head]
        rw [List.erase_of_not_mem]
        exact fun hm => e12 (hwf.disj _ _ h hm hcp)
    · rw [e2.handles_second rfl]
      rcases hpl with rfl | rfl
      · rw [if_pos rfl] at ht
        subst ht
        simp only [Function.update_same, Function.update_noteq e12.symm, List.erase_cons_head]
        rw [List.erase_of_not_mem]
        exact fun hm => e12 (hwf.disj _ _ h hcp hm)
      · rw [if_neg e12.symm] at ht
        subst ht
        simp only [Function.update_same, Function.update_noteq e12.symm]
        rw [List.erase_of_not_mem]
        exact fun hm => (hwf.nodup _).mem_erase_iff.mp hm |>.1 rfl
  · intro v b
    obtain ⟨h1, h2, _, h4, _⟩ := hwf.wf_insert (l := 0) rfl v b
    have hfresh : ∀ q, Ptr.cell s.ncells ∉ L q := by
      intro q hq
      obtain ⟨i, e, hi⟩ := hwf.bound q _ hq
      simp at e
      omega
    rw [h2, h1.handles_first rfl, h1.handles_second rfl]
    refine ⟨?_, ?_, ?_, h4⟩
    · intro hc
      rcases (hmem _).mp hc with a | a
      · exact hfresh _ a
      · exact hfresh _ a
    · cases b
      · rw [show Ptr.sent 0 false = Ptr.second 0 from rfl]
        simp only [Function.update_noteq e12]
        exact List.erase_of_not_mem (hfresh _)
      · rw [show Ptr.sent 0 true = Ptr.first 0 from rfl]
        simp only [Function.update_same, List.erase_cons_head]
    · cases b
      · rw [show Ptr.sent 0 false = Ptr.second 0 from rfl]
        simp only [Function.update_same, List.erase_cons_head]
      · rw [show Ptr.sent 0 true = Ptr.first 0 from rfl]
        simp only [Function.update_noteq e12.symm]
        exact List.erase_of_not_mem (hfresh _)

/-- Witness of C7: the state after inserting 5 into the first and 6 into the
second sublist, and the live handle of the element 5. -/
theorem C7_other_elements_are_untouched_witness :
    ListOp.run 0 [ListOp.insert 5 true, ListOp.insert 6 false] (indexedList.fresh : Store Nat) []
      = .ok ((indexedList.insert (indexedList.insert indexedList.fresh 0 5 true).1 0 6 false).1,
          [⟨Ptr.cell 0, 5, true, 0⟩, ⟨Ptr.cell 1, 6, false, 0⟩]) ∧
    Ptr.cell 0 ∈ ([⟨Ptr.cell 0, 5, true, 0⟩, ⟨Ptr.cell 1, 6, false, 0⟩] :
      List (Entry Nat)).map Entry.handle ∧
    ∃ s1, indexedList.remove
        (indexedList.insert (indexedList.insert (indexedList.fresh : Store Nat) 0 5 true).1
          0 6 false).1 (Ptr.cell 0) = some s1 ∧
      indexedList.handles_second s1 0 = [Ptr.cell 1] :=
  ⟨rfl, by decide,
    (C7_other_elements_are_untouched [ListOp.insert 5 true, ListOp.insert 6 false] _ _ rfl
      (Ptr.cell 0) (by decide)).1.imp fun _ hs => ⟨hs.1, hs.2.2.1.trans (by decide)⟩⟩

end Hungarian

namespace Hungarian

theorem swap_apply {X : Type} (i j : Nat) (a : Nat → X) (k : Nat) :
    swap i j a k = if k = j then a i else if k = i then a j else a k := by
  unfold swap
  by_cases h1 : k = j
  · subst h1; simp
  · by_cases h2 : k = i
    · subst h2; simp [Function.update_noteq h1, h1]
    · simp [Function.update_noteq h1, Function.update_noteq h2, h1, h2]

namespace priqueue

variable {T : Type} {κ : Type} [LinearOrder κ]

theorem handlesExact.inj {q : priqueue T} (h : q.handlesExact) {i j : Nat}
    (hi : 1 ≤ i) (hi' : i ≤ q.n) (hj : 1 ≤ j) (hj' : j ≤ q.n)
    (e : (q.arr i).ridx = (q.arr j).ridx) : i = j := by
  have a := h i hi hi'
  have b := h j hj hj'
  rw [e] at a
  rw [← a, b]

theorem swapEntries_n (q : priqueue T) (i j : Nat) : (q.swapEntries i j).n = q.n := rfl

theorem swapEntries_arr (q : priqueue T) (i j k : Nat) :
    (q.swapEntries i j).arr k = if k = j then q.arr i else if k = i then q.arr j else q.arr k := by
  simp only [swapEntries, swap_apply]

theorem swapEntries_idx (q : priqueue T) (i j h : Nat) :
    (q.swapEntries i j).idx h =
      if h = (q.arr j).ridx then q.idx (q.arr i).ridx
      else if h = (q.arr i).ridx then q.idx (q.arr j).ridx else q.idx h := by
  simp only [swapEntries, swap_apply]

theorem handlesExact.swapEntries {q : priqueue T} (h : q.handlesExact) {i j : Nat}
    (hi : 1 ≤ i) (hi' : i ≤ q.n) (hj : 1 ≤ j) (hj' : j ≤ q.n) :
    (q.swapEntries i j).handlesExact := by
  intro k hk hk'
  rw [swapEntries_n] at hk'
  rw [swapEntries_arr, swapEntries_idx]
  by_cases e1 : k = j
  · subst e1
    simp only [if_true]
    by_cases e2 : (q.arr i).ridx = (q.arr k).ridx
    · rw [if_pos e2, h i hi hi']; exact h.inj hi hi' hk hk' e2
    · rw [if_neg e2]; exact h k hk hk'
  · rw [if_neg e1]
    by_cases e2 : k = i
    · subst e2
      rw [if_pos rfl, if_pos rfl]
      exact h k hk hk'
    · rw [if_neg e2]
      have n1 : (q.arr k).ridx ≠ (q.arr j).ridx := fun e => e1 (h.inj hk hk' hj hj' e)
      have n2 : (q.arr k).ridx ≠ (q.arr i).ridx := fun e => e2 (h.inj hk hk' hi hi' e)
      rw [if_neg n1, if_neg n2]
      exact h k hk hk'

theorem range_map_swap_perm {n i j : Nat} (hi : 1 ≤ i) (hi' : i ≤ n) (hj : 1 ≤ j) (hj' : j ≤ n) :
    ((List.range' 1 n).map fun k => if k = j then i else if k = i then j else k).Perm
      (List.range' 1 n) := by
  have hinj : Function.Injective (fun k : Nat => if k = j then i else if k = i then j else k) := by
    intro a b
    simp only
    split_ifs <;> intro e <;> omega
  rw [List.perm_ext_iff_of_nodup ((List.nodup_range' 1 n).map hinj) (List.nodup_range' 1 n)]
  intro a
  simp only [List.mem_map, List.mem_range'_1]
  constructor
  · rintro ⟨k, hk, rfl⟩
    split_ifs <;> omega
  · intro ha
    by_cases e1 : a = i
    · exact ⟨j, by omega, by simp [e1]⟩
    · by_cases e2 : a = j
      · refine ⟨i, by omega, ?_⟩
        by_cases e3 : i = j
        · simp [e3, e2]
        · simp [e3, e2]
      · exact ⟨a, ha, by simp [e1, e2]⟩

theorem slots_swapEntries {q : priqueue T} {i j : Nat}
    (hi : 1 ≤ i) (hi' : i ≤ q.n) (hj : 1 ≤ j) (hj' : j ≤ q.n) :
    (q.swapEntries i j).slots.Perm q.slots := by
  have e : (q.swapEntries i j).slots =
      ((List.range' 1 q.n).map fun k => if k = j then i else if k = i then j else k).map
        q.arr := by
    unfold slots
    rw [swapEntries_n, List.map_map]
    apply List.map_congr_left
    intro k _
    simp only [Function.comp, swapEntries_arr]
    split_ifs <;> rfl
  rw [e]
  exact (range_map_swap_perm hi hi' hj hj').map _

theorem mem_slots {q : priqueue T} {e : arrType T} :
    e ∈ q.slots ↔ ∃ i, 1 ≤ i ∧ i ≤ q.n ∧ q.arr i = e := by
  unfold slots
  simp only [List.mem_map, List.mem_range'_1]
  constructor
  · rintro ⟨i, hi, rfl⟩; exact ⟨i, hi.1, by omega, rfl⟩
  · rintro ⟨i, h1, h2, rfl⟩; exact ⟨i, ⟨h1, by omega⟩, rfl⟩

theorem upReady.step_up {key : T → κ} {q : priqueue T} {i : Nat} (h : upReady key q i)
    (hi : 1 < i) (hin : i ≤ q.n) (hlt : key (q.arr (i / 2)).x > key (q.arr i).x) :
    upReady key (q.swapEntries i (i / 2)) (i / 2) := by
  obtain ⟨h1, h2⟩ := h
  have hp : i / 2 ≠ i := by omega
  constructor
  · intro j hj hjn hjp
    rw [swapEntries_n] at hjn
    by_cases e1 : j = i
    · subst e1
      rw [swapEntries_arr, swapEntries_arr]
      simp only [if_true, if_neg hp.symm]
      exact le_of_lt hlt
    · rw [swapEntries_arr q i (i / 2) j, if_neg hjp, if_neg e1]
      by_cases e2 : j / 2 = i / 2
      · rw [swapEntries_arr, if_pos e2]
        have := h1 j hj hjn e1
        rw [e2] at this
        exact le_trans (le_of_lt hlt) this
      · by_cases e3 : j / 2 = i
        · rw [swapEntries_arr, if_neg e2, if_pos e3]
          exact h2 j (by omega) hjn e3
        · rw [swapEntries_arr, if_neg e2, if_neg e3]
          exact h1 j hj hjn e1
  · intro c hp2 hcn hc
    rw [swapEntries_n] at hcn
    have a1 : i / 2 / 2 ≠ i / 2 := by omega
    have a2 : i / 2 / 2 ≠ i := by omega
    rw [swapEntries_arr q i (i / 2) (i / 2 / 2), if_neg a1, if_neg a2]
    have hpar := h1 (i / 2) hp2 (by omega) hp
    by_cases e1 : c = i
    · subst e1
      rw [swapEntries_arr, if_neg hp.symm, if_pos rfl]
      exact hpar
    · have cp : c ≠ i / 2 := by omega
      rw [swapEntries_arr, if_neg cp, if_neg e1]
      have := h1 c (by omega) hcn e1
      rw [hc] at this
      exact le_trans hpar this

/-- What `siftup(i)` achieves when started from a heap that is in order except
at slot `i`. -/
theorem siftupLoop_spec (key : T → κ) :
    ∀ (fuel : Nat) (q : priqueue T) (i : Nat), i ≤ fuel → i ≤ q.n → q.handlesExact →
      upReady key q i →
      (siftupLoop key fuel q i).heapOrdered key ∧ (siftupLoop key fuel q i).handlesExact ∧
      (siftupLoop key fuel q i).n = q.n ∧ (siftupLoop key fuel q i).slots.Perm q.slots ∧
      (1 ≤ i → (siftupLoop key fuel q i).idx (q.arr i).ridx ≤ i ∧
        (siftupLoop key fuel q i).arr ((siftupLoop key fuel q i).idx (q.arr i).ridx) = q.arr i)
  | 0, q, i, hf, _, hx, hu => by
    have : i = 0 := by omega
    subst this
    refine ⟨?_, hx, rfl, List.Perm.refl _, fun h => absurd h (by omega)⟩
    intro j hj hjn
    exact hu.1 j hj hjn (by omega)
  | fuel + 1, q, i, hf, hin, hx, hu => by
    unfold siftupLoop
    by_cases hc : 1 < i ∧ key (q.arr (i / 2)).x > key (q.arr i).x
    · rw [if_pos hc]
      have hx1 : (q.swapEntries i (i / 2)).handlesExact :=
        hx.swapEntries (by omega) hin (by omega) (by omega)
      obtain ⟨r1, r2, r3, r4, r5⟩ := siftupLoop_spec key fuel (q.swapEntries i (i / 2)) (i / 2)
        (by omega) (by rw [swapEntries_n]; omega) hx1 (hu.step_up hc.1 hin hc.2)
      refine ⟨r1, r2, by rw [r3, swapEntries_n],
        r4.trans (slots_swapEntries (by omega) hin (by omega) (by omega)), ?_⟩
      intro _
      have e : (q.swapEntries i (i / 2)).arr (i / 2) = q.arr i := by
        rw [swapEntries_arr, if_pos rfl]
      have := r5 (by omega)
      rw [e] at this
      exact ⟨by omega, this.2⟩
    · rw [if_neg hc]
      refine ⟨?_, hx, rfl, List.Perm.refl _, ?_⟩
      · intro j hj hjn
        by_cases e : j = i
        · subst e
          have : ¬ key (q.arr (j / 2)).x > key (q.arr j).x := fun h => hc ⟨by omega, h⟩
          exact not_lt.mp this
        · exact hu.1 j hj hjn e
      · intro h1
        rw [hx i h1 hin]
        exact ⟨le_refl _, rfl⟩

theorem minChild_le (key : T → κ) {q : priqueue T} {i c : Nat}
    (hc : c = if 2 * i + 1 ≤ q.n ∧ key (q.arr (2 * i + 1)).x < key (q.arr (2 * i)).x
      then 2 * i + 1 else 2 * i) (h2i : 2 * i ≤ q.n) :
    (c = 2 * i ∨ c = 2 * i + 1) ∧ c ≤ q.n ∧
    ∀ d, d ≤ q.n → d / 2 = i → 2 ≤ d → key (q.arr c).x ≤ key (q.arr d).x := by
  by_cases hcond : 2 * i + 1 ≤ q.n ∧ key (q.arr (2 * i + 1)).x < key (q.arr (2 * i)).x
  · rw [if_pos hcond] at hc
    subst hc
    refine ⟨Or.inr rfl, hcond.1, ?_⟩
    intro d _ hd2 _
    have : d = 2 * i ∨ d = 2 * i + 1 := by omega
    rcases this with e | e
    · rw [e]; exact le_of_lt hcond.2
    · rw [e]
  · rw [if_neg hcond] at hc
    subst hc
    refine ⟨Or.inl rfl, h2i, ?_⟩
    intro d hdn hd2 _
    have : d = 2 * i ∨ d = 2 * i + 1 := by omega
    rcases this with e | e
    · rw [e]
    · rw [e]
      have : ¬ key (q.arr (2 * i + 1)).x < key (q.arr (2 * i)).x :=
        fun h => hcond ⟨by omega, h⟩
      exact not_lt.mp this

theorem downReady.leaf {key : T → κ} {q : priqueue T} {lo i : Nat}
    (h : downReady key q lo i) (hn : q.n < 2 * i) : heapFrom key q lo := by
  intro j hj hjn hlo
  exact h.1 j hj hjn hlo (by omega)

theorem downReady.done {key : T → κ} {q : priqueue T} {lo i c : Nat}
    (h : downReady key q lo i)
    (hmin : ∀ d, d ≤ q.n → d / 2 = i → 2 ≤ d → key (q.arr c).x ≤ key (q.arr d).x)
    (hle : key (q.arr i).x ≤ key (q.arr c).x) : heapFrom key q lo := by
  intro j hj hjn hlo
  by_cases e : j / 2 = i
  · rw [e]
    exact le_trans hle (hmin j hjn e hj)
  · exact h.1 j hj hjn hlo e

theorem downReady.step_down {key : T → κ} {q : priqueue T} {lo i c : Nat}
    (h : downReady key q lo i) (hlo : lo ≤ i) (hi : 1 ≤ i)
    (hc : c = 2 * i ∨ c = 2 * i + 1) (hcn : c ≤ q.n)
    (hmin : ∀ d, d ≤ q.n → d / 2 = i → 2 ≤ d → key (q.arr c).x ≤ key (q.arr d).x)
    (hgt : ¬ key (q.arr i).x ≤ key (q.arr c).x) :
    downReady key (q.swapEntries i c) lo c := by
  obtain ⟨h1, h2⟩ := h
  have hci : c ≠ i := by omega
  have hc2 : c / 2 = i := by omega
  constructor
  · intro j hj hjn hjlo hjc
    rw [swapEntries_n] at hjn
    by_cases e1 : j / 2 = i
    · rw [e1, swapEntries_arr q i c i, if_neg hci.symm, if_pos rfl]
      by_cases e2 : j = c
      · rw [e2, swapEntries_arr, if_pos rfl]
        exact le_of_lt (not_le.mp hgt)
      · have e3 : j ≠ i := by omega
        rw [swapEntries_arr, if_neg e2, if_neg e3]
        exact hmin j hjn e1 hj
    · rw [swapEntries_arr q i c (j / 2), if_neg hjc, if_neg e1]
      by_cases e2 : j = i
      · rw [e2, swapEntries_arr, if_neg hci.symm, if_pos rfl]
        rw [e2] at hjlo hj
        exact h2 c hj hjlo hcn hc2
      · have e3 : j ≠ c := by
          intro e; rw [e] at e1; exact e1 hc2
        rw [swapEntries_arr, if_neg e3, if_neg e2]
        exact h1 j hj hjn hjlo e1
  · intro d _ _ hdn hd
    rw [swapEntries_n] at hdn
    have d1 : d ≠ c := by omega
    have d2 : d ≠ i := by omega
    rw [hc2, swapEntries_arr q i c i, if_neg hci.symm, if_pos rfl,
      swapEntries_arr, if_neg d1, if_neg d2]
    have := h1 d (by omega) hdn (by omega) (by omega)
    rw [hd] at this
    exact this

/-- What `siftdown(i, n)` achieves when started from slots that are in order
from `lo` on except at slot `i`. -/
theorem siftdownLoop_spec (key : T → κ) (lo : Nat) :
    ∀ (fuel : Nat) (q : priqueue T) (i : Nat), q.n + 1 ≤ fuel + i → 1 ≤ i → lo ≤ i →
      q.handlesExact → downReady key q lo i →
      heapFrom key (siftdownLoop key q.n fuel q i) lo ∧
      (siftdownLoop key q.n fuel q i).handlesExact ∧
      (siftdownLoop key q.n fuel q i).n = q.n ∧
      (siftdownLoop key q.n fuel q i).slots.Perm q.slots
  | 0, q, i, hf, _, _, hx, hd => by
    exact ⟨hd.leaf (by omega), hx, rfl, List.Perm.refl _⟩
  | fuel + 1, q, i, hf, hi, hlo, hx, hd => by
    unfold siftdownLoop
    by_cases h2i : 2 * i ≤ q.n
    · rw [if_pos h2i]
      obtain ⟨m1, m2, m3⟩ := minChild_le key (q := q) (i := i) rfl h2i
      simp only
      by_cases hle : key (q.arr i).x ≤ key (q.arr
          (if 2 * i + 1 ≤ q.n ∧ key (q.arr (2 * i + 1)).x < key (q.arr (2 * i)).x
            then 2 * i + 1 else 2 * i)).x
      · rw [if_pos hle]
        exact ⟨hd.done m3 hle, hx, rfl, List.Perm.refl _⟩
      · rw [if_neg hle]
        have hx1 := hx.swapEntries (i := i) (j := (if 2 * i + 1 ≤ q.n ∧
          key (q.arr (2 * i + 1)).x < key (q.arr (2 * i)).x then 2 * i + 1 else 2 * i))
          hi (by omega) (by omega) m2
        have hd1 := hd.step_down hlo hi m1 m2 m3 hle
        obtain ⟨r1, r2, r3, r4⟩ := siftdownLoop_spec key lo fuel _ _
          (by rw [swapEntries_n]; omega) (by omega) (by omega) hx1 hd1
        rw [swapEntries_n] at r1 r2 r3 r4
        exact ⟨r1, r2, r3, r4.trans (slots_swapEntries hi (by omega) (by omega) m2)⟩
    · rw [if_neg h2i]
      exact ⟨hd.leaf (by omega), hx, rfl, List.Perm.refl _⟩

theorem heapifyLoop_spec (key : T → κ) :
    ∀ (i : Nat) (q : priqueue T), i ≤ q.n → q.handlesExact → heapFrom key q (i + 1) →
      (heapifyLoop key i q).heapOrdered key ∧ (heapifyLoop key i q).handlesExact ∧
      (heapifyLoop key i q).n = q.n ∧ (heapifyLoop key i q).slots.Perm q.slots
  | 0, q, _, hx, hf => by
    refine ⟨?_, hx, rfl, List.Perm.refl _⟩
    intro j hj hjn
    exact hf j hj hjn (by omega)
  | i + 1, q, hi, hx, hf => by
    unfold heapifyLoop siftdown
    have hd : downReady key q (i + 1) (i + 1) := by
      constructor
      · intro j hj hjn hlo hne
        exact hf j hj hjn (by omega)
      · intro c _ hlo _ _
        omega
    obtain ⟨r1, r2, r3, r4⟩ := siftdownLoop_spec key (i + 1) q.n q (i + 1) (by omega)
      (by omega) (le_refl _) hx hd
    obtain ⟨t1, t2, t3, t4⟩ := heapifyLoop_spec key i _ (by rw [r3]; omega) r2 r1
    exact ⟨t1, t2, by rw [t3, r3], t4.trans r4⟩

theorem heapify_spec (key : T → κ) (q : priqueue T) (hx : q.handlesExact) :
    (heapify key q).heapOrdered key ∧ (heapify key q).handlesExact ∧
    (heapify key q).n = q.n ∧ (heapify key q).slots.Perm q.slots := by
  unfold heapify
  apply heapifyLoop_spec key q.n q (le_refl _) hx
  intro j _ hjn hlo
  omega

theorem load_n (q : priqueue T) (t : T) : (q.load t).n = q.n + 1 := rfl

theorem slots_load (q : priqueue T) (t : T) :
    (q.load t).slots = q.slots ++ [⟨t, q.n + 1⟩] := by
  unfold slots
  rw [load_n, List.range'_concat, List.map_append]
  congr 1
  · apply List.map_congr_left
    intro k hk
    have : k ≠ q.n + 1 := by
      have := List.mem_range'_1.mp hk
      omega
    simp [load, Function.update_noteq this]
  · simp [load, Nat.add_comm]

theorem handlesBounded_iff {q : priqueue T} :
    q.handlesBounded ↔ ∀ e ∈ q.slots, e.ridx ≤ q.n := by
  constructor
  · intro h e he
    obtain ⟨i, h1, h2, rfl⟩ := mem_slots.mp he
    exact h i h1 h2
  · intro h i h1 h2
    exact h _ (mem_slots.mpr ⟨i, h1, h2, rfl⟩)

theorem handlesBounded.of_perm {q q' : priqueue T} (h : q.handlesBounded)
    (hp : q'.slots.Perm q.slots) (hn : q'.n = q.n) : q'.handlesBounded := by
  rw [handlesBounded_iff] at h ⊢
  intro e he
  rw [hn]
  exact h e (hp.subset he)

theorem load_spec {q : priqueue T} (t : T) (hx : q.handlesExact) (hb : q.handlesBounded) :
    (q.load t).handlesExact ∧ (q.load t).handlesBounded := by
  constructor
  · intro k hk hkn
    rw [load_n] at hkn
    by_cases e : k = q.n + 1
    · subst e
      simp [load]
    · have h1 := hb k hk (by omega)
      have h2 : (q.arr k).ridx ≠ q.n + 1 := by omega
      simp only [load, Function.update_noteq e, Function.update_noteq h2]
      exact hx k hk (by omega)
  · intro k hk hkn
    rw [load_n] at hkn ⊢
    by_cases e : k = q.n + 1
    · subst e
      simp [load]
    · have h1 := hb k hk (by omega)
      simp only [load, Function.update_noteq e]
      omega

theorem foldl_load_spec :
    ∀ (xs : List T) (q : priqueue T), q.handlesExact → q.handlesBounded →
      (xs.foldl load q).handlesExact ∧ (xs.foldl load q).handlesBounded ∧
      (xs.foldl load q).n = q.n + xs.length ∧
      (xs.foldl load q).slots =
        q.slots ++ List.zipWith arrType.mk xs (List.range' (q.n + 1) xs.length)
  | [], q, hx, hb => by simp [hx, hb]
  | x :: xs, q, hx, hb => by
    obtain ⟨h1, h2⟩ := load_spec x hx hb
    obtain ⟨r1, r2, r3, r4⟩ := foldl_load_spec xs (q.load x) h1 h2
    simp only [List.foldl_cons]
    refine ⟨r1, r2, by rw [r3, load_n, List.length_cons]; omega, ?_⟩
    rw [r4, slots_load, load_n, List.length_cons, List.range'_succ, List.zipWith_cons_cons,
      List.append_assoc, List.singleton_append]

theorem slots_zero {q : priqueue T} (h : q.n = 0) : q.slots = [] := by
  unfold slots
  rw [h]
  rfl

/-- What `set_priqueue` establishes. -/
theorem set_priqueue_spec (key : T → κ) (q : priqueue T) (xs : List T) :
    (set_priqueue key q xs).heapOrdered key ∧ (set_priqueue key q xs).handlesExact ∧
    (set_priqueue key q xs).n = xs.length ∧
    (set_priqueue key q xs).slots.Perm
      (List.zipWith arrType.mk xs (List.range' 1 xs.length)) := by
  unfold set_priqueue
  have hx0 : ({ q with n := 0 } : priqueue T).handlesExact := by
    intro i h1 h2
    simp only at h2
    omega
  have hb0 : ({ q with n := 0 } : priqueue T).handlesBounded := by
    intro i h1 h2
    simp only at h2
    omega
  obtain ⟨r1, _, r3, r4⟩ := foldl_load_spec xs _ hx0 hb0
  obtain ⟨t1, t2, t3, t4⟩ := heapify_spec key _ r1
  refine ⟨t1, t2, by rw [t3, r3]; simp, ?_⟩
  rw [r4, slots_zero (q := { q with n := 0 }) rfl] at t4
  simpa using t4

theorem elems_zipWith (xs : List T) (k : Nat) :
    (List.zipWith arrType.mk xs (List.range' k xs.length)).map (fun e => e.x) = xs := by
  induction xs generalizing k with
  | nil => rfl
  | cons x xs ih =>
    rw [List.length_cons, List.range'_succ, List.zipWith_cons_cons, List.map_cons, ih]

theorem heapOrdered.root_le {key : T → κ} {q : priqueue T} (h : q.heapOrdered key) :
    ∀ j, 1 ≤ j → j ≤ q.n → key (q.arr 1).x ≤ key (q.arr j).x := by
  intro j
  induction j using Nat.strong_induction_on with
  | _ j ih =>
    intro h1 h2
    by_cases e : j = 1
    · rw [e]
    · exact le_trans (ih (j / 2) (by omega) (by omega) (by omega)) (h j (by omega) h2)

/-- What `popmin` returns and leaves behind on a non-empty heap. -/
theorem popmin_spec (key : T → κ) {q : priqueue T} (ho : q.heapOrdered key)
    (hx : q.handlesExact) (hn : 1 ≤ q.n) :
    (popmin key q).1 = (q.arr 1).x ∧
    (∀ e ∈ q.slots, key (popmin key q).1 ≤ key e.x) ∧
    (popmin key q).2.heapOrdered key ∧ (popmin key q).2.handlesExact ∧
    (popmin key q).2.n = q.n - 1 ∧ q.slots.Perm (q.arr 1 :: (popmin key q).2.slots) := by
  have hpop : popmin key q = ((q.arr 1).x, siftdown key q.moved 1 q.moved.n) := rfl
  have hq1 : ∀ k, q.moved.arr k = if k = 1 then q.arr q.n else q.arr k := by
    intro k
    by_cases e : k = 1
    · subst e; simp [moved]
    · simp [moved, Function.update_noteq e, e]
  have hmn : q.moved.n = q.n - 1 := rfl
  have hx1 : q.moved.handlesExact := by
    intro k h1 h2
    rw [hmn] at h2
    rw [hq1]
    by_cases e : k = 1
    · subst e; simp [moved]
    · rw [if_neg e]
      have : (q.arr k).ridx ≠ (q.arr q.n).ridx := by
        intro e'
        have := hx.inj h1 (by omega) hn (le_refl _) e'
        omega
      simp only [moved, Function.update_noteq this]
      exact hx k h1 (by omega)
  have hd1 : downReady key q.moved 1 1 := by
    constructor
    · intro j hj hjn _ hne
      rw [hmn] at hjn
      rw [hq1, hq1, if_neg hne, if_neg (by omega)]
      exact ho j hj (by omega)
    · intro c h2 _ _ _
      omega
  rw [hpop]
  obtain ⟨r1, r2, r3, r4⟩ := siftdownLoop_spec key 1 q.moved.n q.moved 1
    (by omega) (le_refl _) (le_refl _) hx1 hd1
  unfold siftdown
  have hroot := ho.root_le
  refine ⟨rfl, ?_, ?_, r2, r3, ?_⟩
  · intro e he
    obtain ⟨i, h1, h2, rfl⟩ := mem_slots.mp he
    exact hroot i h1 h2
  · intro j hj hjn
    exact r1 j hj hjn (by omega)
  · refine List.Perm.trans ?_ (List.Perm.cons _ r4.symm)
    unfold slots
    simp only [moved]
    obtain ⟨m, hm⟩ : ∃ m, q.n = m + 1 := ⟨q.n - 1, by omega⟩
    rw [hm, List.range'_succ, List.map_cons]
    apply List.Perm.cons
    simp only [Nat.add_sub_cancel]
    cases m with
    | zero => simp
    | succ m =>
      have e1 : List.range' (1 + 1) (m + 1) = List.range' 2 m ++ [m + 2] := by
        rw [List.range'_concat]
        simp [Nat.add_comm]
      have e2 : List.range' 1 (m + 1) = 1 :: List.range' 2 m := by
        rw [List.range'_succ]
      rw [e1, e2, List.map_append, List.map_cons, List.map_nil, List.map_cons,
        Function.update_same]
      have e3 : List.map (Function.update q.arr 1 (q.arr (m + 1 + 1))) (List.range' 2 m) =
          List.map q.arr (List.range' 2 m) := by
        apply List.map_congr_left
        intro k hk
        have := List.mem_range'_1.mp hk
        rw [Function.update_noteq (by omega)]
      rw [e3]
      exact List.perm_append_singleton _ _

/-- What `insert` establishes when no handle is above `n`. -/
theorem insert_spec (key : T → κ) {q : priqueue T} (t : T) (ho : q.heapOrdered key)
    (hx : q.handlesExact) (hb : q.handlesBounded) :
    (insert key q t).heapOrdered key ∧ (insert key q t).handlesExact ∧
    (insert key q t).handlesBounded ∧ (insert key q t).n = q.n + 1 ∧
    (insert key q t).slots.Perm (q.slots ++ [⟨t, q.n + 1⟩]) := by
  obtain ⟨h1, h2⟩ := load_spec t hx hb
  have hu : upReady key (q.load t) (q.n + 1) := by
    constructor
    · intro j hj hjn hne
      rw [load_n] at hjn
      have a1 : j ≠ q.n + 1 := hne
      have a2 : j / 2 ≠ q.n + 1 := by omega
      simp only [load, Function.update_noteq a1, Function.update_noteq a2]
      exact ho j hj (by omega)
    · intro c _ hcn hc
      rw [load_n] at hcn
      omega
  obtain ⟨r1, r2, r3, r4, _⟩ := siftupLoop_spec key (q.n + 1) (q.load t) (q.n + 1)
    (le_refl _) (by rw [load_n]) h1 hu
  unfold insert siftup
  refine ⟨r1, r2, h2.of_perm r4 r3, by rw [r3, load_n], ?_⟩
  rw [← slots_load]
  exact r4

theorem drain_spec (key : T → κ) :
    ∀ (fuel : Nat) (q : priqueue T), q.n ≤ fuel → q.heapOrdered key → q.handlesExact →
      (drain key fuel q).Perm q.elems ∧
      (drain key fuel q).Pairwise (fun a b => key a ≤ key b)
  | 0, q, hf, _, _ => by
    have : q.n = 0 := by omega
    simp [drain, elems, slots_zero this]
  | fuel + 1, q, hf, ho, hx => by
    unfold drain
    by_cases h0 : q.n = 0
    · simp [empty, h0, elems, slots_zero h0]
    · have he : q.empty = false := by simp [empty, h0]
      rw [he]
      simp only [Bool.false_eq_true, if_false]
      obtain ⟨p1, p2, p3, p4, p5, p6⟩ := popmin_spec key ho hx (by omega)
      obtain ⟨d1, d2⟩ := drain_spec key fuel (popmin key q).2 (by rw [p5]; omega) p3 p4
      have hperm : ((popmin key q).1 :: (popmin key q).2.elems).Perm q.elems := by
        have := (p6.map fun e => e.x).symm
        rw [List.map_cons, ← p1] at this
        exact this
      refine ⟨(List.Perm.cons _ d1).trans hperm, List.pairwise_cons.mpr ⟨?_, d2⟩⟩
      intro b hb
      have hb1 : b ∈ (popmin key q).2.elems := d1.subset hb
      have hb2 : b ∈ q.elems := hperm.subset (List.mem_cons_of_mem _ hb1)
      obtain ⟨e, he, rfl⟩ := List.mem_map.mp hb2
      exact p2 e he

theorem foldl_insert_spec (key : T → κ) :
    ∀ (xs : List T) (q : priqueue T), q.heapOrdered key → q.handlesExact → q.handlesBounded →
      (xs.foldl (insert key) q).heapOrdered key ∧ (xs.foldl (insert key) q).handlesExact ∧
      (xs.foldl (insert key) q).n = q.n + xs.length ∧
      (xs.foldl (insert key) q).elems.Perm (q.elems ++ xs)
  | [], q, ho, hx, _ => ⟨ho, hx, rfl, by simp⟩
  | x :: xs, q, ho, hx, hb => by
    obtain ⟨h1, h2, h3, h4, h5⟩ := insert_spec key x ho hx hb
    obtain ⟨r1, r2, r3, r4⟩ := foldl_insert_spec key xs _ h1 h2 h3
    simp only [List.foldl_cons]
    refine ⟨r1, r2, by rw [r3, h4, List.length_cons]; omega, r4.trans ?_⟩
    have : (insert key q x).elems.Perm (q.elems ++ [x]) := by
      have := h5.map fun e => e.x
      simpa [elems] using this
    refine (List.Perm.append_right xs this).trans ?_
    simp

theorem popN_spec (key : T → κ) :
    ∀ (k : Nat) (q : priqueue T), q.heapOrdered key → q.handlesExact → k ≤ q.n →
      (popN key k q).heapOrdered key ∧ (popN key k q).handlesExact ∧
      (popN key k q).n = q.n - k
  | 0, q, ho, hx, _ => ⟨ho, hx, rfl⟩
  | k + 1, q, ho, hx, hk => by
    obtain ⟨_, _, p3, p4, p5, _⟩ := popmin_spec key ho hx (by omega)
    obtain ⟨r1, r2, r3⟩ := popN_spec key k _ p3 p4 (by omega)
    exact ⟨r1, r2, by show (popN key k (popmin key q).2).n = _; rw [r3, p5]; omega⟩

/-- C8: a queue loaded with the elements `xs`, by `set_priqueue` or by
successive `insert` calls within capacity, returns under repeated `popmin`
until `empty()` every element of `xs` exactly once, in non-decreasing key
order; and after any number `k` of pops that leaves the queue non-empty, the
next `popmin` returns an element whose key is minimal among the elements still
in the queue. -/
theorem C8_popmin_returns_elements_in_key_order [Inhabited T] (key : T → κ)
    (q0 : priqueue T) (s : Nat) (xs : List T) (fuel : Nat)
    (hcap0 : xs.length ≤ q0.maxsize) (hcap : xs.length ≤ s) (hf : xs.length ≤ fuel) :
    ((drain key fuel (set_priqueue key q0 xs)).Perm xs ∧
      (drain key fuel (set_priqueue key q0 xs)).Pairwise (fun a b => key a ≤ key b)) ∧
    ((drain key fuel (xs.foldl (insert key) (new s))).Perm xs ∧
      (drain key fuel (xs.foldl (insert key) (new s))).Pairwise (fun a b => key a ≤ key b)) ∧
    (∀ k, k < xs.length →
      (∀ e ∈ (popN key k (set_priqueue key q0 xs)).elems,
        key (popmin key (popN key k (set_priqueue key q0 xs))).1 ≤ key e) ∧
      (∀ e ∈ (popN key k (xs.foldl (insert key) (new s))).elems,
        key (popmin key (popN key k (xs.foldl (insert key) (new s)))).1 ≤ key e)) := by
  obtain ⟨a1, a2, a3, a4⟩ := set_priqueue_spec key q0 xs
  have a5 : (set_priqueue key q0 xs).elems.Perm xs := by
    have := a4.map fun e => e.x
    rw [elems_zipWith] at this
    exact this
  have hnew : (new s : priqueue T).heapOrdered key ∧ (new s : priqueue T).handlesExact ∧
      (new s : priqueue T).handlesBounded := by
    refine ⟨?_, ?_, ?_⟩ <;> intro i h1 h2 <;> simp only [new] at h2 <;> omega
  obtain ⟨b1, b2, b3, b4⟩ := foldl_insert_spec key xs (new s) hnew.1 hnew.2.1 hnew.2.2
  have b5 : (xs.foldl (insert key) (new s)).elems.Perm xs := by
    have : (new s : priqueue T).elems = [] := by simp [elems, slots_zero (q := new s) rfl]
    rw [this] at b4
    simpa using b4
  have b3' : (xs.foldl (insert key) (new s)).n = xs.length := by
    rw [b3]; simp [new]
  obtain ⟨d1, d2⟩ := drain_spec key fuel _ (by rw [a3]; exact hf) a1 a2
  obtain ⟨d3, d4⟩ := drain_spec key fuel _ (by rw [b3']; exact hf) b1 b2
  refine ⟨⟨d1.trans a5, d2⟩, ⟨d3.trans b5, d4⟩, ?_⟩
  intro k hk
  constructor
  · obtain ⟨r1, r2, r3⟩ := popN_spec key k _ a1 a2 (by rw [a3]; omega)
    obtain ⟨_, p2, _⟩ := popmin_spec key r1 r2 (by rw [r3, a3]; omega)
    intro e he
    obtain ⟨e', he', rfl⟩ := List.mem_map.mp he
    exact p2 e' he'
  · obtain ⟨r1, r2, r3⟩ := popN_spec key k _ b1 b2 (by rw [b3']; omega)
    obtain ⟨_, p2, _⟩ := popmin_spec key r1 r2 (by rw [r3, b3']; omega)
    intro e he
    obtain ⟨e', he', rfl⟩ := List.mem_map.mp he
    exact p2 e' he'

/-- Witness of C8: the values 3, 1, 2 with themselves as keys, in a queue of
capacity 3. -/
theorem C8_popmin_returns_elements_in_key_order_witness :
    ([3, 1, 2] : List Int).length ≤ (new 3 : priqueue Int).maxsize ∧
    drain id 3 (set_priqueue id (new 3) ([3, 1, 2] : List Int)) = [1, 2, 3] ∧
    (drain id 3 (set_priqueue id (new 3) ([3, 1, 2] : List Int))).Pairwise
      (fun a b => id a ≤ id b) :=
  ⟨by decide, by decide,
    (C8_popmin_returns_elements_in_key_order id (new 3) 3 ([3, 1, 2] : List Int) 3
      (by decide) (by decide) (by decide)).1.2⟩

/-- What `update_dec_key(k)` achieves after the key of the element with handle
`k` went down. -/
theorem update_dec_key_spec (key key' : T → κ) (q : priqueue T) (k : Nat)
    (ho : q.heapOrdered key) (hx : q.handlesExact)
    (hk1 : 1 ≤ q.idx k) (hk2 : q.idx k ≤ q.n) (hk3 : (q.arr (q.idx k)).ridx = k)
    (hdec : key' (q.arr (q.idx k)).x ≤ key (q.arr (q.idx k)).x)
    (hsame : ∀ j, 1 ≤ j → j ≤ q.n → j ≠ q.idx k → key' (q.arr j).x = key (q.arr j).x) :
    (update_dec_key key' q k).heapOrdered key' ∧ (update_dec_key key' q k).handlesExact ∧
    (update_dec_key key' q k).n = q.n ∧ (update_dec_key key' q k).slots.Perm q.slots ∧
    (update_dec_key key' q k).idx k ≤ q.idx k ∧
    (update_dec_key key' q k).arr ((update_dec_key key' q k).idx k) = q.arr (q.idx k) := by
  have hu : upReady key' q (q.idx k) := by
    constructor
    · intro j hj hjn hne
      rw [hsame j (by omega) hjn hne]
      by_cases e : j / 2 = q.idx k
      · rw [e]
        have := ho j hj hjn
        rw [e] at this
        exact le_trans hdec this
      · rw [hsame (j / 2) (by omega) (by omega) e]
        exact ho j hj hjn
    · intro c h2 hcn hc
      rw [hsame c (by omega) hcn (by omega), hsame (q.idx k / 2) (by omega) (by omega) (by omega)]
      have h1 := ho c (by omega) hcn
      rw [hc] at h1
      exact le_trans (ho (q.idx k) h2 hk2) h1
  obtain ⟨r1, r2, r3, r4, r5⟩ := siftupLoop_spec key' (q.idx k) q (q.idx k) (le_refl _) hk2 hx hu
  have r6 := r5 hk1
  rw [hk3] at r6
  exact ⟨r1, r2, r3, r4, r6.1, r6.2⟩

/-- C10: on a queue in min-heap order with an exact handle table, once the key
of the element with the live handle `k` has been decreased (`key'` is the
ordering afterwards: smaller or equal on that element, unchanged on every
other stored element), `update_dec_key(k)` leaves the array in min-heap order
for the new keys, the handle table exact, the count and the multiset of stored
elements unchanged, and the addressed element in a slot whose index did not
increase, still located by its handle. -/
theorem C10_update_dec_key_restores_heap_order (key key' : T → κ) (q : priqueue T) (k : Nat)
    (ho : q.heapOrdered key) (hx : q.handlesExact)
    (hk1 : 1 ≤ q.idx k) (hk2 : q.idx k ≤ q.n) (hk3 : (q.arr (q.idx k)).ridx = k)
    (hdec : key' (q.arr (q.idx k)).x ≤ key (q.arr (q.idx k)).x)
    (hsame : ∀ j, 1 ≤ j → j ≤ q.n → j ≠ q.idx k → key' (q.arr j).x = key (q.arr j).x) :
    (update_dec_key key' q k).heapOrdered key' ∧ (update_dec_key key' q k).handlesExact ∧
    (update_dec_key key' q k).n = q.n ∧ (update_dec_key key' q k).elems.Perm q.elems ∧
    (update_dec_key key' q k).idx k ≤ q.idx k ∧
    (update_dec_key key' q k).arr ((update_dec_key key' q k).idx k) = q.arr (q.idx k) := by
  obtain ⟨r1, r2, r3, r4, r5, r6⟩ :=
    update_dec_key_spec key key' q k ho hx hk1 hk2 hk3 hdec hsame
  exact ⟨r1, r2, r3, r4.map _, r5, r6⟩

/-- Witness of C10: the queue loaded with 1, 2, 3 (keys are the values), where
the key of the element 3, whose handle is 3, drops to 0. -/
theorem C10_update_dec_key_restores_heap_order_witness :
    (update_dec_key (fun v : Int => if v = 3 then 0 else v)
      (set_priqueue id (new 3) ([1, 2, 3] : List Int)) 3).heapOrdered
        (fun v : Int => if v = 3 then 0 else v) ∧
    (update_dec_key (fun v : Int => if v = 3 then 0 else v)
      (set_priqueue id (new 3) ([1, 2, 3] : List Int)) 3).idx 3 ≤
        (set_priqueue id (new 3) ([1, 2, 3] : List Int)).idx 3 :=
  have h := C10_update_dec_key_restores_heap_order id (fun v : Int => if v = 3 then 0 else v)
    (set_priqueue id (new 3) ([1, 2, 3] : List Int)) 3
    (set_priqueue_spec id _ _).1 (set_priqueue_spec id _ _).2.1
    (by decide) (by decide) (by decide) (by decide)
    (fun j h1 h2 h3 => by
      have hn : (set_priqueue id (new 3) ([1, 2, 3] : List Int)).n = 3 := by decide
      rw [hn] at h2
      have hi : (set_priqueue id (new 3) ([1, 2, 3] : List Int)).idx 3 = 3 := by decide
      rw [hi] at h3
      have : j = 1 ∨ j = 2 := by omega
      rcases this with e | e <;> subst e <;> decide)
  ⟨h.1, h.2.2.2.2.1⟩

end priqueue

end Hungarian

namespace Hungarian

namespace BiDigraph

theorem pairs_length (g : Digraph) :
    ∀ (ys : List Nat) (ps : List (Nat × Nat)), pairs g ys = .ok ps → ps.length = ys.length
  | [], ps, h => by
    simp only [pairs] at h
    cases h
    rfl
  | v :: vs, ps, h => by
    simp only [pairs] at h
    cases hb : indexedList.begin_first g.store v with
    | none => rw [hb] at h; cases h
    | some p =>
      rw [hb] at h
      simp only at h
      cases hr : pairs g vs with
      | error f => rw [hr] at h; cases h
      | ok qs =>
        rw [hr] at h
        simp only at h
        cases h
        simp [pairs_length g vs qs hr]

theorem print_mapping_length {b : BiDigraph} {r : Int × List (Nat × Nat)}
    (h : b.print_mapping = .ok r) : r.2.length = b.y.length := by
  unfold print_mapping at h
  cases ht : totalCost b.toDigraph b.y 0 with
  | error f => rw [ht] at h; cases h
  | ok tc =>
    rw [ht] at h
    simp only at h
    cases hp : pairs b.toDigraph b.y with
    | error f => rw [hp] at h; cases h
    | ok ps =>
      rw [hp] at h
      simp only at h
      cases h
      exact pairs_length _ _ _ hp

theorem initiate_y {addr : Nat → Nat} {b b1 : BiDigraph}
    (h : initiate_node_prices addr b = .ok b1) :
    b1.y = b.y ∧ b1.x = b.x ∧ b1.s = b.s ∧ b1.t = b.t := by
  unfold initiate_node_prices at h
  cases hs : b.s with
  | none => rw [hs] at h; cases h
  | some s =>
    cases ht : b.t with
    | none => rw [hs, ht] at h; cases h
    | some t =>
      rw [hs, ht] at h
      simp only at h
      split at h
      · cases h
      · cases h
        simp [withGraph, hs, ht]

theorem augment_y {b b1 : BiDigraph} (h : augment_spath b = .ok b1) :
    b1.y = b.y ∧ b1.x = b.x ∧ b1.s = b.s ∧ b1.t = b.t := by
  unfold augment_spath at h
  cases hs : b.s with
  | none => rw [hs] at h; cases h
  | some s =>
    cases ht : b.t with
    | none => rw [hs, ht] at h; cases h
    | some t =>
      rw [hs, ht] at h
      simp only at h
      repeat' (split at h <;> try cases h)
      simp [withGraph, hs, ht]

theorem round_y {b b1 : BiDigraph} (h : round b = .ok b1) :
    b1.y = b.y ∧ b1.x = b.x ∧ b1.s = b.s ∧ b1.t = b.t := by
  unfold round at h
  cases hs : b.s with
  | none => rw [hs] at h; cases h
  | some s =>
    rw [hs] at h
    simp only at h
    cases hd : b.toDigraph.dijkstra_spath s with
    | error f => rw [hd] at h; cases h
    | ok g1 =>
      rw [hd] at h
      simp only at h
      cases ha : augment_spath (b.withGraph g1) with
      | error f => rw [ha] at h; cases h
      | ok b2 =>
        rw [ha] at h
        simp only at h
        cases h
        have := augment_y ha
        simp only [reduce_node_prices, withGraph] at this ⊢
        simp [this, hs]

theorem rounds_y :
    ∀ (k : Nat) (b b1 : BiDigraph), rounds k b = .ok b1 →
      b1.y = b.y ∧ b1.x = b.x ∧ b1.s = b.s ∧ b1.t = b.t
  | 0, b, b1, h => by
    simp only [rounds] at h
    cases h
    exact ⟨rfl, rfl, rfl, rfl⟩
  | k + 1, b, b1, h => by
    simp only [rounds] at h
    cases hr : round b with
    | error f => rw [hr] at h; cases h
    | ok b2 =>
      rw [hr] at h
      simp only at h
      have h1 := round_y hr
      have h2 := rounds_y k b2 b1 h
      exact ⟨h2.1.trans h1.1, h2.2.1.trans h1.2.1, h2.2.2.1.trans h1.2.2.1,
        h2.2.2.2.trans h1.2.2.2⟩

theorem setSP_store (g : Digraph) (v : Nat) (sp : SP) : (g.setSP v sp).store = g.store := rfl

theorem zeroPrices_store : ∀ (vs : List Nat) (g : Digraph), (zeroPrices g vs).store = g.store
  | [], _ => rfl
  | v :: vs, g => by
    simp only [zeroPrices]
    rw [zeroPrices_store vs]
    rfl

theorem minPrices_empty_in (addr : Nat → Nat) :
    ∀ (ns : List Nat) (g : Digraph),
      (∃ n ∈ ns, indexedList.begin_second g.store n = none) →
      ∃ f, minPrices addr g ns = .error f
  | [], g, h => by
    obtain ⟨n, hn, _⟩ := h
    simp at hn
  | n :: ns, g, h => by
    simp only [minPrices]
    cases hm : min_in_edge addr g n with
    | error f => exact ⟨f, rfl⟩
    | ok e =>
      simp only
      apply minPrices_empty_in addr ns
      obtain ⟨k, hk, hk2⟩ := h
      rcases List.mem_cons.mp hk with e1 | e1
      · subst e1
        unfold min_in_edge at hm
        rw [hk2] at hm
        cases hm
      · exact ⟨k, e1, by rw [setSP_store]; exact hk2⟩

end BiDigraph

set_option maxRecDepth 1000000 in
/-- C1, evaluated on a complete 3 by 3 instance: exhaustive permutation search
finds an assignment of total cost 0, while the program, with edge objects at
increasing addresses, prints the total 1 and the pairs (1,1), (2,2), (3,3). -/
theorem C1_total_not_minimal :
    solve id [(1,1,0),(1,2,0),(1,3,2),(2,1,0),(2,2,0),(2,3,0),(3,1,0),(3,2,0),(3,3,1)]
      = .ok (1, [(1,1),(2,2),(3,3)]) ∧
    bruteForceMin [(1,1,0),(1,2,0),(1,3,2),(2,1,0),(2,2,0),(2,3,0),(3,1,0),(3,2,0),(3,3,1)]
      [1, 2, 3] [1, 2, 3] = some 0 := by
  constructor
  · decide!
  · decide!

set_option maxRecDepth 1000000 in
/-- C4 fails as stated: on its witness, X = {1}, Y = {1, 2} with the edges
(1,1) of cost 3 and (1,2) of cost 5, which has no perfect matching, the
program reports no failure but returns the total 3 and the pairs (1,1) and
(0,2). -/
theorem C4_infeasible_instance_returns_a_result :
    solve id [(1,1,3),(1,2,5)] = .ok (3, [(1,1),(0,2)]) := by
  decide!

end Hungarian

namespace Hungarian

namespace priqueue

/-- C9, evaluated on its witness sequence insert 1, insert 2, popmin, insert 3:
afterwards slot 1 holds the value 2 with handle 2 and slot 2 holds the value 3
with the same handle 2, and the handle table sends 2 to slot 2, so the live
value in slot 1 is not located by its handle. -/
theorem C9_insert_after_popmin_reuses_live_handle :
    (insert id (popmin id (insert id (insert id (new 4) (1 : Int)) 2)).2 3).n = 2 ∧
    ((insert id (popmin id (insert id (insert id (new 4) (1 : Int)) 2)).2 3).arr 1).x = 2 ∧
    ((insert id (popmin id (insert id (insert id (new 4) (1 : Int)) 2)).2 3).arr 1).ridx = 2 ∧
    ((insert id (popmin id (insert id (insert id (new 4) (1 : Int)) 2)).2 3).arr 2).x = 3 ∧
    ((insert id (popmin id (insert id (insert id (new 4) (1 : Int)) 2)).2 3).arr 2).ridx = 2 ∧
    (insert id (popmin id (insert id (insert id (new 4) (1 : Int)) 2)).2 3).idx 2 = 2 := by
  decide

end priqueue

end Hungarian

namespace Hungarian

theorem wrap_eq {v : Int} (h1 : -2147483648 ≤ v) (h2 : v < 2147483648) : wrap v = v := by
  unfold wrap
  omega

namespace Digraph

@[simp] theorem setSP_edge (g : Digraph) (v : Nat) (sp : SP) : (g.setSP v sp).edge = g.edge := rfl
@[simp] theorem setSP_store_eq (g : Digraph) (v : Nat) (sp : SP) :
    (g.setSP v sp).store = g.store := rfl
@[simp] theorem setSP_nnodes (g : Digraph) (v : Nat) (sp : SP) :
    (g.setSP v sp).nnodes = g.nnodes := rfl
@[simp] theorem setSP_nedges (g : Digraph) (v : Nat) (sp : SP) :
    (g.setSP v sp).nedges = g.nedges := rfl
@[simp] theorem setSP_sp_same (g : Digraph) (v : Nat) (sp : SP) :
    ((g.setSP v sp).node v).sp = sp := by
  simp [setSP]
@[simp] theorem setSP_name (g : Digraph) (v w : Nat) (sp : SP) :
    ((g.setSP v sp).node w).name = (g.node w).name := by
  by_cases h : w = v
  · subst h; simp [setSP]
  · simp [setSP, Function.update_noteq h]
theorem setSP_node_ne (g : Digraph) {v w : Nat} (sp : SP) (h : w ≠ v) :
    (g.setSP v sp).node w = g.node w := by
  simp [setSP, Function.update_noteq h]

theorem initNodes_spec :
    ∀ (k v0 : Nat) (g : Digraph),
      (initNodes g k v0).edge = g.edge ∧ (initNodes g k v0).store = g.store ∧
      (initNodes g k v0).nnodes = g.nnodes ∧ (initNodes g k v0).nedges = g.nedges ∧
      (∀ w, ((initNodes g k v0).node w).name = (g.node w).name) ∧
      (∀ w, ((initNodes g k v0).node w).sp.price = (g.node w).sp.price) ∧
      (∀ w, v0 ≤ w → w < v0 + k →
        ((initNodes g k v0).node w).sp.dist = INF ∧
        ((initNodes g k v0).node w).sp.done = false ∧
        ((initNodes g k v0).node w).sp.prev = none ∧
        ((initNodes g k v0).node w).sp.key = w + 1)
  | 0, v0, g => by
    refine ⟨rfl, rfl, rfl, rfl, fun _ => rfl, fun _ => rfl, ?_⟩
    intro w h1 h2
    omega
  | k + 1, v0, g => by
    obtain ⟨h1, h2, h3, h4, h5, h6, h7⟩ :=
      initNodes_spec k (v0 + 1) (g.setSP v0 { (g.node v0).sp.reset with key := v0 + 1 })
    simp only [initNodes]
    refine ⟨h1, h2, h3, h4, ?_, ?_, ?_⟩
    · intro w; rw [h5, setSP_name]
    · intro w
      rw [h6]
      by_cases e : w = v0
      · subst e; simp [SP.reset]
      · rw [setSP_node_ne _ _ e]
    · intro w hw1 hw2
      by_cases e : w = v0
      · subst e
        have key : ∀ (k' v' : Nat) (g' : Digraph), w < v' →
            (initNodes g' k' v').node w = g'.node w := by
          intro k'
          induction k' with
          | zero => intro v' g' _; rfl
          | succ k' ih =>
            intro v' g' hv
            simp only [initNodes]
            rw [ih (v' + 1) _ (by omega), setSP_node_ne _ _ (by omega)]
        rw [key k (w + 1) _ (by omega)]
        simp [SP.reset]
      · exact h7 w (by omega) (by omega)

theorem zipWith_range_succ (a n : Nat) :
    List.zipWith arrType.mk (List.range' a n) (List.range' (a + 1) n) =
      (List.range' a n).map fun v => (⟨v, v + 1⟩ : arrType Nat) := by
  induction n generalizing a with
  | zero => rfl
  | succ n ih =>
    rw [List.range'_succ, List.range'_succ, List.zipWith_cons_cons, List.map_cons, ih (a + 1)]

theorem distKey_setSP_done (g : Digraph) (u : Nat) :
    (g.setSP u { (g.node u).sp with done := true }).distKey = g.distKey := by
  funext v
  unfold distKey
  by_cases h : v = u
  · subst h; simp
  · rw [setSP_node_ne _ _ h]

theorem set_priqueue_range_spec {κ : Type} [LinearOrder κ] (key : Nat → κ) (q0 : priqueue Nat)
    (N : Nat) :
    (priqueue.set_priqueue key q0 (List.range N)).heapOrdered key ∧
    (priqueue.set_priqueue key q0 (List.range N)).handlesExact ∧
    (priqueue.set_priqueue key q0 (List.range N)).n = N ∧
    (∀ e ∈ (priqueue.set_priqueue key q0 (List.range N)).slots, e.ridx = e.x + 1 ∧ e.x < N) ∧
    (priqueue.set_priqueue key q0 (List.range N)).elems.Nodup ∧
    (∀ v, v ∈ (priqueue.set_priqueue key q0 (List.range N)).elems ↔ v < N) := by
  obtain ⟨q1, q2, q3, q4⟩ := priqueue.set_priqueue_spec key q0 (List.range N)
  have q5 : (priqueue.set_priqueue key q0 (List.range N)).slots.Perm
      ((List.range' 0 N).map fun v => (⟨v, v + 1⟩ : arrType Nat)) := by
    have e : List.zipWith arrType.mk (List.range N) (List.range' 1 (List.range N).length) =
        (List.range' 0 N).map fun v => (⟨v, v + 1⟩ : arrType Nat) := by
      rw [List.length_range, List.range_eq_range', zipWith_range_succ]
    rw [← e]
    exact q4
  have q6 : (priqueue.set_priqueue key q0 (List.range N)).elems.Perm (List.range' 0 N) := by
    have := q5.map fun e => e.x
    rw [List.map_map] at this
    have e : ((fun e : arrType Nat => e.x) ∘ fun v => (⟨v, v + 1⟩ : arrType Nat)) = id := rfl
    rw [e, List.map_id] at this
    exact this
  refine ⟨q1, q2, by rw [q3, List.length_range], ?_, ?_, ?_⟩
  · intro e he
    have := q5.subset he
    simp only [List.mem_map, List.mem_range'_1] at this
    obtain ⟨v, hv, rfl⟩ := this
    refine ⟨rfl, ?_⟩
    show v < N
    omega
  · rw [q6.nodup_iff]
    exact List.nodup_range' _ _
  · intro v
    rw [q6.mem_iff, List.mem_range'_1]
    omega

/-- The state in which the `while` loop of `dijkstra_spath` is entered. -/
theorem DInv.init {g0 g1 : Digraph} {L : Ptr → List Ptr} {s N : Nat} {C P : Int}
    (h : DijkReady g0 L s N C P) (rank : Nat → Nat) (u : Nat)
    (hg1 : g1 = initNodes g0 g0.nnodes 0) (q0 : priqueue Nat) :
    DInv g0 (g1.setSP s { (g1.node s).sp with dist := 0 })
      (priqueue.set_priqueue (g1.setSP s { (g1.node s).sp with dist := 0 }).distKey q0
        (List.range N))
      L s N C 0 rank u [] := by
  obtain ⟨i1, i2, i3, i4, i5, i6, i7⟩ := initNodes_spec g0.nnodes 0 g0
  rw [← hg1] at i1 i2 i3 i4 i5 i6 i7
  obtain ⟨q1, q2, q3, q4, q5, q6⟩ := set_priqueue_range_spec
    (g1.setSP s { (g1.node s).sp with dist := 0 }).distKey q0 N
  have hN := h.nn
  have hsp : ∀ w, w < N →
      ((g1.setSP s { (g1.node s).sp with dist := 0 }).node w).sp.done = false ∧
      ((g1.setSP s { (g1.node s).sp with dist := 0 }).node w).sp.prev = none ∧
      ((g1.setSP s { (g1.node s).sp with dist := 0 }).node w).sp.key = w + 1 ∧
      (w ≠ s → ((g1.setSP s { (g1.node s).sp with dist := 0 }).node w).sp.dist = INF) := by
    intro w hw
    have := i7 w (Nat.zero_le _) (by omega)
    by_cases e : w = s
    · subst e
      simp [this]
    · rw [setSP_node_ne _ _ e]
      exact ⟨this.2.1, this.2.2.1, this.2.2.2, fun _ => this.1⟩
  constructor
  · rw [setSP_store_eq, i2]
  · rw [setSP_edge, i1]
  · rw [setSP_nnodes, i3]
  · rw [setSP_nedges, i4]
  · intro v
    rw [← i6 v]
    by_cases e : v = s
    · subst e; simp
    · rw [setSP_node_ne _ _ e]
  · intro v; rw [setSP_name, i5]
  · intro v hv; exact (hsp v hv).2.2.1
  · exact q1
  · exact q2
  · rw [q3]; omega
  · exact q4
  · exact q5
  · intro v hv
    rw [q6 v]
    simp [hv, (hsp v hv).1]
  · intro v hv hd
    rw [(hsp v hv).1] at hd
    cases hd
  · intro v hv e he
    rw [(hsp v hv).2.1] at he
    cases he
  · intro v hv hvs _
    exact (hsp v hv).2.2.2 hvs
  · constructor
    · simp
    · exact (hsp s h.sN).2.1
  · intro v hv hr
    rcases hr with hr | hr
    · exact absurd (hsp v hv).2.1 hr
    · subst hr
      have : ((g1.setSP v { (g1.node v).sp with dist := 0 }).node v).sp.price = 0 := by
        simp [i6, h.sprice]
      rw [this]
      simp
  · intro v hv hd
    rw [(hsp v hv).1] at hd
    cases hd
  · intro w hw hd
    rw [(hsp w hw).1] at hd
    cases hd
  · intro hk
    omega

theorem setSP_done_node (g : Digraph) (u v : Nat) :
    ((g.setSP u { (g.node u).sp with done := true }).node v).sp.price = (g.node v).sp.price ∧
    ((g.setSP u { (g.node u).sp with done := true }).node v).sp.dist = (g.node v).sp.dist ∧
    ((g.setSP u { (g.node u).sp with done := true }).node v).sp.prev = (g.node v).sp.prev ∧
    ((g.setSP u { (g.node u).sp with done := true }).node v).sp.key = (g.node v).sp.key ∧
    ((g.setSP u { (g.node u).sp with done := true }).node v).sp.done =
      (if v = u then true else (g.node v).sp.done) := by
  by_cases h : v = u
  · subst h; simp
  · rw [setSP_node_ne _ _ h]; simp [h]

theorem mul_le_of_le {k N : Nat} {C : Int} (h : k ≤ N) (hC : 0 ≤ C) : (k : Int) * C ≤ (N : Int) * C :=
  mul_le_mul_of_nonneg_right (by exact_mod_cast h) hC

/-- A node that has been reached carries a distance below `INF`. -/
theorem DInv.reached_lt {g0 g : Digraph} {q : priqueue Nat} {L : Ptr → List Ptr} {s N : Nat}
    {C P : Int} {k : Nat} {rank : Nat → Nat} {u : Nat} {rem : List Ptr}
    (h0 : DijkReady g0 L s N C P) (h : DInv g0 g q L s N C k rank u rem) {v : Nat} (hv : v < N)
    (hr : (g.node v).sp.prev ≠ none ∨ v = s) : (g.node v).sp.dist < INF := by
  have h1 := h.bound v hv hr
  have h2 := h0.price v hv
  rw [← h.price v] at h2
  have h3 : (k : Int) * C ≤ (N : Int) * C := mul_le_of_le (by have := h.qn; omega) h0.cpos
  have h4 := h0.small
  have h5 := h0.cpos
  rw [abs_le] at h1 h2
  unfold INF
  omega

/-- The node that `popmin` returns has been reached. -/
theorem DInv.pop_reached {g0 g : Digraph} {q : priqueue Nat} {L : Ptr → List Ptr} {s N : Nat}
    {C P : Int} {k : Nat} {rank : Nat → Nat} {u0 u : Nat}
    (h0 : DijkReady g0 L s N C P) (h : DInv g0 g q L s N C k rank u0 [])
    (hu : u < N) (hud : (g.node u).sp.done = false)
    (hmin : ∀ v, v < N → (g.node v).sp.done = false → (g.node u).sp.dist ≤ (g.node v).sp.dist) :
    (g.node u).sp.prev ≠ none ∨ u = s := by
  by_contra hc
  rw [not_or, not_not] at hc
  have hinf : (g.node u).sp.dist = INF := h.unreached u hu hc.2 hc.1
  have hnd : ∀ v, v < N → ((g.node v).sp.prev ≠ none ∨ v = s) → (g.node v).sp.done = true := by
    intro v hv hr
    by_contra hd
    have hd' : (g.node v).sp.done = false := by simpa using hd
    have h1 := hmin v hv hd'
    have h2 := h.reached_lt h0 hv hr
    rw [hinf] at h1
    omega
  have hall := h0.conn (fun v => (g.node v).sp.done = true) (hnd s h0.sN (Or.inr rfl)) (by
    intro w hw hwd c hc' ht
    have hcov := h.covered w hw hwd c hc' (fun _ => List.not_mem_nil c)
      (by rw [h.edge, h.store]; exact ht)
    rw [h.edge, h.store] at hcov
    have hlt := (h0.ends w hw c hc').2
    exact hnd _ hlt hcov) u hu
  have hall' : (g.node u).sp.done = true := hall
  rw [hud] at hall'
  cases hall'

theorem elems_perm_of_slots {T : Type} {q q' : priqueue T} (h : q'.slots.Perm q.slots) :
    q'.elems.Perm q.elems :=
  h.map _

theorem mem_elems {T : Type} {q : priqueue T} {v : T} :
    v ∈ q.elems ↔ ∃ i, 1 ≤ i ∧ i ≤ q.n ∧ (q.arr i).x = v := by
  unfold priqueue.elems
  simp only [List.mem_map, priqueue.mem_slots]
  constructor
  · rintro ⟨e, ⟨i, h1, h2, rfl⟩, rfl⟩; exact ⟨i, h1, h2, rfl⟩
  · rintro ⟨i, h1, h2, rfl⟩; exact ⟨_, ⟨i, h1, h2, rfl⟩, rfl⟩

/-- The effect of one `popmin` and `done=true` on the loop invariant: the
popped node `u` was reached, and the invariant holds with the whole out-list of
`u` still to be visited. -/
theorem DInv.pop {g0 g : Digraph} {q : priqueue Nat} {L : Ptr → List Ptr} {s N : Nat}
    {C P : Int} {k : Nat} {rank : Nat → Nat} {u0 u : Nat}
    (h0 : DijkReady g0 L s N C P) (h : DInv g0 g q L s N C k rank u0 []) (hn : 1 ≤ q.n)
    (hu : u = (q.popmin g.distKey).1) :
    u < N ∧ |(g.node u).sp.dist + (g.node u).sp.price| ≤ (k : Int) * C ∧
    DInv g0 (g.setSP u { (g.node u).sp with done := true }) (q.popmin g.distKey).2 L s N C
      (k + 1) (Function.update rank u k) u (L (Ptr.first u)) := by
  obtain ⟨p1, p2, p3, p4, p5, p6⟩ := priqueue.popmin_spec g.distKey h.qord h.qex hn
  rw [← hu] at p1 p2
  have hs1 : q.arr 1 ∈ q.slots := priqueue.mem_slots.mpr ⟨1, le_refl _, hn, rfl⟩
  have huN : u < N := by rw [p1]; exact (h.qslots _ hs1).2
  have hel : q.elems.Perm (u :: (q.popmin g.distKey).2.elems) := by
    have := p6.map fun e => e.x
    rw [List.map_cons, ← p1] at this
    exact this
  have hue : u ∈ q.elems := hel.mem_iff.mpr (List.mem_cons_self _ _)
  have hud : (g.node u).sp.done = false := (h.qmem u huN).mp hue
  have hnd := (hel.nodup_iff.mp h.qnodup)
  have hun : u ∉ (q.popmin g.distKey).2.elems := (List.nodup_cons.mp hnd).1
  have hmin : ∀ v, v < N → (g.node v).sp.done = false →
      (g.node u).sp.dist ≤ (g.node v).sp.dist := by
    intro v hv hd
    have hv' := (h.qmem v hv).mpr hd
    unfold priqueue.elems at hv'
    obtain ⟨e, he, rfl⟩ := List.mem_map.mp hv'
    exact p2 e he
  have hre := h.pop_reached h0 huN hud hmin
  have hC := h0.cpos
  refine ⟨huN, h.bound u huN hre, ?_⟩
  have F := setSP_done_node g u
  constructor
  · rw [setSP_store_eq]; exact h.store
  · rw [setSP_edge]; exact h.edge
  · rw [setSP_nnodes]; exact h.nnodes
  · rw [setSP_nedges]; exact h.nedges
  · intro v; rw [(F v).1]; exact h.price v
  · intro v; rw [setSP_name]; exact h.name v
  · intro v hv; rw [(F v).2.2.2.1]; exact h.key v hv
  · rw [distKey_setSP_done]; exact p3
  · exact p4
  · rw [p5]; have := h.qn; omega
  · intro e he
    exact h.qslots e (p6.mem_iff.mpr (List.mem_cons_of_mem _ he))
  · exact (List.nodup_cons.mp hnd).2
  · intro v hv
    rw [(F v).2.2.2.2]
    by_cases e : v = u
    · subst e; simp [hun]
    · rw [if_neg e, ← h.qmem v hv, hel.mem_iff]
      simp [e]
  · intro v hv hd
    rw [(F v).2.2.2.2] at hd
    by_cases e : v = u
    · subst e; simp
    · rw [if_neg e] at hd
      rw [Function.update_noteq e]
      have := h.rdone v hv hd
      omega
  · intro v hv e he
    rw [(F v).2.2.1] at he
    obtain ⟨a1, a2, a3, a4, a5, a6⟩ := h.prevok v hv e he
    rw [setSP_edge, setSP_store_eq]
    have htu : (g.edge e).tail ≠ u := by
      intro e'; rw [e', hud] at a3; cases a3
    refine ⟨a1, a2, ?_, ?_, a5, a6⟩
    · rw [(F _).2.2.2.2]; simp [a3]
    · rw [(F v).2.2.2.2, Function.update_noteq htu]
      have hr := h.rdone _ a2 a3
      by_cases e' : v = u
      · subst e'; simp; exact hr
      · rw [if_neg e', Function.update_noteq e']
        exact a4
  · intro v hv hvs hp
    rw [(F v).2.2.1] at hp
    rw [(F v).2.1]
    exact h.unreached v hv hvs hp
  · rw [(F s).2.1, (F s).2.2.1]; exact h.sdist
  · intro v hv hr
    rw [(F v).2.2.1] at hr
    rw [(F v).2.1, (F v).1]
    have := h.bound v hv hr
    have h2 : (k : Int) * C ≤ ((k + 1 : Nat) : Int) * C := mul_le_of_le (Nat.le_succ k) hC
    exact le_trans this h2
  · intro v hv hd
    rw [(F v).2.2.2.2] at hd
    rw [(F v).2.2.1]
    by_cases e : v = u
    · subst e; exact hre
    · rw [if_neg e] at hd
      exact h.done_reached v hv hd
  · intro w hw hd c hc hrem ht
    rw [(F w).2.2.2.2] at hd
    rw [setSP_edge, setSP_store_eq] at ht ⊢
    rw [(F _).2.2.1]
    by_cases e : w = u
    · subst e; exact absurd hc (hrem rfl)
    · rw [if_neg e] at hd
      exact h.covered w hw hd c hc (fun _ => List.not_mem_nil c) ht
  · intro _
    rw [(F s).2.2.2.2]
    by_cases e : s = u
    · simp [e]
    · rw [if_neg e]
      by_cases hk : 1 ≤ k
      · exact h.sdone hk
      · exfalso
        have hk0 : k = 0 := by omega
        rcases hre with hp | hus
        · obtain ⟨w, hw⟩ := Option.ne_none_iff_exists.mp hp
          obtain ⟨_, a2, a3, _⟩ := h.prevok u huN w hw.symm
          have := h.rdone _ a2 a3
          omega
        · exact e hus.symm

/-- What `relax_red` changes: nothing but `dist` and `prev` of the head of the
edge, and these only when the new distance is not larger. -/
theorem relax_red_spec (g : Digraph) (e : Nat) :
    (g.relax_red e).store = g.store ∧ (g.relax_red e).edge = g.edge ∧
    (g.relax_red e).nnodes = g.nnodes ∧ (g.relax_red e).nedges = g.nedges ∧
    (∀ v, ((g.relax_red e).node v).name = (g.node v).name ∧
      ((g.relax_red e).node v).sp.price = (g.node v).sp.price ∧
      ((g.relax_red e).node v).sp.done = (g.node v).sp.done ∧
      ((g.relax_red e).node v).sp.key = (g.node v).sp.key) ∧
    (∀ v, v ≠ (g.edge e).head → ((g.relax_red e).node v).sp = (g.node v).sp) ∧
    ((wrap ((g.node (g.edge e).tail).sp.dist + g.get_red_cost e) ≤
        (g.node (g.edge e).head).sp.dist ∧
      ((g.relax_red e).node (g.edge e).head).sp.dist =
        wrap ((g.node (g.edge e).tail).sp.dist + g.get_red_cost e) ∧
      ((g.relax_red e).node (g.edge e).head).sp.prev = some e) ∨
     ((g.node (g.edge e).head).sp.dist <
        wrap ((g.node (g.edge e).tail).sp.dist + g.get_red_cost e) ∧
      ((g.relax_red e).node (g.edge e).head).sp = (g.node (g.edge e).head).sp)) := by
  unfold relax_red
  simp only
  split_ifs with hle
  · refine ⟨rfl, rfl, rfl, rfl, ?_, ?_, Or.inl ⟨hle, ?_, ?_⟩⟩
    · intro v
      by_cases hv : v = (g.edge e).head
      · subst hv; simp
      · rw [setSP_node_ne _ _ hv]; simp
    · intro v hv
      rw [setSP_node_ne _ _ hv]
    · simp
    · simp
  · refine ⟨rfl, rfl, rfl, rfl, fun v => ⟨rfl, rfl, rfl, rfl⟩, fun v _ => rfl,
      Or.inr ⟨lt_of_not_le hle, rfl⟩⟩

/-- The arithmetic of `relax_red` stays within 32 bits. -/
theorem relax_newc {pu c ph du C P : Int} {k N : Nat} (hk : k + 1 ≤ N) (hC : 0 ≤ C)
    (hsmall : (N : Int) * C + C + 2 * P < 2147483647)
    (h1 : |pu| ≤ P) (h2 : |c| ≤ C) (h3 : |ph| ≤ P) (h4 : |du + pu| ≤ (k : Int) * C) :
    wrap (du + wrap (wrap (pu + c) - ph)) = du + pu + c - ph ∧
    |du + pu + c| ≤ ((k + 1 : Nat) : Int) * C ∧ du + pu + c - ph < INF := by
  have h5 : ((k + 1 : Nat) : Int) * C ≤ (N : Int) * C := mul_le_of_le hk hC
  have h6 : ((k + 1 : Nat) : Int) * C = (k : Int) * C + C := by push_cast; ring
  rw [abs_le] at h1 h2 h3 h4
  have e1 : wrap (pu + c) = pu + c := wrap_eq (by omega) (by omega)
  have e2 : wrap (pu + c - ph) = pu + c - ph := wrap_eq (by omega) (by omega)
  have e3 : wrap (du + (pu + c - ph)) = du + (pu + c - ph) := wrap_eq (by omega) (by omega)
  rw [e1, e2, e3, abs_le]
  unfold INF
  refine ⟨by ring, ⟨by omega, by omega⟩, by omega⟩

/-- The invariant is kept when the cell `c` of the out-list of the popped node
is skipped because the head of its edge is done. -/
theorem DInv.skip {g0 g : Digraph} {q : priqueue Nat} {L : Ptr → List Ptr} {s N : Nat}
    {C : Int} {k : Nat} {rank : Nat → Nat} {u : Nat} {c : Ptr} {rem : List Ptr}
    (h : DInv g0 g q L s N C k rank u (c :: rem))
    (hN : (g.edge (g.store.mem c).val).head < N)
    (hd : (g.node (g.edge (g.store.mem c).val).head).sp.done = true) :
    DInv g0 g q L s N C k rank u rem := by
  refine { h with covered := ?_ }
  intro w hw hwd c' hc' hrem ht
  by_cases e : w = u ∧ c' = c
  · rw [e.2]
    exact h.done_reached _ hN hd
  · refine h.covered w hw hwd c' hc' ?_ ht
    intro hwu
    rw [List.mem_cons, not_or]
    exact ⟨fun e' => e ⟨hwu, e'⟩, hrem hwu⟩

/-- The invariant is kept when the edge in the cell `c` of the out-list of the
popped node `u` is relaxed and `update_dec_key` is called for its head. -/
theorem DInv.relax {g0 g g1 : Digraph} {q : priqueue Nat} {L : Ptr → List Ptr} {s N : Nat}
    {C P : Int} {k : Nat} {rank : Nat → Nat} {u : Nat} {c : Ptr} {rem : List Ptr}
    (h0 : DijkReady g0 L s N C P) (h : DInv g0 g q L s N C (k + 1) rank u (c :: rem))
    (hu : u < N) (hud : (g.node u).sp.done = true)
    (hub : |(g.node u).sp.dist + (g.node u).sp.price| ≤ (k : Int) * C)
    (hc : c ∈ L (Ptr.first u))
    (hd : (g.node (g.edge (g.store.mem c).val).head).sp.done = false)
    (hg1 : g1 = g.relax_red (g.store.mem c).val) :
    DInv g0 g1 (q.update_dec_key g1.distKey (g1.node (g1.edge (g.store.mem c).val).head).sp.key)
      L s N C (k + 1) rank u rem ∧ (g1.node u).sp = (g.node u).sp := by
  obtain ⟨r1, r2, r3, r4, r5, r6, r7⟩ := relax_red_spec g (g.store.mem c).val
  rw [← hg1] at r1 r2 r3 r4 r5 r6 r7
  have hends := h0.ends u hu c hc
  have hcost := h0.cost u hu c hc
  rw [← h.store, ← h.edge] at hends hcost
  generalize he : (g.store.mem c).val = e at *
  have hhN := hends.2
  have hhu : (g.edge e).head ≠ u := by
    intro e'; rw [e', hud] at hd; cases hd
  have htl : (g.edge e).tail = u := by
    rcases hends.1 with h1 | h1
    · exact h1
    · exact absurd h1 hhu
  have hsd : (g.node s).sp.done = true := h.sdone (by omega)
  have hhs : (g.edge e).head ≠ s := by
    intro e'; rw [e', hsd] at hd; cases hd
  have hpu := h0.price u hu
  have hph := h0.price _ hhN
  rw [← h.price] at hpu hph
  have hkN : k + 1 ≤ N := by have := h.qn; omega
  obtain ⟨n1, n2, n3⟩ := @relax_newc _ _ _ (g.node u).sp.dist _ _ _ _ hkN h0.cpos h0.small hpu hcost hph hub
  have hnewc : wrap ((g.node (g.edge e).tail).sp.dist + g.get_red_cost e) =
      (g.node u).sp.dist + (g.node u).sp.price + (g.edge e).cost -
        (g.node (g.edge e).head).sp.price := by
    unfold get_red_cost
    rw [htl]
    exact n1
  rw [hnewc] at r7
  -- the head is reached afterwards
  have hreach : (g1.node (g.edge e).head).sp.prev ≠ none := by
    rcases r7 with ⟨_, _, a3⟩ | ⟨b1, b2⟩
    · rw [a3]; simp
    · rw [b2]
      intro hp
      have := h.unreached _ hhN hhs hp
      rw [this] at b1
      omega
  have hmono : ∀ v, ((g.node v).sp.prev ≠ none ∨ v = s) → ((g1.node v).sp.prev ≠ none ∨ v = s) := by
    intro v hv
    by_cases e' : v = (g.edge e).head
    · rw [e']; exact Or.inl hreach
    · rw [r6 v e']; exact hv
  have hdle : g1.distKey (g.edge e).head ≤ g.distKey (g.edge e).head := by
    unfold distKey
    rcases r7 with ⟨a1, a2, _⟩ | ⟨_, b2⟩
    · rw [a2]; exact a1
    · rw [b2]
  -- the queue
  have hmem : (g.edge e).head ∈ q.elems := (h.qmem _ hhN).mpr hd
  obtain ⟨i, i1, i2, i3⟩ := mem_elems.mp hmem
  have hsl := h.qslots (q.arr i) (priqueue.mem_slots.mpr ⟨i, i1, i2, rfl⟩)
  have hidx : q.idx ((g.edge e).head + 1) = i := by
    have := h.qex i i1 i2
    rw [hsl.1, i3] at this
    exact this
  have hkey : (g1.node (g1.edge e).head).sp.key = (g.edge e).head + 1 := by
    rw [r2, (r5 _).2.2.2, h.key _ hhN]
  rw [hkey]
  obtain ⟨u1, u2, u3, u4, _, _⟩ := priqueue.update_dec_key_spec g.distKey g1.distKey q
    ((g.edge e).head + 1) h.qord h.qex (by rw [hidx]; exact i1) (by rw [hidx]; exact i2)
    (by rw [hidx, hsl.1, i3]) (by rw [hidx, i3]; exact hdle)
    (by
      intro j j1 j2 hj
      rw [hidx] at hj
      have hne : (q.arr j).x ≠ (g.edge e).head := by
        intro e'
        have hslj := h.qslots (q.arr j) (priqueue.mem_slots.mpr ⟨j, j1, j2, rfl⟩)
        have := h.qex j j1 j2
        rw [hslj.1, e', hidx] at this
        exact hj this.symm
      unfold distKey
      rw [r6 _ hne])
  have hel := elems_perm_of_slots u4
  refine ⟨?_, r6 u (Ne.symm hhu)⟩
  constructor
  · rw [r1]; exact h.store
  · rw [r2]; exact h.edge
  · rw [r3]; exact h.nnodes
  · rw [r4]; exact h.nedges
  · intro v; rw [(r5 v).2.1]; exact h.price v
  · intro v; rw [(r5 v).1]; exact h.name v
  · intro v hv; rw [(r5 v).2.2.2]; exact h.key v hv
  · exact u1
  · exact u2
  · rw [u3]; exact h.qn
  · intro x hx; exact h.qslots x (u4.mem_iff.mp hx)
  · exact hel.nodup_iff.mpr h.qnodup
  · intro v hv; rw [hel.mem_iff, (r5 v).2.2.1]; exact h.qmem v hv
  · intro v hv hdn; rw [(r5 v).2.2.1] at hdn; exact h.rdone v hv hdn
  · intro v hv e' he'
    rw [r2, r1]
    by_cases hvh : v = (g.edge e).head
    · rcases r7 with ⟨_, _, a3⟩ | ⟨_, b2⟩
      · rw [hvh, a3] at he'
        have : e = e' := by simpa using he'
        subst this
        refine ⟨hvh.symm, by rw [htl]; exact hu, ?_, ?_, ⟨c, ?_, ?_⟩, by rw [hvh]; exact hhs⟩
        · rw [(r5 _).2.2.1, htl]; exact hud
        · intro hdn
          rw [(r5 _).2.2.1, hvh, hd] at hdn
          cases hdn
        · rw [htl]; exact hc
        · exact he
      · rw [hvh, b2, ← hvh] at he'
        obtain ⟨a1, a2, a3, a4, a5, a6⟩ := h.prevok v hv e' he'
        refine ⟨a1, a2, ?_, ?_, a5, a6⟩
        · rw [(r5 _).2.2.1]; exact a3
        · rw [(r5 _).2.2.1]; exact a4
    · rw [r6 v hvh] at he'
      obtain ⟨a1, a2, a3, a4, a5, a6⟩ := h.prevok v hv e' he'
      refine ⟨a1, a2, ?_, ?_, a5, a6⟩
      · rw [(r5 _).2.2.1]; exact a3
      · rw [(r5 _).2.2.1]; exact a4
  · intro v hv hvs hp
    by_cases hvh : v = (g.edge e).head
    · rw [hvh] at hp
      exact absurd hp hreach
    · rw [r6 v hvh] at hp ⊢
      exact h.unreached v hv hvs hp
  · have : s ≠ (g.edge e).head := Ne.symm hhs
    rw [r6 s this]; exact h.sdist
  · intro v hv hr
    by_cases hvh : v = (g.edge e).head
    · rcases r7 with ⟨_, a2, _⟩ | ⟨b1, b2⟩
      · rw [hvh, a2, (r5 _).2.1]
        have : (g.node u).sp.dist + (g.node u).sp.price + (g.edge e).cost -
            (g.node (g.edge e).head).sp.price + (g.node (g.edge e).head).sp.price =
            (g.node u).sp.dist + (g.node u).sp.price + (g.edge e).cost := by ring
        rw [this]
        exact n2
      · rw [hvh, b2]
        refine h.bound _ hhN (Or.inl ?_)
        intro hp
        have := h.unreached _ hhN hhs hp
        rw [this] at b1
        omega
    · rw [r6 v hvh] at hr ⊢
      exact h.bound v hv hr
  · intro v hv hdn
    rw [(r5 v).2.2.1] at hdn
    exact hmono v (h.done_reached v hv hdn)
  · intro w hw hwd c' hc' hrem ht
    rw [r2, r1] at ht ⊢
    rw [(r5 w).2.2.1] at hwd
    by_cases e' : w = u ∧ c' = c
    · rw [e'.2, he]; exact Or.inl hreach
    · refine hmono _ (h.covered w hw hwd c' hc' ?_ ht)
      intro hwu
      rw [List.mem_cons, not_or]
      exact ⟨fun e'' => e' ⟨hwu, e''⟩, hrem hwu⟩
  · intro hk; rw [(r5 s).2.2.1]; exact h.sdone hk

theorem relaxLoop_none (fuel : Nat) (g : Digraph) (q : priqueue Nat) :
    relaxLoop fuel g q none = .ok (g, q) := by
  cases fuel <;> rfl

/-- The inner loop of `dijkstra_spath` over the cells `rem` still to be
visited in the out-list of the popped node `u` ends and keeps the invariant. -/
theorem relaxLoop_spec {g0 : Digraph} {L : Ptr → List Ptr} {s N : Nat} {C P : Int} {k : Nat}
    {rank : Nat → Nat} {u : Nat} {hd : Option Ptr}
    (h0 : DijkReady g0 L s N C P) (hu : u < N) :
    ∀ (rem : List Ptr) (pv : Ptr) (fuel : Nat) (g : Digraph) (q : priqueue Nat),
      DInv g0 g q L s N C (k + 1) rank u rem → (g.node u).sp.done = true →
      |(g.node u).sp.dist + (g.node u).sp.price| ≤ (k : Int) * C →
      (∀ c ∈ rem, c ∈ L (Ptr.first u)) → Chain g0.store.mem hd pv rem → rem.length ≤ fuel →
      ∃ g1 q1, relaxLoop fuel g q (g0.store.mem pv).next = .ok (g1, q1) ∧
        DInv g0 g1 q1 L s N C (k + 1) rank u []
  | [], pv, fuel, g, q, h, _, _, _, hch, _ => by
    simp only [Chain] at hch
    rw [hch, relaxLoop_none]
    exact ⟨g, q, rfl, h⟩
  | c :: rem, pv, fuel, g, q, h, hud, hub, hsub, hch, hf => by
    simp only [Chain] at hch
    cases fuel with
    | zero => simp at hf
    | succ f =>
      rw [hch.1]
      have hc := hsub c (List.mem_cons_self _ _)
      have hsub' : ∀ c' ∈ rem, c' ∈ L (Ptr.first u) :=
        fun c' hc' => hsub c' (List.mem_cons_of_mem _ hc')
      have hf' : rem.length ≤ f := by simpa using hf
      by_cases hd' : (g.node (g.edge (g.store.mem c).val).head).sp.done = true
      · have hN : (g.edge (g.store.mem c).val).head < N := by
          have := (h0.ends u hu c hc).2
          rw [← h.store, ← h.edge] at this
          exact this
        obtain ⟨g1, q1, e1, e2⟩ := relaxLoop_spec h0 hu rem c f g q (h.skip hN hd') hud hub hsub'
          hch.2.2.2 hf'
        refine ⟨g1, q1, ?_, e2⟩
        simp only [relaxLoop, hd', Bool.not_true, Bool.false_eq_true, if_false]
        rw [h.store]
        exact e1
      · have hd'' : (g.node (g.edge (g.store.mem c).val).head).sp.done = false := by
          simpa using hd'
        obtain ⟨a1, a2⟩ := h.relax h0 hu hud hub hc hd'' rfl
        obtain ⟨g1, q1, e1, e2⟩ := relaxLoop_spec h0 hu rem c f _ _ a1 (by rw [a2]; exact hud)
          (by rw [a2]; exact hub) hsub' hch.2.2.2 hf'
        refine ⟨g1, q1, ?_, e2⟩
        simp only [relaxLoop, hd'', Bool.not_false, if_true]
        rw [a1.store]
        exact e1

/-- When the queue is empty the loop invariant gives what `dijkstra_spath`
promises. -/
theorem DInv.post {g0 g : Digraph} {q : priqueue Nat} {L : Ptr → List Ptr} {s N : Nat}
    {C : Int} {k : Nat} {rank : Nat → Nat} {u : Nat} (h : DInv g0 g q L s N C k rank u [])
    (hq : q.n = 0) : DijkPost g0 g L s N C rank := by
  have hk : k = N := by have := h.qn; omega
  have hel : q.elems = [] := by
    unfold priqueue.elems
    rw [priqueue.slots_zero hq]
    rfl
  have hdone : ∀ v, v < N → (g.node v).sp.done = true := by
    intro v hv
    have := h.qmem v hv
    rw [hel] at this
    simpa using this
  refine ⟨h.store, h.edge, h.nnodes, h.nedges, h.price, h.name, ?_, ?_, ?_⟩
  rotate_left 2
  · intro v hv
    have := h.rdone v hv (hdone v hv)
    omega
  · intro v hv hvs
    rcases h.done_reached v hv (hdone v hv) with hp | hp
    · obtain ⟨e, he⟩ := Option.ne_none_iff_exists.mp hp
      obtain ⟨a1, a2, _, a4, a5, _⟩ := h.prevok v hv e he.symm
      exact ⟨e, he.symm, a1, a2, a4 (hdone v hv), a5⟩
    · exact absurd hp hvs
  · intro v hv
    rw [← hk]
    exact h.bound v hv (h.done_reached v hv (hdone v hv))

/-- The `while` loop of `dijkstra_spath` ends, within the fuel given. -/
theorem dijkstraLoop_spec {g0 : Digraph} {L : Ptr → List Ptr} {s N : Nat} {C P : Int}
    (h0 : DijkReady g0 L s N C P) :
    ∀ (fuel : Nat) (g : Digraph) (q : priqueue Nat) (k : Nat) (rank : Nat → Nat) (u0 : Nat),
      DInv g0 g q L s N C k rank u0 [] → q.n ≤ fuel →
      ∃ g1 rank1, dijkstraLoop fuel g q = .ok g1 ∧ DijkPost g0 g1 L s N C rank1
  | 0, g, q, k, rank, u0, h, hf => by
    have hq : q.n = 0 := by omega
    refine ⟨g, rank, ?_, h.post hq⟩
    simp [dijkstraLoop, priqueue.empty, hq]
  | fuel + 1, g, q, k, rank, u0, h, hf => by
    by_cases hq : q.n = 0
    · refine ⟨g, rank, ?_, h.post hq⟩
      simp [dijkstraLoop, priqueue.empty, hq]
    · obtain ⟨p1, p2, p3⟩ := h.pop h0 (Nat.one_le_iff_ne_zero.mpr hq) rfl
      have hwf := h0.wf
      have hch := hwf.chain (Ptr.first (q.popmin g.distKey).1) p1
      have hlen := hwf.length_le (Ptr.first (q.popmin g.distKey).1)
      have hst : (g.setSP (q.popmin g.distKey).1
          { (g.node (q.popmin g.distKey).1).sp with done := true }).store = g0.store := p3.store
      obtain ⟨g1, q1, e1, e2⟩ := relaxLoop_spec h0 p1 _ _
        ((g.setSP (q.popmin g.distKey).1
          { (g.node (q.popmin g.distKey).1).sp with done := true }).store.ncells + 1) _ _ p3
        (by simp) (by rw [(setSP_done_node g _ _).1, (setSP_done_node g _ _).2.1]; exact p2)
        (fun c hc => hc) hch (by rw [hst]; omega)
      have hn1 : q1.n ≤ fuel := by
        have a := e2.qn
        have b := h.qn
        omega
      obtain ⟨g2, rank2, e3, e4⟩ := dijkstraLoop_spec h0 fuel g1 q1 _ _ _ e2 hn1
      refine ⟨g2, rank2, ?_, e4⟩
      have hne : q.empty = false := by simp [priqueue.empty, hq]
      simp only [dijkstraLoop, hne, Bool.false_eq_true, if_false, indexedList.begin_first]
      rw [hst] at e1 ⊢
      rw [e1]
      exact e3

/-- The run of `dijkstra_spath(s)` on a graph that is ready for it ends, and
leaves every node other than `s` with a `prev` edge that leads towards `s`. -/
theorem dijkstra_spath_spec {g : Digraph} {L : Ptr → List Ptr} {s N : Nat} {C P : Int}
    (h0 : DijkReady g L s N C P) :
    ∃ g1 rank, g.dijkstra_spath s = .ok g1 ∧ DijkPost g g1 L s N C rank := by
  have hN := h0.nn
  subst hN
  have hi := DInv.init h0 (fun _ => 0) 0 rfl (priqueue.new g.nnodes)
  have hn : (priqueue.set_priqueue
      (((initNodes g g.nnodes 0).setSP s
        { ((initNodes g g.nnodes 0).node s).sp with dist := 0 })).distKey
      (priqueue.new g.nnodes) (List.range g.nnodes)).n ≤ g.nnodes := by
    have := hi.qn
    omega
  obtain ⟨g1, rank1, e1, e2⟩ := dijkstraLoop_spec h0 g.nnodes _ _ _ _ _ hi hn
  refine ⟨g1, rank1, ?_, e2⟩
  have hnn : (initNodes g g.nnodes 0).nnodes = g.nnodes := (initNodes_spec g.nnodes 0 g).2.2.1
  unfold dijkstra_spath
  simp only [setSP_nnodes, hnn]
  exact e1

end Digraph

end Hungarian

namespace Hungarian

namespace Store.WF

variable {T : Type} {s : Store T} {C : Nat → Prop} {L : Ptr → List Ptr}

/-- Membership in the sublists after a cell was unlinked. -/
theorem mem_erase_iff (h : s.WF C L) {p c : Ptr} (hc : c ∈ L p) (q c' : Ptr) :
    c' ∈ Function.update L p ((L p).erase c) q ↔ c' ≠ c ∧ c' ∈ L q := by
  by_cases hq : q = p
  · subst hq
    rw [Function.update_same, (h.nodup q).mem_erase_iff]
  · rw [Function.update_noteq hq]
    constructor
    · intro h1
      refine ⟨?_, h1⟩
      intro e
      subst e
      exact hq (h.disj _ _ _ h1 hc)
    · exact fun h1 => h1.2

/-- Membership in the sublists after a cell was moved to the front of `tgt`. -/
theorem mem_move_iff (h : s.WF C L) {p c : Ptr} (hc : c ∈ L p) (tgt q c' : Ptr) :
    c' ∈ Function.update (Function.update L p ((L p).erase c)) tgt
      (c :: Function.update L p ((L p).erase c) tgt) q ↔
      (c' = c ∧ q = tgt) ∨ (c' ≠ c ∧ c' ∈ L q) := by
  by_cases hq : q = tgt
  · subst hq
    rw [Function.update_same, List.mem_cons, h.mem_erase_iff hc]
    constructor
    · rintro (h1 | h1)
      · exact Or.inl ⟨h1, rfl⟩
      · exact Or.inr h1
    · rintro (h1 | h1)
      · exact Or.inl h1.1
      · exact Or.inr h1
  · rw [Function.update_noteq hq, h.mem_erase_iff hc]
    constructor
    · exact fun h1 => Or.inr h1
    · rintro (h1 | h1)
      · exact absurd h1.2 hq
      · exact h1

end Store.WF

namespace EState

theorem cur_head_tail (o : Edge) (σ : EState) :
    ((σ.cur o).head = o.head ∧ (σ.cur o).tail = o.tail ∧ σ.back = false) ∨
    ((σ.cur o).head = o.tail ∧ (σ.cur o).tail = o.head ∧ σ.back = true) := by
  cases σ <;> simp [cur, back]

theorem cur_keys (o : Edge) (σ : EState) :
    (σ.cur o).hkey = o.hkey ∧ (σ.cur o).tkey = o.tkey := by
  cases σ <;> simp [cur, back]

/-- An edge that was never reversed has the content it was created with. -/
theorem cur_F0 (o : Edge) : F0.cur o = o := rfl

/-- A removed edge has the content it was created with. -/
theorem cur_gone (o : Edge) : gone.cur o = o := rfl

/-- For a cost above `INT_MIN` the negations are exact. -/
theorem cost_eq {c : Int} (h1 : -2147483648 < c) (h2 : c < 2147483648) (σ : EState) :
    σ.cost c = if σ.back then -c else c := by
  have e1 : wrap (-c) = -c := by unfold wrap; omega
  have e2 : wrap c = c := by unfold wrap; omega
  cases σ <;> simp [cost, back, e1, e2]

theorem cur_cost (o : Edge) (σ : EState) : (σ.cur o).cost = σ.cost o.cost := by
  cases σ <;> simp [cur, back]

theorem abs_cur_cost (o : Edge) (σ : EState) (h1 : -2147483648 < o.cost)
    (h2 : o.cost < 2147483648) : |(σ.cur o).cost| = |o.cost| := by
  rw [cur_cost, cost_eq h1 h2]
  split_ifs
  · exact abs_neg _
  · rfl

/-- For a cost above `INT_MIN`, an edge that points in its original direction
has the content it was created with. -/
theorem cur_of_not_back {o : Edge} {σ : EState} (hb : σ.back = false)
    (h1 : -2147483648 < o.cost) (h2 : o.cost < 2147483648) : σ.cur o = o := by
  have := cost_eq h1 h2 σ
  rw [hb] at this
  simp only [Bool.false_eq_true, if_false] at this
  unfold cur
  rw [hb, this]
  rfl

/-- For a cost above `INT_MIN`, an edge that points against its original
direction has the negated cost and the ends exchanged. -/
theorem cur_of_back {o : Edge} {σ : EState} (hb : σ.back = true)
    (h1 : -2147483648 < o.cost) (h2 : o.cost < 2147483648) :
    σ.cur o = ⟨-o.cost, true, o.tail, o.head, o.hkey, o.tkey⟩ := by
  have := cost_eq h1 h2 σ
  rw [hb] at this
  simp only [if_true] at this
  unfold cur
  rw [hb, this]
  rfl

end EState

/-- How the description of the sublists follows a change of the state of one
edge. -/
theorem loc_step {n : Net} {st : Nat → EState} {L L1 : Ptr → List Ptr} {e : Nat} {σ : EState}
    (hloc : ∀ p c, c ∈ L p ↔ ∃ e, e < n.E ∧
      ((c = Ptr.cell (2 * e + 1) ∧ (st e).locH (n.orig e) = some p) ∨
       (c = Ptr.cell (2 * e) ∧ (st e).locT (n.orig e) = some p)))
    (he : e < n.E)
    (hL1 : ∀ q c, c ∈ L1 q ↔
      (c = Ptr.cell (2 * e + 1) ∧ σ.locH (n.orig e) = some q) ∨
      (c = Ptr.cell (2 * e) ∧ σ.locT (n.orig e) = some q) ∨
      (c ≠ Ptr.cell (2 * e + 1) ∧ c ≠ Ptr.cell (2 * e) ∧ c ∈ L q)) :
    ∀ p c, c ∈ L1 p ↔ ∃ e1, e1 < n.E ∧
      ((c = Ptr.cell (2 * e1 + 1) ∧ (Function.update st e σ e1).locH (n.orig e1) = some p) ∨
       (c = Ptr.cell (2 * e1) ∧ (Function.update st e σ e1).locT (n.orig e1) = some p)) := by
  intro p c
  rw [hL1]
  constructor
  · rintro (⟨h1, h2⟩ | ⟨h1, h2⟩ | ⟨h1, h2, h3⟩)
    · exact ⟨e, he, Or.inl ⟨h1, by rw [Function.update_same]; exact h2⟩⟩
    · exact ⟨e, he, Or.inr ⟨h1, by rw [Function.update_same]; exact h2⟩⟩
    · obtain ⟨e1, he1, h4⟩ := (hloc p c).mp h3
      have hne : e1 ≠ e := by
        intro e'
        subst e'
        rcases h4 with h4 | h4
        · exact h1 h4.1
        · exact h2 h4.1
      refine ⟨e1, he1, ?_⟩
      rw [Function.update_noteq hne]
      exact h4
  · rintro ⟨e1, he1, h4⟩
    by_cases hne : e1 = e
    · subst hne
      rw [Function.update_same] at h4
      rcases h4 with h4 | h4
      · exact Or.inl h4
      · exact Or.inr (Or.inl h4)
    · rw [Function.update_noteq hne] at h4
      refine Or.inr (Or.inr ⟨?_, ?_, (hloc p c).mpr ⟨e1, he1, h4⟩⟩)
      · rcases h4 with h4 | h4
        · rw [h4.1]; intro e'; simp at e'; exact hne e'
        · rw [h4.1]; intro e'; simp at e'; omega
      · rcases h4 with h4 | h4
        · rw [h4.1]; intro e'; simp at e'; omega
        · rw [h4.1]; intro e'; simp at e'; exact hne e'

theorem wrap_id {v : Int} (h1 : -2147483648 ≤ v) (h2 : v < 2147483648) : wrap v = v := by
  unfold wrap
  omega

namespace Net.OK

variable {n : Net} {C : Int}

theorem C_lt (hn : n.OK C) : C < 2147483647 := by
  have h1 : 0 ≤ (n.N : Int) * C := mul_nonneg (Int.natCast_nonneg _) hn.cpos
  have h2 := hn.small
  have h3 : (3 * (n.N : Int) + 1) * C = 3 * ((n.N : Int) * C) + C := by ring
  rw [h3] at h2
  omega

/-- The costs of a network with small costs are above `INT_MIN`. -/
theorem cost_range (hn : n.OK C) {e : Nat} (he : e < n.E) :
    -2147483648 < (n.orig e).cost ∧ (n.orig e).cost < 2147483648 := by
  have h1 := hn.cost e he
  have h2 := hn.C_lt
  rw [abs_le] at h1
  constructor <;> omega

theorem head_lt (hn : n.OK C) {e : Nat} (he : e < n.E) : (n.orig e).head < n.N := by
  rcases hn.kind e he with h | h | h
  · exact hn.yN _ h.2
  · exact hn.xN _ h.2
  · rw [h.2]; exact hn.tN

theorem tail_lt (hn : n.OK C) {e : Nat} (he : e < n.E) : (n.orig e).tail < n.N := by
  rcases hn.kind e he with h | h | h
  · exact hn.xN _ h.1
  · rw [h.1]; exact hn.sN
  · exact hn.yN _ h.1

theorem head_ne_tail (hn : n.OK C) {e : Nat} (he : e < n.E) :
    (n.orig e).head ≠ (n.orig e).tail := by
  intro e'
  rcases hn.kind e he with h | h | h
  · exact hn.xY _ h.1 (e' ▸ h.2)
  · rw [e', h.1] at h; exact hn.sX h.2
  · rw [← e', h.2] at h; exact hn.tY h.1

end Net.OK

/-- The content that `reverse_dir` writes into an edge object is the content
that belongs to the next state. -/
theorem EState.cur_rev {o : Edge} {σ : EState} (hg : σ ≠ EState.gone)
    (hb : o.back_edge = false) :
    ({ σ.cur o with cost := wrap (-(σ.cur o).cost), back_edge := !(σ.cur o).back_edge,
                    head := (σ.cur o).tail, tail := (σ.cur o).head } : Edge) = σ.rev.cur o := by
  have e3 : ∀ c : Int, wrap (-(wrap (-(wrap (-c))))) = wrap (-c) := by
    intro c
    unfold wrap
    omega
  cases o with
  | mk c b hd tl hk tk =>
    simp only at hb
    subst hb
    cases σ <;> simp [EState.cur, EState.back, EState.rev, EState.cost, e3] at hg ⊢

namespace MInv

variable {n : Net} {g : Digraph} {st : Nat → EState} {L : Ptr → List Ptr} {C : Int}

theorem cell_ne (e : Nat) : Ptr.cell (2 * e) ≠ Ptr.cell (2 * e + 1) := by
  intro h
  simp at h

/-- The value stored in a linked cell is an edge whose cell it is. -/
theorem val_of_mem (h : MInv n g st L) {p c : Ptr} (hc : c ∈ L p) :
    (g.store.mem c).val < n.E ∧
    ((c = Ptr.cell (2 * (g.store.mem c).val + 1) ∧
        (st (g.store.mem c).val).locH (n.orig (g.store.mem c).val) = some p) ∨
     (c = Ptr.cell (2 * (g.store.mem c).val) ∧
        (st (g.store.mem c).val).locT (n.orig (g.store.mem c).val) = some p)) := by
  obtain ⟨e, he, h1⟩ := (h.loc p c).mp hc
  rcases h1 with ⟨h1, h2⟩ | ⟨h1, h2⟩
  · have hv : (g.store.mem c).val = e := by
      rw [h1, h.val _ (by omega)]; omega
    rw [hv]
    exact ⟨he, Or.inl ⟨h1, h2⟩⟩
  · have hv : (g.store.mem c).val = e := by
      rw [h1, h.val _ (by omega)]; omega
    rw [hv]
    exact ⟨he, Or.inr ⟨h1, h2⟩⟩

/-- Effect of `Edge::remove()` on an edge that was never reversed. -/
theorem remove_spec (hn : n.OK C) (h : MInv n g st L) {e : Nat} (he : e < n.E)
    (hst : st e = EState.F0) :
    ∃ g1 L1, g.remove e = .ok g1 ∧ g1.node = g.node ∧
      MInv n g1 (Function.update st e EState.gone) L1 ∧
      (∀ q, q ≠ Ptr.second (n.orig e).head → q ≠ Ptr.first (n.orig e).tail → L1 q = L q) := by
  have hk : Ptr.cell (2 * e + 1) ∈ L (Ptr.second (n.orig e).head) :=
    (h.loc _ _).mpr ⟨e, he, Or.inl ⟨rfl, by rw [hst]; rfl⟩⟩
  have tk : Ptr.cell (2 * e) ∈ L (Ptr.first (n.orig e).tail) :=
    (h.loc _ _).mpr ⟨e, he, Or.inr ⟨rfl, by rw [hst]; rfl⟩⟩
  obtain ⟨s1, r1, w1, v1, n1⟩ := h.wf.wf_remove hk
  have mLa := h.wf.mem_erase_iff hk
  obtain ⟨La, hLa⟩ : ∃ La, La = Function.update L (Ptr.second (n.orig e).head)
      ((L (Ptr.second (n.orig e).head)).erase (Ptr.cell (2 * e + 1))) := ⟨_, rfl⟩
  rw [← hLa] at w1 mLa
  have tk1 := (mLa (Ptr.first (n.orig e).tail) (Ptr.cell (2 * e))).mpr ⟨cell_ne e, tk⟩
  obtain ⟨s2, r2, w2, v2, n2⟩ := w1.wf_remove tk1
  have hedge : g.edge e = n.orig e := by
    rw [h.edge e he, hst]; rfl
  obtain ⟨k1, k2, k3⟩ := hn.keys e he
  refine ⟨{ g with store := s2 },
    Function.update La (Ptr.first (n.orig e).tail)
      ((La (Ptr.first (n.orig e).tail)).erase (Ptr.cell (2 * e))), ?_, rfl, ?_, ?_⟩
  · unfold Digraph.remove
    rw [hedge, k1, k2]
    simp only [r1, r2]
  · constructor
    · exact h.nnodes
    · exact h.nedges
    · exact h.name
    · exact w2
    · intro i hi
      show (s2.mem (Ptr.cell i)).val = i / 2
      rw [v2, v1]
      exact h.val i hi
    · intro e1 he1
      show g.edge e1 = _
      by_cases hne : e1 = e
      · subst hne
        rw [Function.update_same, hedge]
        rfl
      · rw [Function.update_noteq hne]
        exact h.edge e1 he1
    · refine loc_step h.loc he ?_
      intro q c
      rw [w1.mem_erase_iff tk1, mLa]
      simp only [EState.locH, EState.locT]
      constructor
      · rintro ⟨a, b, c'⟩
        exact Or.inr (Or.inr ⟨b, a, c'⟩)
      · rintro (⟨_, a⟩ | ⟨_, a⟩ | ⟨a, b, c'⟩)
        · cases a
        · cases a
        · exact ⟨b, a, c'⟩
  · intro q q1 q2
    rw [Function.update_noteq q2, hLa, Function.update_noteq q1]

/-- Effect of `Edge::reverse_dir()`, with the places of the two cells before
and after given. -/
theorem reverse_core (hn : n.OK C) (h : MInv n g st L) {e : Nat} (he : e < n.E)
    (hg : st e ≠ EState.gone) (p1 p2 t1 t2 : Ptr) (hc tc : Nat)
    (hp1 : (st e).locH (n.orig e) = some p1) (hp2 : (st e).locT (n.orig e) = some p2)
    (hhc : ((st e).cur (n.orig e)).head = hc) (htc : ((st e).cur (n.orig e)).tail = tc)
    (hcN : hc < n.N) (tcN : tc < n.N)
    (ht1 : (if p1 = Ptr.first hc then Ptr.second hc else Ptr.first hc) = t1)
    (ht2 : (if p2 = Ptr.first tc then Ptr.second tc else Ptr.first tc) = t2)
    (hl1 : (st e).rev.locH (n.orig e) = some t1) (hl2 : (st e).rev.locT (n.orig e) = some t2)
    (hfour : ∀ q, q ≠ Ptr.first (n.orig e).head → q ≠ Ptr.second (n.orig e).head →
      q ≠ Ptr.first (n.orig e).tail → q ≠ Ptr.second (n.orig e).tail →
      q ≠ p1 ∧ q ≠ p2 ∧ q ≠ t1 ∧ q ≠ t2)
    (hfront : (st e).rev.back = true →
      t1 = Ptr.first (n.orig e).head ∧ t2 ≠ Ptr.first (n.orig e).head) :
    ∃ g1 L1, g.reverse_dir e = .ok g1 ∧ g1.node = g.node ∧
      MInv n g1 (Function.update st e (st e).rev) L1 ∧
      (∀ q, q ≠ Ptr.first (n.orig e).head → q ≠ Ptr.second (n.orig e).head →
        q ≠ Ptr.first (n.orig e).tail → q ≠ Ptr.second (n.orig e).tail → L1 q = L q) ∧
      ((st e).rev.back = true →
        ∃ rest, L1 (Ptr.first (n.orig e).head) = Ptr.cell (2 * e + 1) :: rest) := by
  have hk : Ptr.cell (2 * e + 1) ∈ L p1 := (h.loc _ _).mpr ⟨e, he, Or.inl ⟨rfl, hp1⟩⟩
  have tk : Ptr.cell (2 * e) ∈ L p2 := (h.loc _ _).mpr ⟨e, he, Or.inr ⟨rfl, hp2⟩⟩
  obtain ⟨s1, t1', et1, r1, w1, v1, n1⟩ := h.wf.wf_change_list hk (k := hc) hcN
  rw [ht1] at et1
  subst et1
  have mLa := h.wf.mem_move_iff hk t1'
  obtain ⟨La, hLa⟩ : ∃ La, La = Function.update
      (Function.update L p1 ((L p1).erase (Ptr.cell (2 * e + 1)))) t1'
      (Ptr.cell (2 * e + 1) :: Function.update L p1 ((L p1).erase (Ptr.cell (2 * e + 1))) t1') :=
    ⟨_, rfl⟩
  rw [← hLa] at w1 mLa
  have tk1 := (mLa p2 (Ptr.cell (2 * e))).mpr (Or.inr ⟨cell_ne e, tk⟩)
  obtain ⟨s2, t2', et2, r2, w2, v2, n2⟩ := w1.wf_change_list tk1 (k := tc) tcN
  rw [ht2] at et2
  subst et2
  obtain ⟨k1, k2, k3⟩ := hn.keys e he
  have hcost := hn.cost e he
  have hC := hn.C_lt
  rw [abs_le] at hcost
  have hedge := h.edge e he
  refine ⟨{ g with store := s2,
                   edge := Function.update g.edge e
                     { g.edge e with cost := wrap (-(g.edge e).cost),
                                     back_edge := !(g.edge e).back_edge,
                                     head := (g.edge e).tail,
                                     tail := (g.edge e).head } },
    Function.update (Function.update La p2 ((La p2).erase (Ptr.cell (2 * e)))) t2'
      (Ptr.cell (2 * e) :: Function.update La p2 ((La p2).erase (Ptr.cell (2 * e))) t2'),
    ?_, rfl, ?_, ?_, ?_⟩
  · unfold Digraph.reverse_dir
    rw [hedge, (EState.cur_keys _ _).1, (EState.cur_keys _ _).2, k1, k2]
    simp only [hhc, htc, r1, r2]
  · constructor
    · exact h.nnodes
    · exact h.nedges
    · exact h.name
    · exact w2
    · intro i hi
      show (s2.mem (Ptr.cell i)).val = i / 2
      rw [v2, v1]
      exact h.val i hi
    · intro e1 he1
      show Function.update g.edge e _ e1 = _
      by_cases hne : e1 = e
      · subst hne
        rw [Function.update_same, Function.update_same, hedge]
        exact EState.cur_rev hg k3
      · rw [Function.update_noteq hne, Function.update_noteq hne]
        exact h.edge e1 he1
    · refine loc_step h.loc he ?_
      intro q c
      rw [w1.mem_move_iff tk1, mLa, hl1, hl2]
      constructor
      · rintro (⟨a, b⟩ | ⟨a, ⟨b, c'⟩ | ⟨b, c'⟩⟩)
        · exact Or.inr (Or.inl ⟨a, by rw [b]⟩)
        · exact Or.inl ⟨b, by rw [c']⟩
        · exact Or.inr (Or.inr ⟨b, a, c'⟩)
      · rintro (⟨a, b⟩ | ⟨a, b⟩ | ⟨a, b, c'⟩)
        · refine Or.inr ⟨?_, Or.inl ⟨a, (Option.some.inj b).symm⟩⟩
          rw [a]; exact (cell_ne e).symm
        · exact Or.inl ⟨a, (Option.some.inj b).symm⟩
        · exact Or.inr ⟨b, Or.inr ⟨a, c'⟩⟩
  · intro q q1 q2 q3 q4
    obtain ⟨a1, a2, a3, a4⟩ := hfour q q1 q2 q3 q4
    rw [Function.update_noteq a4, Function.update_noteq a2, hLa, Function.update_noteq a3,
      Function.update_noteq a1]
  · intro hb
    obtain ⟨a1, a2⟩ := hfront hb
    subst a1
    have hfr : ∃ rest, La (Ptr.first (n.orig e).head) = Ptr.cell (2 * e + 1) :: rest := by
      rw [hLa, Function.update_same]
      exact ⟨_, rfl⟩
    obtain ⟨rest, hrest⟩ := hfr
    rw [Function.update_noteq (Ne.symm a2)]
    by_cases hp : Ptr.first (n.orig e).head = p2
    · subst hp
      rw [Function.update_same, hrest, List.erase_cons_tail]
      · exact ⟨_, rfl⟩
      · simp
    · rw [Function.update_noteq hp, hrest]
      exact ⟨_, rfl⟩

/-- Effect of `Edge::reverse_dir()` on an edge that has not been removed. -/
theorem reverse_spec (hn : n.OK C) (h : MInv n g st L) {e : Nat} (he : e < n.E)
    (hg : st e ≠ EState.gone) :
    ∃ g1 L1, g.reverse_dir e = .ok g1 ∧ g1.node = g.node ∧
      MInv n g1 (Function.update st e (st e).rev) L1 ∧
      (∀ q, q ≠ Ptr.first (n.orig e).head → q ≠ Ptr.second (n.orig e).head →
        q ≠ Ptr.first (n.orig e).tail → q ≠ Ptr.second (n.orig e).tail → L1 q = L q) ∧
      ((st e).rev.back = true →
        ∃ rest, L1 (Ptr.first (n.orig e).head) = Ptr.cell (2 * e + 1) :: rest) := by
  have hne := hn.head_ne_tail he
  have hne' := Ne.symm hne
  have hh := hn.head_lt he
  have ht := hn.tail_lt he
  cases hs : st e with
  | gone => exact absurd hs hg
  | F0 =>
    have := h.reverse_core hn he hg (Ptr.second (n.orig e).head) (Ptr.first (n.orig e).tail)
      (Ptr.first (n.orig e).head) (Ptr.second (n.orig e).tail) (n.orig e).head (n.orig e).tail
    rw [hs] at this
    exact this rfl rfl rfl rfl hh ht (by simp) (by simp) rfl rfl
      (fun q q1 q2 q3 q4 => ⟨q2, q3, q1, q4⟩) (fun _ => ⟨rfl, by simp⟩)
  | B1 =>
    have := h.reverse_core hn he hg (Ptr.first (n.orig e).head) (Ptr.second (n.orig e).tail)
      (Ptr.first (n.orig e).tail) (Ptr.first (n.orig e).head) (n.orig e).tail (n.orig e).head
    rw [hs] at this
    exact this rfl rfl rfl rfl ht hh (by simp [hne]) (by simp) rfl rfl
      (fun q q1 q2 q3 q4 => ⟨q1, q4, q3, q1⟩) (fun hb => by simp [EState.rev, EState.back] at hb)
  | F2 =>
    have := h.reverse_core hn he hg (Ptr.first (n.orig e).tail) (Ptr.first (n.orig e).head)
      (Ptr.first (n.orig e).head) (Ptr.first (n.orig e).tail) (n.orig e).head (n.orig e).tail
    rw [hs] at this
    exact this rfl rfl rfl rfl hh ht (by simp [hne']) (by simp [hne]) rfl rfl
      (fun q q1 q2 q3 q4 => ⟨q3, q1, q1, q3⟩) (fun _ => ⟨rfl, by simp [hne']⟩)
  | B3 =>
    have := h.reverse_core hn he hg (Ptr.first (n.orig e).head) (Ptr.first (n.orig e).tail)
      (Ptr.first (n.orig e).tail) (Ptr.first (n.orig e).head) (n.orig e).tail (n.orig e).head
    rw [hs] at this
    exact this rfl rfl rfl rfl ht hh (by simp [hne]) (by simp [hne']) rfl rfl
      (fun q q1 q2 q3 q4 => ⟨q1, q3, q3, q1⟩) (fun hb => by simp [EState.rev, EState.back] at hb)

end MInv

end Hungarian

namespace Hungarian

namespace Net.OK

variable {n : Net} {C : Int}

theorem xy_head (hn : n.OK C) {e : Nat} (he : e < n.E) (h : (n.orig e).tail ∈ n.X) :
    (n.orig e).head ∈ n.Y := by
  rcases hn.kind e he with k | k | k
  · exact k.2
  · rw [k.1] at h; exact absurd h hn.sX
  · exact absurd k.1 (hn.xY _ h)

theorem tail_of_head_t (hn : n.OK C) {e : Nat} (he : e < n.E) (h : (n.orig e).head = n.t) :
    (n.orig e).tail ∈ n.Y := by
  rcases hn.kind e he with k | k | k
  · rw [h] at k; exact absurd k.2 hn.tY
  · rw [h] at k; exact absurd k.2 hn.tX
  · exact k.1

theorem head_of_tail_s (hn : n.OK C) {e : Nat} (he : e < n.E) (h : (n.orig e).tail = n.s) :
    (n.orig e).head ∈ n.X := by
  rcases hn.kind e he with k | k | k
  · rw [h] at k; exact absurd k.1 hn.sX
  · exact k.2
  · rw [h] at k; exact absurd k.1 hn.sY

theorem yX (hn : n.OK C) {y : Nat} (h : y ∈ n.Y) : y ∉ n.X := fun hx => hn.xY y hx h

end Net.OK

theorem EState.back_rev_of_not_back {σ : EState} (hg : σ ≠ EState.gone) (h : σ.back = false) :
    σ.rev.back = true := by
  cases σ <;> simp [EState.back, EState.rev] at h hg ⊢

theorem EState.back_rev_of_back {σ : EState} (h : σ.back = true) :
    σ.rev.back = false ∧ σ.rev ≠ EState.gone := by
  cases σ <;> simp [EState.back, EState.rev] at h ⊢

theorem EState.rev_ne_gone {σ : EState} (hg : σ ≠ EState.gone) : σ.rev ≠ EState.gone := by
  cases σ <;> simp [EState.rev] at hg ⊢

theorem EState.not_back_of_gone {σ : EState} (h : σ = EState.gone) : σ.back = false := by
  subst h; rfl

theorem EState.not_back_F0 {σ : EState} (h : σ = EState.F0) : σ.back = false := by
  subst h; rfl

namespace GInv

variable {n : Net} {C : Int} {g : Digraph} {st : Nat → EState} {mx my : Nat → Option Nat}
  {ux uy : List Nat} {L : Ptr → List Ptr} {mode : Mode}

/-- The first step of `augment_spath`: the edge from the unmatched Y-node `y`
to `t` is removed. -/
theorem step_remove_yt (hn : n.OK C) (h : GInv n C g st mx my ux uy L Mode.clean) {e : Nat}
    (he : e < n.E) (ht : (n.orig e).head = n.t) (hst : st e = EState.F0) :
    ∃ g1 L1, g.remove e = .ok g1 ∧ g1.node = g.node ∧
      GInv n C g1 (Function.update st e EState.gone) mx my ux (uy.erase (n.orig e).tail) L1
        (Mode.freeY (n.orig e).tail) := by
  obtain ⟨g1, L1, r1, r2, r3, r4⟩ := h.mem.remove_spec hn he hst
  have hty := hn.tail_of_head_t he ht
  have htX := hn.yX hty
  have hyu : (n.orig e).tail ∈ uy := by
    rcases h.yt e he ht with a | a
    · exact a.2
    · rw [hst] at a; cases a.1
  have hmy : my (n.orig e).tail = none := (h.uy_my _ hty).mpr (Or.inl hyu)
  have hstX : ∀ e1, (n.orig e1).tail ∈ n.X → Function.update st e EState.gone e1 = st e1 := by
    intro e1 h1
    by_cases hne : e1 = e
    · subst hne; exact absurd h1 htX
    · rw [Function.update_noteq hne]
  refine ⟨g1, L1, r1, r2, ?_⟩
  constructor
  · exact r3
  · rw [r2]; exact h.price
  · rw [r2]; exact h.sprice
  · intro e1 he1 h1; rw [hstX e1 h1]; exact h.xy e1 he1 h1
  · intro e1 he1 h1
    have hne : e1 ≠ e := by
      intro e'; subst e'; rw [h1] at hty; exact hn.sY hty
    rw [Function.update_noteq hne]
    exact h.sx e1 he1 h1
  · intro e1 he1 h1
    by_cases hne : e1 = e
    · subst hne
      rw [Function.update_same]
      exact Or.inr ⟨rfl, fun hm => (List.Nodup.mem_erase_iff h.uy_nodup).mp hm |>.1 rfl⟩
    · rw [Function.update_noteq hne]
      have hne2 : (n.orig e1).tail ≠ (n.orig e).tail :=
        fun e' => hne (hn.yt_unique e1 e he1 he h1 ht e')
      rcases h.yt e1 he1 h1 with a | a
      · exact Or.inl ⟨a.1, (List.mem_erase_of_ne hne2).mpr a.2⟩
      · exact Or.inr ⟨a.1, fun hm => a.2 (List.mem_of_mem_erase hm)⟩
  · exact h.ux_sub
  · intro y hy; exact h.uy_sub y (List.mem_of_mem_erase hy)
  · exact h.ux_nodup
  · exact h.uy_nodup.erase _
  · have := h.len
    rw [List.length_erase_of_mem hyu]
    have hpos : 0 < uy.length := List.length_pos_of_mem hyu
    simp at this ⊢
    omega
  · intro y e1 h1
    obtain ⟨a1, a2, a3, a4⟩ := h.my_some y e1 h1
    exact ⟨a1, a2, a3, by rw [hstX e1 a2]; exact a4⟩
  · intro x e1 h1
    obtain ⟨a1, a2, a3, a4, a5⟩ := h.mx_some x e1 h1
    exact ⟨a1, a2, a3, by rw [hstX e1 (a2 ▸ a3)]; exact a4, by simp⟩
  · intro e1 he1 h1 h2
    rw [hstX e1 h1] at h2
    exact h.back_my e1 he1 h1 h2
  · intro e1 he1 h1 h2
    rw [hstX e1 h1] at h2
    rcases h.back_mx e1 he1 h1 h2 with a | a
    · exact Or.inl a
    · cases a
  · exact h.ux_mx
  · intro y hy
    by_cases e' : y = (n.orig e).tail
    · subst e'
      simp [hmy]
    · have e'' : ¬ (n.orig e).tail = y := fun h => e' h.symm
      rw [h.uy_my y hy]
      simp [List.mem_erase_of_ne e', e'']
  · intro y e1 h1
    obtain ⟨rest, hr⟩ := h.front y e1 h1
    refine ⟨rest, ?_⟩
    have hy : y ≠ (n.orig e).tail := by
      intro e'; rw [e', hmy] at h1; cases h1
    rw [r4 _ (by simp) (by simp [hy])]
    exact hr
  · intro y hy
    simp only [Mode.freeY.injEq] at hy
    subst hy
    exact ⟨hty, fun hm => ((List.Nodup.mem_erase_iff h.uy_nodup).mp hm).1 rfl⟩
  · intro x e1 h1
    cases h1

/-- A step of the switching loop of `augment_spath` at a Y-node without
matching edge: the forward edge `e` into it is reversed and becomes its
matching edge. -/
theorem step_reverse_fwd (hn : n.OK C) {e : Nat}
    (h : GInv n C g st mx my ux uy L (Mode.freeY (n.orig e).head))
    (he : e < n.E) (hx : (n.orig e).tail ∈ n.X) (hb : (st e).back = false) :
    ∃ g1 L1, g.reverse_dir e = .ok g1 ∧ g1.node = g.node ∧
      GInv n C g1 (Function.update st e (st e).rev) mx
        (Function.update my (n.orig e).head (some e)) ux uy L1
        (Mode.pendX (n.orig e).tail e) := by
  have hg := h.xy e he hx
  obtain ⟨g1, L1, r1, r2, r3, r4, r5⟩ := h.mem.reverse_spec hn he hg
  have hrb := EState.back_rev_of_not_back hg hb
  have hy := hn.xy_head he hx
  obtain ⟨_, hyu⟩ := h.free _ rfl
  have hmy : my (n.orig e).head = none := (h.uy_my _ hy).mpr (Or.inr rfl)
  have hstb : ∀ e1, (st e1).back = true → Function.update st e (st e).rev e1 = st e1 := by
    intro e1 h1
    have hne : e1 ≠ e := by
      intro e'; subst e'; rw [hb] at h1; cases h1
    rw [Function.update_noteq hne]
  refine ⟨g1, L1, r1, r2, ?_⟩
  constructor
  · exact r3
  · rw [r2]; exact h.price
  · rw [r2]; exact h.sprice
  · intro e1 he1 h1
    by_cases hne : e1 = e
    · subst hne; rw [Function.update_same]; exact EState.rev_ne_gone hg
    · rw [Function.update_noteq hne]; exact h.xy e1 he1 h1
  · intro e1 he1 h1
    have hne : e1 ≠ e := by
      intro e'; subst e'; rw [h1] at hx; exact hn.sX hx
    rw [Function.update_noteq hne]
    exact h.sx e1 he1 h1
  · intro e1 he1 h1
    have hne : e1 ≠ e := by
      intro e'; subst e'; rw [h1] at hy; exact hn.tY hy
    rw [Function.update_noteq hne]
    exact h.yt e1 he1 h1
  · exact h.ux_sub
  · exact h.uy_sub
  · exact h.ux_nodup
  · exact h.uy_nodup
  · have := h.len
    simpa using this
  · intro y e1 h1
    by_cases hyy : y = (n.orig e).head
    · subst hyy
      rw [Function.update_same] at h1
      have : e = e1 := Option.some.inj h1
      subst this
      exact ⟨he, hx, rfl, by rw [Function.update_same]; exact hrb⟩
    · rw [Function.update_noteq hyy] at h1
      obtain ⟨a1, a2, a3, a4⟩ := h.my_some y e1 h1
      exact ⟨a1, a2, a3, by rw [hstb e1 a4]; exact a4⟩
  · intro x e1 h1
    obtain ⟨a1, a2, a3, a4, a5⟩ := h.mx_some x e1 h1
    refine ⟨a1, a2, a3, by rw [hstb e1 a4]; exact a4, ?_⟩
    intro hm
    simp only [Mode.pendX.injEq] at hm
    rw [← hm.2, hb] at a4
    cases a4
  · intro e1 he1 h1 h2
    by_cases hne : e1 = e
    · subst hne
      rw [Function.update_same]
    · rw [Function.update_noteq hne] at h2
      have := h.back_my e1 he1 h1 h2
      have hhd : (n.orig e1).head ≠ (n.orig e).head := by
        intro e'; rw [e', hmy] at this; cases this
      rw [Function.update_noteq hhd]
      exact this
  · intro e1 he1 h1 h2
    by_cases hne : e1 = e
    · subst hne
      exact Or.inr rfl
    · rw [Function.update_noteq hne] at h2
      rcases h.back_mx e1 he1 h1 h2 with a | a
      · exact Or.inl a
      · cases a
  · exact h.ux_mx
  · intro y hy'
    by_cases hyy : y = (n.orig e).head
    · subst hyy
      rw [Function.update_same]
      simp [hyu]
    · rw [Function.update_noteq hyy, h.uy_my y hy']
      have : ¬ (n.orig e).head = y := fun h => hyy h.symm
      simp [this]
  · intro y e1 h1
    by_cases hyy : y = (n.orig e).head
    · subst hyy
      rw [Function.update_same] at h1
      have : e = e1 := Option.some.inj h1
      subst this
      exact r5 hrb
    · rw [Function.update_noteq hyy] at h1
      obtain ⟨rest, hr⟩ := h.front y e1 h1
      obtain ⟨a1, a2, a3, a4⟩ := h.my_some y e1 h1
      have hyY : y ∈ n.Y := a3 ▸ hn.xy_head a1 a2
      have hyt : y ≠ (n.orig e).tail := by
        intro e'; rw [e'] at hyY; exact hn.xY _ hx hyY
      refine ⟨rest, ?_⟩
      rw [r4 _ (by simp [hyy]) (by simp) (by simp [hyt]) (by simp)]
      exact hr
  · intro y hy'
    cases hy'
  · intro x e1 h1
    simp only [Mode.pendX.injEq] at h1
    obtain ⟨h1, h2⟩ := h1
    subst h1 h2
    refine ⟨he, rfl, hx, by rw [Function.update_same]; exact hrb, ?_⟩
    intro hm
    obtain ⟨_, _, _, a4, _⟩ := h.mx_some _ _ hm
    rw [hb] at a4
    cases a4

/-- A step of the switching loop of `augment_spath` at a matched X-node that
got a new matching edge `enew`: its old matching edge `e` is reversed and is a
forward edge again. -/
theorem step_reverse_back (hn : n.OK C) {e enew : Nat}
    (h : GInv n C g st mx my ux uy L (Mode.pendX (n.orig e).tail enew))
    (he : e < n.E) (hx : (n.orig e).tail ∈ n.X) (hb : (st e).back = true) (hne : e ≠ enew) :
    ∃ g1 L1, g.reverse_dir e = .ok g1 ∧ g1.node = g.node ∧
      GInv n C g1 (Function.update st e (st e).rev)
        (Function.update mx (n.orig e).tail (some enew))
        (Function.update my (n.orig e).head none) ux uy L1
        (Mode.freeY (n.orig e).head) := by
  have hg := h.xy e he hx
  obtain ⟨g1, L1, r1, r2, r3, r4, r5⟩ := h.mem.reverse_spec hn he hg
  obtain ⟨hrb, hrg⟩ := EState.back_rev_of_back hb
  have hy := hn.xy_head he hx
  obtain ⟨p1, p2, p3, p4, p5⟩ := h.pend _ _ rfl
  have hmx : mx (n.orig e).tail = some e := by
    rcases h.back_mx e he hx hb with a | a
    · exact a
    · simp only [Mode.pendX.injEq] at a
      exact absurd a.2.symm hne
  have hmy : my (n.orig e).head = some e := h.back_my e he hx hb
  have hxu : (n.orig e).tail ∉ ux := by
    intro hm
    have := (h.ux_mx _ hx).mpr hm
    rw [hmx] at this
    cases this
  have hyu : (n.orig e).head ∉ uy := by
    intro hm
    have := (h.uy_my _ hy).mpr (Or.inl hm)
    rw [hmy] at this
    cases this
  refine ⟨g1, L1, r1, r2, ?_⟩
  constructor
  · exact r3
  · rw [r2]; exact h.price
  · rw [r2]; exact h.sprice
  · intro e1 he1 h1
    by_cases hne1 : e1 = e
    · subst hne1; rw [Function.update_same]; exact hrg
    · rw [Function.update_noteq hne1]; exact h.xy e1 he1 h1
  · intro e1 he1 h1
    have hne1 : e1 ≠ e := by
      intro e'; subst e'; rw [h1] at hx; exact hn.sX hx
    rw [Function.update_noteq hne1]
    exact h.sx e1 he1 h1
  · intro e1 he1 h1
    have hne1 : e1 ≠ e := by
      intro e'; subst e'; rw [h1] at hy; exact hn.tY hy
    rw [Function.update_noteq hne1]
    exact h.yt e1 he1 h1
  · exact h.ux_sub
  · exact h.uy_sub
  · exact h.ux_nodup
  · exact h.uy_nodup
  · have := h.len
    simpa using this
  · intro y e1 h1
    by_cases hyy : y = (n.orig e).head
    · subst hyy
      rw [Function.update_same] at h1
      cases h1
    · rw [Function.update_noteq hyy] at h1
      obtain ⟨a1, a2, a3, a4⟩ := h.my_some y e1 h1
      have hne1 : e1 ≠ e := by
        intro e'; subst e'; exact hyy a3.symm
      exact ⟨a1, a2, a3, by rw [Function.update_noteq hne1]; exact a4⟩
  · intro x e1 h1
    by_cases hxx : x = (n.orig e).tail
    · subst hxx
      rw [Function.update_same] at h1
      have : enew = e1 := Option.some.inj h1
      subst this
      refine ⟨p1, p2, hx, ?_, by simp⟩
      rw [Function.update_noteq (Ne.symm hne)]
      exact p4
    · rw [Function.update_noteq hxx] at h1
      obtain ⟨a1, a2, a3, a4, a5⟩ := h.mx_some x e1 h1
      have hne1 : e1 ≠ e := by
        intro e'; subst e'; exact hxx a2.symm
      exact ⟨a1, a2, a3, by rw [Function.update_noteq hne1]; exact a4, by simp⟩
  · intro e1 he1 h1 h2
    by_cases hne1 : e1 = e
    · subst hne1
      rw [Function.update_same, hrb] at h2
      cases h2
    · rw [Function.update_noteq hne1] at h2
      have := h.back_my e1 he1 h1 h2
      have hhd : (n.orig e1).head ≠ (n.orig e).head := by
        intro e'
        rw [e', hmy] at this
        exact hne1 (Option.some.inj this).symm
      rw [Function.update_noteq hhd]
      exact this
  · intro e1 he1 h1 h2
    by_cases hne1 : e1 = e
    · subst hne1
      rw [Function.update_same, hrb] at h2
      cases h2
    · rw [Function.update_noteq hne1] at h2
      rcases h.back_mx e1 he1 h1 h2 with a | a
      · have htl : (n.orig e1).tail ≠ (n.orig e).tail := by
          intro e'
          rw [e', hmx] at a
          exact hne1 (Option.some.inj a).symm
        rw [Function.update_noteq htl]
        exact Or.inl a
      · simp only [Mode.pendX.injEq] at a
        obtain ⟨a1, a2⟩ := a
        subst a2
        rw [← a1, Function.update_same]
        exact Or.inl rfl
  · intro x hx'
    by_cases hxx : x = (n.orig e).tail
    · subst hxx
      rw [Function.update_same]
      simp [hxu]
    · rw [Function.update_noteq hxx]
      exact h.ux_mx x hx'
  · intro y hy'
    by_cases hyy : y = (n.orig e).head
    · subst hyy
      rw [Function.update_same]
      simp
    · rw [Function.update_noteq hyy, h.uy_my y hy']
      have : ¬ (n.orig e).head = y := fun h => hyy h.symm
      simp [this]
  · intro y e1 h1
    by_cases hyy : y = (n.orig e).head
    · subst hyy
      rw [Function.update_same] at h1
      cases h1
    · rw [Function.update_noteq hyy] at h1
      obtain ⟨rest, hr⟩ := h.front y e1 h1
      obtain ⟨a1, a2, a3, a4⟩ := h.my_some y e1 h1
      have hyY : y ∈ n.Y := a3 ▸ hn.xy_head a1 a2
      have hyt : y ≠ (n.orig e).tail := by
        intro e'; rw [e'] at hyY; exact hn.xY _ hx hyY
      refine ⟨rest, ?_⟩
      rw [r4 _ (by simp [hyy]) (by simp) (by simp [hyt]) (by simp)]
      exact hr
  · intro y hy'
    simp only [Mode.freeY.injEq] at hy'
    subst hy'
    exact ⟨hy, hyu⟩
  · intro x e1 h1
    cases h1

/-- The last step of `augment_spath`: the edge `e` from `s` to the X-node that
got the matching edge `enew` is removed. -/
theorem step_remove_sx (hn : n.OK C) {e enew : Nat}
    (h : GInv n C g st mx my ux uy L (Mode.pendX (n.orig e).head enew))
    (he : e < n.E) (hs : (n.orig e).tail = n.s) (hst : st e = EState.F0) :
    ∃ g1 L1, g.remove e = .ok g1 ∧ g1.node = g.node ∧
      GInv n C g1 (Function.update st e EState.gone)
        (Function.update mx (n.orig e).head (some enew)) my
        (ux.erase (n.orig e).head) uy L1 Mode.clean := by
  obtain ⟨g1, L1, r1, r2, r3, r4⟩ := h.mem.remove_spec hn he hst
  have hhx := hn.head_of_tail_s he hs
  have hxu : (n.orig e).head ∈ ux := by
    rcases h.sx e he hs with a | a
    · exact a.2
    · rw [hst] at a; cases a.1
  have hmx : mx (n.orig e).head = none := (h.ux_mx _ hhx).mpr hxu
  obtain ⟨p1, p2, p3, p4, p5⟩ := h.pend _ _ rfl
  have hstX : ∀ e1, (n.orig e1).tail ∈ n.X → Function.update st e EState.gone e1 = st e1 := by
    intro e1 h1
    by_cases hne : e1 = e
    · subst hne; rw [hs] at h1; exact absurd h1 hn.sX
    · rw [Function.update_noteq hne]
  refine ⟨g1, L1, r1, r2, ?_⟩
  constructor
  · exact r3
  · rw [r2]; exact h.price
  · rw [r2]; exact h.sprice
  · intro e1 he1 h1; rw [hstX e1 h1]; exact h.xy e1 he1 h1
  · intro e1 he1 h1
    by_cases hne : e1 = e
    · subst hne
      rw [Function.update_same]
      exact Or.inr ⟨rfl, fun hm => ((List.Nodup.mem_erase_iff h.ux_nodup).mp hm).1 rfl⟩
    · rw [Function.update_noteq hne]
      have hne2 : (n.orig e1).head ≠ (n.orig e).head :=
        fun e' => hne (hn.sx_unique e1 e he1 he h1 hs e')
      rcases h.sx e1 he1 h1 with a | a
      · exact Or.inl ⟨a.1, (List.mem_erase_of_ne hne2).mpr a.2⟩
      · exact Or.inr ⟨a.1, fun hm => a.2 (List.mem_of_mem_erase hm)⟩
  · intro e1 he1 h1
    have hne : e1 ≠ e := by
      intro e'; subst e'; rw [h1] at hhx; exact hn.tX hhx
    rw [Function.update_noteq hne]
    exact h.yt e1 he1 h1
  · intro x hx'; exact h.ux_sub x (List.mem_of_mem_erase hx')
  · exact h.uy_sub
  · exact h.ux_nodup.erase _
  · exact h.uy_nodup
  · have := h.len
    rw [List.length_erase_of_mem hxu]
    have hpos : 0 < ux.length := List.length_pos_of_mem hxu
    simp at this ⊢
    omega
  · intro y e1 h1
    obtain ⟨a1, a2, a3, a4⟩ := h.my_some y e1 h1
    exact ⟨a1, a2, a3, by rw [hstX e1 a2]; exact a4⟩
  · intro x e1 h1
    by_cases hxx : x = (n.orig e).head
    · subst hxx
      rw [Function.update_same] at h1
      have : enew = e1 := Option.some.inj h1
      subst this
      exact ⟨p1, p2, hhx, by rw [hstX _ (p2 ▸ hhx)]; exact p4, by simp⟩
    · rw [Function.update_noteq hxx] at h1
      obtain ⟨a1, a2, a3, a4, a5⟩ := h.mx_some x e1 h1
      exact ⟨a1, a2, a3, by rw [hstX e1 (a2 ▸ a3)]; exact a4, by simp⟩
  · intro e1 he1 h1 h2
    rw [hstX e1 h1] at h2
    exact h.back_my e1 he1 h1 h2
  · intro e1 he1 h1 h2
    rw [hstX e1 h1] at h2
    rcases h.back_mx e1 he1 h1 h2 with a | a
    · have htl : (n.orig e1).tail ≠ (n.orig e).head := by
        intro e'; rw [e', hmx] at a; cases a
      rw [Function.update_noteq htl]
      exact Or.inl a
    · simp only [Mode.pendX.injEq] at a
      obtain ⟨a1, a2⟩ := a
      subst a2
      rw [a1, Function.update_same]
      exact Or.inl rfl
  · intro x hx'
    by_cases hxx : x = (n.orig e).head
    · subst hxx
      rw [Function.update_same]
      simp
      exact fun hm => ((List.Nodup.mem_erase_iff h.ux_nodup).mp hm).1 rfl
    · rw [Function.update_noteq hxx, h.ux_mx x hx']
      simp [List.mem_erase_of_ne hxx]
  · intro y hy'
    rw [h.uy_my y hy']
    simp
  · intro y e1 h1
    obtain ⟨rest, hr⟩ := h.front y e1 h1
    obtain ⟨a1, a2, a3, a4⟩ := h.my_some y e1 h1
    have hyY : y ∈ n.Y := a3 ▸ hn.xy_head a1 a2
    have hys : y ≠ (n.orig e).tail := by
      intro e'; rw [e', hs] at hyY; exact hn.sY hyY
    refine ⟨rest, ?_⟩
    rw [r4 _ (by simp) (by simp [hys])]
    exact hr
  · intro y hy'
    cases hy'
  · intro x e1 h1
    cases h1

end GInv

end Hungarian

namespace Hungarian

theorem EState.locH_first {o : Edge} {σ : EState} {u : Nat}
    (h : σ.locH o = some (Ptr.first u)) : (σ.cur o).tail = u ∧ σ ≠ EState.gone := by
  cases σ <;> simp [EState.locH, EState.cur, EState.back] at h ⊢ <;> exact h

theorem EState.locT_first {o : Edge} {σ : EState} {u : Nat}
    (h : σ.locT o = some (Ptr.first u)) :
    ((σ.cur o).tail = u ∨ (σ.cur o).head = u) ∧ σ ≠ EState.gone := by
  cases σ <;> simp [EState.locT, EState.cur, EState.back] at h ⊢ <;> simp [h]

theorem EState.locH_second {o : Edge} {σ : EState} {u : Nat}
    (h : σ.locH o = some (Ptr.second u)) : σ = EState.F0 ∧ o.head = u := by
  cases σ <;> simp [EState.locH] at h ⊢
  exact h

theorem EState.locT_second {o : Edge} {σ : EState} {u : Nat}
    (h : σ.locT o = some (Ptr.second u)) : σ = EState.B1 ∧ o.tail = u := by
  cases σ <;> simp [EState.locT] at h ⊢
  exact h

namespace MInv

variable {n : Net} {g : Digraph} {st : Nat → EState} {L : Ptr → List Ptr} {C : Int}

/-- The head of the current content of an edge is a node. -/
theorem cur_head_lt (hn : n.OK C) {e : Nat} (he : e < n.E) (σ : EState) :
    (σ.cur (n.orig e)).head < n.N ∧ (σ.cur (n.orig e)).tail < n.N := by
  rcases EState.cur_head_tail (n.orig e) σ with a | a
  · rw [a.1, a.2.1]; exact ⟨hn.head_lt he, hn.tail_lt he⟩
  · rw [a.1, a.2.1]; exact ⟨hn.tail_lt he, hn.head_lt he⟩

/-- The cell `hkey` of an edge sits in the sublist its state names. -/
theorem hk_mem (h : MInv n g st L) {e : Nat} (he : e < n.E) {p : Ptr}
    (hl : (st e).locH (n.orig e) = some p) :
    Ptr.cell (2 * e + 1) ∈ L p ∧ (g.store.mem (Ptr.cell (2 * e + 1))).val = e := by
  refine ⟨(h.loc _ _).mpr ⟨e, he, Or.inl ⟨rfl, hl⟩⟩, ?_⟩
  rw [h.val _ (by omega)]
  omega

/-- The cell `tkey` of an edge sits in the sublist its state names. -/
theorem tk_mem (h : MInv n g st L) {e : Nat} (he : e < n.E) {p : Ptr}
    (hl : (st e).locT (n.orig e) = some p) :
    Ptr.cell (2 * e) ∈ L p ∧ (g.store.mem (Ptr.cell (2 * e))).val = e := by
  refine ⟨(h.loc _ _).mpr ⟨e, he, Or.inr ⟨rfl, hl⟩⟩, ?_⟩
  rw [h.val _ (by omega)]
  omega

/-- The invariant does not depend on the `sp` members of the nodes. -/
theorem mem_of_nodes {d : Digraph} (h : MInv n g st L) (h1 : d.store = g.store)
    (h2 : d.edge = g.edge) (h3 : d.nnodes = g.nnodes) (h4 : d.nedges = g.nedges)
    (h5 : ∀ v, (d.node v).name = (g.node v).name) : MInv n d st L := by
  constructor
  · rw [h3]; exact h.nnodes
  · rw [h4]; exact h.nedges
  · intro v; rw [h5]; exact h.name v
  · rw [h1]; exact h.wf
  · rw [h1]; exact h.val
  · rw [h2]; exact h.edge
  · exact h.loc

end MInv

namespace GInv

variable {n : Net} {C : Int} {g : Digraph} {st : Nat → EState} {mx my : Nat → Option Nat}
  {ux uy : List Nat} {L : Ptr → List Ptr} {mode : Mode}

/-- The invariant does not depend on the `sp` members of the nodes other than
through the bound on the prices. -/
theorem of_nodes {g1 : Digraph} (h : GInv n C g st mx my ux uy L mode) (h1 : g1.store = g.store)
    (h2 : g1.edge = g.edge) (h3 : g1.nnodes = g.nnodes) (h4 : g1.nedges = g.nedges)
    (h5 : ∀ v, (g1.node v).name = (g.node v).name)
    (h6 : ∀ v, v < n.N → |(g1.node v).sp.price| ≤ (n.N : Int) * C)
    (h7 : (g1.node n.s).sp.price = 0) : GInv n C g1 st mx my ux uy L mode :=
  { h with mem := h.mem.mem_of_nodes h1 h2 h3 h4 h5, price := h6, sprice := h7 }

/-- Between rounds, with an X-node still unmatched, the graph is ready for
`dijkstra_spath(s)`. -/
theorem ready (hn : n.OK C) (h : GInv n C g st mx my ux uy L Mode.clean) (hux : ux ≠ []) :
    Digraph.DijkReady g L n.s n.N C ((n.N : Int) * C) := by
  have hlen := h.len
  simp only [if_true] at hlen
  obtain ⟨x0, hx0⟩ := List.exists_mem_of_ne_nil ux hux
  have huy : uy ≠ [] := by
    intro e
    rw [e] at hlen
    simp at hlen
    exact hux hlen
  obtain ⟨y0, hy0⟩ := List.exists_mem_of_ne_nil uy huy
  constructor
  · exact h.mem.nnodes
  · exact hn.sN
  · exact h.mem.wf
  · intro u hu c hc
    obtain ⟨a1, a2⟩ := h.mem.val_of_mem hc
    rw [h.mem.edge _ a1]
    refine ⟨?_, (MInv.cur_head_lt hn a1 _).1⟩
    rcases a2 with ⟨_, a2⟩ | ⟨_, a2⟩
    · exact Or.inl (EState.locH_first a2).1
    · exact (EState.locT_first a2).1
  · intro u hu c hc
    obtain ⟨a1, a2⟩ := h.mem.val_of_mem hc
    rw [h.mem.edge _ a1, EState.abs_cur_cost _ _ (hn.cost_range a1).1 (hn.cost_range a1).2]
    exact hn.cost _ a1
  · exact h.price
  · exact h.sprice
  · exact hn.cpos
  · have := hn.small
    have e : (3 * (n.N : Int) + 1) * C = (n.N : Int) * C + C + 2 * ((n.N : Int) * C) := by ring
    rw [e] at this
    exact this
  · intro D hs hstep v hv
    have hX : ∀ x ∈ ux, D x := by
      intro x hx
      obtain ⟨e, he, e1, e2⟩ := hn.sx x (h.ux_sub x hx)
      have hst : st e = EState.F0 := by
        rcases h.sx e he e1 with a | a
        · exact a.1
        · rw [e2] at a; exact absurd hx a.2
      obtain ⟨c1, c2⟩ := h.mem.tk_mem he (p := Ptr.first n.s) (by rw [hst, ← e1]; rfl)
      have := hstep n.s hn.sN hs _ c1
      rw [c2, h.mem.edge e he, hst] at this
      have := this e1
      rw [← e2]
      exact this
    have hY : ∀ y ∈ n.Y, D y := by
      intro y hy
      have hx0X := h.ux_sub x0 hx0
      obtain ⟨e, he, e1, e2⟩ := hn.complete x0 hx0X y hy
      have hxe : (n.orig e).tail ∈ n.X := e1 ▸ hx0X
      have hnb : (st e).back = false := by
        by_contra hb
        have hb' : (st e).back = true := by simpa using hb
        rcases h.back_mx e he hxe hb' with a | a
        · have := (h.ux_mx _ hxe).mpr (e1 ▸ hx0)
          rw [a] at this
          cases this
        · cases a
      have hg := h.xy e he hxe
      have hcur : (st e).cur (n.orig e) = n.orig e :=
        EState.cur_of_not_back (by simpa using hnb) (hn.cost_range he).1 (hn.cost_range he).2
      have hloc : (st e).locH (n.orig e) = some (Ptr.first x0) ∨
          (st e).locT (n.orig e) = some (Ptr.first x0) := by
        cases hs' : st e <;> simp [hs', EState.back] at hnb hg ⊢
        · right; simp [EState.locT, e1]
        · left; simp [EState.locH, e1]
      have hcell : ∃ c ∈ L (Ptr.first x0), (g.store.mem c).val = e := by
        rcases hloc with a | a
        · exact ⟨_, (h.mem.hk_mem he a).1, (h.mem.hk_mem he a).2⟩
        · exact ⟨_, (h.mem.tk_mem he a).1, (h.mem.tk_mem he a).2⟩
      obtain ⟨c, c1, c2⟩ := hcell
      have := hstep x0 (hn.xN _ hx0X) (hX x0 hx0) c c1
      rw [c2, h.mem.edge e he, hcur] at this
      have := this e1
      rw [e2] at this
      exact this
    rcases hn.cover v hv with a | a | a | a
    · rw [a]; exact hs
    · rw [a]
      have hy0Y := h.uy_sub y0 hy0
      obtain ⟨e, he, e1, e2⟩ := hn.yt y0 hy0Y
      have hst : st e = EState.F0 := by
        rcases h.yt e he e2 with a | a
        · exact a.1
        · rw [e1] at a; exact absurd hy0 a.2
      obtain ⟨c1, c2⟩ := h.mem.tk_mem he (p := Ptr.first y0) (by rw [hst, ← e1]; rfl)
      have := hstep y0 (hn.yN _ hy0Y) (hY y0 hy0Y) _ c1
      rw [c2, h.mem.edge e he, hst] at this
      have := this e1
      rw [← e2]
      exact this
    · by_cases hvu : v ∈ ux
      · exact hX v hvu
      · have hm : mx v ≠ none := fun e => hvu ((h.ux_mx v a).mp e)
        obtain ⟨e, he⟩ := Option.ne_none_iff_exists.mp hm
        obtain ⟨a1, a2, a3, a4, _⟩ := h.mx_some v e he.symm
        have hyY := hn.xy_head a1 (a2 ▸ a3)
        have hcur : ((st e).cur (n.orig e)).tail = (n.orig e).head ∧
            ((st e).cur (n.orig e)).head = (n.orig e).tail := by
          simp [EState.cur, a4]
        have hloc : (st e).locH (n.orig e) = some (Ptr.first (n.orig e).head) := by
          cases hs' : st e <;> simp [hs', EState.back] at a4 ⊢ <;> rfl
        obtain ⟨c1, c2⟩ := h.mem.hk_mem a1 hloc
        have := hstep _ (hn.yN _ hyY) (hY _ hyY) _ c1
        rw [c2, h.mem.edge e a1, hcur.1, hcur.2, a2] at this
        exact this rfl
    · exact hY v a

end GInv

namespace BiDigraph

theorem pickLoop_none (g : Digraph) (fuel : Nat) (minc : Int) (e : Nat) :
    pickLoop g fuel minc e none = .ok e := by
  cases fuel <;> rfl

/-- The first loop of `augment_spath` ends with the edge of one of the cells it
walks over, or with the edge it was entered with. -/
theorem pickLoop_mem (g : Digraph) {hd : Option Ptr} :
    ∀ (cs : List Ptr) (pv : Ptr) (fuel : Nat) (minc : Int) (e : Nat),
      Chain g.store.mem hd pv cs → cs.length ≤ fuel →
      ∃ r, pickLoop g fuel minc e (g.store.mem pv).next = .ok r ∧
        (r = e ∨ ∃ c ∈ cs, r = (g.store.mem c).val)
  | [], pv, fuel, minc, e, hch, _ => by
    simp only [Chain] at hch
    rw [hch, pickLoop_none]
    exact ⟨e, rfl, Or.inl rfl⟩
  | c :: cs, pv, fuel, minc, e, hch, hf => by
    simp only [Chain] at hch
    cases fuel with
    | zero => simp at hf
    | succ f =>
      rw [hch.1]
      have hf' : cs.length ≤ f := by simpa using hf
      simp only [pickLoop]
      split_ifs with hlt
      · obtain ⟨r, r1, r2⟩ := pickLoop_mem g cs c f
          (wrap ((g.node (g.edge (g.store.mem c).val).tail).sp.dist +
            (g.node (g.edge (g.store.mem c).val).tail).sp.price))
          (g.store.mem c).val hch.2.2.2 hf'
        refine ⟨r, r1, Or.inr ?_⟩
        rcases r2 with a | ⟨c', a, b⟩
        · exact ⟨c, List.mem_cons_self _ _, a⟩
        · exact ⟨c', List.mem_cons_of_mem _ a, b⟩
      · obtain ⟨r, r1, r2⟩ := pickLoop_mem g cs c f minc e hch.2.2.2 hf'
        refine ⟨r, r1, ?_⟩
        rcases r2 with a | ⟨c', a, b⟩
        · exact Or.inl a
        · exact Or.inr ⟨c', List.mem_cons_of_mem _ a, b⟩

theorem switchLoop_step {s : Nat} {g g1 : Digraph} {e : Nat} (f : Nat)
    (hne : (g.edge e).tail ≠ s) (hr : g.reverse_dir e = .ok g1) :
    switchLoop s (f + 1) g (some e) = switchLoop s f g1 (g1.node (g.edge e).tail).sp.prev := by
  simp [switchLoop, hne, hr]

theorem switchLoop_exit {s : Nat} {g : Digraph} {e : Nat} (f : Nat)
    (he : (g.edge e).tail = s) : switchLoop s (f + 1) g (some e) = .ok (g, e) := by
  simp [switchLoop, he]

/-- The switching loop of `augment_spath` follows the `prev` edges back to an
edge that leaves `s`, reversing every edge on its way; at the end the matching
is in order except for the X-node that this last edge enters. -/
theorem switchLoop_spec {n : Net} {C : Int} (hn : n.OK C) {stD : Nat → EState}
    {pv : Nat → Option Nat} {rank : Nat → Nat} (hpv : PrevOK n stD pv rank)
    {ux uy : List Nat} :
    ∀ (fuel v : Nat) (g : Digraph) (st : Nat → EState) (mx my : Nat → Option Nat)
      (L : Ptr → List Ptr) (mode : Mode),
      GInv n C g st mx my ux uy L mode →
      (∀ u, (g.node u).sp.prev = pv u) →
      (∀ e, e < n.E → st e ≠ stD e →
        ((n.orig e).head = n.t ∧ stD e = EState.F0) ∨
          rank v < rank ((stD e).cur (n.orig e)).head) →
      (mode = Mode.freeY v ∨ ∃ enew, mode = Mode.pendX v enew ∧ (stD enew).back = false) →
      rank v < fuel →
      ∃ g1 e1 st1 mx1 my1 L1 enew, switchLoop n.s fuel g (pv v) = .ok (g1, e1) ∧
        g1.node = g.node ∧ e1 < n.E ∧ (n.orig e1).tail = n.s ∧ st1 e1 = EState.F0 ∧
        GInv n C g1 st1 mx1 my1 ux uy L1 (Mode.pendX (n.orig e1).head enew)
  | 0, v, g, st, mx, my, L, mode, _, _, _, _, hf => by omega
  | f + 1, v, g, st, mx, my, L, mode, h, hnode, hun, hmode, hf => by
    have hvXY : v ∈ n.X ∨ v ∈ n.Y := by
      rcases hmode with a | ⟨enew, a, _⟩
      · exact Or.inr (h.free v a).1
      · exact Or.inl (h.pend v enew a).2.2.1
    have hvN : v < n.N := by
      rcases hvXY with a | a
      · exact hn.xN v a
      · exact hn.yN v a
    have hvs : v ≠ n.s := by
      rintro rfl
      rcases hvXY with a | a
      · exact hn.sX a
      · exact hn.sY a
    have hvt : v ≠ n.t := by
      rintro rfl
      rcases hvXY with a | a
      · exact hn.tX a
      · exact hn.tY a
    obtain ⟨e, he, hpe, hhd, hrk, hgD⟩ := hpv v hvN hvs
    have hste : st e = stD e := by
      by_contra hne
      rcases hun e he hne with ⟨a, b⟩ | a
      · rw [b] at hhd
        have : (n.orig e).head = v := hhd
        exact hvt (this ▸ a)
      · rw [hhd] at a
        omega
    rw [← hste] at hhd hrk hgD
    have hedge := h.mem.edge e he
    rw [hpe]
    -- the edges changed so far stay away from the nodes still to come
    have hun1 : ∀ σ, ∀ e1, e1 < n.E → Function.update st e σ e1 ≠ stD e1 →
        ((n.orig e1).head = n.t ∧ stD e1 = EState.F0) ∨
          rank ((st e).cur (n.orig e)).tail < rank ((stD e1).cur (n.orig e1)).head := by
      intro σ e1 he1 hne1
      by_cases hee : e1 = e
      · subst hee
        rw [← hste, hhd]
        exact Or.inr hrk
      · rw [Function.update_noteq hee] at hne1
        rcases hun e1 he1 hne1 with a | a
        · exact Or.inl a
        · exact Or.inr (by omega)
    rcases hmode with hm | ⟨enew, hm, hnewD⟩
    · -- a Y-node without matching edge
      subst hm
      obtain ⟨hvY, _⟩ := h.free v rfl
      have hcl : (st e).back = false ∧ (n.orig e).head = v ∧ (n.orig e).tail ∈ n.X := by
        rcases EState.cur_head_tail (n.orig e) (st e) with a | a
        · rw [a.1] at hhd
          refine ⟨a.2.2, hhd, ?_⟩
          rcases hn.kind e he with k | k | k
          · exact k.1
          · rw [hhd] at k; exact absurd hvY (hn.xY _ k.2)
          · rw [hhd] at k; exact absurd k.2 hvt
        · exfalso
          rw [a.1] at hhd
          have ht : (n.orig e).head = n.t := by
            rcases hn.kind e he with k | k | k
            · rw [hhd] at k; exact absurd hvY (hn.xY _ k.1)
            · rw [hhd] at k; exact absurd k.1 hvs
            · exact k.2
          rcases h.yt e he ht with b | b
          · rw [b.1] at a; simp [EState.back] at a
          · rw [b.1] at a; simp [EState.back] at a
      obtain ⟨hb, hhv, htX⟩ := hcl
      subst hhv
      have hcur : (st e).cur (n.orig e) = n.orig e :=
        EState.cur_of_not_back hb (hn.cost_range he).1 (hn.cost_range he).2
      rw [hcur] at hrk
      obtain ⟨g1, L1, r1, r2, r3⟩ := h.step_reverse_fwd hn he htX hb
      have hts : (g.edge e).tail ≠ n.s := by
        rw [hedge, hcur]
        intro e'
        rw [e'] at htX
        exact hn.sX htX
      rw [switchLoop_step f hts r1, r2, hnode, hedge, hcur]
      obtain ⟨g2, e2, st2, mx2, my2, L2, en2, q1, q2, q3, q4, q5, q6⟩ :=
        switchLoop_spec hn hpv f (n.orig e).tail g1 _ _ _ L1 _ r3
          (by intro u; rw [r2]; exact hnode u)
          (by
            intro e1 he1 hne1
            have := hun1 _ e1 he1 hne1
            rw [hcur] at this
            exact this)
          (Or.inr ⟨e, rfl, by rw [← hste]; exact hb⟩) (by omega)
      exact ⟨g2, e2, st2, mx2, my2, L2, en2, q1, by rw [q2, r2], q3, q4, q5, q6⟩
    · -- an X-node with a new matching edge
      subst hm
      obtain ⟨p1, p2, hvX, p4, p5⟩ := h.pend v enew rfl
      rcases EState.cur_head_tail (n.orig e) (st e) with a | a
      · -- the edge from `s`
        rw [a.1] at hhd
        have hs : (n.orig e).tail = n.s := by
          rcases hn.kind e he with k | k | k
          · rw [hhd] at k; exact absurd hvX (hn.yX k.2)
          · exact k.1
          · rw [hhd] at k; exact absurd k.2 hvt
        have hst : st e = EState.F0 := by
          rcases h.sx e he hs with b | b
          · exact b.1
          · exact absurd b.1 hgD
        have hts : (g.edge e).tail = n.s := by
          rw [hedge, a.2.1]; exact hs
        rw [switchLoop_exit f hts]
        subst hhd
        exact ⟨g, e, st, mx, my, L, enew, rfl, rfl, he, hs, hst, h⟩
      · -- the old matching edge
        rw [a.1] at hhd
        rw [a.2.1] at hrk
        have htX : (n.orig e).tail ∈ n.X := hhd ▸ hvX
        have hee : e ≠ enew := by
          rintro rfl
          rw [hste, hnewD] at a
          cases a.2.2
        subst hhd
        obtain ⟨g1, L1, r1, r2, r3⟩ := h.step_reverse_back hn he htX a.2.2 hee
        have hyY := hn.xy_head he htX
        have hts : (g.edge e).tail ≠ n.s := by
          rw [hedge, a.2.1]
          intro e'
          rw [e'] at hyY
          exact hn.sY hyY
        rw [switchLoop_step f hts r1, r2, hnode, hedge, a.2.1]
        obtain ⟨g2, e2, st2, mx2, my2, L2, en2, q1, q2, q3, q4, q5, q6⟩ :=
          switchLoop_spec hn hpv f (n.orig e).head g1 _ _ _ L1 _ r3
            (by intro u; rw [r2]; exact hnode u)
            (by
              intro e1 he1 hne1
              have := hun1 _ e1 he1 hne1
              rw [a.2.1] at this
              exact this)
            (Or.inl rfl) (by omega)
        exact ⟨g2, e2, st2, mx2, my2, L2, en2, q1, by rw [q2, r2], q3, q4, q5, q6⟩

/-- The run of `augment_spath()` after `dijkstra_spath(s)`, between rounds with
an X-node still unmatched: it ends, touches no node, and leaves a matching
with one unmatched X-node less. -/
theorem augment_spec {n : Net} {C : Int} (hn : n.OK C) {b : BiDigraph} {st : Nat → EState}
    {mx my : Nat → Option Nat} {ux uy : List Nat} {L : Ptr → List Ptr} {rank : Nat → Nat}
    (hs : b.s = some n.s) (ht : b.t = some n.t)
    (h : GInv n C b.toDigraph st mx my ux uy L Mode.clean) (hux : ux ≠ [])
    (hpv : PrevOK n st (fun v => (b.node v).sp.prev) rank)
    (hrank : ∀ v, v < n.N → rank v < n.N) :
    ∃ g1 st1 mx1 my1 ux1 uy1 L1, augment_spath b = .ok (b.withGraph g1) ∧ g1.node = b.node ∧
      GInv n C g1 st1 mx1 my1 ux1 uy1 L1 Mode.clean ∧ ux1.length + 1 = ux.length := by
  have hlen := h.len
  simp only [if_true] at hlen
  have huy : uy ≠ [] := by
    intro e
    rw [e] at hlen
    simp at hlen
    exact hux hlen
  obtain ⟨y0, hy0⟩ := List.exists_mem_of_ne_nil uy huy
  -- the in-list of `t` is not empty
  have hne : L (Ptr.second n.t) ≠ [] := by
    obtain ⟨e, he, e1, e2⟩ := hn.yt y0 (h.uy_sub y0 hy0)
    have hst : st e = EState.F0 := by
      rcases h.yt e he e2 with a | a
      · exact a.1
      · rw [e1] at a; exact absurd hy0 a.2
    have := (h.mem.hk_mem he (p := Ptr.second n.t) (by rw [hst, ← e2]; rfl)).1
    exact List.ne_nil_of_mem this
  have hch := h.mem.wf.chain (Ptr.second n.t) hn.tN
  have hll := h.mem.wf.length_le (Ptr.second n.t)
  obtain ⟨r, hr1, hr2⟩ := pickLoop_mem b.toDigraph (L (Ptr.second n.t)) (Ptr.second n.t)
    (b.store.ncells + 1) INF (b.store.mem (match L (Ptr.second n.t) with
      | [] => Ptr.second n.t
      | p0 :: _ => p0)).val hch (by omega)
  cases hL : L (Ptr.second n.t) with
  | nil => exact absurd hL hne
  | cons p0 cs =>
    rw [hL] at hch hr1 hr2
    simp only [Chain] at hch
    simp only at hr1 hr2
    have hbegin : indexedList.begin_second b.store n.t = some p0 := hch.1
    rw [hch.1] at hr1
    have hrc : ∃ c ∈ L (Ptr.second n.t), r = (b.store.mem c).val := by
      rw [hL]
      rcases hr2 with a | a
      · exact ⟨p0, List.mem_cons_self _ _, a⟩
      · exact a
    obtain ⟨c, hc1, hc2⟩ := hrc
    obtain ⟨v1, v2⟩ := h.mem.val_of_mem hc1
    rw [← hc2] at v1 v2
    have hF : st r = EState.F0 ∧ (n.orig r).head = n.t := by
      rcases v2 with ⟨_, a⟩ | ⟨_, a⟩
      · exact EState.locH_second a
      · exfalso
        have := (EState.locT_second a).2
        rcases hn.kind r v1 with k | k | k
        · rw [this] at k; exact hn.tX k.1
        · rw [this] at k; exact hn.st k.1.symm
        · rw [this] at k; exact hn.tY k.1
    obtain ⟨g1, L1, r1, r2, r3⟩ := h.step_remove_yt hn v1 hF.2 hF.1
    have hg1e : (g1.edge r).tail = (n.orig r).tail := by
      rw [r3.mem.edge r v1, Function.update_same]
      rfl
    obtain ⟨g2, e2, st2, mx2, my2, L2, en2, q1, q2, q3, q4, q5, q6⟩ :=
      switchLoop_spec hn hpv (g1.nedges + 1) (n.orig r).tail g1 _ _ _ L1 _ r3
        (by intro u; rw [r2])
        (by
          intro e1 he1 hne1
          by_cases hee : e1 = r
          · subst hee
            exact Or.inl ⟨hF.2, hF.1⟩
          · rw [Function.update_noteq hee] at hne1
            exact absurd rfl hne1)
        (Or.inl rfl)
        (by
          have := hrank _ (hn.tail_lt v1)
          have := hn.EN
          rw [r3.mem.nedges]
          omega)
    obtain ⟨g3, L3, s1, s2, s3⟩ := q6.step_remove_sx hn q3 q4 q5
    refine ⟨g3, _, _, _, _, _, L3, ?_, by rw [s2, q2, r2], s3, ?_⟩
    · unfold augment_spath
      have hsw : switchLoop n.s (g1.nedges + 1) g1 (g1.node (g1.edge r).tail).sp.prev =
          .ok (g2, e2) := by
        rw [hg1e, r2]
        exact q1
      simp only [hs, ht, hbegin, hr1, r1, hsw, s1]
    · have hxu : (n.orig e2).head ∈ ux := by
        rcases q6.sx e2 q3 q4 with a | a
        · exact a.2
        · rw [q5] at a; cases a.1
      rw [List.length_erase_of_mem hxu]
      have := List.length_pos_of_mem hxu
      omega

end BiDigraph


namespace BiDigraph

/-- Effect of `for_each(first, last, reduce_price)` over distinct nodes. -/
theorem foldl_reduce_price :
    ∀ (vs : List Nat) (g : Digraph), vs.Nodup →
      (vs.foldl reduce_price g).store = g.store ∧ (vs.foldl reduce_price g).edge = g.edge ∧
      (vs.foldl reduce_price g).nnodes = g.nnodes ∧
      (vs.foldl reduce_price g).nedges = g.nedges ∧
      (∀ v, ((vs.foldl reduce_price g).node v).name = (g.node v).name) ∧
      (∀ v, ((vs.foldl reduce_price g).node v).sp.dist = (g.node v).sp.dist) ∧
      (∀ v, v ∉ vs → ((vs.foldl reduce_price g).node v).sp.price = (g.node v).sp.price) ∧
      (∀ v, v ∈ vs → ((vs.foldl reduce_price g).node v).sp.price =
        wrap ((g.node v).sp.dist + (g.node v).sp.price))
  | [], g, _ => by
    refine ⟨rfl, rfl, rfl, rfl, fun _ => rfl, fun _ => rfl, fun _ _ => rfl, ?_⟩
    intro v hv
    cases hv
  | w :: vs, g, hnd => by
    obtain ⟨hw, hnd'⟩ := List.nodup_cons.mp hnd
    obtain ⟨a1, a2, a3, a4, a5, a6, a7, a8⟩ := foldl_reduce_price vs (reduce_price g w) hnd'
    have hnode : ∀ v, v ≠ w → (reduce_price g w).node v = g.node v := by
      intro v hv
      unfold reduce_price
      exact Digraph.setSP_node_ne _ _ hv
    have hw1 : ((reduce_price g w).node w).sp.dist = (g.node w).sp.dist ∧
        ((reduce_price g w).node w).sp.price = wrap ((g.node w).sp.dist + (g.node w).sp.price) ∧
        ((reduce_price g w).node w).name = (g.node w).name := by
      unfold reduce_price
      simp
    rw [List.foldl_cons]
    refine ⟨a1, a2, a3, a4, ?_, ?_, ?_, ?_⟩
    · intro v
      rw [a5]
      by_cases hv : v = w
      · rw [hv]; exact hw1.2.2
      · rw [hnode v hv]
    · intro v
      rw [a6]
      by_cases hv : v = w
      · rw [hv]; exact hw1.1
      · rw [hnode v hv]
    · intro v hv
      rw [List.mem_cons, not_or] at hv
      rw [a7 v hv.2, hnode v hv.1]
    · intro v hv
      rcases List.mem_cons.mp hv with e | e
      · subst e
        rw [a7 v hw]
        exact hw1.2.1
      · have hvw : v ≠ w := by
          rintro rfl
          exact hw e
        rw [a8 v e, hnode v hvw]

/-- One round of `min_weight_assignment`, entered between rounds with an X-node
still unmatched: it ends and leaves a matching with one unmatched X-node
less. -/
theorem round_spec {n : Net} {C : Int} (hn : n.OK C) {b : BiDigraph} {st : Nat → EState}
    {mx my : Nat → Option Nat} {ux uy : List Nat} {L : Ptr → List Ptr}
    (hs : b.s = some n.s) (ht : b.t = some n.t) (hx : b.x = n.X) (hy : b.y = n.Y)
    (h : GInv n C b.toDigraph st mx my ux uy L Mode.clean) (hux : ux ≠ []) :
    ∃ b1 st1 mx1 my1 ux1 uy1 L1, round b = .ok b1 ∧ b1.s = b.s ∧ b1.t = b.t ∧ b1.x = b.x ∧
      b1.y = b.y ∧ GInv n C b1.toDigraph st1 mx1 my1 ux1 uy1 L1 Mode.clean ∧
      ux1.length + 1 = ux.length := by
  obtain ⟨gD, rank, d1, d2⟩ := Digraph.dijkstra_spath_spec (h.ready hn hux)
  have hD : GInv n C gD st mx my ux uy L Mode.clean :=
    h.of_nodes d2.store d2.edge d2.nnodes d2.nedges d2.name
      (by intro v hv; rw [d2.price]; exact h.price v hv) (by rw [d2.price]; exact h.sprice)
  have hpv : PrevOK n st (fun v => (gD.node v).sp.prev) rank := by
    intro v hv hvs
    obtain ⟨e, e1, e2, e3, e4, c, c1, c2⟩ := d2.prev v hv hvs
    obtain ⟨v1, v2⟩ := hD.mem.val_of_mem c1
    rw [c2] at v1 v2
    have hed := hD.mem.edge e v1
    rw [hed] at e2 e4
    refine ⟨e, v1, e1, e2, e4, ?_⟩
    rcases v2 with ⟨_, a⟩ | ⟨_, a⟩
    · exact (EState.locH_first a).2
    · exact (EState.locT_first a).2
  obtain ⟨g1, st1, mx1, my1, ux1, uy1, L1, a1, a2, a3, a4⟩ :=
    augment_spec hn (b := b.withGraph gD) hs ht hD hux hpv d2.rlt
  have hxn := hn.xnodup
  have hyn := hn.ynodup
  obtain ⟨x1, x2, x3, x4, x5, x6, x7, x8⟩ := foldl_reduce_price n.X g1 hxn
  obtain ⟨y1, y2, y3, y4, y5, y6, y7, y8⟩ :=
    foldl_reduce_price n.Y (n.X.foldl reduce_price g1) hyn
  have hNC : (n.N : Int) * C < 2147483647 := by
    have h1 : 0 ≤ (n.N : Int) * C := mul_nonneg (Int.natCast_nonneg _) hn.cpos
    have h2 := hn.small
    have h3 : (3 * (n.N : Int) + 1) * C = 3 * ((n.N : Int) * C) + C := by ring
    have h4 := hn.cpos
    rw [h3] at h2
    omega
  have hbd : ∀ v, v < n.N →
      |wrap ((g1.node v).sp.dist + (g1.node v).sp.price)| ≤ (n.N : Int) * C := by
    intro v hv
    have := d2.bound v hv
    rw [a2]
    show |wrap ((gD.node v).sp.dist + (gD.node v).sp.price)| ≤ _
    have e : wrap ((gD.node v).sp.dist + (gD.node v).sp.price) =
        (gD.node v).sp.dist + (gD.node v).sp.price := by
      rw [abs_le] at this
      exact wrap_id (by omega) (by omega)
    rw [e]
    exact this
  refine ⟨reduce_node_prices ((b.withGraph gD).withGraph g1), st1, mx1, my1, ux1, uy1, L1,
    ?_, rfl, rfl, rfl, rfl, ?_, a4⟩
  · unfold round
    simp only [hs, d1, a1]
  · have hred : (reduce_node_prices ((b.withGraph gD).withGraph g1)).toDigraph =
        n.Y.foldl reduce_price (n.X.foldl reduce_price g1) := by
      unfold reduce_node_prices
      show List.foldl reduce_price (List.foldl reduce_price g1 b.x) b.y = _
      rw [hx, hy]
    rw [hred]
    refine a3.of_nodes (by rw [y1, x1]) (by rw [y2, x2]) (by rw [y3, x3]) (by rw [y4, x4])
      (by intro v; rw [y5, x5]) ?_ ?_
    · intro v hv
      by_cases hvY : v ∈ n.Y
      · rw [y8 v hvY, x6, x7 v (hn.yX hvY)]
        exact hbd v hv
      · rw [y7 v hvY]
        by_cases hvX : v ∈ n.X
        · rw [x8 v hvX]
          exact hbd v hv
        · rw [x7 v hvX]
          exact a3.price v hv
    · rw [y7 _ hn.sY, x7 _ hn.sX]
      exact a3.sprice

/-- The loop of `min_weight_assignment`, run for as many rounds as there are
unmatched X-nodes, ends with every node matched. -/
theorem rounds_spec {n : Net} {C : Int} (hn : n.OK C) :
    ∀ (k : Nat) (b : BiDigraph) (st : Nat → EState) (mx my : Nat → Option Nat)
      (ux uy : List Nat) (L : Ptr → List Ptr),
      b.s = some n.s → b.t = some n.t → b.x = n.X → b.y = n.Y →
      GInv n C b.toDigraph st mx my ux uy L Mode.clean → ux.length = k →
      ∃ b1 st1 mx1 my1 L1, rounds k b = .ok b1 ∧ b1.s = b.s ∧ b1.t = b.t ∧ b1.x = b.x ∧
        b1.y = b.y ∧ GInv n C b1.toDigraph st1 mx1 my1 [] [] L1 Mode.clean
  | 0, b, st, mx, my, ux, uy, L, _, _, _, _, h, hk => by
    have hux : ux = [] := List.length_eq_zero.mp hk
    have hlen := h.len
    simp only [if_true, hk] at hlen
    have huy : uy = [] := List.length_eq_zero.mp (by omega)
    subst hux huy
    exact ⟨b, st, mx, my, L, rfl, rfl, rfl, rfl, rfl, h⟩
  | k + 1, b, st, mx, my, ux, uy, L, hs, ht, hx, hy, h, hk => by
    have hux : ux ≠ [] := by
      intro e
      rw [e] at hk
      simp at hk
    obtain ⟨b1, st1, mx1, my1, ux1, uy1, L1, r1, r2, r3, r4, r5, r6, r7⟩ :=
      round_spec hn hs ht hx hy h hux
    obtain ⟨b2, st2, mx2, my2, L2, q1, q2, q3, q4, q5, q6⟩ :=
      rounds_spec hn k b1 st1 mx1 my1 ux1 uy1 L1 (r2 ▸ hs) (r3 ▸ ht) (r4 ▸ hx) (r5 ▸ hy) r6
        (by omega)
    refine ⟨b2, st2, mx2, my2, L2, ?_, by rw [q2, r2], by rw [q3, r3], by rw [q4, r4],
      by rw [q5, r5], q6⟩
    simp only [rounds, r1]
    exact q1

end BiDigraph

namespace BiDigraph

/-- The number of Y-nodes is at most the number of nodes. -/
theorem ylen_le {n : Net} {C : Int} (hn : n.OK C) : n.Y.length ≤ n.N := by
  have hsub : n.Y ⊆ List.range n.N := fun y hy => List.mem_range.mpr (hn.yN y hy)
  have := (List.subperm_of_subset hn.ynodup hsub).length_le
  simpa using this

/-- What `print_mapping` finds at a matched Y-node: the first cell of its
out-list holds its matching edge. -/
theorem matched_first {n : Net} {C : Int} (hn : n.OK C) {g : Digraph} {st : Nat → EState}
    {mx my : Nat → Option Nat} {L : Ptr → List Ptr}
    (h : GInv n C g st mx my [] [] L Mode.clean) {y : Nat} (hy : y ∈ n.Y) :
    ∃ e, my y = some e ∧ e < n.E ∧ (n.orig e).tail ∈ n.X ∧ (n.orig e).head = y ∧
      mx (n.orig e).tail = some e ∧
      indexedList.begin_first g.store y = some (Ptr.cell (2 * e + 1)) ∧
      (g.store.mem (Ptr.cell (2 * e + 1))).val = e ∧
      (g.edge e).cost = -(n.orig e).cost ∧ (g.edge e).head = (n.orig e).tail := by
  have hm : my y ≠ none := by
    intro e
    rcases (h.uy_my y hy).mp e with a | a
    · cases a
    · cases a
  obtain ⟨e, he⟩ := Option.ne_none_iff_exists.mp hm
  obtain ⟨a1, a2, a3, a4⟩ := h.my_some y e he.symm
  obtain ⟨rest, hr⟩ := h.front y e he.symm
  have hch := h.mem.wf.chain (Ptr.first y) (hn.yN y hy)
  rw [hr] at hch
  simp only [Chain] at hch
  have hmx : mx (n.orig e).tail = some e := by
    rcases h.back_mx e a1 a2 a4 with a | a
    · exact a
    · cases a
  refine ⟨e, he.symm, a1, a2, a3, hmx, hch.1, ?_, ?_, ?_⟩
  · rw [h.mem.val _ (by omega)]; omega
  · rw [h.mem.edge e a1, EState.cur_of_back a4 (hn.cost_range a1).1 (hn.cost_range a1).2]
  · rw [h.mem.edge e a1, EState.cur_of_back a4 (hn.cost_range a1).1 (hn.cost_range a1).2]

/-- The first loop of `print_mapping` adds up the original costs of the
matching edges. -/
theorem totalCost_spec {n : Net} {C : Int} (hn : n.OK C) {g : Digraph} {st : Nat → EState}
    {mx my : Nat → Option Nat} {L : Ptr → List Ptr}
    (h : GInv n C g st mx my [] [] L Mode.clean) :
    ∀ (ys : List Nat) (acc : Int), (∀ y ∈ ys, y ∈ n.Y) →
      |acc| + (ys.length : Int) * C < 2147483648 →
      totalCost g ys acc =
        .ok (acc + (ys.map fun y => (n.orig ((my y).getD 0)).cost).sum)
  | [], acc, _, _ => by simp [totalCost]
  | y :: ys, acc, hys, hb => by
    obtain ⟨e, e1, e2, e3, e4, e5, e6, e7, e8, e9⟩ :=
      matched_first hn h (hys y (List.mem_cons_self _ _))
    have hc := hn.cost e e2
    have hC := hn.cpos
    have hlen : ((y :: ys).length : Int) * C = (ys.length : Int) * C + C := by
      rw [List.length_cons]; push_cast; ring
    rw [hlen] at hb
    have hnn : 0 ≤ (ys.length : Int) * C := mul_nonneg (Int.natCast_nonneg _) hC
    have habs := abs_nonneg acc
    have hacc := abs_le.mp (le_refl |acc|)
    rw [abs_le] at hc
    have w1 : wrap (-(-(n.orig e).cost)) = (n.orig e).cost := by
      rw [neg_neg]; exact wrap_id (by omega) (by omega)
    have w2 : wrap (acc + (n.orig e).cost) = acc + (n.orig e).cost :=
      wrap_id (by omega) (by omega)
    simp only [totalCost, e6, e7, e8, w1, w2]
    rw [totalCost_spec hn h ys _ (fun y' hy' => hys y' (List.mem_cons_of_mem _ hy'))
      (by
        have : |acc + (n.orig e).cost| ≤ |acc| + C := by
          rw [abs_le]
          constructor <;> omega
        omega)]
    simp [e1, add_assoc]

/-- The second loop of `print_mapping` reports, for every Y-node, the X-end of
its matching edge. -/
theorem pairs_spec {n : Net} {C : Int} (hn : n.OK C) {g : Digraph} {st : Nat → EState}
    {mx my : Nat → Option Nat} {L : Ptr → List Ptr}
    (h : GInv n C g st mx my [] [] L Mode.clean) :
    ∀ (ys : List Nat), (∀ y ∈ ys, y ∈ n.Y) →
      pairs g ys =
        .ok (ys.map fun y => (n.name (n.orig ((my y).getD 0)).tail, n.name y))
  | [], _ => by simp [pairs]
  | y :: ys, hys => by
    obtain ⟨e, e1, e2, e3, e4, e5, e6, e7, e8, e9⟩ :=
      matched_first hn h (hys y (List.mem_cons_self _ _))
    simp only [pairs, e6, e7, e9,
      pairs_spec hn h ys (fun y' hy' => hys y' (List.mem_cons_of_mem _ hy'))]
    simp [e1, h.mem.name]

/-- What `print_mapping` prints once every node is matched. -/
theorem print_mapping_spec {n : Net} {C : Int} (hn : n.OK C) {b : BiDigraph}
    {st : Nat → EState} {mx my : Nat → Option Nat} {L : Ptr → List Ptr} (hy : b.y = n.Y)
    (h : GInv n C b.toDigraph st mx my [] [] L Mode.clean) :
    ∃ me : Nat → Nat,
      (∀ y ∈ n.Y, me y < n.E ∧ (n.orig (me y)).tail ∈ n.X ∧ (n.orig (me y)).head = y) ∧
      (∀ y1 ∈ n.Y, ∀ y2 ∈ n.Y, (n.orig (me y1)).tail = (n.orig (me y2)).tail → y1 = y2) ∧
      print_mapping b = .ok ((n.Y.map fun y => (n.orig (me y)).cost).sum,
        n.Y.map fun y => (n.name (n.orig (me y)).tail, n.name y)) := by
  refine ⟨fun y => (my y).getD 0, ?_, ?_, ?_⟩
  · intro y hy'
    obtain ⟨e, e1, e2, e3, e4, _⟩ := matched_first hn h hy'
    simp only [e1, Option.getD_some]
    exact ⟨e2, e3, e4⟩
  · intro y1 h1 y2 h2 heq
    obtain ⟨e, e1, e2, e3, e4, e5, _⟩ := matched_first hn h h1
    obtain ⟨f, f1, f2, f3, f4, f5, _⟩ := matched_first hn h h2
    simp only [e1, f1, Option.getD_some] at heq
    rw [heq, f5] at e5
    have : f = e := Option.some.inj e5
    subst this
    rw [← e4, ← f4]
  · have hlen := ylen_le hn
    have hb : |(0 : Int)| + (n.Y.length : Int) * C < 2147483648 := by
      have h1 : (n.Y.length : Int) * C ≤ (n.N : Int) * C :=
        mul_le_mul_of_nonneg_right (by exact_mod_cast hlen) hn.cpos
      have h2 : 0 ≤ (n.N : Int) * C := mul_nonneg (Int.natCast_nonneg _) hn.cpos
      have h3 := hn.small
      have h4 : (3 * (n.N : Int) + 1) * C = 3 * ((n.N : Int) * C) + C := by ring
      have h5 := hn.cpos
      rw [h4] at h3
      simp only [abs_zero]
      omega
    unfold print_mapping
    rw [hy, totalCost_spec hn h n.Y 0 (fun _ hy' => hy') hb,
      pairs_spec hn h n.Y (fun _ hy' => hy')]
    simp

end BiDigraph

end Hungarian

namespace Hungarian

theorem firstSeen_snoc (l : List Nat) (a : Nat) :
    firstSeen (l ++ [a]) = if a ∈ firstSeen l then firstSeen l else firstSeen l ++ [a] := by
  unfold firstSeen
  rw [List.foldl_append]
  rfl

theorem mem_firstSeen (l : List Nat) : ∀ a, a ∈ firstSeen l ↔ a ∈ l := by
  induction l using List.reverseRecOn with
  | nil => simp [firstSeen]
  | append_singleton l b ih =>
    intro a
    rw [firstSeen_snoc]
    split_ifs with h
    · rw [ih, List.mem_append, List.mem_singleton]
      constructor
      · exact Or.inl
      · rintro (h1 | h1)
        · exact h1
        · rw [h1, ← ih]; exact h
    · rw [List.mem_append, List.mem_append, ih]

theorem nodup_firstSeen (l : List Nat) : (firstSeen l).Nodup := by
  induction l using List.reverseRecOn with
  | nil => simp [firstSeen]
  | append_singleton l b ih =>
    rw [firstSeen_snoc]
    split_ifs with h
    · exact ih
    · rw [List.nodup_append]
      refine ⟨ih, List.nodup_singleton _, ?_⟩
      intro x hx hx'
      rw [List.mem_singleton] at hx'
      subst hx'
      exact h hx

namespace Built

variable {g : Digraph} {L : Ptr → List Ptr}

/-- The empty graph. -/
theorem built_new : Built Digraph.new (fun _ => []) := by
  constructor
  · constructor
    · intro p hp; cases p <;> simp [Ptr.IsSent, Digraph.new] at hp
    · intro p hp; cases p <;> simp [Ptr.IsSent, Digraph.new] at hp
    · intro p _; rfl
    · intro p c hc; simp at hc
    · intro p; exact List.nodup_nil
    · intro p q c hc; simp at hc
  · rfl
  · intro i hi; simp [Digraph.new] at hi
  · intro p c
    simp [Digraph.new]
  · intro e he; simp [Digraph.new] at he
  · intro e he; simp [Digraph.new] at he

/-- Effect of `Digraph::add_node`. -/
theorem built_add_node (h : Built g L) (name : Nat) :
    Built (g.add_node name).1 L ∧ (g.add_node name).2 = g.nnodes ∧
    (g.add_node name).1.nnodes = g.nnodes + 1 ∧ (g.add_node name).1.edge = g.edge ∧
    (g.add_node name).1.nedges = g.nedges ∧
    ((g.add_node name).1.node g.nnodes).name = name ∧
    (∀ v, v ≠ g.nnodes → (g.add_node name).1.node v = g.node v) := by
  have hw := h.wf.wf_new (l := g.nnodes) (lt_irrefl _)
  have hC : (fun k => k < g.nnodes ∨ k = g.nnodes) = (fun k => k < g.nnodes + 1) := by
    funext k
    apply propext
    omega
  rw [hC] at hw
  have hmem : ∀ i, (indexedList.new g.store g.nnodes).mem (Ptr.cell i) = g.store.mem (Ptr.cell i) := by
    intro i
    simp [indexedList.new]
  refine ⟨?_, rfl, rfl, rfl, rfl, ?_, ?_⟩
  · constructor
    · exact hw
    · exact h.cells
    · intro i hi
      show ((indexedList.new g.store g.nnodes).mem (Ptr.cell i)).val = i / 2
      rw [hmem]
      exact h.val i hi
    · exact h.loc
    · exact h.keys
    · intro e he
      have := h.ends e he
      show (g.edge e).tail < g.nnodes + 1 ∧ (g.edge e).head < g.nnodes + 1
      omega
  · simp [Digraph.add_node]
  · intro v hv
    simp [Digraph.add_node, Function.update_noteq hv]

/-- Effect of `Digraph::add_edge`. -/
theorem built_add_edge (h : Built g L) {x y : Nat} (c : Int) (hx : x < g.nnodes)
    (hy : y < g.nnodes) :
    ∃ L1, Built (g.add_edge x y c) L1 ∧ (g.add_edge x y c).nnodes = g.nnodes ∧
      (g.add_edge x y c).node = g.node ∧ (g.add_edge x y c).nedges = g.nedges + 1 ∧
      (g.add_edge x y c).edge = Function.update g.edge g.nedges
        ⟨c, false, y, x, some (Ptr.cell (2 * g.nedges + 1)), some (Ptr.cell (2 * g.nedges))⟩ := by
  obtain ⟨w1, k1, v1, f1, n1⟩ := h.wf.wf_insert (l := x) hx g.nedges true
  obtain ⟨La, hLa⟩ : ∃ La, La = Function.update L (Ptr.sent x true)
      (Ptr.cell g.store.ncells :: L (Ptr.sent x true)) := ⟨_, rfl⟩
  rw [← hLa] at w1
  obtain ⟨w2, k2, v2, f2, n2⟩ := w1.wf_insert (l := y) hy g.nedges false
  rw [n1] at w2 k2 v2 f2 n2
  rw [h.cells] at w2 k1 v1 f1 k2 v2 f2 n2 hLa
  have hedge : (g.add_edge x y c).edge = Function.update g.edge g.nedges
      ⟨c, false, y, x, some (Ptr.cell (2 * g.nedges + 1)), some (Ptr.cell (2 * g.nedges))⟩ := by
    unfold Digraph.add_edge
    simp only
    rw [k2, k1]
  have hstore : (g.add_edge x y c).store =
      (indexedList.insert (indexedList.insert g.store x g.nedges true).1 y g.nedges false).1 := rfl
  have hmem : ∀ p c', c' ∈ Function.update La (Ptr.sent y false)
      (Ptr.cell (2 * g.nedges + 1) :: La (Ptr.sent y false)) p ↔
      (c' = Ptr.cell (2 * g.nedges + 1) ∧ p = Ptr.second y) ∨
      (c' = Ptr.cell (2 * g.nedges) ∧ p = Ptr.first x) ∨ c' ∈ L p := by
    intro p c'
    have hs1 : Ptr.sent y false = Ptr.second y := rfl
    have hs2 : Ptr.sent x true = Ptr.first x := rfl
    rw [hs1, hLa, hs2]
    by_cases hp : p = Ptr.second y
    · subst hp
      rw [Function.update_same, List.mem_cons, Function.update_noteq (by simp)]
      simp
    · rw [Function.update_noteq hp]
      by_cases hp2 : p = Ptr.first x
      · subst hp2
        rw [Function.update_same, List.mem_cons]
        simp
      · rw [Function.update_noteq hp2]
        simp [hp, hp2]
  refine ⟨Function.update La (Ptr.sent y false)
    (Ptr.cell (2 * g.nedges + 1) :: La (Ptr.sent y false)), ?_, rfl, rfl, rfl, hedge⟩
  constructor
  · rw [hstore]
    exact w2
  · rw [hstore, n2]
    show 2 * g.nedges + 1 + 1 = 2 * (g.nedges + 1)
    omega
  · intro i hi
    rw [hstore]
    have hi' : i < 2 * (g.nedges + 1) := hi
    by_cases e1 : i = 2 * g.nedges + 1
    · rw [e1, v2]; omega
    · rw [f2 _ (by simpa using e1)]
      by_cases e2 : i = 2 * g.nedges
      · rw [e2, v1]; omega
      · rw [f1 _ (by simpa using e2)]
        exact h.val i (by omega)
  · intro p c'
    rw [hmem, hedge, h.loc]
    show _ ↔ ∃ e, e < g.nedges + 1 ∧ _
    constructor
    · rintro (⟨a, b⟩ | ⟨a, b⟩ | ⟨e, he, a⟩)
      · exact ⟨g.nedges, by omega, Or.inl ⟨a, by rw [Function.update_same]; exact b⟩⟩
      · exact ⟨g.nedges, by omega, Or.inr ⟨a, by rw [Function.update_same]; exact b⟩⟩
      · refine ⟨e, by omega, ?_⟩
        rw [Function.update_noteq (by omega)]
        exact a
    · rintro ⟨e, he, a⟩
      by_cases hee : e = g.nedges
      · subst hee
        rw [Function.update_same] at a
        rcases a with a | a
        · exact Or.inl a
        · exact Or.inr (Or.inl a)
      · rw [Function.update_noteq hee] at a
        exact Or.inr (Or.inr ⟨e, by omega, a⟩)
  · intro e he
    have he' : e < g.nedges + 1 := he
    rw [hedge]
    by_cases hee : e = g.nedges
    · subst hee
      rw [Function.update_same]
      exact ⟨rfl, rfl, rfl⟩
    · rw [Function.update_noteq hee]
      exact h.keys e (by omega)
  · intro e he
    have he' : e < g.nedges + 1 := he
    rw [hedge]
    show _ < g.nnodes ∧ _ < g.nnodes
    by_cases hee : e = g.nedges
    · subst hee
      rw [Function.update_same]
      exact ⟨hx, hy⟩
    · rw [Function.update_noteq hee]
      exact h.ends e (by omega)

end Built

theorem readTriple_eq (r : Reader) (t : Nat × Nat × Int) :
    readTriple r t =
      ((r.getX t.1).1.getY t.2.1).1.link (r.getX t.1).2 ((r.getX t.1).1.getY t.2.1).2 t.2.2 := by
  rfl

theorem mapFind_some {m : List (Nat × Nat)} {k v : Nat} (h : mapFind m k = some v) :
    (k, v) ∈ m := by
  unfold mapFind at h
  cases hf : m.find? (fun p => p.1 == k) with
  | none => rw [hf] at h; cases h
  | some p =>
    rw [hf] at h
    have h1 := List.find?_some hf
    have h2 := List.mem_of_find?_eq_some hf
    simp only [Option.map_some', Option.some.injEq] at h
    have hk : p.1 = k := by simpa using h1
    have : p = (k, v) := by
      rw [← hk, ← h]
    rw [← this]
    exact h2

theorem mapFind_none {m : List (Nat × Nat)} {k : Nat} (h : mapFind m k = none) :
    ∀ p ∈ m, p.1 ≠ k := by
  unfold mapFind at h
  cases hf : m.find? (fun p => p.1 == k) with
  | some p => rw [hf] at h; cases h
  | none =>
    intro p hp e
    have := List.find?_eq_none.mp hf p hp
    simp [e] at this

theorem mapInsert_perm (m : List (Nat × Nat)) (k v : Nat) :
    (mapInsert m k v).Perm ((k, v) :: m) := by
  induction m with
  | nil => exact List.Perm.refl _
  | cons p ps ih =>
    simp only [mapInsert]
    split_ifs
    · exact List.Perm.refl _
    · exact (List.Perm.cons p ih).trans (List.Perm.swap _ _ _)

namespace RInv

variable {xs ys : List Nat} {done : List (Nat × Nat × Int)} {r : Reader} {L : Ptr → List Ptr}

theorem x_lt (h : RInv xs ys done r L) {v : Nat} (hv : v ∈ r.g.x) : v < r.g.nnodes :=
  List.mem_range.mp (h.part.subset (List.mem_append_left _ hv))

theorem y_lt (h : RInv xs ys done r L) {v : Nat} (hv : v ∈ r.g.y) : v < r.g.nnodes :=
  List.mem_range.mp (h.part.subset (List.mem_append_right _ hv))

theorem map_name_congr {f g : Nat → Node} {l : List Nat} (h : ∀ v ∈ l, f v = g v) :
    l.map (fun v => (f v).name) = l.map (fun v => (g v).name) :=
  List.map_congr_left fun v hv => by rw [h v hv]

/-- A new node, put into `x` or into `y`, keeps what holds of the old ones. -/
theorem add_node_core (h : RInv xs ys done r L) (a : Nat) (b1 : BiDigraph)
    (hd : b1.toDigraph = (r.g.toDigraph.add_node a).1)
    (hpart : (b1.x ++ b1.y).Perm (r.g.nnodes :: (r.g.x ++ r.g.y)))
    (hx : ∀ v ∈ r.g.x, v ∈ b1.x) (hy : ∀ v ∈ r.g.y, v ∈ b1.y) :
    Built b1.toDigraph L ∧ (b1.x ++ b1.y).Perm (List.range b1.nnodes) ∧
    (b1.node r.g.nnodes).name = a ∧ (∀ v, v < r.g.nnodes → b1.node v = r.g.node v) ∧
    b1.nedges = r.g.nedges ∧
    (∀ e t, done[e]? = some t →
      (b1.edge e).tail ∈ b1.x ∧ (b1.node (b1.edge e).tail).name = t.1 ∧
      (b1.edge e).head ∈ b1.y ∧ (b1.node (b1.edge e).head).name = t.2.1 ∧
      (b1.edge e).cost = t.2.2) := by
  obtain ⟨a1, a2, a3, a4, a5, a6, a7⟩ := h.built.built_add_node a
  have hnode : ∀ v, v < r.g.nnodes → b1.node v = r.g.node v := by
    intro v hv
    show b1.toDigraph.node v = _
    rw [hd]
    exact a7 v (by omega)
  refine ⟨by rw [hd]; exact a1, ?_, ?_, hnode, ?_, ?_⟩
  · show (b1.x ++ b1.y).Perm (List.range b1.toDigraph.nnodes)
    rw [hd, a3, List.range_succ]
    refine hpart.trans ?_
    refine (List.Perm.cons _ h.part).trans ?_
    exact (List.perm_append_singleton _ _).symm
  · show (b1.toDigraph.node _).name = a
    rw [hd]
    exact a6
  · show b1.toDigraph.nedges = _
    rw [hd]
    exact a5
  · intro e t he
    obtain ⟨e1, e2, e3, e4, e5⟩ := h.edges e t he
    have hed : b1.edge e = r.g.edge e := by
      show b1.toDigraph.edge e = _
      rw [hd, a4]
    rw [hed, hnode _ (h.x_lt e1), hnode _ (h.y_lt e3)]
    exact ⟨hx _ e1, e2, hy _ e3, e4, e5⟩

/-- Effect of the lookup or creation of the X-node. -/
theorem getX_inv (h : RInv xs ys done r L) (a : Nat) :
    RInv (xs ++ [a]) ys done (r.getX a).1 L ∧ (r.getX a).2 ∈ (r.getX a).1.g.x ∧
    ((r.getX a).1.g.node (r.getX a).2).name = a := by
  unfold Reader.getX
  cases hm : mapFind r.lstx a with
  | some xn =>
    simp only
    have hmem := mapFind_some hm
    have hx : xn ∈ r.g.x := h.lstx_snd.subset (List.mem_map.mpr ⟨(a, xn), hmem, rfl⟩)
    have hname : (r.g.node xn).name = a := h.lstx_key _ hmem
    refine ⟨{ h with xnames := ?_ }, hx, hname⟩
    rw [h.xnames, firstSeen_snoc, if_pos]
    rw [← h.xnames]
    exact List.mem_map.mpr ⟨xn, hx, hname⟩
  | none =>
    simp only
    have hno := mapFind_none hm
    have hxeq : (r.g.add_node a .XNode).1.x = r.g.x ++ [r.g.nnodes] := rfl
    have hyeq : (r.g.add_node a .XNode).1.y = r.g.y := rfl
    have h2 : (r.g.add_node a .XNode).2 = r.g.nnodes := rfl
    obtain ⟨c1, c2, c3, c4, c5, c6⟩ := h.add_node_core a (r.g.add_node a .XNode).1 rfl
      (by
        rw [hxeq, hyeq]
        refine (List.Perm.append_right _ (List.perm_append_singleton _ _)).trans ?_
        exact List.Perm.refl _)
      (by intro v hv; rw [hxeq]; exact List.mem_append_left _ hv)
      (by intro v hv; exact hv)
    have hnotin : a ∉ firstSeen xs := by
      rw [← h.xnames]
      intro hin
      obtain ⟨v, hv, hva⟩ := List.mem_map.mp hin
      obtain ⟨p, hp, hpv⟩ := List.mem_map.mp (h.lstx_snd.symm.subset hv)
      have := h.lstx_key p hp
      rw [hpv, hva] at this
      exact hno p hp this.symm
    refine ⟨?_, ?_, ?_⟩
    · constructor
      · exact c1
      · exact c2
      · show ((mapInsert r.lstx a _).map Prod.snd).Perm _
        rw [hxeq, h2]
        refine ((mapInsert_perm _ _ _).map _).trans ?_
        rw [List.map_cons]
        exact ((List.Perm.cons _ h.lstx_snd)).trans (List.perm_append_singleton _ _).symm
      · intro p hp
        rcases List.mem_cons.mp ((mapInsert_perm _ _ _).subset hp) with e | e
        · rw [e]
          exact c3
        · have hpx : p.2 ∈ r.g.x := h.lstx_snd.subset (List.mem_map.mpr ⟨p, e, rfl⟩)
          show ((r.g.add_node a .XNode).1.node p.2).name = p.1
          rw [c4 _ (h.x_lt hpx)]
          exact h.lstx_key p e
      · exact h.lsty_snd
      · intro p hp
        have hpy : p.2 ∈ r.g.y := h.lsty_snd.subset (List.mem_map.mpr ⟨p, hp, rfl⟩)
        show ((r.g.add_node a .XNode).1.node p.2).name = p.1
        rw [c4 _ (h.y_lt hpy)]
        exact h.lsty_key p hp
      · show ((r.g.add_node a .XNode).1.x).map _ = _
        rw [hxeq, List.map_append, firstSeen_snoc, if_neg hnotin, ← h.xnames]
        congr 1
        · exact map_name_congr fun v hv => c4 v (h.x_lt hv)
        · simp only [List.map_cons, List.map_nil]
          rw [c3]
      · show ((r.g.add_node a .XNode).1.y).map _ = _
        rw [hyeq, ← h.ynames]
        exact map_name_congr fun v hv => c4 v (h.y_lt hv)
      · rw [← h.ne]; exact c5
      · exact c6
    · show r.g.nnodes ∈ (r.g.add_node a .XNode).1.x
      rw [hxeq]
      simp
    · exact c3

/-- Effect of the lookup or creation of the Y-node. -/
theorem getY_inv (h : RInv xs ys done r L) (a : Nat) :
    RInv xs (ys ++ [a]) done (r.getY a).1 L ∧ (r.getY a).2 ∈ (r.getY a).1.g.y ∧
    ((r.getY a).1.g.node (r.getY a).2).name = a ∧
    (∀ v ∈ r.g.x, v ∈ (r.getY a).1.g.x ∧ ((r.getY a).1.g.node v).name = (r.g.node v).name) := by
  unfold Reader.getY
  cases hm : mapFind r.lsty a with
  | some yn =>
    simp only
    have hmem := mapFind_some hm
    have hy : yn ∈ r.g.y := h.lsty_snd.subset (List.mem_map.mpr ⟨(a, yn), hmem, rfl⟩)
    have hname : (r.g.node yn).name = a := h.lsty_key _ hmem
    refine ⟨{ h with ynames := ?_ }, hy, hname, fun v hv => ⟨hv, trivial⟩⟩
    rw [h.ynames, firstSeen_snoc, if_pos]
    rw [← h.ynames]
    exact List.mem_map.mpr ⟨yn, hy, hname⟩
  | none =>
    simp only
    have hno := mapFind_none hm
    have hxeq : (r.g.add_node a .YNode).1.x = r.g.x := rfl
    have hyeq : (r.g.add_node a .YNode).1.y = r.g.y ++ [r.g.nnodes] := rfl
    have h2 : (r.g.add_node a .YNode).2 = r.g.nnodes := rfl
    obtain ⟨c1, c2, c3, c4, c5, c6⟩ := h.add_node_core a (r.g.add_node a .YNode).1 rfl
      (by
        rw [hxeq, hyeq, ← List.append_assoc]
        exact List.perm_append_singleton _ _)
      (by intro v hv; exact hv)
      (by intro v hv; rw [hyeq]; exact List.mem_append_left _ hv)
    have hnotin : a ∉ firstSeen ys := by
      rw [← h.ynames]
      intro hin
      obtain ⟨v, hv, hva⟩ := List.mem_map.mp hin
      obtain ⟨p, hp, hpv⟩ := List.mem_map.mp (h.lsty_snd.symm.subset hv)
      have := h.lsty_key p hp
      rw [hpv, hva] at this
      exact hno p hp this.symm
    refine ⟨?_, ?_, ?_, ?_⟩
    · constructor
      · exact c1
      · exact c2
      · exact h.lstx_snd
      · intro p hp
        have hpx : p.2 ∈ r.g.x := h.lstx_snd.subset (List.mem_map.mpr ⟨p, hp, rfl⟩)
        show ((r.g.add_node a .YNode).1.node p.2).name = p.1
        rw [c4 _ (h.x_lt hpx)]
        exact h.lstx_key p hp
      · show ((mapInsert r.lsty a _).map Prod.snd).Perm _
        rw [hyeq, h2]
        refine ((mapInsert_perm _ _ _).map _).trans ?_
        rw [List.map_cons]
        exact ((List.Perm.cons _ h.lsty_snd)).trans (List.perm_append_singleton _ _).symm
      · intro p hp
        rcases List.mem_cons.mp ((mapInsert_perm _ _ _).subset hp) with e | e
        · rw [e]
          exact c3
        · have hpy : p.2 ∈ r.g.y := h.lsty_snd.subset (List.mem_map.mpr ⟨p, e, rfl⟩)
          show ((r.g.add_node a .YNode).1.node p.2).name = p.1
          rw [c4 _ (h.y_lt hpy)]
          exact h.lsty_key p e
      · show ((r.g.add_node a .YNode).1.x).map _ = _
        rw [hxeq, ← h.xnames]
        exact map_name_congr fun v hv => c4 v (h.x_lt hv)
      · show ((r.g.add_node a .YNode).1.y).map _ = _
        rw [hyeq, List.map_append, firstSeen_snoc, if_neg hnotin, ← h.ynames]
        congr 1
        · exact map_name_congr fun v hv => c4 v (h.y_lt hv)
        · simp only [List.map_cons, List.map_nil]
          rw [c3]
      · rw [← h.ne]; exact c5
      · exact c6
    · show r.g.nnodes ∈ (r.g.add_node a .YNode).1.y
      rw [hyeq]
      simp
    · exact c3
    · intro v hv
      refine ⟨hv, ?_⟩
      show ((r.g.add_node a .YNode).1.node v).name = _
      rw [c4 v (h.x_lt hv)]

end RInv

/-- Effect of `g->add_edge(xnode, ynode, cost)` at the end of an iteration of
the reading loop. -/
theorem RInv.link_inv {xs ys : List Nat} {done : List (Nat × Nat × Int)} {r : Reader}
    {L : Ptr → List Ptr} (h : RInv xs ys done r L) {xn yn : Nat} (hx : xn ∈ r.g.x)
    (hy : yn ∈ r.g.y) (t : Nat × Nat × Int) (ht1 : (r.g.node xn).name = t.1)
    (ht2 : (r.g.node yn).name = t.2.1) :
    ∃ L1, RInv xs ys (done ++ [t]) (r.link xn yn t.2.2) L1 := by
  obtain ⟨L1, b1, b2, b3, b4, b5⟩ := h.built.built_add_edge t.2.2 (h.x_lt hx) (h.y_lt hy)
  have hd : (r.link xn yn t.2.2).g.toDigraph = r.g.toDigraph.add_edge xn yn t.2.2 := rfl
  have hnode : (r.link xn yn t.2.2).g.node = r.g.node := by
    show (r.link xn yn t.2.2).g.toDigraph.node = _
    rw [hd, b3]
  have hnn : (r.link xn yn t.2.2).g.nnodes = r.g.nnodes := by
    show (r.link xn yn t.2.2).g.toDigraph.nnodes = _
    rw [hd, b2]
  have hedge : (r.link xn yn t.2.2).g.edge = Function.update r.g.edge r.g.nedges
      ⟨t.2.2, false, yn, xn, some (Ptr.cell (2 * r.g.nedges + 1)),
        some (Ptr.cell (2 * r.g.nedges))⟩ := by
    show (r.link xn yn t.2.2).g.toDigraph.edge = _
    rw [hd, b5]
  refine ⟨L1, ?_⟩
  constructor
  · rw [hd]; exact b1
  · rw [hnn]; exact h.part
  · exact h.lstx_snd
  · rw [hnode]; exact h.lstx_key
  · exact h.lsty_snd
  · rw [hnode]; exact h.lsty_key
  · rw [hnode]; exact h.xnames
  · rw [hnode]; exact h.ynames
  · show (r.link xn yn t.2.2).g.toDigraph.nedges = _
    rw [hd, b4, h.ne]
    simp
  · intro e t' he
    rw [hnode, hedge]
    by_cases hlt : e < done.length
    · rw [List.getElem?_append_left hlt] at he
      rw [Function.update_noteq (by rw [h.ne]; omega)]
      exact h.edges e t' he
    · have hle : done.length ≤ e := by omega
      rw [List.getElem?_append_right hle] at he
      have he0 : e - done.length = 0 := by
        by_contra hne
        have : ([t] : List (Nat × Nat × Int))[e - done.length]? = none := by
          apply List.getElem?_eq_none
          simp
          omega
        rw [this] at he
        cases he
      rw [he0] at he
      simp only [List.getElem?_cons_zero, Option.some.injEq] at he
      subst he
      have hee : e = r.g.nedges := by rw [h.ne]; omega
      rw [hee, Function.update_same]
      exact ⟨hx, ht1, hy, ht2, rfl⟩

/-- The reading loop of `prepare_graph`. -/
theorem read_all :
    ∀ (tr : List (Nat × Nat × Int)) (xs ys : List Nat) (done : List (Nat × Nat × Int))
      (r : Reader) (L : Ptr → List Ptr), RInv xs ys done r L →
      ∃ L1, RInv (xs ++ tr.map fun t => t.1) (ys ++ tr.map fun t => t.2.1) (done ++ tr)
        (tr.foldl readTriple r) L1
  | [], xs, ys, done, r, L, h => by
    refine ⟨L, ?_⟩
    simpa using h
  | t :: tr, xs, ys, done, r, L, h => by
    obtain ⟨x1, x2, x3⟩ := h.getX_inv t.1
    obtain ⟨y1, y2, y3, y4⟩ := x1.getY_inv t.2.1
    obtain ⟨hx, hxn⟩ := y4 _ x2
    obtain ⟨L1, hl⟩ := y1.link_inv hx y2 t (by rw [hxn]; exact x3) y3
    rw [← readTriple_eq] at hl
    obtain ⟨L2, h2⟩ := read_all tr _ _ _ _ L1 hl
    refine ⟨L2, ?_⟩
    simpa using h2

/-- A loop of `add_edge` calls with cost 0, as the two loops at the end of
`prepare_graph`. -/
theorem add_edges_spec (tl hd : Nat × Nat → Nat) :
    ∀ (ps : List (Nat × Nat)) (b : BiDigraph) (L : Ptr → List Ptr), Built b.toDigraph L →
      (∀ p ∈ ps, tl p < b.nnodes ∧ hd p < b.nnodes) →
      ∃ L1 b1, b1 = ps.foldl
          (fun (b : BiDigraph) p => b.withGraph (b.toDigraph.add_edge (tl p) (hd p) 0)) b ∧
        Built b1.toDigraph L1 ∧ b1.nnodes = b.nnodes ∧ b1.node = b.node ∧ b1.s = b.s ∧
        b1.t = b.t ∧ b1.x = b.x ∧ b1.y = b.y ∧ b1.nedges = b.nedges + ps.length ∧
        (∀ e, e < b.nedges → b1.edge e = b.edge e) ∧
        (∀ i p, ps[i]? = some p → (b1.edge (b.nedges + i)).tail = tl p ∧
          (b1.edge (b.nedges + i)).head = hd p ∧ (b1.edge (b.nedges + i)).cost = 0)
  | [], b, L, h, _ => by
    refine ⟨L, b, rfl, h, rfl, rfl, rfl, rfl, rfl, rfl, rfl, fun _ _ => rfl, ?_⟩
    intro i p hp
    simp at hp
  | q :: ps, b, L, h, hps => by
    obtain ⟨hq1, hq2⟩ := hps q (List.mem_cons_self _ _)
    obtain ⟨L1, b1, b2, b3, b4, b5⟩ := h.built_add_edge 0 hq1 hq2
    obtain ⟨L2, b', c0, c1, c2, c3, c4, c5, c6, c7, c8, c9, c10⟩ :=
      add_edges_spec tl hd ps (b.withGraph (b.toDigraph.add_edge (tl q) (hd q) 0)) L1 b1
        (fun p hp => by
          have := hps p (List.mem_cons_of_mem _ hp)
          show _ < (b.toDigraph.add_edge (tl q) (hd q) 0).nnodes ∧
            _ < (b.toDigraph.add_edge (tl q) (hd q) 0).nnodes
          rw [b2]
          exact this)
    have hne : (b.withGraph (b.toDigraph.add_edge (tl q) (hd q) 0)).nedges = b.nedges + 1 := b4
    have hed : (b.withGraph (b.toDigraph.add_edge (tl q) (hd q) 0)).edge =
        Function.update b.edge b.nedges
          ⟨0, false, hd q, tl q, some (Ptr.cell (2 * b.nedges + 1)),
            some (Ptr.cell (2 * b.nedges))⟩ := b5
    refine ⟨L2, b', ?_, c1, ?_, ?_, c4, c5, c6, c7, ?_, ?_, ?_⟩
    · rw [c0]; rfl
    · rw [c2]; exact b2
    · rw [c3]; exact b3
    · rw [c8, hne, List.length_cons]; omega
    · intro e he
      rw [c9 e (by rw [hne]; omega), hed, Function.update_noteq (by omega)]
    · intro i p hp
      cases i with
      | zero =>
        simp only [List.getElem?_cons_zero, Option.some.injEq] at hp
        subst hp
        rw [Nat.add_zero, c9 _ (by rw [hne]; omega), hed, Function.update_same]
        exact ⟨rfl, rfl, rfl⟩
      | succ i =>
        simp only [List.getElem?_cons_succ] at hp
        have := c10 i p hp
        rw [hne] at this
        have e : b.nedges + (i + 1) = b.nedges + 1 + i := by omega
        rw [e]
        exact this

theorem RInv.start : RInv [] [] [] ⟨BiDigraph.new, [], []⟩ (fun _ => []) := by
  constructor
  · exact Built.built_new
  · exact List.Perm.refl _
  · exact List.Perm.refl _
  · intro p hp; cases hp
  · exact List.Perm.refl _
  · intro p hp; cases hp
  · rfl
  · rfl
  · rfl
  · intro e t he
    simp at he

namespace Complete

variable {tr : List (Nat × Nat × Int)} {xs ys : List Nat} {C : Int}

theorem exists_triple (hc : Complete tr xs ys C) : ∃ t, t ∈ tr := by
  have hx : xs ≠ [] := by
    intro e
    have := hc.pos
    rw [e] at this
    simp at this
  have hy : ys ≠ [] := by
    intro e
    have := hc.pos
    rw [hc.len, e] at this
    simp at this
  obtain ⟨x, hx'⟩ := List.exists_mem_of_ne_nil xs hx
  obtain ⟨y, hy'⟩ := List.exists_mem_of_ne_nil ys hy
  obtain ⟨c, h⟩ := hc.all x hx' y hy'
  exact ⟨_, h⟩

theorem cpos (hc : Complete tr xs ys C) : 0 ≤ C := by
  obtain ⟨t, ht⟩ := hc.exists_triple
  exact le_trans (abs_nonneg _) (hc.mem t ht).2.2

theorem xnames_perm (hc : Complete tr xs ys C) :
    (firstSeen (tr.map fun t => t.1)).Perm xs := by
  rw [List.perm_ext_iff_of_nodup (nodup_firstSeen _) hc.xnodup]
  intro a
  rw [mem_firstSeen, List.mem_map]
  constructor
  · rintro ⟨t, ht, rfl⟩
    exact (hc.mem t ht).1
  · intro ha
    have hy : ys ≠ [] := by
      intro e
      have := hc.pos
      rw [hc.len, e] at this
      simp at this
    obtain ⟨y, hy'⟩ := List.exists_mem_of_ne_nil ys hy
    obtain ⟨c, h⟩ := hc.all a ha y hy'
    exact ⟨_, h, rfl⟩

theorem ynames_perm (hc : Complete tr xs ys C) :
    (firstSeen (tr.map fun t => t.2.1)).Perm ys := by
  rw [List.perm_ext_iff_of_nodup (nodup_firstSeen _) hc.ynodup]
  intro a
  rw [mem_firstSeen, List.mem_map]
  constructor
  · rintro ⟨t, ht, rfl⟩
    exact (hc.mem t ht).2.1
  · intro ha
    have hx : xs ≠ [] := by
      intro e
      have := hc.pos
      rw [e] at this
      simp at this
    obtain ⟨x, hx'⟩ := List.exists_mem_of_ne_nil xs hx
    obtain ⟨c, h⟩ := hc.all x hx' a ha
    exact ⟨_, h, rfl⟩

end Complete

/-- What `prepare_graph` builds, in terms of the state `r` at the end of its
reading loop: two more nodes `s` and `t`, one edge from `s` for every entry of
`lstx` and one edge to `t` for every entry of `lsty`. -/
theorem prepare_raw (tr : List (Nat × Nat × Int)) :
    ∃ r L0 b2 L2, RInv (tr.map fun t => t.1) (tr.map fun t => t.2.1) tr r L0 ∧
      prepare_graph tr = b2 ∧ Built b2.toDigraph L2 ∧ b2.nnodes = r.g.nnodes + 2 ∧
      (∀ v, v < r.g.nnodes → b2.node v = r.g.node v) ∧
      b2.s = some r.g.nnodes ∧ b2.t = some (r.g.nnodes + 1) ∧ b2.x = r.g.x ∧ b2.y = r.g.y ∧
      b2.nedges = tr.length + r.lstx.length + r.lsty.length ∧
      (∀ e, e < tr.length → b2.edge e = r.g.edge e) ∧
      (∀ i p, r.lstx[i]? = some p → (b2.edge (tr.length + i)).tail = r.g.nnodes ∧
        (b2.edge (tr.length + i)).head = p.2 ∧ (b2.edge (tr.length + i)).cost = 0) ∧
      (∀ i p, r.lsty[i]? = some p →
        (b2.edge (tr.length + r.lstx.length + i)).tail = p.2 ∧
        (b2.edge (tr.length + r.lstx.length + i)).head = r.g.nnodes + 1 ∧
        (b2.edge (tr.length + r.lstx.length + i)).cost = 0) := by
  obtain ⟨L0, hr⟩ := read_all tr [] [] [] _ _ RInv.start
  simp only [List.nil_append] at hr
  generalize hrd : tr.foldl readTriple ⟨BiDigraph.new, [], []⟩ = r at hr
  obtain ⟨a1, a2, a3, a4, a5, a6, a7⟩ := hr.built.built_add_node 0
  obtain ⟨c1, c2, c3, c4, c5, c6, c7⟩ := a1.built_add_node 0
  have hcd : ((r.g.add_node 0 .SourceNode).1.add_node 0 .TargetNode).1.toDigraph =
      ((r.g.toDigraph.add_node 0).1.add_node 0).1 := rfl
  have hcb : Built ((r.g.add_node 0 .SourceNode).1.add_node 0 .TargetNode).1.toDigraph L0 := by
    rw [hcd]; exact c1
  have hcn : ((r.g.add_node 0 .SourceNode).1.add_node 0 .TargetNode).1.nnodes =
      r.g.nnodes + 2 := by
    show ((r.g.add_node 0 .SourceNode).1.add_node 0 .TargetNode).1.toDigraph.nnodes = _
    rw [hcd, c3, a3]
  have hce : ((r.g.add_node 0 .SourceNode).1.add_node 0 .TargetNode).1.nedges = tr.length := by
    show ((r.g.add_node 0 .SourceNode).1.add_node 0 .TargetNode).1.toDigraph.nedges = _
    rw [hcd, c5, a5]
    exact hr.ne
  have hcedge : ((r.g.add_node 0 .SourceNode).1.add_node 0 .TargetNode).1.edge = r.g.edge := by
    show ((r.g.add_node 0 .SourceNode).1.add_node 0 .TargetNode).1.toDigraph.edge = _
    rw [hcd, c4, a4]
  have hcnode : ∀ v, v < r.g.nnodes →
      ((r.g.add_node 0 .SourceNode).1.add_node 0 .TargetNode).1.node v = r.g.node v := by
    intro v hv
    show ((r.g.add_node 0 .SourceNode).1.add_node 0 .TargetNode).1.toDigraph.node v = _
    rw [hcd, c7 v (by rw [a3]; omega), a7 v (by omega)]
  obtain ⟨L1, b1, e0, e1, e2, e3, e4, e5, e6, e7, e8, e9, e10⟩ :=
    add_edges_spec (fun _ => r.g.nnodes) Prod.snd r.lstx _ L0 hcb (by
      intro p hp
      rw [hcn]
      have := hr.x_lt (hr.lstx_snd.subset (List.mem_map.mpr ⟨p, hp, rfl⟩))
      constructor
      · show r.g.nnodes < _
        omega
      · show p.2 < _
        omega)
  obtain ⟨L2, b2, f0, f1, f2, f3, f4, f5, f6, f7, f8, f9, f10⟩ :=
    add_edges_spec Prod.snd (fun _ => r.g.nnodes + 1) r.lsty b1 L1 e1 (by
      intro p hp
      rw [e2, hcn]
      have := hr.y_lt (hr.lsty_snd.subset (List.mem_map.mpr ⟨p, hp, rfl⟩))
      constructor
      · show p.2 < _
        omega
      · show r.g.nnodes + 1 < _
        omega)
  refine ⟨r, L0, b2, L2, hr, ?_, f1, by rw [f2, e2, hcn], ?_, by rw [f4, e4]; rfl,
    by rw [f5, e5]; rfl, by rw [f6, e6]; rfl, by rw [f7, e7]; rfl, by rw [f8, e8, hce], ?_, ?_, ?_⟩
  · rw [f0, e0, ← hrd]
    rfl
  · intro v hv
    rw [f3, e3]
    exact hcnode v hv
  · intro e he
    rw [f9 e (by rw [e8, hce]; omega), e9 e (by rw [hce]; exact he), hcedge]
  · intro i p hp
    have hi : i < r.lstx.length := by
      by_contra hn
      rw [List.getElem?_eq_none (by omega)] at hp
      cases hp
    have := e10 i p hp
    rw [hce] at this
    rw [f9 _ (by rw [e8, hce]; omega)]
    exact this
  · intro i p hp
    have := f10 i p hp
    rw [e8, hce] at this
    exact this

/-- The graph that `prepare_graph` builds from a complete instance is a
network as the matching invariant needs it, with no edge reversed yet. -/
theorem prepare_spec {tr : List (Nat × Nat × Int)} {xs ys : List Nat} {C : Int}
    (hc : Complete tr xs ys C) :
    ∃ n L, n.OK C ∧ (prepare_graph tr).s = some n.s ∧ (prepare_graph tr).t = some n.t ∧
      (prepare_graph tr).x = n.X ∧ (prepare_graph tr).y = n.Y ∧
      MInv n (prepare_graph tr).toDigraph (fun _ => EState.F0) L ∧
      n.Y.map n.name = firstSeen (tr.map fun t => t.2.1) ∧
      (n.X.map n.name).Nodup ∧
      (∀ e, e < n.E → (n.orig e).tail ∈ n.X →
        (n.name (n.orig e).tail, n.name (n.orig e).head, (n.orig e).cost) ∈ tr) := by
  obtain ⟨r, L0, b2, L2, hr, hp, hb, hnn, hnode, hs, ht, hx, hy, hne, hE1, hE2, hE3⟩ :=
    prepare_raw tr
  rw [hp]
  have hnd : (r.g.x ++ r.g.y).Nodup := hr.part.nodup_iff.mpr (List.nodup_range _)
  obtain ⟨hxnd, hynd, hdisj⟩ := List.nodup_append.mp hnd
  have hXl : ∀ v ∈ r.g.x, v < r.g.nnodes := fun v hv => hr.x_lt hv
  have hYl : ∀ v ∈ r.g.y, v < r.g.nnodes := fun v hv => hr.y_lt hv
  have hxlen : r.g.x.length = xs.length := by
    have := hc.xnames_perm.length_eq
    rw [← hr.xnames, List.length_map] at this
    exact this
  have hylen : r.g.y.length = ys.length := by
    have := hc.ynames_perm.length_eq
    rw [← hr.ynames, List.length_map] at this
    exact this
  have hlx : r.lstx.length = r.g.x.length := by
    have := hr.lstx_snd.length_eq
    simpa using this
  have hly : r.lsty.length = r.g.y.length := by
    have := hr.lsty_snd.length_eq
    simpa using this
  have hN0 : r.g.nnodes = r.g.x.length + r.g.y.length := by
    have := hr.part.length_eq
    simpa using this.symm
  have hinjX : ∀ v1 ∈ r.g.x, ∀ v2 ∈ r.g.x,
      (r.g.node v1).name = (r.g.node v2).name → v1 = v2 := by
    intro v1 h1 v2 h2 e
    exact List.inj_on_of_nodup_map (f := fun v => (r.g.node v).name)
      (by rw [hr.xnames]; exact nodup_firstSeen _) h1 h2 e
  have hinjY : ∀ v1 ∈ r.g.y, ∀ v2 ∈ r.g.y,
      (r.g.node v1).name = (r.g.node v2).name → v1 = v2 := by
    intro v1 h1 v2 h2 e
    exact List.inj_on_of_nodup_map (f := fun v => (r.g.node v).name)
      (by rw [hr.ynames]; exact nodup_firstSeen _) h1 h2 e
  have hsndx : (r.lstx.map Prod.snd).Nodup := hr.lstx_snd.nodup_iff.mpr hxnd
  have hsndy : (r.lsty.map Prod.snd).Nodup := hr.lsty_snd.nodup_iff.mpr hynd
  have hkind : ∀ e, e < b2.nedges →
      (∃ t, tr[e]? = some t ∧ (b2.edge e).tail ∈ r.g.x ∧
        (r.g.node (b2.edge e).tail).name = t.1 ∧ (b2.edge e).head ∈ r.g.y ∧
        (r.g.node (b2.edge e).head).name = t.2.1 ∧ (b2.edge e).cost = t.2.2) ∨
      (∃ i p, e = tr.length + i ∧ r.lstx[i]? = some p ∧ p.2 ∈ r.g.x ∧
        (b2.edge e).tail = r.g.nnodes ∧ (b2.edge e).head = p.2 ∧ (b2.edge e).cost = 0) ∨
      (∃ i p, e = tr.length + r.lstx.length + i ∧ r.lsty[i]? = some p ∧ p.2 ∈ r.g.y ∧
        (b2.edge e).tail = p.2 ∧ (b2.edge e).head = r.g.nnodes + 1 ∧
        (b2.edge e).cost = 0) := by
    intro e he
    rw [hne] at he
    by_cases h1 : e < tr.length
    · cases h : tr[e]? with
      | none =>
        have := List.getElem?_eq_none_iff.mp h
        omega
      | some t =>
        left
        rw [hE1 e h1]
        exact ⟨t, rfl, hr.edges e t h⟩
    · by_cases h2 : e < tr.length + r.lstx.length
      · cases h : r.lstx[e - tr.length]? with
        | none =>
          have := List.getElem?_eq_none_iff.mp h
          omega
        | some p =>
          right; left
          have hpm : p.2 ∈ r.g.x :=
            hr.lstx_snd.subset (List.mem_map.mpr ⟨p, List.getElem?_mem h, rfl⟩)
          have := hE2 _ p h
          have hee : tr.length + (e - tr.length) = e := by omega
          rw [hee] at this
          exact ⟨e - tr.length, p, hee.symm, h, hpm, this⟩
      · cases h : r.lsty[e - tr.length - r.lstx.length]? with
        | none =>
          have := List.getElem?_eq_none_iff.mp h
          omega
        | some p =>
          right; right
          have hpm : p.2 ∈ r.g.y :=
            hr.lsty_snd.subset (List.mem_map.mpr ⟨p, List.getElem?_mem h, rfl⟩)
          have := hE3 _ p h
          have hee : tr.length + r.lstx.length + (e - tr.length - r.lstx.length) = e := by
            omega
          rw [hee] at this
          exact ⟨_, p, hee.symm, h, hpm, this⟩
  have hsX : r.g.nnodes ∉ r.g.x := fun h => lt_irrefl _ (hXl _ h)
  have hsY : r.g.nnodes ∉ r.g.y := fun h => lt_irrefl _ (hYl _ h)
  have htX : r.g.nnodes + 1 ∉ r.g.x := fun h => by have := hXl _ h; omega
  have htY : r.g.nnodes + 1 ∉ r.g.y := fun h => by have := hYl _ h; omega
  have hxY : ∀ v ∈ r.g.x, v ∉ r.g.y := fun v h1 h2 => hdisj h1 h2
  have hCpos := hc.cpos
  obtain ⟨t0, ht0⟩ := hc.exists_triple
  have htrpos : 1 ≤ tr.length := List.length_pos_of_mem ht0
  refine ⟨⟨r.g.nnodes + 2, b2.nedges, r.g.nnodes, r.g.nnodes + 1, r.g.x, r.g.y, b2.edge,
    fun v => (b2.node v).name⟩, L2, ?_, hs, ht, hx, hy, ?_, ?_, ?_, ?_⟩
  · constructor
    · show r.g.nnodes < r.g.nnodes + 2
      omega
    · show r.g.nnodes + 1 < r.g.nnodes + 2
      omega
    · intro v hv
      have := hXl v hv
      show v < r.g.nnodes + 2
      omega
    · intro v hv
      have := hYl v hv
      show v < r.g.nnodes + 2
      omega
    · show r.g.nnodes ≠ r.g.nnodes + 1
      omega
    · exact hsX
    · exact hsY
    · exact htX
    · exact htY
    · exact hxY
    · intro v hv
      have hv' : v < r.g.nnodes + 2 := hv
      show v = r.g.nnodes ∨ v = r.g.nnodes + 1 ∨ v ∈ r.g.x ∨ v ∈ r.g.y
      by_cases h1 : v < r.g.nnodes
      · have := hr.part.symm.subset (List.mem_range.mpr h1)
        rcases List.mem_append.mp this with a | a
        · exact Or.inr (Or.inr (Or.inl a))
        · exact Or.inr (Or.inr (Or.inr a))
      · by_cases h2 : v = r.g.nnodes
        · exact Or.inl h2
        · exact Or.inr (Or.inl (by omega))
    · exact hxnd
    · exact hynd
    · show r.g.x.length = r.g.y.length
      rw [hxlen, hylen, hc.len]
    · intro e he
      show ((b2.edge e).tail ∈ r.g.x ∧ (b2.edge e).head ∈ r.g.y) ∨
        ((b2.edge e).tail = r.g.nnodes ∧ (b2.edge e).head ∈ r.g.x) ∨
        ((b2.edge e).tail ∈ r.g.y ∧ (b2.edge e).head = r.g.nnodes + 1)
      rcases hkind e he with ⟨t, _, a1, _, a3, _⟩ | ⟨i, p, _, _, a1, a2, a3, _⟩ |
        ⟨i, p, _, _, a1, a2, a3, _⟩
      · exact Or.inl ⟨a1, a3⟩
      · exact Or.inr (Or.inl ⟨a2, a3 ▸ a1⟩)
      · exact Or.inr (Or.inr ⟨a2 ▸ a1, a3⟩)
    · intro e he
      exact hb.keys e he
    · intro e he
      show |(b2.edge e).cost| ≤ C
      rcases hkind e he with ⟨t, a0, _, _, _, _, a5⟩ | ⟨i, p, _, _, _, _, _, a5⟩ |
        ⟨i, p, _, _, _, _, _, a5⟩
      · rw [a5]
        exact (hc.mem t (List.getElem?_mem a0)).2.2
      · rw [a5, abs_zero]; exact hCpos
      · rw [a5, abs_zero]; exact hCpos
    · intro x hx' y hy'
      show ∃ e, e < b2.nedges ∧ (b2.edge e).tail = x ∧ (b2.edge e).head = y
      have hxa : (r.g.node x).name ∈ xs := by
        have : (r.g.node x).name ∈ firstSeen (tr.map fun t => t.1) := by
          rw [← hr.xnames]
          exact List.mem_map.mpr ⟨x, hx', rfl⟩
        exact hc.xnames_perm.subset this
      have hyb : (r.g.node y).name ∈ ys := by
        have : (r.g.node y).name ∈ firstSeen (tr.map fun t => t.2.1) := by
          rw [← hr.ynames]
          exact List.mem_map.mpr ⟨y, hy', rfl⟩
        exact hc.ynames_perm.subset this
      obtain ⟨c, hcm⟩ := hc.all _ hxa _ hyb
      obtain ⟨e, he⟩ := List.mem_iff_getElem?.mp hcm
      have hlt : e < tr.length := by
        by_contra hn
        rw [List.getElem?_eq_none (by omega)] at he
        cases he
      obtain ⟨a1, a2, a3, a4, _⟩ := hr.edges e _ he
      refine ⟨e, by rw [hne]; omega, ?_, ?_⟩
      · rw [hE1 e hlt]
        exact hinjX _ a1 _ hx' a2
      · rw [hE1 e hlt]
        exact hinjY _ a3 _ hy' a4
    · intro x hx'
      show ∃ e, e < b2.nedges ∧ (b2.edge e).tail = r.g.nnodes ∧ (b2.edge e).head = x
      obtain ⟨p, hp1, hp2⟩ := List.mem_map.mp (hr.lstx_snd.symm.subset hx')
      obtain ⟨i, hi⟩ := List.mem_iff_getElem?.mp hp1
      have hlt : i < r.lstx.length := by
        by_contra hn
        rw [List.getElem?_eq_none (by omega)] at hi
        cases hi
      obtain ⟨a1, a2, _⟩ := hE2 i p hi
      exact ⟨tr.length + i, by rw [hne]; omega, a1, by rw [a2, hp2]⟩
    · intro e1 e2 he1 he2 h1 h2 h3
      have h1' : (b2.edge e1).tail = r.g.nnodes := h1
      have h2' : (b2.edge e2).tail = r.g.nnodes := h2
      have h3' : (b2.edge e1).head = (b2.edge e2).head := h3
      rcases hkind e1 he1 with ⟨t, _, a1, _⟩ | ⟨i1, p1, a0, a1, _, _, a3, _⟩ |
        ⟨i, p, _, _, a1, a2, _⟩
      · rw [h1'] at a1; exact absurd a1 hsX
      · rcases hkind e2 he2 with ⟨t, _, b1, _⟩ | ⟨i2, p2, b0, b1, _, _, b3, _⟩ |
          ⟨i, p, _, _, b1, b2', _⟩
        · rw [h2'] at b1; exact absurd b1 hsX
        · have hi1 : i1 < (r.lstx.map Prod.snd).length := by
            rw [List.length_map]
            by_contra hn
            rw [List.getElem?_eq_none (by omega)] at a1
            cases a1
          have : (r.lstx.map Prod.snd)[i1]? = (r.lstx.map Prod.snd)[i2]? := by
            rw [List.getElem?_map, List.getElem?_map, a1, b1]
            simp only [Option.map_some']
            rw [← a3, ← b3, h3']
          have := List.getElem?_inj hi1 hsndx this
          omega
        · rw [h2'] at b2'; rw [← b2'] at b1; exact absurd b1 hsY
      · rw [h1'] at a2; rw [← a2] at a1; exact absurd a1 hsY
    · intro y hy'
      show ∃ e, e < b2.nedges ∧ (b2.edge e).tail = y ∧ (b2.edge e).head = r.g.nnodes + 1
      obtain ⟨p, hp1, hp2⟩ := List.mem_map.mp (hr.lsty_snd.symm.subset hy')
      obtain ⟨i, hi⟩ := List.mem_iff_getElem?.mp hp1
      have hlt : i < r.lsty.length := by
        by_contra hn
        rw [List.getElem?_eq_none (by omega)] at hi
        cases hi
      obtain ⟨a1, a2, _⟩ := hE3 i p hi
      exact ⟨tr.length + r.lstx.length + i, by rw [hne]; omega, by rw [a1, hp2], a2⟩
    · intro e1 e2 he1 he2 h1 h2 h3
      have h1' : (b2.edge e1).head = r.g.nnodes + 1 := h1
      have h2' : (b2.edge e2).head = r.g.nnodes + 1 := h2
      have h3' : (b2.edge e1).tail = (b2.edge e2).tail := h3
      rcases hkind e1 he1 with ⟨t, _, _, _, a1, _⟩ | ⟨i, p, _, _, a1, _, a3, _⟩ |
        ⟨i1, p1, a0, a1, _, a2, _⟩
      · rw [h1'] at a1; exact absurd a1 htY
      · rw [h1'] at a3; rw [← a3] at a1; exact absurd a1 htX
      · rcases hkind e2 he2 with ⟨t, _, _, _, b1, _⟩ | ⟨i, p, _, _, b1, _, b3, _⟩ |
          ⟨i2, p2, b0, b1, _, b2', _⟩
        · rw [h2'] at b1; exact absurd b1 htY
        · rw [h2'] at b3; rw [← b3] at b1; exact absurd b1 htX
        · have hi1 : i1 < (r.lsty.map Prod.snd).length := by
            rw [List.length_map]
            by_contra hn
            rw [List.getElem?_eq_none (by omega)] at a1
            cases a1
          have : (r.lsty.map Prod.snd)[i1]? = (r.lsty.map Prod.snd)[i2]? := by
            rw [List.getElem?_map, List.getElem?_map, a1, b1]
            simp only [Option.map_some']
            rw [← a2, ← b2', h3']
          have := List.getElem?_inj hi1 hsndy this
          omega
    · show r.g.nnodes + 2 ≤ b2.nedges + 1
      rw [hne, hlx, hly, hN0]
      omega
    · exact hCpos
    · show (3 * ((r.g.nnodes + 2 : Nat) : Int) + 1) * C < 2147483647
      have h1 : ((r.g.nnodes + 2 : Nat) : Int) = 2 * (xs.length : Int) + 2 := by
        rw [hN0, hxlen, hylen, ← hc.len]
        push_cast
        ring
      rw [h1]
      have h2 : (3 * (2 * (xs.length : Int) + 2) + 1) * C = (6 * (xs.length : Int) + 7) * C := by
        ring
      rw [h2]
      exact hc.small
  · constructor
    · exact hnn
    · rfl
    · intro v; rfl
    · have := hb.wf
      rw [show b2.toDigraph.nnodes = r.g.nnodes + 2 from hnn] at this
      exact this
    · exact hb.val
    · intro e he
      rfl
    · intro p c
      rw [hb.loc]
      constructor
      · rintro ⟨e, he, a | a⟩
        · exact ⟨e, he, Or.inl ⟨a.1, by rw [a.2]; rfl⟩⟩
        · exact ⟨e, he, Or.inr ⟨a.1, by rw [a.2]; rfl⟩⟩
      · rintro ⟨e, he, a | a⟩
        · exact ⟨e, he, Or.inl ⟨a.1, (Option.some.inj a.2).symm⟩⟩
        · exact ⟨e, he, Or.inr ⟨a.1, (Option.some.inj a.2).symm⟩⟩
  · show r.g.y.map (fun v => (b2.node v).name) = _
    rw [← hr.ynames]
    exact RInv.map_name_congr fun v hv => hnode v (hYl v hv)
  · show (r.g.x.map (fun v => (b2.node v).name)).Nodup
    have : r.g.x.map (fun v => (b2.node v).name) = r.g.x.map (fun v => (r.g.node v).name) :=
      RInv.map_name_congr fun v hv => hnode v (hXl v hv)
    rw [this, hr.xnames]
    exact nodup_firstSeen _
  · intro e he htl
    have htl' : (b2.edge e).tail ∈ r.g.x := htl
    show ((b2.node (b2.edge e).tail).name, (b2.node (b2.edge e).head).name,
      (b2.edge e).cost) ∈ tr
    rcases hkind e he with ⟨t, a0, a1, a2, a3, a4, a5⟩ | ⟨i, p, _, _, _, a2, _, _⟩ |
      ⟨i, p, _, _, a1, a2, _, _⟩
    · rw [hnode _ (hXl _ a1), hnode _ (hYl _ a3), a2, a4, a5]
      exact List.getElem?_mem a0
    · rw [a2] at htl'; exact absurd htl' hsX
    · rw [a2] at htl'; exact absurd a1 (hxY _ htl')

end Hungarian

namespace Hungarian

namespace BiDigraph

theorem min_element_loop_none (addr : Nat → Nat) (m : Ptr → ll Nat) (fuel : Nat) (sm : Ptr) :
    min_element_loop addr m fuel sm none = .ok sm := by
  cases fuel <;> rfl

/-- The loop of `min_element` ends with the cell it was entered with or one of
the cells it walks over. -/
theorem min_element_loop_mem (addr : Nat → Nat) (m : Ptr → ll Nat) {hd : Option Ptr} :
    ∀ (cs : List Ptr) (pv : Ptr) (fuel : Nat) (sm : Ptr), Chain m hd pv cs → cs.length ≤ fuel →
      ∃ r, min_element_loop addr m fuel sm (m pv).next = .ok r ∧ (r = sm ∨ r ∈ cs)
  | [], pv, fuel, sm, hch, _ => by
    simp only [Chain] at hch
    rw [hch, min_element_loop_none]
    exact ⟨sm, rfl, Or.inl rfl⟩
  | c :: cs, pv, fuel, sm, hch, hf => by
    simp only [Chain] at hch
    cases fuel with
    | zero => simp at hf
    | succ f =>
      rw [hch.1]
      have hf' : cs.length ≤ f := by simpa using hf
      simp only [min_element_loop]
      split_ifs with hlt
      · obtain ⟨r, r1, r2⟩ := min_element_loop_mem addr m cs c f c hch.2.2.2 hf'
        refine ⟨r, r1, Or.inr ?_⟩
        rcases r2 with a | a
        · rw [a]; exact List.mem_cons_self _ _
        · exact List.mem_cons_of_mem _ a
      · obtain ⟨r, r1, r2⟩ := min_element_loop_mem addr m cs c f sm hch.2.2.2 hf'
        refine ⟨r, r1, ?_⟩
        rcases r2 with a | a
        · exact Or.inl a
        · exact Or.inr (List.mem_cons_of_mem _ a)

/-- On a non-empty in-list `min_in_edge` yields the edge of one of its cells. -/
theorem min_in_edge_spec (addr : Nat → Nat) {n : Net} {g : Digraph} {st : Nat → EState}
    {L : Ptr → List Ptr} (h : MInv n g st L) {y : Nat} (hy : y < n.N)
    (hne : L (Ptr.second y) ≠ []) :
    ∃ c, c ∈ L (Ptr.second y) ∧ min_in_edge addr g y = .ok (g.store.mem c).val := by
  have hch := h.wf.chain (Ptr.second y) hy
  have hlen := h.wf.length_le (Ptr.second y)
  cases hL : L (Ptr.second y) with
  | nil => exact absurd hL hne
  | cons p cs =>
    rw [hL] at hch hlen
    simp only [Chain] at hch
    obtain ⟨r, r1, r2⟩ := min_element_loop_mem addr g.store.mem cs p (g.store.ncells + 1) p
      hch.2.2.2 (by simp at hlen; omega)
    have hb : indexedList.begin_second g.store y = some p := hch.1
    refine ⟨r, ?_, ?_⟩
    · rcases r2 with a | a
      · rw [a]; exact List.mem_cons_self _ _
      · exact List.mem_cons_of_mem _ a
    · unfold min_in_edge
      simp only [hb, r1]

theorem setSP_price_node (g : Digraph) (u : Nat) (c : Int) (v : Nat) :
    ((g.setSP u { (g.node u).sp with price := c }).node v).name = (g.node v).name ∧
    ((g.setSP u { (g.node u).sp with price := c }).node v).sp.price =
      (if v = u then c else (g.node v).sp.price) := by
  by_cases h : v = u
  · subst h; simp
  · rw [Digraph.setSP_node_ne _ _ h]; simp [h]

/-- Effect of the loop of `initiate_node_prices` over `x`. -/
theorem zeroPrices_spec :
    ∀ (xs : List Nat) (g : Digraph),
      (zeroPrices g xs).store = g.store ∧ (zeroPrices g xs).edge = g.edge ∧
      (zeroPrices g xs).nnodes = g.nnodes ∧ (zeroPrices g xs).nedges = g.nedges ∧
      (∀ v, ((zeroPrices g xs).node v).name = (g.node v).name) ∧
      (∀ v, v ∉ xs → ((zeroPrices g xs).node v).sp.price = (g.node v).sp.price) ∧
      (∀ v, v ∈ xs → ((zeroPrices g xs).node v).sp.price = 0)
  | [], g => by
    refine ⟨rfl, rfl, rfl, rfl, fun _ => rfl, fun _ _ => rfl, ?_⟩
    intro v hv
    cases hv
  | u :: xs, g => by
    obtain ⟨a1, a2, a3, a4, a5, a6, a7⟩ :=
      zeroPrices_spec xs (g.setSP u { (g.node u).sp with price := 0 })
    simp only [zeroPrices]
    refine ⟨a1, a2, a3, a4, ?_, ?_, ?_⟩
    · intro v; rw [a5, (setSP_price_node g u 0 v).1]
    · intro v hv
      rw [List.mem_cons, not_or] at hv
      rw [a6 v hv.2, (setSP_price_node g u 0 v).2, if_neg hv.1]
    · intro v hv
      by_cases hvx : v ∈ xs
      · exact a7 v hvx
      · have : v = u := by
          rcases List.mem_cons.mp hv with e | e
          · exact e
          · exact absurd e hvx
        rw [a6 v hvx, (setSP_price_node g u 0 v).2, if_pos this]

/-- Effect of the loop of `initiate_node_prices` over `y` on a complete
network: it ends, and every Y-node gets the cost of one of its edges. -/
theorem minPrices_spec (addr : Nat → Nat) {n : Net} {C : Int} (hn : n.OK C)
    {L : Ptr → List Ptr} :
    ∀ (ys : List Nat) (g : Digraph), MInv n g (fun _ => EState.F0) L → (∀ y ∈ ys, y ∈ n.Y) →
      ∃ g1, minPrices addr g ys = .ok g1 ∧ g1.store = g.store ∧ g1.edge = g.edge ∧
        g1.nnodes = g.nnodes ∧ g1.nedges = g.nedges ∧
        (∀ v, (g1.node v).name = (g.node v).name) ∧
        (∀ v, v ∉ ys → (g1.node v).sp.price = (g.node v).sp.price) ∧
        (∀ v, v ∈ ys → |(g1.node v).sp.price| ≤ C)
  | [], g, _, _ => by
    refine ⟨g, rfl, rfl, rfl, rfl, rfl, fun _ => rfl, fun _ _ => rfl, ?_⟩
    intro v hv
    cases hv
  | y :: ys, g, h, hys => by
    have hyY := hys y (List.mem_cons_self _ _)
    have hX : n.X ≠ [] := by
      intro e
      have := hn.len
      rw [e] at this
      have hp := List.length_pos_of_mem hyY
      simp at this
      omega
    obtain ⟨x, hx⟩ := List.exists_mem_of_ne_nil n.X hX
    obtain ⟨e, he, e1, e2⟩ := hn.complete x hx y hyY
    have hne : L (Ptr.second y) ≠ [] :=
      List.ne_nil_of_mem (h.hk_mem he (p := Ptr.second y) (by rw [← e2]; rfl)).1
    obtain ⟨c, c1, c2⟩ := min_in_edge_spec addr h (hn.yN y hyY) hne
    obtain ⟨v1, _⟩ := h.val_of_mem c1
    have hcost : |(g.edge (g.store.mem c).val).cost| ≤ C := by
      rw [h.edge _ v1, EState.abs_cur_cost _ _ (hn.cost_range v1).1 (hn.cost_range v1).2]
      exact hn.cost _ v1
    have hF := setSP_price_node g y (g.edge (g.store.mem c).val).cost
    obtain ⟨g1, a0, a1, a2, a3, a4, a5, a6, a7⟩ := minPrices_spec addr hn ys
      (g.setSP y { (g.node y).sp with price := (g.edge (g.store.mem c).val).cost })
      (h.mem_of_nodes rfl rfl rfl rfl (fun v => (hF v).1))
      (fun y' hy' => hys y' (List.mem_cons_of_mem _ hy'))
    refine ⟨g1, ?_, a1, a2, a3, a4, ?_, ?_, ?_⟩
    · simp only [minPrices, c2]
      exact a0
    · intro v; rw [a5, (hF v).1]
    · intro v hv
      rw [List.mem_cons, not_or] at hv
      rw [a6 v hv.2, (hF v).2, if_neg hv.1]
    · intro v hv
      by_cases hvy : v ∈ ys
      · exact a7 v hvy
      · have : v = y := by
          rcases List.mem_cons.mp hv with e | e
          · exact e
          · exact absurd e hvy
        rw [a6 v hvy, (hF v).2, if_pos this]
        exact hcost

/-- The run of `initiate_node_prices()` on the graph of a complete network:
it ends with prices small enough and with nothing matched. -/
theorem initiate_spec (addr : Nat → Nat) {n : Net} {C : Int} (hn : n.OK C) {b : BiDigraph}
    {L : Ptr → List Ptr} (hs : b.s = some n.s) (ht : b.t = some n.t) (hx : b.x = n.X)
    (hy : b.y = n.Y) (h : MInv n b.toDigraph (fun _ => EState.F0) L) :
    ∃ b1, initiate_node_prices addr b = .ok b1 ∧ b1.s = b.s ∧ b1.t = b.t ∧ b1.x = b.x ∧
      b1.y = b.y ∧
      GInv n C b1.toDigraph (fun _ => EState.F0) (fun _ => none) (fun _ => none) n.X n.Y L
        Mode.clean := by
  have hF1 := setSP_price_node b.toDigraph n.t 0
  have hF2 := setSP_price_node
    (b.toDigraph.setSP n.t { (b.toDigraph.node n.t).sp with price := 0 }) n.s 0
  obtain ⟨z1, z2, z3, z4, z5, z6, z7⟩ := zeroPrices_spec n.X
    ((b.toDigraph.setSP n.t { (b.toDigraph.node n.t).sp with price := 0 }).setSP n.s
      { ((b.toDigraph.setSP n.t { (b.toDigraph.node n.t).sp with price := 0 }).node n.s).sp
        with price := 0 })
  have hM := h.mem_of_nodes (d := zeroPrices
    ((b.toDigraph.setSP n.t { (b.toDigraph.node n.t).sp with price := 0 }).setSP n.s
      { ((b.toDigraph.setSP n.t { (b.toDigraph.node n.t).sp with price := 0 }).node n.s).sp
        with price := 0 }) n.X) z1 z2 z3 z4
    (by intro v; rw [z5, (hF2 v).1, (hF1 v).1])
  obtain ⟨g1, a0, a1, a2, a3, a4, a5, a6, a7⟩ := minPrices_spec addr hn n.Y _ hM
    (fun _ hy' => hy')
  have hNpos : 1 ≤ n.N := by have := hn.sN; omega
  have hCN : C ≤ (n.N : Int) * C := by
    have h1 : (1 : Int) * C ≤ (n.N : Int) * C :=
      mul_le_mul_of_nonneg_right (by exact_mod_cast hNpos) hn.cpos
    simpa using h1
  have hNC : 0 ≤ (n.N : Int) * C := le_trans hn.cpos hCN
  have hps : (g1.node n.s).sp.price = 0 := by
    rw [a6 _ hn.sY, z6 _ hn.sX, (hF2 _).2, if_pos rfl]
  refine ⟨b.withGraph g1, ?_, rfl, rfl, rfl, rfl, ?_⟩
  · unfold initiate_node_prices
    simp only [hs, ht]
    rw [hx, hy]
    simp only [a0]
  · constructor
    · exact hM.mem_of_nodes a1 a2 a3 a4 a5
    · intro v hv
      show |(g1.node v).sp.price| ≤ _
      by_cases hvY : v ∈ n.Y
      · exact le_trans (a7 v hvY) hCN
      · rw [a6 v hvY]
        by_cases hvX : v ∈ n.X
        · rw [z7 v hvX, abs_zero]; exact hNC
        · rw [z6 v hvX, (hF2 v).2]
          split_ifs with e1
          · rw [abs_zero]; exact hNC
          · rw [(hF1 v).2]
            rcases hn.cover v hv with c | c | c | c
            · exact absurd c e1
            · rw [if_pos c, abs_zero]; exact hNC
            · exact absurd c hvX
            · exact absurd c hvY
    · exact hps
    · intro e he _ hg
      cases hg
    · intro e he h1
      exact Or.inl ⟨rfl, hn.head_of_tail_s he h1⟩
    · intro e he h1
      exact Or.inl ⟨rfl, hn.tail_of_head_t he h1⟩
    · exact fun _ hx' => hx'
    · exact fun _ hy' => hy'
    · exact hn.xnodup
    · exact hn.ynodup
    · simp only [if_true, Nat.add_zero]
      exact hn.len
    · intro y e he
      cases he
    · intro x e he
      cases he
    · intro e he _ hb
      simp [EState.back] at hb
    · intro e he _ hb
      simp [EState.back] at hb
    · intro x hx'
      simp [hx']
    · intro y hy'
      simp [hy']
    · intro y e he
      cases he
    · intro y hy'
      cases hy'
    · intro x e he
      cases he

end BiDigraph

/-- On a complete instance with small costs the program ends and reports, for
every Y-name in the order of first occurrence, one input triple with this
Y-name; the X-names of these triples are distinct, and the total is the sum
of their costs. -/
theorem solve_spec (addr : Nat → Nat) {tr : List (Nat × Nat × Int)} {xs ys : List Nat} {C : Int}
    (hc : Complete tr xs ys C) :
    ∃ es : List (Nat × Nat × Int), (∀ t ∈ es, t ∈ tr) ∧
      es.map (fun t => t.2.1) = firstSeen (tr.map fun t => t.2.1) ∧
      (es.map fun t => t.1).Nodup ∧
      solve addr tr = .ok ((es.map fun t => t.2.2).sum, es.map fun t => (t.1, t.2.1)) := by
  obtain ⟨n, L, hn, hs, ht, hx, hy, hM, hyn, hxn, hed⟩ := prepare_spec hc
  obtain ⟨b1, i1, i2, i3, i4, i5, i6⟩ := BiDigraph.initiate_spec addr hn hs ht hx hy hM
  obtain ⟨b2, st2, mx2, my2, L2, r1, r2, r3, r4, r5, r6⟩ :=
    BiDigraph.rounds_spec hn n.X.length b1 _ _ _ n.X n.Y L (i2 ▸ hs) (i3 ▸ ht) (i4 ▸ hx)
      (i5 ▸ hy) i6 rfl
  obtain ⟨me, m1, m2, m3⟩ := BiDigraph.print_mapping_spec hn (b := b2)
    (by rw [r5, i5]; exact hy) r6
  refine ⟨n.Y.map fun y => (n.name (n.orig (me y)).tail, n.name y, (n.orig (me y)).cost),
    ?_, ?_, ?_, ?_⟩
  · intro t htm
    obtain ⟨y, hyY, rfl⟩ := List.mem_map.mp htm
    obtain ⟨a1, a2, a3⟩ := m1 y hyY
    have := hed (me y) a1 a2
    rw [a3] at this
    exact this
  · rw [List.map_map, ← hyn]
    rfl
  · rw [List.map_map]
    refine List.Nodup.map_on ?_ hn.ynodup
    intro y1 h1 y2 h2 e
    have e' : n.name (n.orig (me y1)).tail = n.name (n.orig (me y2)).tail := e
    exact m2 y1 h1 y2 h2
      (List.inj_on_of_nodup_map hxn (m1 y1 h1).2.1 (m1 y2 h2).2.1 e')
  · unfold solve BiDigraph.min_weight_assignment
    have hk : b1.x.length = n.X.length := by rw [i4, hx]
    simp only [i1, hk, r1, m3, List.map_map]
    rfl

/-- When every pair of names is listed once, `costOf` finds the cost of a
listed triple. -/
theorem costOf_of_mem {tr : List (Nat × Nat × Int)}
    (hu : (tr.map fun t => (t.1, t.2.1)).Nodup) {t : Nat × Nat × Int} (ht : t ∈ tr) :
    costOf tr t.1 t.2.1 = t.2.2 := by
  unfold costOf
  cases hf : tr.find? (fun u => u.1 == t.1 && u.2.1 == t.2.1) with
  | none =>
    have := List.find?_eq_none.mp hf t ht
    simp at this
  | some u =>
    have h1 := List.find?_some hf
    have h2 := List.mem_of_find?_eq_some hf
    simp only [Bool.and_eq_true, beq_iff_eq] at h1
    have : u = t := List.inj_on_of_nodup_map hu h2 ht (by
      show (u.1, u.2.1) = (t.1, t.2.1)
      rw [h1.1, h1.2])
    rw [this]

/-- A complete 2 by 2 instance with costs up to 4. -/
theorem complete_two_by_two :
    Complete [(1, 1, 4), (1, 2, 2), (2, 1, 3), (2, 2, 1)] [1, 2] [1, 2] 4 := by
  constructor
  · decide
  · decide
  · rfl
  · decide
  · intro t ht
    simp only [List.mem_cons, List.mem_singleton, List.not_mem_nil, or_false] at ht
    rcases ht with rfl | rfl | rfl | rfl <;> refine ⟨by decide, by decide, ?_⟩ <;>
      simp only [abs_le] <;> constructor <;> decide
  · intro x hx y hy
    simp only [List.mem_cons, List.mem_singleton, List.not_mem_nil, or_false] at hx hy
    rcases hx with rfl | rfl <;> rcases hy with rfl | rfl
    · exact ⟨4, by decide⟩
    · exact ⟨2, by decide⟩
    · exact ⟨3, by decide⟩
    · exact ⟨1, by decide⟩
  · decide

set_option maxRecDepth 1000000 in
/-- C2, evaluated on a complete 3 by 3 instance whose third X-node has only
edges of cost `INT_MAX`: no 32-bit overflow occurs, yet no pair is reported.
In the third round the matched X-node 2 is popped at distance `INF` before it
is reached, and `augment_spath` follows its `prev` pointer, which is `NULL`. -/
theorem C2_no_pairs_with_INT_MAX_costs :
    solve id [(1,1,0),(1,2,0),(1,3,0),(2,1,0),(2,2,0),(2,3,0),
      (3,1,2147483647),(3,2,2147483647),(3,3,2147483647)] = .error Fault.null_deref := by
  decide!

/-- C2 (amended): on every complete bipartite instance with
|X| = |Y| = n ≥ 1 whose costs are at most `C` in absolute value, where
(6n + 7)·C < 2^31 − 1, the program ends and reports exactly one pair per
Y-name, in the order in which the Y-names first occur in the input; every
reported pair is joined by an input edge, and the reported X-names are the
X-names, each once: the pairs are a bijection between X and Y. -/
theorem C2_pairs_are_a_bijection_in_Y_order (addr : Nat → Nat)
    {tr : List (Nat × Nat × Int)} {xs ys : List Nat} {C : Int} (hc : Complete tr xs ys C) :
    ∃ total pairs, solve addr tr = .ok (total, pairs) ∧
      pairs.map Prod.snd = firstSeen (tr.map fun t => t.2.1) ∧
      (∀ p ∈ pairs, ∃ c, (p.1, p.2, c) ∈ tr) ∧
      (pairs.map Prod.fst).Perm xs ∧ (pairs.map Prod.snd).Perm ys := by
  obtain ⟨es, e1, e2, e3, e4⟩ := solve_spec addr hc
  have hsnd : (es.map fun t => (t.1, t.2.1)).map Prod.snd = firstSeen (tr.map fun t => t.2.1) := by
    rw [List.map_map, ← e2]
    rfl
  have hfst : (es.map fun t => (t.1, t.2.1)).map Prod.fst = es.map fun t => t.1 := by
    rw [List.map_map]
    rfl
  refine ⟨_, _, e4, hsnd, ?_, ?_, ?_⟩
  · intro p hp
    obtain ⟨t, ht, rfl⟩ := List.mem_map.mp hp
    exact ⟨t.2.2, e1 t ht⟩
  · rw [hfst]
    have hsub : (es.map fun t => t.1) ⊆ xs := by
      intro a ha
      obtain ⟨t, ht, rfl⟩ := List.mem_map.mp ha
      exact (hc.mem t (e1 t ht)).1
    have hlen : xs.length ≤ (es.map fun t => t.1).length := by
      have h1 : (es.map fun t => t.2.1).length = ys.length := by
        rw [e2]
        exact hc.ynames_perm.length_eq
      rw [List.length_map] at h1 ⊢
      rw [h1, hc.len]
    exact (List.subperm_of_subset e3 hsub).perm_of_length_le hlen
  · rw [hsnd]
    exact hc.ynames_perm

/-- C2 (amended) on the instance of the specification, costs (1,1)=4, (1,2)=2,
(2,1)=3, (2,2)=1. -/
theorem C2_pairs_are_a_bijection_in_Y_order_witness :
    Complete [(1, 1, 4), (1, 2, 2), (2, 1, 3), (2, 2, 1)] [1, 2] [1, 2] 4 ∧
    ∃ total pairs, solve id [(1, 1, 4), (1, 2, 2), (2, 1, 3), (2, 2, 1)] = .ok (total, pairs) ∧
      pairs.map Prod.snd = firstSeen ([(1, 1, 4), (1, 2, 2), (2, 1, 3), (2, 2, 1)].map
        fun t => t.2.1) ∧
      (∀ p ∈ pairs, ∃ c, (p.1, p.2, c) ∈ [(1, 1, (4 : Int)), (1, 2, 2), (2, 1, 3), (2, 2, 1)]) ∧
      (pairs.map Prod.fst).Perm [1, 2] ∧ (pairs.map Prod.snd).Perm [1, 2] :=
  ⟨complete_two_by_two, C2_pairs_are_a_bijection_in_Y_order id complete_two_by_two⟩

set_option maxRecDepth 1000000 in
/-- C3, evaluated on a complete 3 by 3 instance with costs 0 and `INT_MAX`: no
32-bit overflow occurs, yet neither a total nor a pair is reported, because
`augment_spath` follows a `prev` pointer that is `NULL`. -/
theorem C3_no_total_with_INT_MAX_costs :
    solve id [(1,1,0),(1,2,0),(1,3,0),(2,1,0),(2,2,0),(2,3,2147483647),
      (3,1,2147483647),(3,2,2147483647),(3,3,2147483647)] = .error Fault.null_deref := by
  decide!

/-- C3 (amended): on every complete bipartite instance with
|X| = |Y| = n ≥ 1 whose costs are at most `C` in absolute value, where
(6n + 7)·C < 2^31 − 1, the program ends and the total it reports is the sum of
the input costs of the pairs it reports: the result is made of input triples
`es`, one for each reported pair, whose costs add up to the reported total. -/
theorem C3_total_is_the_sum_of_the_reported_pairs (addr : Nat → Nat)
    {tr : List (Nat × Nat × Int)} {xs ys : List Nat} {C : Int} (hc : Complete tr xs ys C) :
    ∃ es : List (Nat × Nat × Int), (∀ t ∈ es, t ∈ tr) ∧
      solve addr tr = .ok ((es.map fun t => t.2.2).sum, es.map fun t => (t.1, t.2.1)) := by
  obtain ⟨es, e1, _, _, e4⟩ := solve_spec addr hc
  exact ⟨es, e1, e4⟩

/-- C3 (amended) on the instance of the specification, costs (1,1)=4, (1,2)=2,
(2,1)=3, (2,2)=1. -/
theorem C3_total_is_the_sum_of_the_reported_pairs_witness :
    Complete [(1, 1, 4), (1, 2, 2), (2, 1, 3), (2, 2, 1)] [1, 2] [1, 2] 4 ∧
    ∃ es : List (Nat × Nat × Int),
      (∀ t ∈ es, t ∈ [(1, 1, (4 : Int)), (1, 2, 2), (2, 1, 3), (2, 2, 1)]) ∧
      solve id [(1, 1, 4), (1, 2, 2), (2, 1, 3), (2, 2, 1)] =
        .ok ((es.map fun t => t.2.2).sum, es.map fun t => (t.1, t.2.1)) :=
  ⟨complete_two_by_two, C3_total_is_the_sum_of_the_reported_pairs id complete_two_by_two⟩

end Hungarian

namespace Hungarian

set_option maxRecDepth 1000000 in
/-- C12, evaluated on the instance with the edges 1 -> 1 of cost 5 and 2 -> 1 of
cost 3, edge objects at increasing addresses: the in-list of the Y-node (node 1)
holds the edge objects 1 and 0 of raw cost 3 and 5, the source, the sink and
the X-nodes get price 0, but the Y-node gets price 5, the cost of the edge
object at the lowest address, not the minimum 3; the edge 2 -> 1 then has
reduced cost -2 before the first `dijkstra_spath` call. -/
theorem C12_price_is_not_the_minimum_in_cost :
    ((prepare_graph [(1, 1, 5), (2, 1, 3)]).initiate_node_prices id).map
      (fun b => (indexedList.iter_second b.store 1, (b.edge 1).cost, (b.edge 0).cost)) =
      .ok ([1, 0], 3, 5) ∧
    ((prepare_graph [(1, 1, 5), (2, 1, 3)]).initiate_node_prices id).map
      (fun b => ([0, 2, 3, 4].map (fun v => (b.node v).sp.price), (b.node 1).sp.price)) =
      .ok ([0, 0, 0, 0], 5) ∧
    ((prepare_graph [(1, 1, 5), (2, 1, 3)]).initiate_node_prices id).map
      (fun b => ((b.edge 1).tail, (b.edge 1).head, b.get_red_cost 1)) = .ok (2, 1, -2) := by
  refine ⟨?_, ?_, ?_⟩
  · decide!
  · decide!
  · decide!

set_option maxRecDepth 1000000 in
/-- C13, evaluated on a complete 3 by 3 instance with costs 0, 1, 2 and edge
objects at increasing addresses: after the first potential update the edge
object 5 (X-node 2 to Y-node 3, nodes 4 and 3) is still in the out-list of its
tail and has reduced cost -1. -/
theorem C13_negative_reduced_cost_after_update :
    (((prepare_graph [(1,1,0),(1,2,0),(1,3,2),(2,1,0),(2,2,0),(2,3,0),
        (3,1,0),(3,2,0),(3,3,1)]).initiate_node_prices id).bind
        (BiDigraph.rounds 1)).map
      (fun b => (indexedList.iter_first b.store 4, (b.edge 5).tail, (b.edge 5).head)) =
      .ok ([5, 3], 4, 3) ∧
    (((prepare_graph [(1,1,0),(1,2,0),(1,3,2),(2,1,0),(2,2,0),(2,3,0),
        (3,1,0),(3,2,0),(3,3,1)]).initiate_node_prices id).bind
        (BiDigraph.rounds 1)).map
      (fun b => ((b.edge 5).back_edge, b.get_red_cost 5)) = .ok (false, -1) := by
  refine ⟨?_, ?_⟩
  · decide!
  · decide!

set_option maxRecDepth 1000000 in
/-- C14, evaluated on its witness: one edge 0 -> 1 of cost 7 made by `add_edge`
and reversed twice.  After the second `reverse_dir` the head is node 1 and the
tail node 0 again, the cost is 7 and `back_edge` is false, the edge is in the
out-list of its tail, but the in-list of its head is empty and the edge is in
the out-list of its head. -/
theorem C14_second_reversal_puts_edge_in_out_list_of_head :
    (((((Digraph.new.add_node 1).1.add_node 2).1.add_edge 0 1 7).reverse_dir 0).bind
        (fun g => g.reverse_dir 0)).map
      (fun g => ((g.edge 0).head, (g.edge 0).tail, (g.edge 0).cost, (g.edge 0).back_edge)) =
      .ok (1, 0, 7, false) ∧
    (((((Digraph.new.add_node 1).1.add_node 2).1.add_edge 0 1 7).reverse_dir 0).bind
        (fun g => g.reverse_dir 0)).map
      (fun g => [indexedList.iter_first g.store 0, indexedList.iter_second g.store 0,
        indexedList.iter_first g.store 1, indexedList.iter_second g.store 1]) =
      .ok [[0], [], [0], []] := by
  refine ⟨?_, ?_⟩
  · decide!
  · decide!

set_option maxRecDepth 1000000 in
/-- C17, evaluated on a complete 2 by 2 instance with costs 0 and 1: after the
two rounds the out-list of Y-node 2 (node 2) holds two edge objects, the
reversed edge 3 (tail 2, head X-node 2) and the forward edge 1 from X-node 1,
whose head is node 2. -/
theorem C17_out_list_of_Y_node_holds_two_edges :
    (((prepare_graph [(1,1,0),(1,2,0),(2,1,1),(2,2,0)]).initiate_node_prices id).bind
        (BiDigraph.rounds 2)).map
      (fun b => (b.x, b.y, indexedList.iter_first b.store 2)) = .ok ([0, 3], [1, 2], [3, 1]) ∧
    (((prepare_graph [(1,1,0),(1,2,0),(2,1,1),(2,2,0)]).initiate_node_prices id).bind
        (BiDigraph.rounds 2)).map
      (fun b => (indexedList.iter_first b.store 2).map (fun e =>
          ((b.edge e).tail, (b.edge e).head, (b.edge e).back_edge))) =
      .ok [(2, 3, true), (0, 2, false)] := by
  refine ⟨?_, ?_⟩
  · decide!
  · decide!

set_option maxRecDepth 1000000 in
/-- C19, evaluated on its witness: source 0 without edges and the unreachable
nodes 1 and 2 with one edge 2 -> 1 of reduced cost 1.  Node 2 is popped at
distance `INF` before node 1 and relaxes its edge with wrap-around, so node 1
ends with distance -2147483648 instead of `INF`. -/
theorem C19_unreachable_node_loses_INF :
    ((((Digraph.new.add_node 0).1.add_node 1).1.add_node 2).1.add_edge 2 1 1).get_red_cost 0
      = 1 ∧
    (((((Digraph.new.add_node 0).1.add_node 1).1.add_node 2).1.add_edge 2 1 1).dijkstra_spath
        0).map (fun g => (indexedList.iter_first g.store 0, (g.edge 0).tail, (g.edge 0).head)) =
      .ok ([], 2, 1) ∧
    (((((Digraph.new.add_node 0).1.add_node 1).1.add_node 2).1.add_edge 2 1 1).dijkstra_spath
        0).map (fun g => ((g.node 0).sp.dist, (g.node 1).sp.dist, (g.node 2).sp.dist)) =
      .ok (0, -2147483648, 2147483647) := by
  refine ⟨?_, ?_, ?_⟩
  · decide!
  · decide!
  · decide!

end Hungarian

namespace Hungarian

namespace Digraph

/-- The state in which the `while` loop of `dijkstra_spath` is entered. -/
theorem SInv.sinit {g0 g1 : Digraph} {L : Ptr → List Ptr} {s N : Nat}
    (h : SReady g0 L s N) (rank : Nat → Nat)
    (hg1 : g1 = initNodes g0 g0.nnodes 0) (q0 : priqueue Nat) :
    SInv g0 (g1.setSP s { (g1.node s).sp with dist := 0 })
      (priqueue.set_priqueue (g1.setSP s { (g1.node s).sp with dist := 0 }).distKey q0
        (List.range N))
      L s N 0 rank ∧
    (∀ w, w < N →
      ((g1.setSP s { (g1.node s).sp with dist := 0 }).node w).sp.done = false ∧
      ((g1.setSP s { (g1.node s).sp with dist := 0 }).node w).sp.prev = none ∧
      (w ≠ s → ((g1.setSP s { (g1.node s).sp with dist := 0 }).node w).sp.dist = INF)) := by
  obtain ⟨i1, i2, i3, i4, i5, i6, i7⟩ := initNodes_spec g0.nnodes 0 g0
  rw [← hg1] at i1 i2 i3 i4 i5 i6 i7
  obtain ⟨q1, q2, q3, q4, q5, q6⟩ := set_priqueue_range_spec
    (g1.setSP s { (g1.node s).sp with dist := 0 }).distKey q0 N
  have hN := h.nn
  have hsp : ∀ w, w < N →
      ((g1.setSP s { (g1.node s).sp with dist := 0 }).node w).sp.done = false ∧
      ((g1.setSP s { (g1.node s).sp with dist := 0 }).node w).sp.prev = none ∧
      ((g1.setSP s { (g1.node s).sp with dist := 0 }).node w).sp.key = w + 1 ∧
      (w ≠ s → ((g1.setSP s { (g1.node s).sp with dist := 0 }).node w).sp.dist = INF) := by
    intro w hw
    have := i7 w (Nat.zero_le _) (by omega)
    by_cases e : w = s
    · subst e
      simp [this]
    · rw [setSP_node_ne _ _ e]
      exact ⟨this.2.1, this.2.2.1, this.2.2.2, fun _ => this.1⟩
  refine ⟨?_, fun w hw => ⟨(hsp w hw).1, (hsp w hw).2.1, (hsp w hw).2.2.2⟩⟩
  constructor
  · rw [setSP_store_eq, i2]
  · rw [setSP_edge, i1]
  · rw [setSP_nnodes, i3]
  · rw [setSP_nedges, i4]
  · intro v
    rw [← i6 v]
    by_cases e : v = s
    · subst e; simp
    · rw [setSP_node_ne _ _ e]
  · intro v; rw [setSP_name, i5]
  · intro v hv; exact (hsp v hv).2.2.1
  · exact q1
  · exact q2
  · rw [q3]; omega
  · exact q4
  · exact q5
  · intro v hv
    rw [q6 v]
    simp [hv, (hsp v hv).1]
  · intro v hv hd
    rw [(hsp v hv).1] at hd
    cases hd
  · intro v hv e he
    rw [(hsp v hv).2.1] at he
    cases he
  · constructor
    · simp
    · exact (hsp s h.sN).2.1
  · intro _ v hv hvs
    exact (hsp v hv).2.2.2 hvs
  · intro hk
    omega

/-- What one `popmin` gives: a node of the queue whose distance is minimal
among the nodes not yet done; the first node popped is `s`. -/
theorem SInv.pop_min {g0 g : Digraph} {q : priqueue Nat} {L : Ptr → List Ptr} {s N : Nat}
    {k : Nat} {rank : Nat → Nat} {u : Nat} (h0 : SReady g0 L s N)
    (h : SInv g0 g q L s N k rank) (hn : 1 ≤ q.n) (hu : u = (q.popmin g.distKey).1) :
    u < N ∧ (g.node u).sp.done = false ∧
    (∀ v, v < N → (g.node v).sp.done = false → (g.node u).sp.dist ≤ (g.node v).sp.dist) ∧
    (k = 0 → u = s) := by
  obtain ⟨p1, p2, p3, p4, p5, p6⟩ := priqueue.popmin_spec g.distKey h.qord h.qex hn
  rw [← hu] at p1 p2
  have hs1 : q.arr 1 ∈ q.slots := priqueue.mem_slots.mpr ⟨1, le_refl _, hn, rfl⟩
  have huN : u < N := by rw [p1]; exact (h.qslots _ hs1).2
  have hel : q.elems.Perm (u :: (q.popmin g.distKey).2.elems) := by
    have := p6.map fun e => e.x
    rw [List.map_cons, ← p1] at this
    exact this
  have hue : u ∈ q.elems := hel.mem_iff.mpr (List.mem_cons_self _ _)
  have hud : (g.node u).sp.done = false := (h.qmem u huN).mp hue
  have hmin : ∀ v, v < N → (g.node v).sp.done = false →
      (g.node u).sp.dist ≤ (g.node v).sp.dist := by
    intro v hv hd
    have hv' := (h.qmem v hv).mpr hd
    unfold priqueue.elems at hv'
    obtain ⟨e, he, rfl⟩ := List.mem_map.mp hv'
    exact p2 e he
  refine ⟨huN, hud, hmin, ?_⟩
  intro hk
  by_contra hus
  have h1 := h.fresh hk u huN hus
  have hsd : (g.node s).sp.done = false := by
    by_contra hd
    have hd' : (g.node s).sp.done = true := by simpa using hd
    have := h.rdone s h0.sN hd'
    omega
  have h2 := hmin s h0.sN hsd
  rw [h1, h.sdist.1] at h2
  unfold INF at h2
  omega

/-- The effect of one `popmin` and `done=true` on the structural invariant. -/
theorem SInv.spop {g0 g : Digraph} {q : priqueue Nat} {L : Ptr → List Ptr} {s N : Nat}
    {k : Nat} {rank : Nat → Nat} {u : Nat} (h0 : SReady g0 L s N)
    (h : SInv g0 g q L s N k rank) (hn : 1 ≤ q.n) (hu : u = (q.popmin g.distKey).1) :
    SInv g0 (g.setSP u { (g.node u).sp with done := true }) (q.popmin g.distKey).2 L s N
      (k + 1) (Function.update rank u k) := by
  obtain ⟨huN, hud, hmin, hfirst⟩ := h.pop_min h0 hn hu
  obtain ⟨p1, p2, p3, p4, p5, p6⟩ := priqueue.popmin_spec g.distKey h.qord h.qex hn
  rw [← hu] at p1 p2
  have hel : q.elems.Perm (u :: (q.popmin g.distKey).2.elems) := by
    have := p6.map fun e => e.x
    rw [List.map_cons, ← p1] at this
    exact this
  have hnd := (hel.nodup_iff.mp h.qnodup)
  have hun : u ∉ (q.popmin g.distKey).2.elems := (List.nodup_cons.mp hnd).1
  have F := setSP_done_node g u
  constructor
  · rw [setSP_store_eq]; exact h.store
  · rw [setSP_edge]; exact h.edge
  · rw [setSP_nnodes]; exact h.nnodes
  · rw [setSP_nedges]; exact h.nedges
  · intro v; rw [(F v).1]; exact h.price v
  · intro v; rw [setSP_name]; exact h.name v
  · intro v hv; rw [(F v).2.2.2.1]; exact h.key v hv
  · rw [distKey_setSP_done]; exact p3
  · exact p4
  · rw [p5]; have := h.qn; omega
  · intro e he
    exact h.qslots e (p6.mem_iff.mpr (List.mem_cons_of_mem _ he))
  · exact (List.nodup_cons.mp hnd).2
  · intro v hv
    rw [(F v).2.2.2.2]
    by_cases e : v = u
    · subst e; simp [hun]
    · rw [if_neg e, ← h.qmem v hv, hel.mem_iff]
      simp [e]
  · intro v hv hd
    rw [(F v).2.2.2.2] at hd
    by_cases e : v = u
    · subst e; simp
    · rw [if_neg e] at hd
      rw [Function.update_noteq e]
      have := h.rdone v hv hd
      omega
  · intro v hv e he
    rw [(F v).2.2.1] at he
    obtain ⟨a1, a2, a3, a4, a5, a6⟩ := h.prevok v hv e he
    rw [setSP_edge, setSP_store_eq]
    have htu : (g.edge e).tail ≠ u := by
      intro e'; rw [e', hud] at a3; cases a3
    refine ⟨a1, a2, ?_, ?_, a5, a6⟩
    · rw [(F _).2.2.2.2]; simp [a3]
    · rw [(F v).2.2.2.2, Function.update_noteq htu]
      have hr := h.rdone _ a2 a3
      by_cases e' : v = u
      · subst e'; simp; exact hr
      · rw [if_neg e', Function.update_noteq e']
        exact a4
  · rw [(F s).2.1, (F s).2.2.1]; exact h.sdist
  · intro hk
    omega
  · intro _
    rw [(F s).2.2.2.2]
    by_cases e : s = u
    · simp [e]
    · rw [if_neg e]
      by_cases hk : 1 ≤ k
      · exact h.sdone hk
      · exact absurd (hfirst (by omega)).symm e

/-- The structural invariant is kept when the edge in the cell `c` of the
out-list of the popped node `u` is relaxed and `update_dec_key` is called for
its head. -/
theorem SInv.srelax {g0 g g1 : Digraph} {q : priqueue Nat} {L : Ptr → List Ptr} {s N : Nat}
    {k : Nat} {rank : Nat → Nat} {u : Nat} {c : Ptr}
    (h0 : SReady g0 L s N) (h : SInv g0 g q L s N (k + 1) rank)
    (hu : u < N) (hud : (g.node u).sp.done = true)
    (hc : c ∈ L (Ptr.first u))
    (hd : (g.node (g.edge (g.store.mem c).val).head).sp.done = false)
    (hg1 : g1 = g.relax_red (g.store.mem c).val) :
    SInv g0 g1 (q.update_dec_key g1.distKey (g1.node (g1.edge (g.store.mem c).val).head).sp.key)
      L s N (k + 1) rank := by
  obtain ⟨r1, r2, r3, r4, r5, r6, r7⟩ := relax_red_spec g (g.store.mem c).val
  rw [← hg1] at r1 r2 r3 r4 r5 r6 r7
  have hends := h0.ends u hu c hc
  rw [← h.store, ← h.edge] at hends
  generalize he : (g.store.mem c).val = e at *
  have hhN := hends.2
  have hhu : (g.edge e).head ≠ u := by
    intro e'; rw [e', hud] at hd; cases hd
  have htl : (g.edge e).tail = u := by
    rcases hends.1 with h1 | h1
    · exact h1
    · exact absurd h1 hhu
  have hsd : (g.node s).sp.done = true := h.sdone (by omega)
  have hhs : (g.edge e).head ≠ s := by
    intro e'; rw [e', hsd] at hd; cases hd
  have hdle : g1.distKey (g.edge e).head ≤ g.distKey (g.edge e).head := by
    unfold distKey
    rcases r7 with ⟨a1, a2, _⟩ | ⟨_, b2⟩
    · rw [a2]; exact a1
    · rw [b2]
  -- the queue
  have hmem : (g.edge e).head ∈ q.elems := (h.qmem _ hhN).mpr hd
  obtain ⟨i, i1, i2, i3⟩ := mem_elems.mp hmem
  have hsl := h.qslots (q.arr i) (priqueue.mem_slots.mpr ⟨i, i1, i2, rfl⟩)
  have hidx : q.idx ((g.edge e).head + 1) = i := by
    have := h.qex i i1 i2
    rw [hsl.1, i3] at this
    exact this
  have hkey : (g1.node (g1.edge e).head).sp.key = (g.edge e).head + 1 := by
    rw [r2, (r5 _).2.2.2, h.key _ hhN]
  rw [hkey]
  obtain ⟨u1, u2, u3, u4, _, _⟩ := priqueue.update_dec_key_spec g.distKey g1.distKey q
    ((g.edge e).head + 1) h.qord h.qex (by rw [hidx]; exact i1) (by rw [hidx]; exact i2)
    (by rw [hidx, hsl.1, i3]) (by rw [hidx, i3]; exact hdle)
    (by
      intro j j1 j2 hj
      rw [hidx] at hj
      have hne : (q.arr j).x ≠ (g.edge e).head := by
        intro e'
        have hslj := h.qslots (q.arr j) (priqueue.mem_slots.mpr ⟨j, j1, j2, rfl⟩)
        have := h.qex j j1 j2
        rw [hslj.1, e', hidx] at this
        exact hj this.symm
      unfold distKey
      rw [r6 _ hne])
  have hel := elems_perm_of_slots u4
  constructor
  · rw [r1]; exact h.store
  · rw [r2]; exact h.edge
  · rw [r3]; exact h.nnodes
  · rw [r4]; exact h.nedges
  · intro v; rw [(r5 v).2.1]; exact h.price v
  · intro v; rw [(r5 v).1]; exact h.name v
  · intro v hv; rw [(r5 v).2.2.2]; exact h.key v hv
  · exact u1
  · exact u2
  · rw [u3]; exact h.qn
  · intro x hx; exact h.qslots x (u4.mem_iff.mp hx)
  · exact hel.nodup_iff.mpr h.qnodup
  · intro v hv; rw [hel.mem_iff, (r5 v).2.2.1]; exact h.qmem v hv
  · intro v hv hdn; rw [(r5 v).2.2.1] at hdn; exact h.rdone v hv hdn
  · intro v hv e' he'
    rw [r2, r1]
    by_cases hvh : v = (g.edge e).head
    · rcases r7 with ⟨_, _, a3⟩ | ⟨_, b2⟩
      · rw [hvh, a3] at he'
        have : e = e' := by simpa using he'
        subst this
        refine ⟨hvh.symm, by rw [htl]; exact hu, ?_, ?_, ⟨c, ?_, ?_⟩, by rw [hvh]; exact hhs⟩
        · rw [(r5 _).2.2.1, htl]; exact hud
        · intro hdn
          rw [(r5 _).2.2.1, hvh, hd] at hdn
          cases hdn
        · rw [htl]; exact hc
        · exact he
      · rw [hvh, b2, ← hvh] at he'
        obtain ⟨a1, a2, a3, a4, a5, a6⟩ := h.prevok v hv e' he'
        refine ⟨a1, a2, ?_, ?_, a5, a6⟩
        · rw [(r5 _).2.2.1]; exact a3
        · rw [(r5 _).2.2.1]; exact a4
    · rw [r6 v hvh] at he'
      obtain ⟨a1, a2, a3, a4, a5, a6⟩ := h.prevok v hv e' he'
      refine ⟨a1, a2, ?_, ?_, a5, a6⟩
      · rw [(r5 _).2.2.1]; exact a3
      · rw [(r5 _).2.2.1]; exact a4
  · have : s ≠ (g.edge e).head := Ne.symm hhs
    rw [r6 s this]; exact h.sdist
  · intro hk
    omega
  · intro hk; rw [(r5 s).2.2.1]; exact h.sdone hk

/-- Every node on a path from `s` is among the nodes. -/
theorem PathL.lt {g0 : Digraph} {L : Ptr → List Ptr} {s N : Nat} (h0 : SReady g0 L s N)
    {v : Nat} {d : Int} (hp : PathL g0 L s v d) : v < N := by
  induction hp with
  | nil => exact h0.sN
  | snoc _ hc _ ih => exact (h0.ends _ ih _ hc).2

/-- Under the arithmetic assumptions `get_red_cost` is computed without
overflow and is not negative. -/
theorem Arith.grc {g0 : Digraph} {L : Ptr → List Ptr} {s N : Nat} {C P : Int}
    (h0 : SReady g0 L s N) (hA : Arith g0 L N C P) {u : Nat} (hu : u < N) {c : Ptr}
    (hc : c ∈ L (Ptr.first u)) (ht : (g0.edge (g0.store.mem c).val).tail = u) :
    g0.get_red_cost (g0.store.mem c).val =
      (g0.node u).sp.price + (g0.edge (g0.store.mem c).val).cost -
        (g0.node (g0.edge (g0.store.mem c).val).head).sp.price ∧
    0 ≤ g0.get_red_cost (g0.store.mem c).val := by
  have h1 := hA.price u hu
  have h2 := hA.cost u hu c hc
  have h3 := hA.price _ (h0.ends u hu c hc).2
  have h4 := hA.small
  have h5 := hA.cpos
  have h6 : 0 ≤ (N : Int) * C := mul_nonneg (Int.natCast_nonneg _) h5
  have h7 := hA.nonneg u hu c hc ht
  rw [abs_le] at h1 h2 h3
  have e : g0.get_red_cost (g0.store.mem c).val =
      (g0.node u).sp.price + (g0.edge (g0.store.mem c).val).cost -
        (g0.node (g0.edge (g0.store.mem c).val).head).sp.price := by
    have e1 : wrap ((g0.node u).sp.price + (g0.edge (g0.store.mem c).val).cost) =
        (g0.node u).sp.price + (g0.edge (g0.store.mem c).val).cost :=
      wrap_eq (by omega) (by omega)
    unfold get_red_cost
    rw [ht, e1]
    exact wrap_eq (by omega) (by omega)
  exact ⟨e, by rw [e]; exact h7⟩

/-- The reduced cost depends on the edges and the prices only. -/
theorem get_red_cost_congr {g g0 : Digraph} (he : g.edge = g0.edge)
    (hp : ∀ v, (g.node v).sp.price = (g0.node v).sp.price) (e : Nat) :
    g.get_red_cost e = g0.get_red_cost e := by
  unfold get_red_cost
  rw [he, hp, hp]

/-- The arithmetic part of the invariant when the `while` loop is entered. -/
theorem CInv.cinit {g0 g : Digraph} {L : Ptr → List Ptr} {s N : Nat} {C : Int} (u : Nat)
    (hsN : s < N) (hs0 : (g.node s).sp.dist = 0)
    (hsp : ∀ w, w < N → (g.node w).sp.done = false ∧ (g.node w).sp.prev = none ∧
      (w ≠ s → (g.node w).sp.dist = INF)) :
    CInv g0 g L s N C 0 u [] := by
  constructor
  · right
    intro v hv hR
    have hvs : v ≠ s := by
      rintro rfl
      exact hR ⟨0, PathL.nil⟩
    exact ⟨(hsp v hv).1, (hsp v hv).2.2 hvs, (hsp v hv).2.1⟩
  · intro v hv _ hvs _
    exact (hsp v hv).2.2 hvs
  · intro v hv _ hr
    rcases hr with hr | hr
    · exact absurd (hsp v hv).2.1 hr
    · subst hr
      rw [hs0]
      simp
  · intro j hj
    omega
  · intro v hv _ hr
    rcases hr with hr | hr
    · exact absurd (hsp v hv).2.1 hr
    · subst hr
      rw [hs0]
      exact PathL.nil
  · intro v hv _ e he
    rw [(hsp v hv).2.1] at he
    cases he
  · intro w hw _ hd
    rw [(hsp w hw).1] at hd
    cases hd
  · intro w v hw _ _ _ hd
    rw [(hsp w hw).1] at hd
    cases hd
  · intro _ w hw _ hd
    rw [(hsp w hw).1] at hd
    cases hd
  · intro v hv _ hd
    rw [(hsp v hv).1] at hd
    cases hd

/-- Between two pops, a path from `s` either ends in a node that is done or
passes a node that is not done and has a distance below `INF`. -/
theorem CInv.front {g0 g : Digraph} {q : priqueue Nat} {L : Ptr → List Ptr} {s N : Nat}
    {C P : Int} {k : Nat} {rank : Nat → Nat} {u0 : Nat}
    (h0 : SReady g0 L s N) (hA : Arith g0 L N C P) (hs : SInv g0 g q L s N k rank)
    (h : CInv g0 g L s N C k u0 []) (hk : 1 ≤ k) (hkN : k + 1 ≤ N) {v : Nat} {d : Int}
    (hp : PathL g0 L s v d) :
    (g.node v).sp.done = true ∨
      ∃ w, w < N ∧ Reach g0 L s w ∧ (g.node w).sp.done = false ∧ (g.node w).sp.dist < INF := by
  induction hp with
  | nil => exact Or.inl (hs.sdone hk)
  | @snoc u1 d1 c hp1 hc ht ih =>
    rcases ih with hd | hw
    · have hu1 := PathL.lt h0 hp1
      have hR : Reach g0 L s u1 := ⟨d1, hp1⟩
      have hf := h.feas u1 hu1 hR hd c hc (fun _ => List.not_mem_nil c) ht
      have hb := h.bound u1 hu1 hR (h.done_reached u1 hu1 hR hd)
      obtain ⟨g1, _⟩ := hA.grc h0 hu1 hc ht
      have hhN := (h0.ends u1 hu1 c hc).2
      have p1 := hA.price _ hhN
      have p2 := hA.price s h0.sN
      have p3 := hA.cost u1 hu1 c hc
      have h4 := hA.small
      have h5 : ((k + 1 : Nat) : Int) * C ≤ (N : Int) * C := mul_le_of_le hkN hA.cpos
      have h6 : ((k + 1 : Nat) : Int) * C = (k : Int) * C + C := by push_cast; ring
      rw [hs.price u1, hs.price s] at hb
      rw [abs_le] at hb p1 p2 p3
      by_cases hdh : (g.node (g0.edge (g0.store.mem c).val).head).sp.done = true
      · exact Or.inl hdh
      · refine Or.inr ⟨_, hhN, ⟨_, PathL.snoc hp1 hc ht⟩, by simpa using hdh, ?_⟩
        rw [g1] at hf
        unfold INF
        omega
    · exact Or.inr hw

/-- The effect of one `popmin` and `done=true` on the arithmetic part of the
invariant. -/
theorem CInv.cpop {g0 g : Digraph} {q : priqueue Nat} {L : Ptr → List Ptr} {s N : Nat}
    {C P : Int} {k : Nat} {rank : Nat → Nat} {u0 u : Nat}
    (h0 : SReady g0 L s N) (hA : Arith g0 L N C P) (hs : SInv g0 g q L s N k rank)
    (h : CInv g0 g L s N C k u0 []) (hn : 1 ≤ q.n) (hu : u = (q.popmin g.distKey).1) :
    CInv g0 (g.setSP u { (g.node u).sp with done := true }) L s N C (k + 1) u
      (L (Ptr.first u)) := by
  obtain ⟨huN, hud, hmin, hfirst⟩ := hs.pop_min h0 hn hu
  have hkN : k + 1 ≤ N := by have := hs.qn; omega
  have hC := hA.cpos
  -- a path to a node that is not done passes a node below `INF`
  have hlow : ∀ v, v < N → Reach g0 L s v → (g.node v).sp.done = false →
      (g.node u).sp.dist < INF := by
    intro v hv hR hd
    by_cases hk : k = 0
    · have hus := hfirst hk
      rw [hus, hs.sdist.1]
      unfold INF
      omega
    · obtain ⟨d, hp⟩ := hR
      rcases h.front h0 hA hs (by omega) hkN hp with a | ⟨w, w1, _, w3, w4⟩
      · rw [hd] at a; cases a
      · exact lt_of_le_of_lt (hmin w w1 w3) w4
  have hreach : Reach g0 L s u → ((g.node u).sp.prev ≠ none ∨ u = s) := by
    intro hR
    by_contra hc
    rw [not_or, not_not] at hc
    have hinf := h.unreached u huN hR hc.2 hc.1
    have := hlow u huN hR hud
    omega
  have F := setSP_done_node g u
  constructor
  · by_cases hR : Reach g0 L s u
    · rcases h.phase with a | b
      · have := a u huN hR
        rw [hud] at this
        cases this
      · right
        intro v hv hnR
        have hvu : v ≠ u := by
          rintro rfl
          exact hnR hR
        rw [(F v).2.2.2.2, if_neg hvu, (F v).2.1, (F v).2.2.1]
        exact b v hv hnR
    · left
      intro v hv hRv
      have hvu : v ≠ u := by
        rintro rfl
        exact hR hRv
      rw [(F v).2.2.2.2, if_neg hvu]
      rcases h.phase with a | b
      · exact a v hv hRv
      · by_contra hd
        have := hlow v hv hRv (by simpa using hd)
        rw [(b u huN hR).2.1] at this
        omega
  · intro v hv hR hvs hp
    rw [(F v).2.2.1] at hp
    rw [(F v).2.1]
    exact h.unreached v hv hR hvs hp
  · intro v hv hR hr
    rw [(F v).2.2.1] at hr
    rw [(F v).2.1, (F v).1, (F s).1]
    have := h.bound v hv hR hr
    have h2 : (k : Int) * C ≤ ((k + 1 : Nat) : Int) * C := mul_le_of_le (Nat.le_succ k) hC
    exact le_trans this h2
  · intro j hj hR
    have : j = k := by omega
    subst this
    rw [(F u).2.1, (F u).1, (F s).1]
    exact h.bound u huN hR (hreach hR)
  · intro v hv hR hr
    rw [(F v).2.2.1] at hr
    rw [(F v).2.1]
    exact h.path v hv hR hr
  · intro v hv hR e he
    rw [(F v).2.2.1] at he
    rw [(F v).2.1, (F _).2.1]
    exact h.tight v hv hR e he
  · intro w hw hR hd c hc hrem ht
    rw [(F w).2.2.2.2] at hd
    by_cases e : w = u
    · subst e; exact absurd hc (hrem rfl)
    · rw [if_neg e] at hd
      rw [(F _).2.1, (F _).2.1]
      exact h.feas w hw hR hd c hc (fun _ => List.not_mem_nil c) ht
  · intro w v hw hv hRw hRv hdw hdv
    rw [(F w).2.2.2.2] at hdw
    rw [(F v).2.2.2.2] at hdv
    rw [(F w).2.1, (F v).2.1]
    have hvu : v ≠ u := by
      rintro rfl
      simp at hdv
    rw [if_neg hvu] at hdv
    by_cases e : w = u
    · subst e; exact hmin v hv hdv
    · rw [if_neg e] at hdw
      exact h.mono w v hw hv hRw hRv hdw hdv
  · intro hR w hw hRw hdw
    rw [(F w).2.2.2.2] at hdw
    rw [(F w).2.1, (F u).2.1]
    by_cases e : w = u
    · subst e; exact le_refl _
    · rw [if_neg e] at hdw
      exact h.mono w u hw huN hRw hR hdw hud
  · intro v hv hR hd
    rw [(F v).2.2.2.2] at hd
    rw [(F v).2.2.1]
    by_cases e : v = u
    · subst e; exact hreach hR
    · rw [if_neg e] at hd
      exact h.done_reached v hv hR hd

/-- The arithmetic part of the invariant is kept when the cell `c` of the
out-list of the popped node is skipped because the head of its edge is done. -/
theorem CInv.cskip {g0 g : Digraph} {L : Ptr → List Ptr} {s N : Nat} {C P : Int} {k : Nat}
    {u : Nat} {c : Ptr} {rem : List Ptr}
    (h0 : SReady g0 L s N) (hA : Arith g0 L N C P)
    (h : CInv g0 g L s N C (k + 1) u (c :: rem)) (hc : c ∈ L (Ptr.first u))
    (hd : (g.node (g0.edge (g0.store.mem c).val).head).sp.done = true) :
    CInv g0 g L s N C (k + 1) u rem := by
  refine { h with feas := ?_ }
  intro w hw hR hwd c' hc' hrem ht
  by_cases e : w = u ∧ c' = c
  · obtain ⟨e1, e2⟩ := e
    subst e1 e2
    have hRh : Reach g0 L s (g0.edge (g0.store.mem c').val).head := by
      obtain ⟨d, hp⟩ := hR
      exact ⟨_, PathL.snoc hp hc' ht⟩
    have h1 := h.last hR _ (h0.ends w hw c' hc').2 hRh hd
    have h2 := (hA.grc h0 hw hc' ht).2
    omega
  · refine h.feas w hw hR hwd c' hc' ?_ ht
    intro hwu
    rw [List.mem_cons, not_or]
    exact ⟨fun e' => e ⟨hwu, e'⟩, hrem hwu⟩

/-- The arithmetic part of the invariant is kept when the edge in the cell `c`
of the out-list of the popped node `u` is relaxed. -/
theorem CInv.crelax {g0 g g1 : Digraph} {q : priqueue Nat} {L : Ptr → List Ptr} {s N : Nat}
    {C P : Int} {k : Nat} {rank : Nat → Nat} {u : Nat} {c : Ptr} {rem : List Ptr}
    (h0 : SReady g0 L s N) (hA : Arith g0 L N C P) (hs : SInv g0 g q L s N (k + 1) rank)
    (h : CInv g0 g L s N C (k + 1) u (c :: rem))
    (hu : u < N) (hud : (g.node u).sp.done = true) (hc : c ∈ L (Ptr.first u))
    (hd : (g.node (g.edge (g.store.mem c).val).head).sp.done = false)
    (hg1 : g1 = g.relax_red (g.store.mem c).val) :
    CInv g0 g1 L s N C (k + 1) u rem := by
  obtain ⟨r1, r2, r3, r4, r5, r6, r7⟩ := relax_red_spec g (g.store.mem c).val
  rw [← hg1] at r1 r2 r3 r4 r5 r6 r7
  have hends := h0.ends u hu c hc
  rw [get_red_cost_congr hs.edge hs.price] at r7
  rw [hs.store, hs.edge] at hd r6 r7
  have hhN := hends.2
  have hhu : (g0.edge (g0.store.mem c).val).head ≠ u := by
    intro e'; rw [e', hud] at hd; cases hd
  have htl : (g0.edge (g0.store.mem c).val).tail = u := by
    rcases hends.1 with h1 | h1
    · exact h1
    · exact absurd h1 hhu
  rw [htl] at r7
  have hsn : ∀ d, PathL g0 L s u d → PathL g0 L s (g0.edge (g0.store.mem c).val).head
      (d + g0.get_red_cost (g0.store.mem c).val) := fun d hp => PathL.snoc hp hc htl
  have hdne : ∀ w, (g.node w).sp.done = true → w ≠ (g0.edge (g0.store.mem c).val).head := by
    intro w hw e'
    rw [e', hd] at hw
    cases hw
  have key : ∀ x, x < N → ∀ e', (g.node x).sp.prev = some e' →
      (g1.node (g0.edge e').tail).sp = (g.node (g0.edge e').tail).sp := by
    intro x hx e' he'
    obtain ⟨_, _, a3, _⟩ := hs.prevok x hx e' he'
    rw [hs.edge] at a3
    exact r6 _ (hdne _ a3)
  have hfc := h.feas
  by_cases hR : Reach g0 L s u
  · have hRh : Reach g0 L s (g0.edge (g0.store.mem c).val).head := by
      obtain ⟨d, hp⟩ := hR
      exact ⟨_, hsn d hp⟩
    obtain ⟨g1e, g2e⟩ := hA.grc h0 hu hc htl
    have hub := h.ub k rfl hR
    have p1 := hA.price _ hhN
    have p2 := hA.price s h0.sN
    have p3 := hA.cost u hu c hc
    have h4 := hA.small
    have hkN : k + 1 ≤ N := by have := hs.qn; omega
    have h5 : ((k + 1 : Nat) : Int) * C ≤ (N : Int) * C := mul_le_of_le hkN hA.cpos
    have h6 : ((k + 1 : Nat) : Int) * C = (k : Int) * C + C := by push_cast; ring
    have hC := hA.cpos
    rw [hs.price u, hs.price s] at hub
    rw [abs_le] at hub p1 p2 p3
    have hnewc : wrap ((g.node u).sp.dist + g0.get_red_cost (g0.store.mem c).val) =
        (g.node u).sp.dist + g0.get_red_cost (g0.store.mem c).val :=
      wrap_eq (by omega) (by omega)
    rw [hnewc] at r7
    have hB : |(g.node u).sp.dist + g0.get_red_cost (g0.store.mem c).val +
        (g.node (g0.edge (g0.store.mem c).val).head).sp.price - (g.node s).sp.price| ≤
        ((k + 1 : Nat) : Int) * C := by
      rw [hs.price _, hs.price s, abs_le]
      omega
    generalize he : (g0.store.mem c).val = e at *
    constructor
    · rcases h.phase with a | b
      · have := a _ hhN hRh
        rw [hd] at this
        cases this
      · right
        intro v hv hnR
        have hvh : v ≠ (g0.edge e).head := by
          rintro rfl
          exact hnR hRh
        rw [(r5 v).2.2.1, r6 v hvh]
        exact b v hv hnR
    · intro v hv hRv hvs hp
      by_cases hvh : v = (g0.edge e).head
      · rw [hvh] at hp ⊢
        rcases r7 with ⟨_, _, a3⟩ | ⟨_, b2⟩
        · rw [a3] at hp; cases hp
        · rw [b2] at hp ⊢
          exact h.unreached _ hhN hRh (hvh ▸ hvs) hp
      · rw [r6 v hvh] at hp ⊢
        exact h.unreached v hv hRv hvs hp
    · intro v hv hRv hr
      rw [(r5 v).2.1, (r5 s).2.1]
      by_cases hvh : v = (g0.edge e).head
      · rw [hvh] at hr ⊢
        rcases r7 with ⟨_, a2, _⟩ | ⟨_, b2⟩
        · rw [a2]; exact hB
        · rw [b2] at hr ⊢
          exact h.bound _ hhN hRh (by
            rcases hr with a | a
            · exact Or.inl a
            · exact Or.inr a)
      · rw [r6 v hvh] at hr ⊢
        exact h.bound v hv hRv hr
    · intro j hj hRu
      rw [(r5 u).2.1, (r5 s).2.1, r6 u (Ne.symm hhu)]
      exact h.ub j hj hRu
    · intro v hv hRv hr
      by_cases hvh : v = (g0.edge e).head
      · rw [hvh] at hr ⊢
        rcases r7 with ⟨_, a2, _⟩ | ⟨_, b2⟩
        · rw [a2]
          exact hsn _ (h.path u hu hR (h.done_reached u hu hR hud))
        · rw [b2] at hr ⊢
          exact h.path _ hhN hRh hr
      · rw [r6 v hvh] at hr ⊢
        exact h.path v hv hRv hr
    · intro v hv hRv e' he'
      by_cases hvh : v = (g0.edge e).head
      · rw [hvh] at he' ⊢
        rcases r7 with ⟨_, a2, a3⟩ | ⟨_, b2⟩
        · rw [a3] at he'
          have : e = e' := by simpa using he'
          subst this
          rw [a2, htl, r6 u (Ne.symm hhu)]
        · rw [b2] at he' ⊢
          rw [key _ hhN e' he']
          exact h.tight _ hhN hRh e' he'
      · rw [r6 v hvh] at he' ⊢
        rw [key v hv e' he']
        exact h.tight v hv hRv e' he'
    · intro w hw hRw hdw c' hc' hrem ht
      rw [(r5 w).2.2.1] at hdw
      rw [r6 w (hdne w hdw)]
      by_cases e3 : w = u ∧ c' = c
      · rw [e3.2, he, e3.1]
        rcases r7 with ⟨_, a2, _⟩ | ⟨b1, b2⟩
        · rw [a2]
        · rw [b2]; exact le_of_lt b1
      · have hle : (g1.node (g0.edge (g0.store.mem c').val).head).sp.dist ≤
            (g.node (g0.edge (g0.store.mem c').val).head).sp.dist := by
          by_cases hvh : (g0.edge (g0.store.mem c').val).head = (g0.edge e).head
          · rw [hvh]
            rcases r7 with ⟨a1, a2, _⟩ | ⟨_, b2⟩
            · rw [a2]; exact a1
            · rw [b2]
          · rw [r6 _ hvh]
        refine le_trans hle (hfc w hw hRw hdw c' hc' ?_ ht)
        intro hwu
        rw [List.mem_cons, not_or]
        exact ⟨fun e' => e3 ⟨hwu, e'⟩, hrem hwu⟩
    · intro w v hw hv hRw hRv hdw hdv
      rw [(r5 w).2.2.1] at hdw
      rw [(r5 v).2.2.1] at hdv
      rw [r6 w (hdne w hdw)]
      by_cases hvh : v = (g0.edge e).head
      · rw [hvh]
        rcases r7 with ⟨_, a2, _⟩ | ⟨_, b2⟩
        · rw [a2]
          have := h.last hR w hw hRw hdw
          omega
        · rw [b2]
          exact h.mono w _ hw hhN hRw hRh hdw hd
      · rw [r6 v hvh]
        exact h.mono w v hw hv hRw hRv hdw hdv
    · intro hRu w hw hRw hdw
      rw [(r5 w).2.2.1] at hdw
      rw [r6 w (hdne w hdw), r6 u (Ne.symm hhu)]
      exact h.last hRu w hw hRw hdw
    · intro v hv hRv hdv
      rw [(r5 v).2.2.1] at hdv
      rw [r6 v (hdne v hdv)]
      exact h.done_reached v hv hRv hdv
  · have ha : ∀ v, v < N → Reach g0 L s v → (g.node v).sp.done = true := by
      rcases h.phase with a | b
      · exact a
      · have := (b u hu hR).1
        rw [hud] at this
        cases this
    have hnRh : ¬ Reach g0 L s (g0.edge (g0.store.mem c).val).head := by
      intro hRh
      have := ha _ hhN hRh
      rw [hd] at this
      cases this
    have tr : ∀ v, Reach g0 L s v → (g1.node v).sp = (g.node v).sp := by
      intro v hRv
      refine r6 v ?_
      rintro rfl
      exact hnRh hRv
    constructor
    · left
      intro v hv hRv
      rw [(r5 v).2.2.1]
      exact ha v hv hRv
    · intro v hv hRv hvs hp
      rw [tr v hRv] at hp ⊢
      exact h.unreached v hv hRv hvs hp
    · intro v hv hRv hr
      rw [(r5 v).2.1, (r5 s).2.1]
      rw [tr v hRv] at hr ⊢
      exact h.bound v hv hRv hr
    · intro j _ hRu
      exact absurd hRu hR
    · intro v hv hRv hr
      rw [tr v hRv] at hr ⊢
      exact h.path v hv hRv hr
    · intro v hv hRv e' he'
      rw [tr v hRv] at he' ⊢
      rw [key v hv e' he']
      exact h.tight v hv hRv e' he'
    · intro w hw hRw hdw c' hc' hrem ht
      rw [(r5 w).2.2.1] at hdw
      have hRh' : Reach g0 L s (g0.edge (g0.store.mem c').val).head := by
        obtain ⟨d, hp⟩ := hRw
        exact ⟨_, PathL.snoc hp hc' ht⟩
      rw [tr w hRw, tr _ hRh']
      refine h.feas w hw hRw hdw c' hc' ?_ ht
      intro hwu
      rw [hwu] at hRw
      exact absurd hRw hR
    · intro w v hw hv hRw hRv hdw hdv
      rw [(r5 w).2.2.1] at hdw
      rw [(r5 v).2.2.1] at hdv
      rw [tr w hRw, tr v hRv]
      exact h.mono w v hw hv hRw hRv hdw hdv
    · intro hRu
      exact absurd hRu hR
    · intro v hv hRv hdv
      rw [(r5 v).2.2.1] at hdv
      rw [tr v hRv]
      exact h.done_reached v hv hRv hdv

/-- The inner loop of `dijkstra_spath` over the cells `rem` still to be
visited in the out-list of the popped node `u` ends and keeps both parts of
the invariant. -/
theorem relaxLoop_gen {g0 : Digraph} {L : Ptr → List Ptr} {s N : Nat} {C P : Int} {k : Nat}
    {rank : Nat → Nat} {u : Nat} {hd : Option Ptr}
    (h0 : SReady g0 L s N) (hu : u < N) :
    ∀ (rem : List Ptr) (pv : Ptr) (fuel : Nat) (g : Digraph) (q : priqueue Nat),
      SInv g0 g q L s N (k + 1) rank →
      (Arith g0 L N C P → CInv g0 g L s N C (k + 1) u rem) →
      (g.node u).sp.done = true →
      (∀ c ∈ rem, c ∈ L (Ptr.first u)) → Chain g0.store.mem hd pv rem → rem.length ≤ fuel →
      ∃ g1 q1, relaxLoop fuel g q (g0.store.mem pv).next = .ok (g1, q1) ∧
        SInv g0 g1 q1 L s N (k + 1) rank ∧
        (Arith g0 L N C P → CInv g0 g1 L s N C (k + 1) u [])
  | [], pv, fuel, g, q, h, hc, _, _, hch, _ => by
    simp only [Chain] at hch
    rw [hch, relaxLoop_none]
    exact ⟨g, q, rfl, h, hc⟩
  | c :: rem, pv, fuel, g, q, h, hci, hud, hsub, hch, hf => by
    simp only [Chain] at hch
    cases fuel with
    | zero => simp at hf
    | succ f =>
      rw [hch.1]
      have hc := hsub c (List.mem_cons_self _ _)
      have hsub' : ∀ c' ∈ rem, c' ∈ L (Ptr.first u) :=
        fun c' hc' => hsub c' (List.mem_cons_of_mem _ hc')
      have hf' : rem.length ≤ f := by simpa using hf
      by_cases hd' : (g.node (g.edge (g.store.mem c).val).head).sp.done = true
      · have hd0 : (g.node (g0.edge (g0.store.mem c).val).head).sp.done = true := by
          rw [← h.store, ← h.edge]; exact hd'
        obtain ⟨g1, q1, e1, e2⟩ := relaxLoop_gen h0 hu rem c f g q h
          (fun hA => (hci hA).cskip h0 hA hc hd0) hud hsub' hch.2.2.2 hf'
        refine ⟨g1, q1, ?_, e2⟩
        simp only [relaxLoop, hd', Bool.not_true, Bool.false_eq_true, if_false]
        rw [h.store]
        exact e1
      · have hd'' : (g.node (g.edge (g.store.mem c).val).head).sp.done = false := by
          simpa using hd'
        have a1 := h.srelax h0 hu hud hc hd'' rfl
        have hud1 : ((g.relax_red (g.store.mem c).val).node u).sp.done = true := by
          rw [((relax_red_spec g (g.store.mem c).val).2.2.2.2.1 u).2.2.1]; exact hud
        obtain ⟨g1, q1, e1, e2⟩ := relaxLoop_gen h0 hu rem c f _ _ a1
          (fun hA => (hci hA).crelax h0 hA h hu hud hc hd'' rfl) hud1 hsub' hch.2.2.2 hf'
        refine ⟨g1, q1, ?_, e2⟩
        simp only [relaxLoop, hd'', Bool.not_false, if_true]
        rw [a1.store]
        exact e1

/-- When the queue is empty the structural invariant gives what
`dijkstra_spath` promises whatever the costs are. -/
theorem SInv.spost {g0 g : Digraph} {q : priqueue Nat} {L : Ptr → List Ptr} {s N : Nat}
    {k : Nat} {rank : Nat → Nat} (h : SInv g0 g q L s N k rank) (hq : q.n = 0) :
    SPost g0 g L s N rank ∧ ∀ v, v < N → (g.node v).sp.done = true := by
  have hk : k = N := by have := h.qn; omega
  have hel : q.elems = [] := by
    unfold priqueue.elems
    rw [priqueue.slots_zero hq]
    rfl
  have hdone : ∀ v, v < N → (g.node v).sp.done = true := by
    intro v hv
    have := h.qmem v hv
    rw [hel] at this
    simpa using this
  refine ⟨⟨h.store, h.edge, h.nnodes, h.nedges, h.price, h.name, h.sdist, ?_, ?_⟩, hdone⟩
  · intro v hv e he
    obtain ⟨a1, a2, _, a4, a5, a6⟩ := h.prevok v hv e he
    exact ⟨a1, a2, a4 (hdone v hv), a5, a6⟩
  · intro v hv
    have := h.rdone v hv (hdone v hv)
    omega

/-- When every node is done the arithmetic part of the invariant gives the
shortest distances. -/
theorem CInv.cpost {g0 g : Digraph} {L : Ptr → List Ptr} {s N : Nat} {C : Int} {u : Nat}
    (h0 : SReady g0 L s N) (h : CInv g0 g L s N C N u [])
    (hs0 : (g.node s).sp.dist = 0)
    (hdone : ∀ v, v < N → (g.node v).sp.done = true) : CPost g0 g L s N C := by
  have hfeas : ∀ w, w < N → Reach g0 L s w → ∀ c ∈ L (Ptr.first w),
      (g0.edge (g0.store.mem c).val).tail = w →
      (g.node (g0.edge (g0.store.mem c).val).head).sp.dist ≤
        (g.node w).sp.dist + g0.get_red_cost (g0.store.mem c).val :=
    fun w hw hR c hc ht => h.feas w hw hR (hdone w hw) c hc (fun _ => List.not_mem_nil c) ht
  refine ⟨?_, ?_, ?_, hfeas, ?_⟩
  · intro v hv hR
    exact h.path v hv hR (h.done_reached v hv hR (hdone v hv))
  · intro v d hp
    induction hp with
    | nil => rw [hs0]
    | @snoc u1 d1 c hp1 hc ht ih =>
      have := hfeas u1 (PathL.lt h0 hp1) ⟨d1, hp1⟩ c hc ht
      omega
  · intro v hv hR hvs
    rcases h.done_reached v hv hR (hdone v hv) with hp | hp
    · obtain ⟨e, he⟩ := Option.ne_none_iff_exists.mp hp
      exact ⟨e, he.symm, (h.tight v hv hR e he.symm).symm⟩
    · exact absurd hp hvs
  · intro v hv hR
    exact h.bound v hv hR (h.done_reached v hv hR (hdone v hv))

/-- The `while` loop of `dijkstra_spath` ends, within the fuel given. -/
theorem dijkstraLoop_gen {g0 : Digraph} {L : Ptr → List Ptr} {s N : Nat} {C P : Int}
    (h0 : SReady g0 L s N) :
    ∀ (fuel : Nat) (g : Digraph) (q : priqueue Nat) (k : Nat) (rank : Nat → Nat) (u0 : Nat),
      SInv g0 g q L s N k rank → (Arith g0 L N C P → CInv g0 g L s N C k u0 []) → q.n ≤ fuel →
      ∃ g1 rank1, dijkstraLoop fuel g q = .ok g1 ∧ SPost g0 g1 L s N rank1 ∧
        (Arith g0 L N C P → CPost g0 g1 L s N C)
  | 0, g, q, k, rank, u0, h, hc, hf => by
    have hq : q.n = 0 := by omega
    have hk : k = N := by have := h.qn; omega
    subst hk
    refine ⟨g, rank, ?_, (h.spost hq).1, fun hA => (hc hA).cpost h0 h.sdist.1 (h.spost hq).2⟩
    simp [dijkstraLoop, priqueue.empty, hq]
  | fuel + 1, g, q, k, rank, u0, h, hc, hf => by
    by_cases hq : q.n = 0
    · have hk : k = N := by have := h.qn; omega
      subst hk
      refine ⟨g, rank, ?_, (h.spost hq).1, fun hA => (hc hA).cpost h0 h.sdist.1 (h.spost hq).2⟩
      simp [dijkstraLoop, priqueue.empty, hq]
    · have hn1 : 1 ≤ q.n := Nat.one_le_iff_ne_zero.mpr hq
      obtain ⟨p1, _, _, _⟩ := h.pop_min h0 hn1 rfl
      have p3 := h.spop h0 hn1 rfl
      have hwf := h0.wf
      have hch := hwf.chain (Ptr.first (q.popmin g.distKey).1) p1
      have hlen := hwf.length_le (Ptr.first (q.popmin g.distKey).1)
      have hst : (g.setSP (q.popmin g.distKey).1
          { (g.node (q.popmin g.distKey).1).sp with done := true }).store = g0.store := p3.store
      obtain ⟨g1, q1, e1, e2, e2c⟩ := relaxLoop_gen (C := C) (P := P) h0 p1 _ _
        ((g.setSP (q.popmin g.distKey).1
          { (g.node (q.popmin g.distKey).1).sp with done := true }).store.ncells + 1) _ _ p3
        (fun hA => (hc hA).cpop h0 hA h hn1 rfl)
        (by simp) (fun c hc => hc) hch (by rw [hst]; omega)
      have hn1 : q1.n ≤ fuel := by
        have a := e2.qn
        have b := h.qn
        omega
      obtain ⟨g2, rank2, e3, e4⟩ := dijkstraLoop_gen h0 fuel g1 q1 _ _ _ e2 e2c hn1
      refine ⟨g2, rank2, ?_, e4⟩
      have hne : q.empty = false := by simp [priqueue.empty, hq]
      simp only [dijkstraLoop, hne, Bool.false_eq_true, if_false, indexedList.begin_first]
      rw [hst] at e1 ⊢
      rw [e1]
      exact e3

/-- The run of `dijkstra_spath(s)` on any graph whose memory is in order ends;
it leaves `prev` edges that lead towards `s`, and under the arithmetic
assumptions it leaves the shortest distances at the nodes reachable from `s`. -/
theorem dijkstra_spath_gen {g : Digraph} {L : Ptr → List Ptr} {s N : Nat}
    (h0 : SReady g L s N) (C P : Int) :
    ∃ g1 rank, g.dijkstra_spath s = .ok g1 ∧ SPost g g1 L s N rank ∧
      (Arith g L N C P → CPost g g1 L s N C) := by
  have hN := h0.nn
  subst hN
  obtain ⟨hi, hsp⟩ := SInv.sinit h0 (fun _ => 0) rfl (priqueue.new g.nnodes)
  have hn : (priqueue.set_priqueue
      (((initNodes g g.nnodes 0).setSP s
        { ((initNodes g g.nnodes 0).node s).sp with dist := 0 })).distKey
      (priqueue.new g.nnodes) (List.range g.nnodes)).n ≤ g.nnodes := by
    have := hi.qn
    omega
  obtain ⟨g1, rank1, e1, e2⟩ := dijkstraLoop_gen (C := C) (P := P) h0 g.nnodes _ _ _ _ 0 hi
    (fun _ => CInv.cinit 0 h0.sN hi.sdist.1 hsp) hn
  refine ⟨g1, rank1, ?_, e2⟩
  have hnn : (initNodes g g.nnodes 0).nnodes = g.nnodes := (initNodes_spec g.nnodes 0 g).2.2.1
  unfold dijkstra_spath
  simp only [setSP_nnodes, hnn]
  exact e1

end Digraph

end Hungarian

namespace Hungarian

namespace Digraph

/-- Paths along the out-lists as iterated are paths along the sublists `L`. -/
theorem Path.toL {g : Digraph} {L : Ptr → List Ptr} {s N : Nat} (h0 : SReady g L s N)
    {v : Nat} {d : Int} (hp : Path g s v d) : PathL g L s v d := by
  induction hp with
  | nil => exact PathL.nil
  | @snoc u d c _ hc ht ih =>
    have hu := PathL.lt h0 ih
    rw [h0.wf.handles_first hu] at hc
    exact PathL.snoc ih hc ht

/-- Paths along the sublists `L` are paths along the out-lists as iterated. -/
theorem PathL.toPath {g : Digraph} {L : Ptr → List Ptr} {s N : Nat} (h0 : SReady g L s N)
    {v : Nat} {d : Int} (hp : PathL g L s v d) : Path g s v d := by
  induction hp with
  | nil => exact Path.nil
  | @snoc u d c hp1 hc ht ih =>
    have hu := PathL.lt h0 hp1
    rw [← h0.wf.handles_first hu] at hc
    exact Path.snoc ih hc ht

/-- A graph built by `add_node` and `add_edge` alone is ready for
`dijkstra_spath`. -/
theorem sready_of_built {g : Digraph} {L : Ptr → List Ptr} (h : Built g L) {s : Nat}
    (hs : s < g.nnodes) : SReady g L s g.nnodes := by
  refine ⟨rfl, hs, h.wf, ?_⟩
  intro u _ c hc
  obtain ⟨e, he, h1 | h1⟩ := (h.loc _ c).mp hc
  · exact absurd h1.2 (by simp)
  · have hv : (g.store.mem c).val = e := by
      rw [h1.1, h.val _ (by omega)]
      omega
    rw [hv]
    have := h1.2
    simp only [Ptr.first.injEq] at this
    exact ⟨Or.inl this.symm, (h.ends e he).2⟩

/-- The arithmetic assumptions for a graph built by `add_node` and `add_edge`
alone, from bounds on its edges and nodes. -/
theorem arith_of_built {g : Digraph} {L : Ptr → List Ptr} (h : Built g L) {C P : Int}
    (hcost : ∀ e, e < g.nedges → |(g.edge e).cost| ≤ C ∧
      0 ≤ (g.node (g.edge e).tail).sp.price + (g.edge e).cost -
        (g.node (g.edge e).head).sp.price)
    (hprice : ∀ v, v < g.nnodes → |(g.node v).sp.price| ≤ P) (hC : 0 ≤ C)
    (hsmall : (g.nnodes : Int) * C + C + 2 * P < 2147483647) : Arith g L g.nnodes C P := by
  have key : ∀ u c, c ∈ L (Ptr.first u) →
      (g.store.mem c).val < g.nedges ∧ (g.edge (g.store.mem c).val).tail = u := by
    intro u c hc
    obtain ⟨e, he, h1 | h1⟩ := (h.loc _ c).mp hc
    · exact absurd h1.2 (by simp)
    · have hv : (g.store.mem c).val = e := by
        rw [h1.1, h.val _ (by omega)]
        omega
      rw [hv]
      have := h1.2
      simp only [Ptr.first.injEq] at this
      exact ⟨he, this.symm⟩
  refine ⟨?_, hprice, hC, hsmall, ?_⟩
  · intro u _ c hc
    exact (hcost _ (key u c hc).1).1
  · intro u _ c hc ht
    have := (hcost _ (key u c hc).1).2
    rw [ht] at this
    exact this

set_option maxRecDepth 1000000 in
/-- C11 fails as stated: three nodes, the source 0, with the out-list edges
0 -> 1 of reduced cost `INT_MAX` and 1 -> 2 of reduced cost 0.  No reduced
cost is negative and no sum overflows, node 2 is reachable from the source,
yet after `dijkstra_spath(0)` it has no `prev` edge: nodes 1 and 2 both carry
the distance `INF`, node 2 is popped first and is done when the edge 1 -> 2
is looked at. -/
theorem C11_reachable_node_without_prev :
    [((((((Digraph.new.add_node 0).1.add_node 1).1.add_node 2).1.add_edge 0 1
        2147483647).add_edge 1 2 0).get_red_cost 0),
      ((((((Digraph.new.add_node 0).1.add_node 1).1.add_node 2).1.add_edge 0 1
        2147483647).add_edge 1 2 0).get_red_cost 1)] = [2147483647, 0] ∧
    ((((((Digraph.new.add_node 0).1.add_node 1).1.add_node 2).1.add_edge 0 1
        2147483647).add_edge 1 2 0).dijkstra_spath 0).map
      (fun g => ([0, 1].map (fun u => (indexedList.iter_first g.store u).map
        (fun e => ((g.edge e).tail, (g.edge e).head))))) =
      .ok [[(0, 1)], [(1, 2)]] ∧
    ((((((Digraph.new.add_node 0).1.add_node 1).1.add_node 2).1.add_edge 0 1
        2147483647).add_edge 1 2 0).dijkstra_spath 0).map
      (fun g => ([0, 1, 2].map (fun v => (g.node v).sp.dist), (g.node 2).sp.prev)) =
      .ok ([0, 2147483647, 2147483647], none) := by
  refine ⟨?_, ?_, ?_⟩
  · decide!
  · decide!
  · decide!

/-- C11 amended: on every graph whose memory is in order, whose out-list edges
have a reduced cost that is not negative, and whose costs (at most `C`) and
prices (at most `P` in absolute value) satisfy `N * C + C + 2 * P < INT_MAX`
for its `N` nodes, `dijkstra_spath(s)` ends with `s.dist = 0`; every node
reachable from `s` along out-list edges has a distance that is the sum of
reduced costs of a path from `s` and at most that of every path from `s`; and
every reachable node other than `s` has a `prev` edge whose head is that node
and for which `prev.tail.dist + reducedCost(prev) = node.dist`. -/
theorem C11_dijkstra_gives_shortest_reduced_distances {g : Digraph} {L : Ptr → List Ptr}
    {s N : Nat} {C P : Int} (h0 : g.SReady L s N) (hA : g.Arith L N C P) :
    ∃ g1, g.dijkstra_spath s = .ok g1 ∧ (g1.node s).sp.dist = 0 ∧
      ∀ v, (∃ d, g.Path s v d) →
        g.Path s v (g1.node v).sp.dist ∧
        (∀ d, g.Path s v d → (g1.node v).sp.dist ≤ d) ∧
        (v ≠ s → ∃ e, (g1.node v).sp.prev = some e ∧ (g1.edge e).head = v ∧
          (g1.node (g1.edge e).tail).sp.dist + g1.get_red_cost e = (g1.node v).sp.dist) := by
  obtain ⟨g1, rank, e1, e2, e3⟩ := dijkstra_spath_gen h0 C P
  have hc := e3 hA
  refine ⟨g1, e1, e2.sdist.1, ?_⟩
  rintro v ⟨d, hp⟩
  have hpl := hp.toL h0
  have hv := PathL.lt h0 hpl
  have hR : Reach g L s v := ⟨d, hpl⟩
  refine ⟨(hc.path v hv hR).toPath h0, fun d' hp' => hc.least v d' (hp'.toL h0), ?_⟩
  intro hvs
  obtain ⟨e, he, ht⟩ := hc.tight v hv hR hvs
  refine ⟨e, he, (e2.prev v hv e he).1, ?_⟩
  rw [get_red_cost_congr e2.edge e2.price, e2.edge]
  exact ht

set_option maxRecDepth 1000000 in
/-- Witness of C11 amended: the graph with the nodes 0, 1, 2 and the edges
0 -> 1 of cost 5, 1 -> 2 of cost 3 and 0 -> 2 of cost 10, all prices 0, with
`C = 10` and `P = 0`. -/
theorem C11_dijkstra_gives_shortest_reduced_distances_witness :
    ∃ L, SReady ((((((Digraph.new.add_node 0).1.add_node 1).1.add_node 2).1.add_edge 0 1
        5).add_edge 1 2 3).add_edge 0 2 10) L 0 3 ∧
      Arith ((((((Digraph.new.add_node 0).1.add_node 1).1.add_node 2).1.add_edge 0 1
        5).add_edge 1 2 3).add_edge 0 2 10) L 3 10 0 ∧
      ∃ g1, ((((((Digraph.new.add_node 0).1.add_node 1).1.add_node 2).1.add_edge 0 1
          5).add_edge 1 2 3).add_edge 0 2 10).dijkstra_spath 0 = .ok g1 ∧
        (g1.node 0).sp.dist = 0 ∧
        ∀ v, (∃ d, Path ((((((Digraph.new.add_node 0).1.add_node 1).1.add_node 2).1.add_edge 0 1
            5).add_edge 1 2 3).add_edge 0 2 10) 0 v d) →
          Path ((((((Digraph.new.add_node 0).1.add_node 1).1.add_node 2).1.add_edge 0 1
            5).add_edge 1 2 3).add_edge 0 2 10) 0 v (g1.node v).sp.dist ∧
          (∀ d, Path ((((((Digraph.new.add_node 0).1.add_node 1).1.add_node 2).1.add_edge 0 1
            5).add_edge 1 2 3).add_edge 0 2 10) 0 v d → (g1.node v).sp.dist ≤ d) ∧
          (v ≠ 0 → ∃ e, (g1.node v).sp.prev = some e ∧ (g1.edge e).head = v ∧
            (g1.node (g1.edge e).tail).sp.dist + g1.get_red_cost e = (g1.node v).sp.dist) := by
  obtain ⟨a1, -⟩ := Built.built_new.built_add_node 0
  obtain ⟨a2, -⟩ := a1.built_add_node 1
  obtain ⟨a3, -⟩ := a2.built_add_node 2
  obtain ⟨L1, b1, -⟩ := a3.built_add_edge (x := 0) (y := 1) 5 (by decide) (by decide)
  obtain ⟨L2, b2, -⟩ := b1.built_add_edge (x := 1) (y := 2) 3 (by decide) (by decide)
  obtain ⟨L3, b3, -⟩ := b2.built_add_edge (x := 0) (y := 2) 10 (by decide) (by decide)
  have h0 : SReady ((((((Digraph.new.add_node 0).1.add_node 1).1.add_node 2).1.add_edge 0 1
        5).add_edge 1 2 3).add_edge 0 2 10) L3 0 3 := sready_of_built b3 (by decide)
  have hA : Arith ((((((Digraph.new.add_node 0).1.add_node 1).1.add_node 2).1.add_edge 0 1
        5).add_edge 1 2 3).add_edge 0 2 10) L3 3 10 0 := by
    refine arith_of_built b3 ?_ ?_ (by decide) (by decide)
    · intro e he
      have he3 : e < 3 := he
      interval_cases e
      · decide!
      · decide!
      · decide!
    · intro v hv
      have hv3 : v < 3 := hv
      interval_cases v
      · decide!
      · decide!
      · decide!
  exact ⟨L3, h0, hA, C11_dijkstra_gives_shortest_reduced_distances h0 hA⟩

end Digraph

end Hungarian

namespace Hungarian

namespace Net.Shape

variable {n : Net}

theorem shape_head_lt (hn : n.Shape) {e : Nat} (he : e < n.E) : (n.orig e).head < n.N := by
  rcases hn.kind e he with h | h | h
  · exact hn.yN _ h.2
  · exact hn.xN _ h.2
  · rw [h.2]; exact hn.tN

theorem shape_tail_lt (hn : n.Shape) {e : Nat} (he : e < n.E) : (n.orig e).tail < n.N := by
  rcases hn.kind e he with h | h | h
  · exact hn.xN _ h.1
  · rw [h.1]; exact hn.sN
  · exact hn.yN _ h.1

theorem shape_head_ne_tail (hn : n.Shape) {e : Nat} (he : e < n.E) :
    (n.orig e).head ≠ (n.orig e).tail := by
  intro e'
  rcases hn.kind e he with h | h | h
  · exact hn.xY _ h.1 (e' ▸ h.2)
  · rw [e', h.1] at h; exact hn.sX h.2
  · rw [← e', h.2] at h; exact hn.tY h.1

theorem shape_xy_head (hn : n.Shape) {e : Nat} (he : e < n.E) (h : (n.orig e).tail ∈ n.X) :
    (n.orig e).head ∈ n.Y := by
  rcases hn.kind e he with k | k | k
  · exact k.2
  · rw [k.1] at h; exact absurd h hn.sX
  · exact absurd k.1 (hn.xY _ h)

theorem shape_tail_of_head_t (hn : n.Shape) {e : Nat} (he : e < n.E)
    (h : (n.orig e).head = n.t) : (n.orig e).tail ∈ n.Y := by
  rcases hn.kind e he with k | k | k
  · rw [h] at k; exact absurd k.2 hn.tY
  · rw [h] at k; exact absurd k.2 hn.tX
  · exact k.1

theorem shape_head_of_tail_s (hn : n.Shape) {e : Nat} (he : e < n.E)
    (h : (n.orig e).tail = n.s) : (n.orig e).head ∈ n.X := by
  rcases hn.kind e he with k | k | k
  · rw [h] at k; exact absurd k.1 hn.sX
  · exact k.2
  · rw [h] at k; exact absurd k.1 hn.sY

theorem shape_yX (hn : n.Shape) {y : Nat} (h : y ∈ n.Y) : y ∉ n.X := fun hx => hn.xY y hx h

/-- A network of a complete instance with small costs is a network. -/
theorem of_OK {C : Int} (h : n.OK C) : n.Shape := by
  exact ⟨h.sN, h.tN, h.xN, h.yN, h.st, h.sX, h.sY, h.tX, h.tY, h.xY, h.xnodup, h.ynodup,
    h.kind, h.keys, h.sx_unique, h.yt_unique, h.sx, h.yt⟩

end Net.Shape

namespace MInv

variable {n : Net} {g : Digraph} {st : Nat → EState} {L : Ptr → List Ptr}

/-- Effect of `Edge::remove()` on an edge that was never reversed. -/
theorem remove_gen (hn : n.Shape) (h : MInv n g st L) {e : Nat} (he : e < n.E)
    (hst : st e = EState.F0) :
    ∃ g1 L1, g.remove e = .ok g1 ∧ g1.node = g.node ∧
      MInv n g1 (Function.update st e EState.gone) L1 ∧
      (∀ q, q ≠ Ptr.second (n.orig e).head → q ≠ Ptr.first (n.orig e).tail → L1 q = L q) := by
  have hk : Ptr.cell (2 * e + 1) ∈ L (Ptr.second (n.orig e).head) :=
    (h.loc _ _).mpr ⟨e, he, Or.inl ⟨rfl, by rw [hst]; rfl⟩⟩
  have tk : Ptr.cell (2 * e) ∈ L (Ptr.first (n.orig e).tail) :=
    (h.loc _ _).mpr ⟨e, he, Or.inr ⟨rfl, by rw [hst]; rfl⟩⟩
  obtain ⟨s1, r1, w1, v1, n1⟩ := h.wf.wf_remove hk
  have mLa := h.wf.mem_erase_iff hk
  obtain ⟨La, hLa⟩ : ∃ La, La = Function.update L (Ptr.second (n.orig e).head)
      ((L (Ptr.second (n.orig e).head)).erase (Ptr.cell (2 * e + 1))) := ⟨_, rfl⟩
  rw [← hLa] at w1 mLa
  have tk1 := (mLa (Ptr.first (n.orig e).tail) (Ptr.cell (2 * e))).mpr ⟨cell_ne e, tk⟩
  obtain ⟨s2, r2, w2, v2, n2⟩ := w1.wf_remove tk1
  have hedge : g.edge e = n.orig e := by
    rw [h.edge e he, hst]; rfl
  obtain ⟨k1, k2, k3⟩ := hn.keys e he
  refine ⟨{ g with store := s2 },
    Function.update La (Ptr.first (n.orig e).tail)
      ((La (Ptr.first (n.orig e).tail)).erase (Ptr.cell (2 * e))), ?_, rfl, ?_, ?_⟩
  · unfold Digraph.remove
    rw [hedge, k1, k2]
    simp only [r1, r2]
  · constructor
    · exact h.nnodes
    · exact h.nedges
    · exact h.name
    · exact w2
    · intro i hi
      show (s2.mem (Ptr.cell i)).val = i / 2
      rw [v2, v1]
      exact h.val i hi
    · intro e1 he1
      show g.edge e1 = _
      by_cases hne : e1 = e
      · subst hne
        rw [Function.update_same, hedge]
        rfl
      · rw [Function.update_noteq hne]
        exact h.edge e1 he1
    · refine loc_step h.loc he ?_
      intro q c
      rw [w1.mem_erase_iff tk1, mLa]
      simp only [EState.locH, EState.locT]
      constructor
      · rintro ⟨a, b, c'⟩
        exact Or.inr (Or.inr ⟨b, a, c'⟩)
      · rintro (⟨_, a⟩ | ⟨_, a⟩ | ⟨a, b, c'⟩)
        · cases a
        · cases a
        · exact ⟨b, a, c'⟩
  · intro q q1 q2
    rw [Function.update_noteq q2, hLa, Function.update_noteq q1]

/-- Effect of `Edge::reverse_dir()`, with the places of the two cells before
and after given. -/
theorem reverse_core_gen (hn : n.Shape) (h : MInv n g st L) {e : Nat} (he : e < n.E)
    (hg : st e ≠ EState.gone) (p1 p2 t1 t2 : Ptr) (hc tc : Nat)
    (hp1 : (st e).locH (n.orig e) = some p1) (hp2 : (st e).locT (n.orig e) = some p2)
    (hhc : ((st e).cur (n.orig e)).head = hc) (htc : ((st e).cur (n.orig e)).tail = tc)
    (hcN : hc < n.N) (tcN : tc < n.N)
    (ht1 : (if p1 = Ptr.first hc then Ptr.second hc else Ptr.first hc) = t1)
    (ht2 : (if p2 = Ptr.first tc then Ptr.second tc else Ptr.first tc) = t2)
    (hl1 : (st e).rev.locH (n.orig e) = some t1) (hl2 : (st e).rev.locT (n.orig e) = some t2)
    (hfour : ∀ q, q ≠ Ptr.first (n.orig e).head → q ≠ Ptr.second (n.orig e).head →
      q ≠ Ptr.first (n.orig e).tail → q ≠ Ptr.second (n.orig e).tail →
      q ≠ p1 ∧ q ≠ p2 ∧ q ≠ t1 ∧ q ≠ t2)
    (hfront : (st e).rev.back = true →
      t1 = Ptr.first (n.orig e).head ∧ t2 ≠ Ptr.first (n.orig e).head) :
    ∃ g1 L1, g.reverse_dir e = .ok g1 ∧ g1.node = g.node ∧
      MInv n g1 (Function.update st e (st e).rev) L1 ∧
      (∀ q, q ≠ Ptr.first (n.orig e).head → q ≠ Ptr.second (n.orig e).head →
        q ≠ Ptr.first (n.orig e).tail → q ≠ Ptr.second (n.orig e).tail → L1 q = L q) ∧
      ((st e).rev.back = true →
        ∃ rest, L1 (Ptr.first (n.orig e).head) = Ptr.cell (2 * e + 1) :: rest) := by
  have hk : Ptr.cell (2 * e + 1) ∈ L p1 := (h.loc _ _).mpr ⟨e, he, Or.inl ⟨rfl, hp1⟩⟩
  have tk : Ptr.cell (2 * e) ∈ L p2 := (h.loc _ _).mpr ⟨e, he, Or.inr ⟨rfl, hp2⟩⟩
  obtain ⟨s1, t1', et1, r1, w1, v1, n1⟩ := h.wf.wf_change_list hk (k := hc) hcN
  rw [ht1] at et1
  subst et1
  have mLa := h.wf.mem_move_iff hk t1'
  obtain ⟨La, hLa⟩ : ∃ La, La = Function.update
      (Function.update L p1 ((L p1).erase (Ptr.cell (2 * e + 1)))) t1'
      (Ptr.cell (2 * e + 1) :: Function.update L p1 ((L p1).erase (Ptr.cell (2 * e + 1))) t1') :=
    ⟨_, rfl⟩
  rw [← hLa] at w1 mLa
  have tk1 := (mLa p2 (Ptr.cell (2 * e))).mpr (Or.inr ⟨cell_ne e, tk⟩)
  obtain ⟨s2, t2', et2, r2, w2, v2, n2⟩ := w1.wf_change_list tk1 (k := tc) tcN
  rw [ht2] at et2
  subst et2
  obtain ⟨k1, k2, k3⟩ := hn.keys e he
  have hedge := h.edge e he
  refine ⟨{ g with store := s2,
                   edge := Function.update g.edge e
                     { g.edge e with cost := wrap (-(g.edge e).cost),
                                     back_edge := !(g.edge e).back_edge,
                                     head := (g.edge e).tail,
                                     tail := (g.edge e).head } },
    Function.update (Function.update La p2 ((La p2).erase (Ptr.cell (2 * e)))) t2'
      (Ptr.cell (2 * e) :: Function.update La p2 ((La p2).erase (Ptr.cell (2 * e))) t2'),
    ?_, rfl, ?_, ?_, ?_⟩
  · unfold Digraph.reverse_dir
    rw [hedge, (EState.cur_keys _ _).1, (EState.cur_keys _ _).2, k1, k2]
    simp only [hhc, htc, r1, r2]
  · constructor
    · exact h.nnodes
    · exact h.nedges
    · exact h.name
    · exact w2
    · intro i hi
      show (s2.mem (Ptr.cell i)).val = i / 2
      rw [v2, v1]
      exact h.val i hi
    · intro e1 he1
      show Function.update g.edge e _ e1 = _
      by_cases hne : e1 = e
      · subst hne
        rw [Function.update_same, Function.update_same, hedge]
        exact EState.cur_rev hg k3
      · rw [Function.update_noteq hne, Function.update_noteq hne]
        exact h.edge e1 he1
    · refine loc_step h.loc he ?_
      intro q c
      rw [w1.mem_move_iff tk1, mLa, hl1, hl2]
      constructor
      · rintro (⟨a, b⟩ | ⟨a, ⟨b, c'⟩ | ⟨b, c'⟩⟩)
        · exact Or.inr (Or.inl ⟨a, by rw [b]⟩)
        · exact Or.inl ⟨b, by rw [c']⟩
        · exact Or.inr (Or.inr ⟨b, a, c'⟩)
      · rintro (⟨a, b⟩ | ⟨a, b⟩ | ⟨a, b, c'⟩)
        · refine Or.inr ⟨?_, Or.inl ⟨a, (Option.some.inj b).symm⟩⟩
          rw [a]; exact (cell_ne e).symm
        · exact Or.inl ⟨a, (Option.some.inj b).symm⟩
        · exact Or.inr ⟨b, Or.inr ⟨a, c'⟩⟩
  · intro q q1 q2 q3 q4
    obtain ⟨a1, a2, a3, a4⟩ := hfour q q1 q2 q3 q4
    rw [Function.update_noteq a4, Function.update_noteq a2, hLa, Function.update_noteq a3,
      Function.update_noteq a1]
  · intro hb
    obtain ⟨a1, a2⟩ := hfront hb
    subst a1
    have hfr : ∃ rest, La (Ptr.first (n.orig e).head) = Ptr.cell (2 * e + 1) :: rest := by
      rw [hLa, Function.update_same]
      exact ⟨_, rfl⟩
    obtain ⟨rest, hrest⟩ := hfr
    rw [Function.update_noteq (Ne.symm a2)]
    by_cases hp : Ptr.first (n.orig e).head = p2
    · subst hp
      rw [Function.update_same, hrest, List.erase_cons_tail]
      · exact ⟨_, rfl⟩
      · simp
    · rw [Function.update_noteq hp, hrest]
      exact ⟨_, rfl⟩

/-- Effect of `Edge::reverse_dir()` on an edge that has not been removed. -/
theorem reverse_gen (hn : n.Shape) (h : MInv n g st L) {e : Nat} (he : e < n.E)
    (hg : st e ≠ EState.gone) :
    ∃ g1 L1, g.reverse_dir e = .ok g1 ∧ g1.node = g.node ∧
      MInv n g1 (Function.update st e (st e).rev) L1 ∧
      (∀ q, q ≠ Ptr.first (n.orig e).head → q ≠ Ptr.second (n.orig e).head →
        q ≠ Ptr.first (n.orig e).tail → q ≠ Ptr.second (n.orig e).tail → L1 q = L q) ∧
      ((st e).rev.back = true →
        ∃ rest, L1 (Ptr.first (n.orig e).head) = Ptr.cell (2 * e + 1) :: rest) := by
  have hne := hn.shape_head_ne_tail he
  have hne' := Ne.symm hne
  have hh := hn.shape_head_lt he
  have ht := hn.shape_tail_lt he
  cases hs : st e with
  | gone => exact absurd hs hg
  | F0 =>
    have := h.reverse_core_gen hn he hg (Ptr.second (n.orig e).head) (Ptr.first (n.orig e).tail)
      (Ptr.first (n.orig e).head) (Ptr.second (n.orig e).tail) (n.orig e).head (n.orig e).tail
    rw [hs] at this
    exact this rfl rfl rfl rfl hh ht (by simp) (by simp) rfl rfl
      (fun q q1 q2 q3 q4 => ⟨q2, q3, q1, q4⟩) (fun _ => ⟨rfl, by simp⟩)
  | B1 =>
    have := h.reverse_core_gen hn he hg (Ptr.first (n.orig e).head) (Ptr.second (n.orig e).tail)
      (Ptr.first (n.orig e).tail) (Ptr.first (n.orig e).head) (n.orig e).tail (n.orig e).head
    rw [hs] at this
    exact this rfl rfl rfl rfl ht hh (by simp [hne]) (by simp) rfl rfl
      (fun q q1 q2 q3 q4 => ⟨q1, q4, q3, q1⟩) (fun hb => by simp [EState.rev, EState.back] at hb)
  | F2 =>
    have := h.reverse_core_gen hn he hg (Ptr.first (n.orig e).tail) (Ptr.first (n.orig e).head)
      (Ptr.first (n.orig e).head) (Ptr.first (n.orig e).tail) (n.orig e).head (n.orig e).tail
    rw [hs] at this
    exact this rfl rfl rfl rfl hh ht (by simp [hne']) (by simp [hne]) rfl rfl
      (fun q q1 q2 q3 q4 => ⟨q3, q1, q1, q3⟩) (fun _ => ⟨rfl, by simp [hne']⟩)
  | B3 =>
    have := h.reverse_core_gen hn he hg (Ptr.first (n.orig e).head) (Ptr.first (n.orig e).tail)
      (Ptr.first (n.orig e).tail) (Ptr.first (n.orig e).head) (n.orig e).tail (n.orig e).head
    rw [hs] at this
    exact this rfl rfl rfl rfl ht hh (by simp [hne]) (by simp [hne']) rfl rfl
      (fun q q1 q2 q3 q4 => ⟨q1, q3, q3, q1⟩) (fun hb => by simp [EState.rev, EState.back] at hb)

end MInv

namespace TInv

variable {n : Net} {g : Digraph} {st : Nat → EState} {mx my : Nat → Option Nat}
  {ux uy : List Nat} {L : Ptr → List Ptr} {mode : Mode}

/-- The first step of `augment_spath`: the edge from the unmatched Y-node `y`
to `t` is removed. -/
theorem tstep_remove_yt (hn : n.Shape) (h : TInv n g st mx my ux uy L Mode.clean) {e : Nat}
    (he : e < n.E) (ht : (n.orig e).head = n.t) (hst : st e = EState.F0) :
    ∃ g1 L1, g.remove e = .ok g1 ∧ g1.node = g.node ∧
      TInv n g1 (Function.update st e EState.gone) mx my ux (uy.erase (n.orig e).tail) L1
        (Mode.freeY (n.orig e).tail) := by
  obtain ⟨g1, L1, r1, r2, r3, r4⟩ := h.mem.remove_gen hn he hst
  have hty := hn.shape_tail_of_head_t he ht
  have htX := hn.shape_yX hty
  have hyu : (n.orig e).tail ∈ uy := by
    rcases h.yt e he ht with a | a
    · exact a.2
    · rw [hst] at a; cases a.1
  have hmy : my (n.orig e).tail = none := (h.uy_my _ hty).mpr (Or.inl hyu)
  have hstX : ∀ e1, (n.orig e1).tail ∈ n.X → Function.update st e EState.gone e1 = st e1 := by
    intro e1 h1
    by_cases hne : e1 = e
    · subst hne; exact absurd h1 htX
    · rw [Function.update_noteq hne]
  refine ⟨g1, L1, r1, r2, ?_⟩
  constructor
  · exact r3
  · intro e1 he1 h1; rw [hstX e1 h1]; exact h.xy e1 he1 h1
  · intro e1 he1 h1
    have hne : e1 ≠ e := by
      intro e'; subst e'; rw [h1] at hty; exact hn.sY hty
    rw [Function.update_noteq hne]
    exact h.sx e1 he1 h1
  · intro e1 he1 h1
    by_cases hne : e1 = e
    · subst hne
      rw [Function.update_same]
      exact Or.inr ⟨rfl, fun hm => (List.Nodup.mem_erase_iff h.uy_nodup).mp hm |>.1 rfl⟩
    · rw [Function.update_noteq hne]
      have hne2 : (n.orig e1).tail ≠ (n.orig e).tail :=
        fun e' => hne (hn.yt_unique e1 e he1 he h1 ht e')
      rcases h.yt e1 he1 h1 with a | a
      · exact Or.inl ⟨a.1, (List.mem_erase_of_ne hne2).mpr a.2⟩
      · exact Or.inr ⟨a.1, fun hm => a.2 (List.mem_of_mem_erase hm)⟩
  · exact h.ux_sub
  · intro y hy; exact h.uy_sub y (List.mem_of_mem_erase hy)
  · exact h.ux_nodup
  · exact h.uy_nodup.erase _
  · intro y e1 h1
    obtain ⟨a1, a2, a3, a4⟩ := h.my_some y e1 h1
    exact ⟨a1, a2, a3, by rw [hstX e1 a2]; exact a4⟩
  · intro x e1 h1
    obtain ⟨a1, a2, a3, a4, a5⟩ := h.mx_some x e1 h1
    exact ⟨a1, a2, a3, by rw [hstX e1 (a2 ▸ a3)]; exact a4, by simp⟩
  · intro e1 he1 h1 h2
    rw [hstX e1 h1] at h2
    exact h.back_my e1 he1 h1 h2
  · intro e1 he1 h1 h2
    rw [hstX e1 h1] at h2
    rcases h.back_mx e1 he1 h1 h2 with a | a
    · exact Or.inl a
    · cases a
  · exact h.ux_mx
  · intro y hy
    by_cases e' : y = (n.orig e).tail
    · subst e'
      simp [hmy]
    · have e'' : ¬ (n.orig e).tail = y := fun h => e' h.symm
      rw [h.uy_my y hy]
      simp [List.mem_erase_of_ne e', e'']
  · intro y e1 h1
    obtain ⟨rest, hr⟩ := h.front y e1 h1
    refine ⟨rest, ?_⟩
    have hy : y ≠ (n.orig e).tail := by
      intro e'; rw [e', hmy] at h1; cases h1
    rw [r4 _ (by simp) (by simp [hy])]
    exact hr
  · intro y hy
    simp only [Mode.freeY.injEq] at hy
    subst hy
    exact ⟨hty, fun hm => ((List.Nodup.mem_erase_iff h.uy_nodup).mp hm).1 rfl⟩
  · intro x e1 h1
    cases h1

/-- A step of the switching loop of `augment_spath` at a Y-node without
matching edge: the forward edge `e` into it is reversed and becomes its
matching edge. -/
theorem tstep_reverse_fwd (hn : n.Shape) {e : Nat}
    (h : TInv n g st mx my ux uy L (Mode.freeY (n.orig e).head))
    (he : e < n.E) (hx : (n.orig e).tail ∈ n.X) (hb : (st e).back = false) :
    ∃ g1 L1, g.reverse_dir e = .ok g1 ∧ g1.node = g.node ∧
      TInv n g1 (Function.update st e (st e).rev) mx
        (Function.update my (n.orig e).head (some e)) ux uy L1
        (Mode.pendX (n.orig e).tail e) := by
  have hg := h.xy e he hx
  obtain ⟨g1, L1, r1, r2, r3, r4, r5⟩ := h.mem.reverse_gen hn he hg
  have hrb := EState.back_rev_of_not_back hg hb
  have hy := hn.shape_xy_head he hx
  obtain ⟨_, hyu⟩ := h.free _ rfl
  have hmy : my (n.orig e).head = none := (h.uy_my _ hy).mpr (Or.inr rfl)
  have hstb : ∀ e1, (st e1).back = true → Function.update st e (st e).rev e1 = st e1 := by
    intro e1 h1
    have hne : e1 ≠ e := by
      intro e'; subst e'; rw [hb] at h1; cases h1
    rw [Function.update_noteq hne]
  refine ⟨g1, L1, r1, r2, ?_⟩
  constructor
  · exact r3
  · intro e1 he1 h1
    by_cases hne : e1 = e
    · subst hne; rw [Function.update_same]; exact EState.rev_ne_gone hg
    · rw [Function.update_noteq hne]; exact h.xy e1 he1 h1
  · intro e1 he1 h1
    have hne : e1 ≠ e := by
      intro e'; subst e'; rw [h1] at hx; exact hn.sX hx
    rw [Function.update_noteq hne]
    exact h.sx e1 he1 h1
  · intro e1 he1 h1
    have hne : e1 ≠ e := by
      intro e'; subst e'; rw [h1] at hy; exact hn.tY hy
    rw [Function.update_noteq hne]
    exact h.yt e1 he1 h1
  · exact h.ux_sub
  · exact h.uy_sub
  · exact h.ux_nodup
  · exact h.uy_nodup
  · intro y e1 h1
    by_cases hyy : y = (n.orig e).head
    · subst hyy
      rw [Function.update_same] at h1
      have : e = e1 := Option.some.inj h1
      subst this
      exact ⟨he, hx, rfl, by rw [Function.update_same]; exact hrb⟩
    · rw [Function.update_noteq hyy] at h1
      obtain ⟨a1, a2, a3, a4⟩ := h.my_some y e1 h1
      exact ⟨a1, a2, a3, by rw [hstb e1 a4]; exact a4⟩
  · intro x e1 h1
    obtain ⟨a1, a2, a3, a4, a5⟩ := h.mx_some x e1 h1
    refine ⟨a1, a2, a3, by rw [hstb e1 a4]; exact a4, ?_⟩
    intro hm
    simp only [Mode.pendX.injEq] at hm
    rw [← hm.2, hb] at a4
    cases a4
  · intro e1 he1 h1 h2
    by_cases hne : e1 = e
    · subst hne
      rw [Function.update_same]
    · rw [Function.update_noteq hne] at h2
      have := h.back_my e1 he1 h1 h2
      have hhd : (n.orig e1).head ≠ (n.orig e).head := by
        intro e'; rw [e', hmy] at this; cases this
      rw [Function.update_noteq hhd]
      exact this
  · intro e1 he1 h1 h2
    by_cases hne : e1 = e
    · subst hne
      exact Or.inr rfl
    · rw [Function.update_noteq hne] at h2
      rcases h.back_mx e1 he1 h1 h2 with a | a
      · exact Or.inl a
      · cases a
  · exact h.ux_mx
  · intro y hy'
    by_cases hyy : y = (n.orig e).head
    · subst hyy
      rw [Function.update_same]
      simp [hyu]
    · rw [Function.update_noteq hyy, h.uy_my y hy']
      have : ¬ (n.orig e).head = y := fun h => hyy h.symm
      simp [this]
  · intro y e1 h1
    by_cases hyy : y = (n.orig e).head
    · subst hyy
      rw [Function.update_same] at h1
      have : e = e1 := Option.some.inj h1
      subst this
      exact r5 hrb
    · rw [Function.update_noteq hyy] at h1
      obtain ⟨rest, hr⟩ := h.front y e1 h1
      obtain ⟨a1, a2, a3, a4⟩ := h.my_some y e1 h1
      have hyY : y ∈ n.Y := a3 ▸ hn.shape_xy_head a1 a2
      have hyt : y ≠ (n.orig e).tail := by
        intro e'; rw [e'] at hyY; exact hn.xY _ hx hyY
      refine ⟨rest, ?_⟩
      rw [r4 _ (by simp [hyy]) (by simp) (by simp [hyt]) (by simp)]
      exact hr
  · intro y hy'
    cases hy'
  · intro x e1 h1
    simp only [Mode.pendX.injEq] at h1
    obtain ⟨h1, h2⟩ := h1
    subst h1 h2
    refine ⟨he, rfl, hx, by rw [Function.update_same]; exact hrb, ?_⟩
    intro hm
    obtain ⟨_, _, _, a4, _⟩ := h.mx_some _ _ hm
    rw [hb] at a4
    cases a4

/-- A step of the switching loop of `augment_spath` at a matched X-node that
got a new matching edge `enew`: its old matching edge `e` is reversed and is a
forward edge again. -/
theorem tstep_reverse_back (hn : n.Shape) {e enew : Nat}
    (h : TInv n g st mx my ux uy L (Mode.pendX (n.orig e).tail enew))
    (he : e < n.E) (hx : (n.orig e).tail ∈ n.X) (hb : (st e).back = true) (hne : e ≠ enew) :
    ∃ g1 L1, g.reverse_dir e = .ok g1 ∧ g1.node = g.node ∧
      TInv n g1 (Function.update st e (st e).rev)
        (Function.update mx (n.orig e).tail (some enew))
        (Function.update my (n.orig e).head none) ux uy L1
        (Mode.freeY (n.orig e).head) := by
  have hg := h.xy e he hx
  obtain ⟨g1, L1, r1, r2, r3, r4, r5⟩ := h.mem.reverse_gen hn he hg
  obtain ⟨hrb, hrg⟩ := EState.back_rev_of_back hb
  have hy := hn.shape_xy_head he hx
  obtain ⟨p1, p2, p3, p4, p5⟩ := h.pend _ _ rfl
  have hmx : mx (n.orig e).tail = some e := by
    rcases h.back_mx e he hx hb with a | a
    · exact a
    · simp only [Mode.pendX.injEq] at a
      exact absurd a.2.symm hne
  have hmy : my (n.orig e).head = some e := h.back_my e he hx hb
  have hxu : (n.orig e).tail ∉ ux := by
    intro hm
    have := (h.ux_mx _ hx).mpr hm
    rw [hmx] at this
    cases this
  have hyu : (n.orig e).head ∉ uy := by
    intro hm
    have := (h.uy_my _ hy).mpr (Or.inl hm)
    rw [hmy] at this
    cases this
  refine ⟨g1, L1, r1, r2, ?_⟩
  constructor
  · exact r3
  · intro e1 he1 h1
    by_cases hne1 : e1 = e
    · subst hne1; rw [Function.update_same]; exact hrg
    · rw [Function.update_noteq hne1]; exact h.xy e1 he1 h1
  · intro e1 he1 h1
    have hne1 : e1 ≠ e := by
      intro e'; subst e'; rw [h1] at hx; exact hn.sX hx
    rw [Function.update_noteq hne1]
    exact h.sx e1 he1 h1
  · intro e1 he1 h1
    have hne1 : e1 ≠ e := by
      intro e'; subst e'; rw [h1] at hy; exact hn.tY hy
    rw [Function.update_noteq hne1]
    exact h.yt e1 he1 h1
  · exact h.ux_sub
  · exact h.uy_sub
  · exact h.ux_nodup
  · exact h.uy_nodup
  · intro y e1 h1
    by_cases hyy : y = (n.orig e).head
    · subst hyy
      rw [Function.update_same] at h1
      cases h1
    · rw [Function.update_noteq hyy] at h1
      obtain ⟨a1, a2, a3, a4⟩ := h.my_some y e1 h1
      have hne1 : e1 ≠ e := by
        intro e'; subst e'; exact hyy a3.symm
      exact ⟨a1, a2, a3, by rw [Function.update_noteq hne1]; exact a4⟩
  · intro x e1 h1
    by_cases hxx : x = (n.orig e).tail
    · subst hxx
      rw [Function.update_same] at h1
      have : enew = e1 := Option.some.inj h1
      subst this
      refine ⟨p1, p2, hx, ?_, by simp⟩
      rw [Function.update_noteq (Ne.symm hne)]
      exact p4
    · rw [Function.update_noteq hxx] at h1
      obtain ⟨a1, a2, a3, a4, a5⟩ := h.mx_some x e1 h1
      have hne1 : e1 ≠ e := by
        intro e'; subst e'; exact hxx a2.symm
      exact ⟨a1, a2, a3, by rw [Function.update_noteq hne1]; exact a4, by simp⟩
  · intro e1 he1 h1 h2
    by_cases hne1 : e1 = e
    · subst hne1
      rw [Function.update_same, hrb] at h2
      cases h2
    · rw [Function.update_noteq hne1] at h2
      have := h.back_my e1 he1 h1 h2
      have hhd : (n.orig e1).head ≠ (n.orig e).head := by
        intro e'
        rw [e', hmy] at this
        exact hne1 (Option.some.inj this).symm
      rw [Function.update_noteq hhd]
      exact this
  · intro e1 he1 h1 h2
    by_cases hne1 : e1 = e
    · subst hne1
      rw [Function.update_same, hrb] at h2
      cases h2
    · rw [Function.update_noteq hne1] at h2
      rcases h.back_mx e1 he1 h1 h2 with a | a
      · have htl : (n.orig e1).tail ≠ (n.orig e).tail := by
          intro e'
          rw [e', hmx] at a
          exact hne1 (Option.some.inj a).symm
        rw [Function.update_noteq htl]
        exact Or.inl a
      · simp only [Mode.pendX.injEq] at a
        obtain ⟨a1, a2⟩ := a
        subst a2
        rw [← a1, Function.update_same]
        exact Or.inl rfl
  · intro x hx'
    by_cases hxx : x = (n.orig e).tail
    · subst hxx
      rw [Function.update_same]
      simp [hxu]
    · rw [Function.update_noteq hxx]
      exact h.ux_mx x hx'
  · intro y hy'
    by_cases hyy : y = (n.orig e).head
    · subst hyy
      rw [Function.update_same]
      simp
    · rw [Function.update_noteq hyy, h.uy_my y hy']
      have : ¬ (n.orig e).head = y := fun h => hyy h.symm
      simp [this]
  · intro y e1 h1
    by_cases hyy : y = (n.orig e).head
    · subst hyy
      rw [Function.update_same] at h1
      cases h1
    · rw [Function.update_noteq hyy] at h1
      obtain ⟨rest, hr⟩ := h.front y e1 h1
      obtain ⟨a1, a2, a3, a4⟩ := h.my_some y e1 h1
      have hyY : y ∈ n.Y := a3 ▸ hn.shape_xy_head a1 a2
      have hyt : y ≠ (n.orig e).tail := by
        intro e'; rw [e'] at hyY; exact hn.xY _ hx hyY
      refine ⟨rest, ?_⟩
      rw [r4 _ (by simp [hyy]) (by simp) (by simp [hyt]) (by simp)]
      exact hr
  · intro y hy'
    simp only [Mode.freeY.injEq] at hy'
    subst hy'
    exact ⟨hy, hyu⟩
  · intro x e1 h1
    cases h1

/-- The last step of `augment_spath`: the edge `e` from `s` to the X-node that
got the matching edge `enew` is removed. -/
theorem tstep_remove_sx (hn : n.Shape) {e enew : Nat}
    (h : TInv n g st mx my ux uy L (Mode.pendX (n.orig e).head enew))
    (he : e < n.E) (hs : (n.orig e).tail = n.s) (hst : st e = EState.F0) :
    ∃ g1 L1, g.remove e = .ok g1 ∧ g1.node = g.node ∧
      TInv n g1 (Function.update st e EState.gone)
        (Function.update mx (n.orig e).head (some enew)) my
        (ux.erase (n.orig e).head) uy L1 Mode.clean := by
  obtain ⟨g1, L1, r1, r2, r3, r4⟩ := h.mem.remove_gen hn he hst
  have hhx := hn.shape_head_of_tail_s he hs
  have hxu : (n.orig e).head ∈ ux := by
    rcases h.sx e he hs with a | a
    · exact a.2
    · rw [hst] at a; cases a.1
  have hmx : mx (n.orig e).head = none := (h.ux_mx _ hhx).mpr hxu
  obtain ⟨p1, p2, p3, p4, p5⟩ := h.pend _ _ rfl
  have hstX : ∀ e1, (n.orig e1).tail ∈ n.X → Function.update st e EState.gone e1 = st e1 := by
    intro e1 h1
    by_cases hne : e1 = e
    · subst hne; rw [hs] at h1; exact absurd h1 hn.sX
    · rw [Function.update_noteq hne]
  refine ⟨g1, L1, r1, r2, ?_⟩
  constructor
  · exact r3
  · intro e1 he1 h1; rw [hstX e1 h1]; exact h.xy e1 he1 h1
  · intro e1 he1 h1
    by_cases hne : e1 = e
    · subst hne
      rw [Function.update_same]
      exact Or.inr ⟨rfl, fun hm => ((List.Nodup.mem_erase_iff h.ux_nodup).mp hm).1 rfl⟩
    · rw [Function.update_noteq hne]
      have hne2 : (n.orig e1).head ≠ (n.orig e).head :=
        fun e' => hne (hn.sx_unique e1 e he1 he h1 hs e')
      rcases h.sx e1 he1 h1 with a | a
      · exact Or.inl ⟨a.1, (List.mem_erase_of_ne hne2).mpr a.2⟩
      · exact Or.inr ⟨a.1, fun hm => a.2 (List.mem_of_mem_erase hm)⟩
  · intro e1 he1 h1
    have hne : e1 ≠ e := by
      intro e'; subst e'; rw [h1] at hhx; exact hn.tX hhx
    rw [Function.update_noteq hne]
    exact h.yt e1 he1 h1
  · intro x hx'; exact h.ux_sub x (List.mem_of_mem_erase hx')
  · exact h.uy_sub
  · exact h.ux_nodup.erase _
  · exact h.uy_nodup
  · intro y e1 h1
    obtain ⟨a1, a2, a3, a4⟩ := h.my_some y e1 h1
    exact ⟨a1, a2, a3, by rw [hstX e1 a2]; exact a4⟩
  · intro x e1 h1
    by_cases hxx : x = (n.orig e).head
    · subst hxx
      rw [Function.update_same] at h1
      have : enew = e1 := Option.some.inj h1
      subst this
      exact ⟨p1, p2, hhx, by rw [hstX _ (p2 ▸ hhx)]; exact p4, by simp⟩
    · rw [Function.update_noteq hxx] at h1
      obtain ⟨a1, a2, a3, a4, a5⟩ := h.mx_some x e1 h1
      exact ⟨a1, a2, a3, by rw [hstX e1 (a2 ▸ a3)]; exact a4, by simp⟩
  · intro e1 he1 h1 h2
    rw [hstX e1 h1] at h2
    exact h.back_my e1 he1 h1 h2
  · intro e1 he1 h1 h2
    rw [hstX e1 h1] at h2
    rcases h.back_mx e1 he1 h1 h2 with a | a
    · have htl : (n.orig e1).tail ≠ (n.orig e).head := by
        intro e'; rw [e', hmx] at a; cases a
      rw [Function.update_noteq htl]
      exact Or.inl a
    · simp only [Mode.pendX.injEq] at a
      obtain ⟨a1, a2⟩ := a
      subst a2
      rw [a1, Function.update_same]
      exact Or.inl rfl
  · intro x hx'
    by_cases hxx : x = (n.orig e).head
    · subst hxx
      rw [Function.update_same]
      simp
      exact fun hm => ((List.Nodup.mem_erase_iff h.ux_nodup).mp hm).1 rfl
    · rw [Function.update_noteq hxx, h.ux_mx x hx']
      simp [List.mem_erase_of_ne hxx]
  · intro y hy'
    rw [h.uy_my y hy']
    simp
  · intro y e1 h1
    obtain ⟨rest, hr⟩ := h.front y e1 h1
    obtain ⟨a1, a2, a3, a4⟩ := h.my_some y e1 h1
    have hyY : y ∈ n.Y := a3 ▸ hn.shape_xy_head a1 a2
    have hys : y ≠ (n.orig e).tail := by
      intro e'; rw [e', hs] at hyY; exact hn.sY hyY
    refine ⟨rest, ?_⟩
    rw [r4 _ (by simp) (by simp [hys])]
    exact hr
  · intro y hy'
    cases hy'
  · intro x e1 h1
    cases h1

end TInv

end Hungarian

namespace Hungarian

namespace BiDigraph

theorem switchLoop_fail (s : Nat) (fuel : Nat) (g : Digraph) (r : Digraph × Nat) :
    switchLoop s fuel g none ≠ .ok r := by
  cases fuel <;> simp [switchLoop]

/-- The switching loop of `augment_spath`, when it ends: it has followed the
`prev` edges back to an edge that leaves `s` and reversed each edge on its
way once; the matching is in order except for the X-node that this last edge
enters. -/
theorem switchLoop_gen {n : Net} (hn : n.Shape) {stD : Nat → EState}
    {pv : Nat → Option Nat} {rank : Nat → Nat} (hpv : PrevPart n stD pv rank)
    {ux uy : List Nat} :
    ∀ (fuel v : Nat) (g : Digraph) (st : Nat → EState) (mx my : Nat → Option Nat)
      (L : Ptr → List Ptr) (mode : Mode),
      TInv n g st mx my ux uy L mode →
      (∀ u, (g.node u).sp.prev = pv u) →
      (∀ e, e < n.E → st e ≠ stD e →
        ((n.orig e).head = n.t ∧ stD e = EState.F0) ∨
          rank v < rank ((stD e).cur (n.orig e)).head) →
      (mode = Mode.freeY v ∨ ∃ enew, mode = Mode.pendX v enew ∧ (stD enew).back = false) →
      ∀ g1 e1, switchLoop n.s fuel g (pv v) = .ok (g1, e1) →
      ∃ st1 mx1 my1 L1 enew path,
        g1.node = g.node ∧ e1 < n.E ∧ (n.orig e1).tail = n.s ∧ st1 e1 = EState.F0 ∧
        TInv n g1 st1 mx1 my1 ux uy L1 (Mode.pendX (n.orig e1).head enew) ∧
        PrevWalk pv (fun e => ((stD e).cur (n.orig e)).tail) n.s v path e1 ∧
        (∀ e, st1 e = if e ∈ path then (st e).rev else st e) ∧
        (∀ e ∈ e1 :: path, e < n.E ∧ st e = stD e ∧
          rank ((stD e).cur (n.orig e)).head ≤ rank v) ∧
        (∀ e ∈ path, (n.orig e).tail ∈ n.X)
  | 0, v, g, st, mx, my, L, mode, _, _, _, _, g1, e1, hsw => by
    cases hp : pv v with
    | none => rw [hp] at hsw; exact absurd hsw (switchLoop_fail _ _ _ _)
    | some e => rw [hp] at hsw; simp [switchLoop] at hsw
  | f + 1, v, g, st, mx, my, L, mode, h, hnode, hun, hmode, gr, er, hsw => by
    have hvXY : v ∈ n.X ∨ v ∈ n.Y := by
      rcases hmode with a | ⟨enew, a, _⟩
      · exact Or.inr (h.free v a).1
      · exact Or.inl (h.pend v enew a).2.2.1
    have hvN : v < n.N := by
      rcases hvXY with a | a
      · exact hn.xN v a
      · exact hn.yN v a
    have hvs : v ≠ n.s := by
      rintro rfl
      rcases hvXY with a | a
      · exact hn.sX a
      · exact hn.sY a
    have hvt : v ≠ n.t := by
      rintro rfl
      rcases hvXY with a | a
      · exact hn.tX a
      · exact hn.tY a
    cases hpe : pv v with
    | none => rw [hpe] at hsw; exact absurd hsw (switchLoop_fail _ _ _ _)
    | some e =>
    obtain ⟨he, hhd, hrk, hgD⟩ := hpv v hvN e hpe
    have hste : st e = stD e := by
      by_contra hne
      rcases hun e he hne with ⟨a, b⟩ | a
      · rw [b] at hhd
        have : (n.orig e).head = v := hhd
        exact hvt (this ▸ a)
      · rw [hhd] at a
        omega
    have hhdD := hhd
    have hrkD := hrk
    rw [← hste] at hhd hrk hgD
    have hedge := h.mem.edge e he
    rw [hpe] at hsw
    -- the edges changed so far stay away from the nodes still to come
    have hun1 : ∀ σ, ∀ e1, e1 < n.E → Function.update st e σ e1 ≠ stD e1 →
        ((n.orig e1).head = n.t ∧ stD e1 = EState.F0) ∨
          rank ((st e).cur (n.orig e)).tail < rank ((stD e1).cur (n.orig e1)).head := by
      intro σ e1 he1 hne1
      by_cases hee : e1 = e
      · subst hee
        rw [← hste, hhd]
        exact Or.inr hrk
      · rw [Function.update_noteq hee] at hne1
        rcases hun e1 he1 hne1 with a | a
        · exact Or.inl a
        · exact Or.inr (by omega)
    -- how the result of the rest of the walk gives that of the whole walk
    have hglue : ∀ (g' : Digraph) (st1 : Nat → EState) (mx1 my1 : Nat → Option Nat)
        (L1 : Ptr → List Ptr) (en : Nat) (path : List Nat),
        g'.node = g.node → (n.orig e).tail ∈ n.X →
        ((stD e).cur (n.orig e)).tail ≠ n.s →
        (gr.node = g'.node ∧ er < n.E ∧ (n.orig er).tail = n.s ∧ st1 er = EState.F0 ∧
          TInv n gr st1 mx1 my1 ux uy L1 (Mode.pendX (n.orig er).head en) ∧
          PrevWalk pv (fun e => ((stD e).cur (n.orig e)).tail) n.s
            ((stD e).cur (n.orig e)).tail path er ∧
          (∀ e', st1 e' = if e' ∈ path then (Function.update st e (st e).rev e').rev
            else Function.update st e (st e).rev e') ∧
          (∀ e' ∈ er :: path, e' < n.E ∧ Function.update st e (st e).rev e' = stD e' ∧
            rank ((stD e').cur (n.orig e')).head ≤ rank ((stD e).cur (n.orig e)).tail) ∧
          (∀ e' ∈ path, (n.orig e').tail ∈ n.X)) →
        ∃ st1 mx1 my1 L1 enew path,
          gr.node = g.node ∧ er < n.E ∧ (n.orig er).tail = n.s ∧ st1 er = EState.F0 ∧
          TInv n gr st1 mx1 my1 ux uy L1 (Mode.pendX (n.orig er).head enew) ∧
          PrevWalk pv (fun e => ((stD e).cur (n.orig e)).tail) n.s v path er ∧
          (∀ e, st1 e = if e ∈ path then (st e).rev else st e) ∧
          (∀ e ∈ er :: path, e < n.E ∧ st e = stD e ∧
            rank ((stD e).cur (n.orig e)).head ≤ rank v) ∧
          (∀ e ∈ path, (n.orig e).tail ∈ n.X) := by
      intro g' st1 mx1 my1 L1 en path hg' htX hts ⟨q1, q2, q3, q4, q5, q6, q7, q8, q9⟩
      have hfar : ∀ e' ∈ er :: path, e' ≠ e := by
        intro e' he' hee
        have := (q8 e' he').2.2
        rw [hee, hhdD] at this
        omega
      refine ⟨st1, mx1, my1, L1, en, e :: path, by rw [q1, hg'], q2, q3, q4, q5,
        PrevWalk.step hpe hts q6, ?_, ?_, ?_⟩
      · intro e'
        rw [q7 e']
        by_cases hee : e' = e
        · subst hee
          have : e' ∉ path := fun hm => hfar e' (List.mem_cons_of_mem _ hm) rfl
          simp [this]
        · rw [Function.update_noteq hee]
          simp [hee]
      · intro e' he'
        rcases List.mem_cons.mp he' with a | a
        · have := q8 e' (by rw [a]; exact List.mem_cons_self _ _)
          have hne := hfar e' (by rw [a]; exact List.mem_cons_self _ _)
          rw [Function.update_noteq hne] at this
          exact ⟨this.1, this.2.1, by omega⟩
        · rcases List.mem_cons.mp a with a | a
          · rw [a]
            exact ⟨he, hste, by rw [hhdD]⟩
          · have := q8 e' (List.mem_cons_of_mem _ a)
            have hne := hfar e' (List.mem_cons_of_mem _ a)
            rw [Function.update_noteq hne] at this
            exact ⟨this.1, this.2.1, by omega⟩
      · intro e' he'
        rcases List.mem_cons.mp he' with a | a
        · rw [a]; exact htX
        · exact q9 e' a
    rcases hmode with hm | ⟨enew, hm, hnewD⟩
    · -- a Y-node without matching edge
      subst hm
      obtain ⟨hvY, _⟩ := h.free v rfl
      have hcl : (st e).back = false ∧ (n.orig e).head = v ∧ (n.orig e).tail ∈ n.X := by
        rcases EState.cur_head_tail (n.orig e) (st e) with a | a
        · rw [a.1] at hhd
          refine ⟨a.2.2, hhd, ?_⟩
          rcases hn.kind e he with k | k | k
          · exact k.1
          · rw [hhd] at k; exact absurd hvY (hn.xY _ k.2)
          · rw [hhd] at k; exact absurd k.2 hvt
        · exfalso
          rw [a.1] at hhd
          have ht : (n.orig e).head = n.t := by
            rcases hn.kind e he with k | k | k
            · rw [hhd] at k; exact absurd hvY (hn.xY _ k.1)
            · rw [hhd] at k; exact absurd k.1 hvs
            · exact k.2
          rcases h.yt e he ht with b | b
          · rw [b.1] at a; simp [EState.back] at a
          · rw [b.1] at a; simp [EState.back] at a
      obtain ⟨hb, hhv, htX⟩ := hcl
      subst hhv
      have hcur : ((st e).cur (n.orig e)).tail = (n.orig e).tail := by
        rcases EState.cur_head_tail (n.orig e) (st e) with a | a
        · exact a.2.1
        · rw [hb] at a; cases a.2.2
      rw [hcur] at hrk
      obtain ⟨g1, L1, r1, r2, r3⟩ := h.tstep_reverse_fwd hn he htX hb
      have hts : (g.edge e).tail ≠ n.s := by
        rw [hedge, hcur]
        intro e'
        rw [e'] at htX
        exact hn.sX htX
      rw [switchLoop_step f hts r1, r2, hnode, hedge, hcur] at hsw
      have hcurD : ((stD e).cur (n.orig e)).tail = (n.orig e).tail := by
        rw [← hste, hcur]
      obtain ⟨st2, mx2, my2, L2, en2, path, q⟩ :=
        switchLoop_gen hn hpv f (n.orig e).tail g1 _ _ _ L1 _ r3
          (by intro u; rw [r2]; exact hnode u)
          (by
            intro e1 he1 hne1
            have := hun1 _ e1 he1 hne1
            rw [hcur] at this
            exact this)
          (Or.inr ⟨e, rfl, by rw [← hste]; exact hb⟩) gr er hsw
      refine hglue g1 st2 mx2 my2 L2 en2 path r2 htX ?_ ?_
      · rw [hcurD]
        intro e'
        rw [e'] at htX
        exact hn.sX htX
      · rw [hcurD]
        exact q
    · -- an X-node with a new matching edge
      subst hm
      obtain ⟨p1, p2, hvX, p4, p5⟩ := h.pend v enew rfl
      rcases EState.cur_head_tail (n.orig e) (st e) with a | a
      · -- the edge from `s`
        rw [a.1] at hhd
        have hs : (n.orig e).tail = n.s := by
          rcases hn.kind e he with k | k | k
          · rw [hhd] at k; exact absurd hvX (hn.shape_yX k.2)
          · exact k.1
          · rw [hhd] at k; exact absurd k.2 hvt
        have hst : st e = EState.F0 := by
          rcases h.sx e he hs with b | b
          · exact b.1
          · exact absurd b.1 hgD
        have hts : (g.edge e).tail = n.s := by
          rw [hedge, a.2.1]; exact hs
        rw [switchLoop_exit f hts] at hsw
        have e1 : g = gr := by injection hsw with h1; injection h1
        have e2 : e = er := by injection hsw with h1; injection h1
        subst e1 e2
        subst hhd
        refine ⟨st, mx, my, L, enew, [], rfl, he, hs, hst, h,
          PrevWalk.last hpe (by rw [← hste, a.2.1]; exact hs), by simp, ?_, by simp⟩
        intro e' he'
        simp only [List.mem_singleton] at he'
        subst he'
        exact ⟨he, hste, by rw [hhdD]⟩
      · -- the old matching edge
        rw [a.1] at hhd
        rw [a.2.1] at hrk
        have htX : (n.orig e).tail ∈ n.X := hhd ▸ hvX
        have hee : e ≠ enew := by
          rintro rfl
          rw [hste, hnewD] at a
          cases a.2.2
        subst hhd
        obtain ⟨g1, L1, r1, r2, r3⟩ := h.tstep_reverse_back hn he htX a.2.2 hee
        have hyY := hn.shape_xy_head he htX
        have hts : (g.edge e).tail ≠ n.s := by
          rw [hedge, a.2.1]
          intro e'
          rw [e'] at hyY
          exact hn.sY hyY
        rw [switchLoop_step f hts r1, r2, hnode, hedge, a.2.1] at hsw
        have hcurD : ((stD e).cur (n.orig e)).tail = (n.orig e).head := by
          rw [← hste, a.2.1]
        obtain ⟨st2, mx2, my2, L2, en2, path, q⟩ :=
          switchLoop_gen hn hpv f (n.orig e).head g1 _ _ _ L1 _ r3
            (by intro u; rw [r2]; exact hnode u)
            (by
              intro e1 he1 hne1
              have := hun1 _ e1 he1 hne1
              rw [a.2.1] at this
              exact this)
            (Or.inl rfl) gr er hsw
        refine hglue g1 st2 mx2 my2 L2 en2 path r2 htX ?_ ?_
        · rw [hcurD]
          intro e'
          rw [e'] at hyY
          exact hn.sY hyY
        · rw [hcurD]
          exact q

theorem wrap_le (v : Int) : wrap v ≤ 2147483647 := by
  unfold wrap
  omega

/-- The first loop of `augment_spath` ends with an edge whose key is smallest:
either the edge it was entered with, when no cell has a key below `minc`, or
the edge of a cell whose key is below `minc` and at most that of every cell. -/
theorem pickLoop_min (g : Digraph) {hd : Option Ptr} :
    ∀ (cs : List Ptr) (pv : Ptr) (fuel : Nat) (minc : Int) (e : Nat),
      Chain g.store.mem hd pv cs → cs.length ≤ fuel →
      ∀ r, pickLoop g fuel minc e (g.store.mem pv).next = .ok r →
        (r = e ∧ ∀ c ∈ cs, minc ≤ g.pickKey (g.store.mem c).val) ∨
        (g.pickKey r < minc ∧ ∀ c ∈ cs, g.pickKey r ≤ g.pickKey (g.store.mem c).val)
  | [], pv, fuel, minc, e, hch, _, r, hr => by
    simp only [Chain] at hch
    rw [hch, pickLoop_none] at hr
    injection hr with hr
    exact Or.inl ⟨hr.symm, by simp⟩
  | c :: cs, pv, fuel, minc, e, hch, hf, r, hr => by
    simp only [Chain] at hch
    cases fuel with
    | zero => simp at hf
    | succ f =>
      rw [hch.1] at hr
      have hf' : cs.length ≤ f := by simpa using hf
      simp only [pickLoop] at hr
      split_ifs at hr with hlt
      · have hlt' : g.pickKey (g.store.mem c).val < minc := hlt
        rcases pickLoop_min g cs c f _ _ hch.2.2.2 hf' r hr with ⟨a1, a2⟩ | ⟨a1, a2⟩
        · right
          rw [a1]
          refine ⟨hlt', ?_⟩
          intro c' hc'
          rcases List.mem_cons.mp hc' with b | b
          · rw [b]
          · exact a2 c' b
        · right
          have a1' : g.pickKey r < g.pickKey (g.store.mem c).val := a1
          refine ⟨by omega, ?_⟩
          intro c' hc'
          rcases List.mem_cons.mp hc' with b | b
          · rw [b]; omega
          · exact a2 c' b
      · have hge : minc ≤ g.pickKey (g.store.mem c).val := not_lt.mp hlt
        rcases pickLoop_min g cs c f _ _ hch.2.2.2 hf' r hr with ⟨a1, a2⟩ | ⟨a1, a2⟩
        · left
          refine ⟨a1, ?_⟩
          intro c' hc'
          rcases List.mem_cons.mp hc' with b | b
          · rw [b]; exact hge
          · exact a2 c' b
        · right
          refine ⟨a1, ?_⟩
          intro c' hc'
          rcases List.mem_cons.mp hc' with b | b
          · rw [b]; omega
          · exact a2 c' b

/-- The run of `augment_spath()` after `dijkstra_spath(s)`, between rounds,
when it ends: it has removed an edge `esink` of the in-list of `t` whose key
is smallest, reversed the edges `path` of the backward walk from the tail of
`esink`, and removed the edge `esrc` from `s` at which the walk stopped; no
node is touched, and a matching with one unmatched X-node less is left. -/
theorem augment_gen {n : Net} (hn : n.Shape) {b b2 : BiDigraph} {st : Nat → EState}
    {mx my : Nat → Option Nat} {ux uy : List Nat} {L : Ptr → List Ptr} {rank : Nat → Nat}
    (hs : b.s = some n.s) (ht : b.t = some n.t)
    (h : TInv n b.toDigraph st mx my ux uy L Mode.clean)
    (hpv : PrevPart n st (fun v => (b.node v).sp.prev) rank)
    (hok : augment_spath b = .ok b2) :
    ∃ g3 st1 mx1 my1 L1 esink path esrc,
      b2 = b.withGraph g3 ∧ g3.node = b.node ∧
      TInv n g3 st1 mx1 my1 (ux.erase (n.orig esrc).head) (uy.erase (n.orig esink).tail) L1
        Mode.clean ∧
      (n.orig esrc).head ∈ ux ∧ (n.orig esink).tail ∈ uy ∧
      esink < n.E ∧ (n.orig esink).head = n.t ∧ st esink = EState.F0 ∧
      (∃ c ∈ L (Ptr.second n.t), (b.store.mem c).val = esink) ∧
      (∀ c ∈ L (Ptr.second n.t),
        b.toDigraph.pickKey esink ≤ b.toDigraph.pickKey (b.store.mem c).val) ∧
      PrevWalk (fun v => (b.node v).sp.prev) (fun e => ((st e).cur (n.orig e)).tail) n.s
        (n.orig esink).tail path esrc ∧
      esrc < n.E ∧ (n.orig esrc).tail = n.s ∧ st esrc = EState.F0 ∧
      (∀ e ∈ path, e < n.E ∧ (n.orig e).tail ∈ n.X) ∧
      (∀ e, st1 e = if e = esink ∨ e = esrc then EState.gone
        else if e ∈ path then (st e).rev else st e) := by
  have hch := h.mem.wf.chain (Ptr.second n.t) hn.tN
  have hll := h.mem.wf.length_le (Ptr.second n.t)
  cases hL : L (Ptr.second n.t) with
  | nil =>
    rw [hL] at hch
    simp only [Chain] at hch
    have hbegin : indexedList.begin_second b.store n.t = none := hch
    unfold augment_spath at hok
    simp only [hs, ht, hbegin] at hok
    cases hok
  | cons p0 cs =>
    obtain ⟨r, hr1, hr2⟩ := pickLoop_mem b.toDigraph (L (Ptr.second n.t)) (Ptr.second n.t)
      (b.store.ncells + 1) INF (b.store.mem p0).val hch (by omega)
    have hmin := pickLoop_min b.toDigraph (L (Ptr.second n.t)) (Ptr.second n.t)
      (b.store.ncells + 1) INF (b.store.mem p0).val hch (by omega) r hr1
    rw [hL] at hch hr2
    simp only [Chain] at hch
    have hbegin : indexedList.begin_second b.store n.t = some p0 := hch.1
    rw [hch.1] at hr1
    have hrc : ∃ c ∈ L (Ptr.second n.t), r = (b.store.mem c).val := by
      rw [hL]
      rcases hr2 with a | a
      · exact ⟨p0, List.mem_cons_self _ _, a⟩
      · exact a
    have hrmin : ∀ c ∈ L (Ptr.second n.t),
        b.toDigraph.pickKey r ≤ b.toDigraph.pickKey (b.store.mem c).val := by
      rcases hmin with ⟨a1, a2⟩ | ⟨_, a2⟩
      · intro c hc
        have h1 := a2 c hc
        have h2 := a2 p0 (by rw [hL]; exact List.mem_cons_self _ _)
        rw [a1]
        have h3 : b.toDigraph.pickKey (b.store.mem p0).val ≤ 2147483647 := wrap_le _
        unfold INF at h1 h2
        omega
      · exact a2
    obtain ⟨c, hc1, hc2⟩ := hrc
    obtain ⟨v1, v2⟩ := h.mem.val_of_mem hc1
    rw [← hc2] at v1 v2
    have hF : st r = EState.F0 ∧ (n.orig r).head = n.t := by
      rcases v2 with ⟨_, a⟩ | ⟨_, a⟩
      · exact EState.locH_second a
      · exfalso
        have := (EState.locT_second a).2
        rcases hn.kind r v1 with k | k | k
        · rw [this] at k; exact hn.tX k.1
        · rw [this] at k; exact hn.st k.1.symm
        · rw [this] at k; exact hn.tY k.1
    have hyu : (n.orig r).tail ∈ uy := by
      rcases h.yt r v1 hF.2 with a | a
      · exact a.2
      · rw [hF.1] at a; cases a.1
    obtain ⟨g1, L1, r1, r2, r3⟩ := h.tstep_remove_yt hn v1 hF.2 hF.1
    have hg1e : (g1.edge r).tail = (n.orig r).tail := by
      rw [r3.mem.edge r v1, Function.update_same]
      rfl
    unfold augment_spath at hok
    simp only [hs, ht, hbegin, hr1, r1] at hok
    rw [hg1e, r2] at hok
    cases hsw : switchLoop n.s (g1.nedges + 1) g1 (b.node (n.orig r).tail).sp.prev with
    | error f =>
      rw [hsw] at hok
      cases hok
    | ok p =>
      obtain ⟨g2, e2⟩ := p
      rw [hsw] at hok
      simp only at hok
      obtain ⟨st2, mx2, my2, L2, en2, path, q2, q3, q4, q5, q6, q7, q8, q9, q10⟩ :=
        switchLoop_gen hn hpv (g1.nedges + 1) (n.orig r).tail g1 _ _ _ L1 _ r3
          (by intro u; rw [r2])
          (by
            intro e1 he1 hne1
            by_cases hee : e1 = r
            · subst hee
              exact Or.inl ⟨hF.2, hF.1⟩
            · rw [Function.update_noteq hee] at hne1
              exact absurd rfl hne1)
          (Or.inl rfl) g2 e2 hsw
      obtain ⟨g3, L3, s1, s2, s3⟩ := q6.tstep_remove_sx hn q3 q4 q5
      rw [s1] at hok
      simp only at hok
      have hb2 : b2 = b.withGraph g3 := by
        injection hok with hok
        exact hok.symm
      have hxu : (n.orig e2).head ∈ ux := by
        rcases q6.sx e2 q3 q4 with a | a
        · exact a.2
        · rw [q5] at a; cases a.1
      have hne2 : e2 ≠ r := by
        intro e'
        rw [e'] at q4
        have := hn.shape_tail_of_head_t v1 hF.2
        rw [q4] at this
        exact hn.sY this
      have hrp : r ∉ path := by
        intro hm
        exact hn.xY _ (q10 r hm) (hn.shape_tail_of_head_t v1 hF.2)
      have he2p : e2 ∉ path := by
        intro hm
        have := q10 e2 hm
        rw [q4] at this
        exact hn.sX this
      have hst2 : st e2 = EState.F0 := by
        have := q8 e2
        rw [if_neg he2p, Function.update_noteq hne2, q5] at this
        exact this.symm
      rw [← hL]
      refine ⟨g3, _, _, _, L3, r, path, e2, hb2, by rw [s2, q2, r2], s3, hxu, hyu, v1, hF.2,
        hF.1, ⟨c, hc1, hc2.symm⟩, hrmin, q7, q3, q4, hst2, ?_, ?_⟩
      · intro e he
        exact ⟨(q9 e (List.mem_cons_of_mem _ he)).1, q10 e he⟩
      · intro e
        by_cases h2 : e = e2
        · subst h2
          rw [Function.update_same]
          simp
        · rw [Function.update_noteq h2, q8 e]
          by_cases h1 : e = r
          · subst h1
            rw [if_neg hrp, Function.update_same]
            simp
          · rw [Function.update_noteq h1]
            simp [h1, h2]

end BiDigraph

end Hungarian

namespace Hungarian

/-- The head and the tail of the current content of an edge are nodes. -/
theorem MInv.cur_lt_gen {n : Net} (hn : n.Shape) {e : Nat} (he : e < n.E) (σ : EState) :
    (σ.cur (n.orig e)).head < n.N ∧ (σ.cur (n.orig e)).tail < n.N := by
  rcases EState.cur_head_tail (n.orig e) σ with a | a
  · rw [a.1, a.2.1]; exact ⟨hn.shape_head_lt he, hn.shape_tail_lt he⟩
  · rw [a.1, a.2.1]; exact ⟨hn.shape_tail_lt he, hn.shape_head_lt he⟩

/-- A graph whose memory represents a network is ready for `dijkstra_spath`. -/
theorem MInv.sready_gen {n : Net} (hn : n.Shape) {g : Digraph} {st : Nat → EState}
    {L : Ptr → List Ptr} (h : MInv n g st L) : Digraph.SReady g L n.s n.N := by
  refine ⟨h.nnodes, hn.sN, h.wf, ?_⟩
  intro u _ c hc
  obtain ⟨a1, a2⟩ := h.val_of_mem hc
  rw [h.edge _ a1]
  refine ⟨?_, (MInv.cur_lt_gen hn a1 _).1⟩
  rcases a2 with ⟨_, a2⟩ | ⟨_, a2⟩
  · exact Or.inl (EState.locH_first a2).1
  · exact (EState.locT_first a2).1

/-- The matching invariant does not depend on the `sp` members of the nodes. -/
theorem TInv.tinv_of_nodes {n : Net} {g g1 : Digraph} {st : Nat → EState}
    {mx my : Nat → Option Nat} {ux uy : List Nat} {L : Ptr → List Ptr} {mode : Mode}
    (h : TInv n g st mx my ux uy L mode) (h1 : g1.store = g.store)
    (h2 : g1.edge = g.edge) (h3 : g1.nnodes = g.nnodes) (h4 : g1.nedges = g.nedges)
    (h5 : ∀ v, (g1.node v).name = (g.node v).name) : TInv n g1 st mx my ux uy L mode :=
  { h with mem := h.mem.mem_of_nodes h1 h2 h3 h4 h5 }

/-- What `dijkstra_spath` leaves in the `prev` members, in terms of the edge
states. -/
theorem prevpart_of_spost {n : Net} {g gD : Digraph} {st : Nat → EState} {L : Ptr → List Ptr}
    {rank : Nat → Nat} (h : MInv n gD st L) (hp : Digraph.SPost g gD L n.s n.N rank) :
    PrevPart n st (fun v => (gD.node v).sp.prev) rank := by
  intro v hv e he
  obtain ⟨e2, _, e4, ⟨c, c1, c2⟩, _⟩ := hp.prev v hv e he
  obtain ⟨v1, v2⟩ := h.val_of_mem c1
  rw [c2] at v1 v2
  have hed := h.edge e v1
  rw [hed] at e2 e4
  refine ⟨v1, e2, e4, ?_⟩
  rcases v2 with ⟨_, a⟩ | ⟨_, a⟩
  · exact (EState.locH_first a).2
  · exact (EState.locT_first a).2

namespace BiDigraph

/-- One round of `min_weight_assignment`, entered between rounds, when it
ends: it leaves a matching with one unmatched X-node less. -/
theorem round_gen {n : Net} (hn : n.Shape) {b b1 : BiDigraph} {st : Nat → EState}
    {mx my : Nat → Option Nat} {ux uy : List Nat} {L : Ptr → List Ptr}
    (hs : b.s = some n.s) (ht : b.t = some n.t) (hx : b.x = n.X) (hy : b.y = n.Y)
    (h : TInv n b.toDigraph st mx my ux uy L Mode.clean) (hok : round b = .ok b1) :
    ∃ st1 mx1 my1 ux1 uy1 L1, b1.s = b.s ∧ b1.t = b.t ∧ b1.x = b.x ∧ b1.y = b.y ∧
      TInv n b1.toDigraph st1 mx1 my1 ux1 uy1 L1 Mode.clean ∧
      ux1.length + 1 = ux.length := by
  obtain ⟨gD, rank, d1, d2, _⟩ := Digraph.dijkstra_spath_gen (h.mem.sready_gen hn) 0 0
  have hD : TInv n gD st mx my ux uy L Mode.clean :=
    h.tinv_of_nodes d2.store d2.edge d2.nnodes d2.nedges d2.name
  have hpv := prevpart_of_spost hD.mem d2
  unfold round at hok
  simp only [hs, d1] at hok
  cases ha : augment_spath (b.withGraph gD) with
  | error f =>
    rw [ha] at hok
    cases hok
  | ok b2 =>
    rw [ha] at hok
    simp only at hok
    obtain ⟨g3, st1, mx1, my1, L1, esink, path, esrc, a1, a2, a3, a4, _⟩ :=
      augment_gen hn (b := b.withGraph gD) hs ht hD hpv ha
    have hb1 : b1 = reduce_node_prices b2 := by
      injection hok with hok
      exact hok.symm
    obtain ⟨x1, x2, x3, x4, x5, _⟩ := foldl_reduce_price n.X g3 hn.xnodup
    obtain ⟨y1, y2, y3, y4, y5, _⟩ :=
      foldl_reduce_price n.Y (n.X.foldl reduce_price g3) hn.ynodup
    have hred : b1.toDigraph = n.Y.foldl reduce_price (n.X.foldl reduce_price g3) := by
      rw [hb1, a1]
      unfold reduce_node_prices
      show List.foldl reduce_price (List.foldl reduce_price g3 b.x) b.y = _
      rw [hx, hy]
    refine ⟨st1, mx1, my1, ux.erase (n.orig esrc).head, uy.erase (n.orig esink).tail, L1,
      ?_, ?_, ?_, ?_, ?_, ?_⟩
    · rw [hb1, a1]; rfl
    · rw [hb1, a1]; rfl
    · rw [hb1, a1]; rfl
    · rw [hb1, a1]; rfl
    · rw [hred]
      exact a3.tinv_of_nodes (by rw [y1, x1]) (by rw [y2, x2]) (by rw [y3, x3])
        (by rw [y4, x4]) (by intro v; rw [y5, x5])
    · rw [List.length_erase_of_mem a4]
      have := List.length_pos_of_mem a4
      omega

/-- The loop of `min_weight_assignment`, when `k` rounds end: they leave a
matching with `k` unmatched X-nodes less. -/
theorem rounds_gen {n : Net} (hn : n.Shape) :
    ∀ (k : Nat) (b b1 : BiDigraph) (st : Nat → EState) (mx my : Nat → Option Nat)
      (ux uy : List Nat) (L : Ptr → List Ptr),
      b.s = some n.s → b.t = some n.t → b.x = n.X → b.y = n.Y →
      TInv n b.toDigraph st mx my ux uy L Mode.clean → rounds k b = .ok b1 →
      ∃ st1 mx1 my1 ux1 uy1 L1, b1.s = b.s ∧ b1.t = b.t ∧ b1.x = b.x ∧ b1.y = b.y ∧
        TInv n b1.toDigraph st1 mx1 my1 ux1 uy1 L1 Mode.clean ∧ ux1.length + k = ux.length
  | 0, b, b1, st, mx, my, ux, uy, L, _, _, _, _, h, hok => by
    simp only [rounds] at hok
    injection hok with hok
    subst hok
    exact ⟨st, mx, my, ux, uy, L, rfl, rfl, rfl, rfl, h, rfl⟩
  | k + 1, b, b1, st, mx, my, ux, uy, L, hs, ht, hx, hy, h, hok => by
    simp only [rounds] at hok
    cases hr : round b with
    | error f =>
      rw [hr] at hok
      cases hok
    | ok b2 =>
      rw [hr] at hok
      simp only at hok
      obtain ⟨st1, mx1, my1, ux1, uy1, L1, r2, r3, r4, r5, r6, r7⟩ :=
        round_gen hn hs ht hx hy h hr
      obtain ⟨st2, mx2, my2, ux2, uy2, L2, q2, q3, q4, q5, q6, q7⟩ :=
        rounds_gen hn k b2 b1 st1 mx1 my1 ux1 uy1 L1 (r2 ▸ hs) (r3 ▸ ht) (r4 ▸ hx) (r5 ▸ hy)
          r6 hok
      exact ⟨st2, mx2, my2, ux2, uy2, L2, by rw [q2, r2], by rw [q3, r3], by rw [q4, r4],
        by rw [q5, r5], q6, by omega⟩

/-- The loop of `initiate_node_prices` over `y`, when it ends, has changed
prices only. -/
theorem minPrices_frame (addr : Nat → Nat) :
    ∀ (ys : List Nat) (g g1 : Digraph), minPrices addr g ys = .ok g1 →
      g1.store = g.store ∧ g1.edge = g.edge ∧ g1.nnodes = g.nnodes ∧ g1.nedges = g.nedges ∧
      (∀ v, (g1.node v).name = (g.node v).name)
  | [], g, g1, h => by
    simp only [minPrices] at h
    injection h with h
    subst h
    exact ⟨rfl, rfl, rfl, rfl, fun _ => rfl⟩
  | y :: ys, g, g1, h => by
    simp only [minPrices] at h
    cases hm : min_in_edge addr g y with
    | error f => rw [hm] at h; cases h
    | ok e =>
      rw [hm] at h
      simp only at h
      obtain ⟨a1, a2, a3, a4, a5⟩ := minPrices_frame addr ys _ g1 h
      refine ⟨a1, a2, a3, a4, ?_⟩
      intro v
      rw [a5, (setSP_price_node g y _ v).1]

/-- The run of `initiate_node_prices`, when it ends, has changed prices only. -/
theorem initiate_frame {addr : Nat → Nat} {b b1 : BiDigraph}
    (h : initiate_node_prices addr b = .ok b1) :
    b1.store = b.store ∧ b1.edge = b.edge ∧ b1.nnodes = b.nnodes ∧ b1.nedges = b.nedges ∧
      (∀ v, (b1.node v).name = (b.node v).name) := by
  unfold initiate_node_prices at h
  cases hs : b.s with
  | none => rw [hs] at h; cases h
  | some s =>
    cases ht : b.t with
    | none => rw [hs, ht] at h; cases h
    | some t =>
      rw [hs, ht] at h
      simp only at h
      cases hm : minPrices addr (zeroPrices
          ((b.toDigraph.setSP t { (b.node t).sp with price := 0 }).setSP s
            { ((b.toDigraph.setSP t { (b.node t).sp with price := 0 }).node s).sp with
              price := 0 }) b.x) b.y with
      | error f => rw [hm] at h; cases h
      | ok g3 =>
        rw [hm] at h
        simp only at h
        injection h with h
        subst h
        obtain ⟨a1, a2, a3, a4, a5⟩ := minPrices_frame addr _ _ _ hm
        obtain ⟨z1, z2, z3, z4, z5, _⟩ := zeroPrices_spec b.x
          ((b.toDigraph.setSP t { (b.node t).sp with price := 0 }).setSP s
            { ((b.toDigraph.setSP t { (b.node t).sp with price := 0 }).node s).sp with
              price := 0 })
        refine ⟨by rw [show (b.withGraph g3).store = g3.store from rfl, a1, z1]; rfl,
          by rw [show (b.withGraph g3).edge = g3.edge from rfl, a2, z2]; rfl,
          by rw [show (b.withGraph g3).nnodes = g3.nnodes from rfl, a3, z3]; rfl,
          by rw [show (b.withGraph g3).nedges = g3.nedges from rfl, a4, z4]; rfl, ?_⟩
        intro v
        rw [show (b.withGraph g3).node = g3.node from rfl, a5, z5,
          (setSP_price_node _ s 0 v).1, (setSP_price_node _ t 0 v).1]

end BiDigraph

/-- With no edge reversed or removed, nothing is matched. -/
theorem TInv.tstart {n : Net} (hn : n.Shape) {g : Digraph} {L : Ptr → List Ptr}
    (h : MInv n g (fun _ => EState.F0) L) :
    TInv n g (fun _ => EState.F0) (fun _ => none) (fun _ => none) n.X n.Y L Mode.clean := by
  constructor
  · exact h
  · intro e he _ hg
    cases hg
  · intro e he h1
    exact Or.inl ⟨rfl, hn.shape_head_of_tail_s he h1⟩
  · intro e he h1
    exact Or.inl ⟨rfl, hn.shape_tail_of_head_t he h1⟩
  · exact fun _ hx' => hx'
  · exact fun _ hy' => hy'
  · exact hn.xnodup
  · exact hn.ynodup
  · intro y e he
    cases he
  · intro x e he
    cases he
  · intro e he _ hb
    simp [EState.back] at hb
  · intro e he _ hb
    simp [EState.back] at hb
  · intro x hx'
    simp [hx']
  · intro y hy'
    simp [hy']
  · intro y e he
    cases he
  · intro y hy'
    cases hy'
  · intro x e he
    cases he

/-- The graph that `prepare_graph` builds from any list of triples is a
network, with no edge reversed yet. -/
theorem prepare_shape (tr : List (Nat × Nat × Int)) :
    ∃ n L, n.Shape ∧ (prepare_graph tr).s = some n.s ∧ (prepare_graph tr).t = some n.t ∧
      (prepare_graph tr).x = n.X ∧ (prepare_graph tr).y = n.Y ∧
      MInv n (prepare_graph tr).toDigraph (fun _ => EState.F0) L ∧
      n.orig = (prepare_graph tr).edge ∧ n.N ≤ n.E + 2 := by
  obtain ⟨r, L0, b2, L2, hr, hp, hb, hnn, hnode, hs, ht, hx, hy, hne, hE1, hE2, hE3⟩ :=
    prepare_raw tr
  rw [hp]
  have hnd : (r.g.x ++ r.g.y).Nodup := hr.part.nodup_iff.mpr (List.nodup_range _)
  obtain ⟨hxnd, hynd, hdisj⟩ := List.nodup_append.mp hnd
  have hXl : ∀ v ∈ r.g.x, v < r.g.nnodes := fun v hv => hr.x_lt hv
  have hYl : ∀ v ∈ r.g.y, v < r.g.nnodes := fun v hv => hr.y_lt hv
  have hsndx : (r.lstx.map Prod.snd).Nodup := hr.lstx_snd.nodup_iff.mpr hxnd
  have hsndy : (r.lsty.map Prod.snd).Nodup := hr.lsty_snd.nodup_iff.mpr hynd
  have hkind : ∀ e, e < b2.nedges →
      (∃ t, tr[e]? = some t ∧ (b2.edge e).tail ∈ r.g.x ∧
        (r.g.node (b2.edge e).tail).name = t.1 ∧ (b2.edge e).head ∈ r.g.y ∧
        (r.g.node (b2.edge e).head).name = t.2.1 ∧ (b2.edge e).cost = t.2.2) ∨
      (∃ i p, e = tr.length + i ∧ r.lstx[i]? = some p ∧ p.2 ∈ r.g.x ∧
        (b2.edge e).tail = r.g.nnodes ∧ (b2.edge e).head = p.2 ∧ (b2.edge e).cost = 0) ∨
      (∃ i p, e = tr.length + r.lstx.length + i ∧ r.lsty[i]? = some p ∧ p.2 ∈ r.g.y ∧
        (b2.edge e).tail = p.2 ∧ (b2.edge e).head = r.g.nnodes + 1 ∧
        (b2.edge e).cost = 0) := by
    intro e he
    rw [hne] at he
    by_cases h1 : e < tr.length
    · cases h : tr[e]? with
      | none =>
        have := List.getElem?_eq_none_iff.mp h
        omega
      | some t =>
        left
        rw [hE1 e h1]
        exact ⟨t, rfl, hr.edges e t h⟩
    · by_cases h2 : e < tr.length + r.lstx.length
      · cases h : r.lstx[e - tr.length]? with
        | none =>
          have := List.getElem?_eq_none_iff.mp h
          omega
        | some p =>
          right; left
          have hpm : p.2 ∈ r.g.x :=
            hr.lstx_snd.subset (List.mem_map.mpr ⟨p, List.getElem?_mem h, rfl⟩)
          have := hE2 _ p h
          have hee : tr.length + (e - tr.length) = e := by omega
          rw [hee] at this
          exact ⟨e - tr.length, p, hee.symm, h, hpm, this⟩
      · cases h : r.lsty[e - tr.length - r.lstx.length]? with
        | none =>
          have := List.getElem?_eq_none_iff.mp h
          omega
        | some p =>
          right; right
          have hpm : p.2 ∈ r.g.y :=
            hr.lsty_snd.subset (List.mem_map.mpr ⟨p, List.getElem?_mem h, rfl⟩)
          have := hE3 _ p h
          have hee : tr.length + r.lstx.length + (e - tr.length - r.lstx.length) = e := by
            omega
          rw [hee] at this
          exact ⟨_, p, hee.symm, h, hpm, this⟩
  have hsX : r.g.nnodes ∉ r.g.x := fun h => lt_irrefl _ (hXl _ h)
  have hsY : r.g.nnodes ∉ r.g.y := fun h => lt_irrefl _ (hYl _ h)
  have htX : r.g.nnodes + 1 ∉ r.g.x := fun h => by have := hXl _ h; omega
  have htY : r.g.nnodes + 1 ∉ r.g.y := fun h => by have := hYl _ h; omega
  have hxY : ∀ v ∈ r.g.x, v ∉ r.g.y := fun v h1 h2 => hdisj h1 h2
  refine ⟨⟨r.g.nnodes + 2, b2.nedges, r.g.nnodes, r.g.nnodes + 1, r.g.x, r.g.y, b2.edge,
    fun v => (b2.node v).name⟩, L2, ?_, hs, ht, hx, hy, ?_, rfl, ?_⟩
  · constructor
    · show r.g.nnodes < r.g.nnodes + 2
      omega
    · show r.g.nnodes + 1 < r.g.nnodes + 2
      omega
    · intro v hv
      have := hXl v hv
      show v < r.g.nnodes + 2
      omega
    · intro v hv
      have := hYl v hv
      show v < r.g.nnodes + 2
      omega
    · show r.g.nnodes ≠ r.g.nnodes + 1
      omega
    · exact hsX
    · exact hsY
    · exact htX
    · exact htY
    · exact hxY
    · exact hxnd
    · exact hynd
    · intro e he
      show ((b2.edge e).tail ∈ r.g.x ∧ (b2.edge e).head ∈ r.g.y) ∨
        ((b2.edge e).tail = r.g.nnodes ∧ (b2.edge e).head ∈ r.g.x) ∨
        ((b2.edge e).tail ∈ r.g.y ∧ (b2.edge e).head = r.g.nnodes + 1)
      rcases hkind e he with ⟨t, _, a1, _, a3, _⟩ | ⟨i, p, _, _, a1, a2, a3, _⟩ |
        ⟨i, p, _, _, a1, a2, a3, _⟩
      · exact Or.inl ⟨a1, a3⟩
      · exact Or.inr (Or.inl ⟨a2, a3 ▸ a1⟩)
      · exact Or.inr (Or.inr ⟨a2 ▸ a1, a3⟩)
    · intro e he
      exact hb.keys e he
    · intro e1 e2 he1 he2 h1 h2 h3
      have h1' : (b2.edge e1).tail = r.g.nnodes := h1
      have h2' : (b2.edge e2).tail = r.g.nnodes := h2
      have h3' : (b2.edge e1).head = (b2.edge e2).head := h3
      rcases hkind e1 he1 with ⟨t, _, a1, _⟩ | ⟨i1, p1, a0, a1, _, _, a3, _⟩ |
        ⟨i, p, _, _, a1, a2, _⟩
      · rw [h1'] at a1; exact absurd a1 hsX
      · rcases hkind e2 he2 with ⟨t, _, b1, _⟩ | ⟨i2, p2, b0, b1, _, _, b3, _⟩ |
          ⟨i, p, _, _, b1, b2', _⟩
        · rw [h2'] at b1; exact absurd b1 hsX
        · have hi1 : i1 < (r.lstx.map Prod.snd).length := by
            rw [List.length_map]
            by_contra hn
            rw [List.getElem?_eq_none (by omega)] at a1
            cases a1
          have : (r.lstx.map Prod.snd)[i1]? = (r.lstx.map Prod.snd)[i2]? := by
            rw [List.getElem?_map, List.getElem?_map, a1, b1]
            simp only [Option.map_some']
            rw [← a3, ← b3, h3']
          have := List.getElem?_inj hi1 hsndx this
          omega
        · rw [h2'] at b2'; rw [← b2'] at b1; exact absurd b1 hsY
      · rw [h1'] at a2; rw [← a2] at a1; exact absurd a1 hsY
    · intro e1 e2 he1 he2 h1 h2 h3
      have h1' : (b2.edge e1).head = r.g.nnodes + 1 := h1
      have h2' : (b2.edge e2).head = r.g.nnodes + 1 := h2
      have h3' : (b2.edge e1).tail = (b2.edge e2).tail := h3
      rcases hkind e1 he1 with ⟨t, _, _, _, a1, _⟩ | ⟨i, p, _, _, a1, _, a3, _⟩ |
        ⟨i1, p1, a0, a1, _, a2, _⟩
      · rw [h1'] at a1; exact absurd a1 htY
      · rw [h1'] at a3; rw [← a3] at a1; exact absurd a1 htX
      · rcases hkind e2 he2 with ⟨t, _, _, _, b1, _⟩ | ⟨i, p, _, _, b1, _, b3, _⟩ |
          ⟨i2, p2, b0, b1, _, b2', _⟩
        · rw [h2'] at b1; exact absurd b1 htY
        · rw [h2'] at b3; rw [← b3] at b1; exact absurd b1 htX
        · have hi1 : i1 < (r.lsty.map Prod.snd).length := by
            rw [List.length_map]
            by_contra hn
            rw [List.getElem?_eq_none (by omega)] at a1
            cases a1
          have : (r.lsty.map Prod.snd)[i1]? = (r.lsty.map Prod.snd)[i2]? := by
            rw [List.getElem?_map, List.getElem?_map, a1, b1]
            simp only [Option.map_some']
            rw [← a2, ← b2', h3']
          have := List.getElem?_inj hi1 hsndy this
          omega
    · intro x hx'
      show ∃ e, e < b2.nedges ∧ (b2.edge e).tail = r.g.nnodes ∧ (b2.edge e).head = x
      obtain ⟨p, hp1, hp2⟩ := List.mem_map.mp (hr.lstx_snd.symm.subset hx')
      obtain ⟨i, hi⟩ := List.mem_iff_getElem?.mp hp1
      have hlt : i < r.lstx.length := by
        by_contra hn
        rw [List.getElem?_eq_none (by omega)] at hi
        cases hi
      obtain ⟨a1, a2, _⟩ := hE2 i p hi
      exact ⟨tr.length + i, by rw [hne]; omega, a1, by rw [a2, hp2]⟩
    · intro y hy'
      show ∃ e, e < b2.nedges ∧ (b2.edge e).tail = y ∧ (b2.edge e).head = r.g.nnodes + 1
      obtain ⟨p, hp1, hp2⟩ := List.mem_map.mp (hr.lsty_snd.symm.subset hy')
      obtain ⟨i, hi⟩ := List.mem_iff_getElem?.mp hp1
      have hlt : i < r.lsty.length := by
        by_contra hn
        rw [List.getElem?_eq_none (by omega)] at hi
        cases hi
      obtain ⟨a1, a2, _⟩ := hE3 i p hi
      exact ⟨tr.length + r.lstx.length + i, by rw [hne]; omega, by rw [a1, hp2], a2⟩
  · constructor
    · exact hnn
    · rfl
    · intro v; rfl
    · have := hb.wf
      rw [show b2.toDigraph.nnodes = r.g.nnodes + 2 from hnn] at this
      exact this
    · exact hb.val
    · intro e he
      rfl
    · intro p c
      rw [hb.loc]
      constructor
      · rintro ⟨e, he, a | a⟩
        · exact ⟨e, he, Or.inl ⟨a.1, by rw [a.2]; rfl⟩⟩
        · exact ⟨e, he, Or.inr ⟨a.1, by rw [a.2]; rfl⟩⟩
      · rintro ⟨e, he, a | a⟩
        · exact ⟨e, he, Or.inl ⟨a.1, (Option.some.inj a.2).symm⟩⟩
        · exact ⟨e, he, Or.inr ⟨a.1, (Option.some.inj a.2).symm⟩⟩
  · show r.g.nnodes + 2 ≤ b2.nedges + 2
    have h1 := hr.part.length_eq
    rw [List.length_append, List.length_range] at h1
    have h2 := hr.lstx_snd.length_eq
    have h3 := hr.lsty_snd.length_eq
    rw [List.length_map] at h2 h3
    omega

end Hungarian

namespace Hungarian

/-- A list without repetition all of whose entries are one value it contains
has one entry. -/
theorem length_one_of_all_eq {l : List Nat} (hnd : l.Nodup) {a : Nat} (ha : a ∈ l)
    (hall : ∀ b ∈ l, b = a) : l.length = 1 := by
  cases l with
  | nil => cases ha
  | cons x tl =>
    cases tl with
    | nil => rfl
    | cons y tl2 =>
      exfalso
      have h1 := hall x (List.mem_cons_self _ _)
      have h2 := hall y (List.mem_cons_of_mem _ (List.mem_cons_self _ _))
      have := (List.nodup_cons.mp hnd).1
      rw [h1, h2] at this
      exact this (List.mem_cons_self _ _)

/-- The entries that `filterMap` keeps and those it drops make up the list. -/
theorem filterMap_length_add {α β : Type} (f : α → Option β) (l : List α) :
    (l.filterMap f).length + (l.filter fun a => (f a).isNone).length = l.length := by
  induction l with
  | nil => rfl
  | cons a tl ih =>
    cases h : f a with
    | none =>
      rw [List.filterMap_cons_none h, List.filter_cons_of_pos (by simp [h])]
      simp only [List.length_cons]
      omega
    | some b =>
      rw [List.filterMap_cons_some h, List.filter_cons_of_neg (by simp [h])]
      simp only [List.length_cons]
      omega

/-- A filtered list splits along a second test. -/
theorem filter_length_split {α : Type} (p q : α → Bool) (l : List α) :
    (l.filter p).length = (l.filter fun a => p a && q a).length +
      (l.filter fun a => p a && !q a).length := by
  induction l with
  | nil => rfl
  | cons a tl ih =>
    by_cases hp : p a = true
    · by_cases hq : q a = true
      · rw [List.filter_cons_of_pos hp, List.filter_cons_of_pos (by simp [hp, hq]),
          List.filter_cons_of_neg (by simp [hq])]
        simp only [List.length_cons]
        omega
      · rw [List.filter_cons_of_pos hp, List.filter_cons_of_neg (by simp [hq]),
          List.filter_cons_of_pos (by simp [hp, hq])]
        simp only [List.length_cons]
        omega
    · rw [List.filter_cons_of_neg hp, List.filter_cons_of_neg (by simp [hp]),
        List.filter_cons_of_neg (by simp [hp])]
      exact ih

namespace MInv

variable {n : Net} {g : Digraph} {st : Nat → EState} {L : Ptr → List Ptr}

/-- The flag `back_edge` of an edge object follows its state. -/
theorem back_edge_eq (hn : n.Shape) (h : MInv n g st L) {e : Nat} (he : e < n.E) :
    (g.edge e).back_edge = (st e).back := by
  rw [h.edge e he]
  unfold EState.cur
  by_cases hb : (st e).back = true
  · simp [hb]
  · have hb' : (st e).back = false := by simpa using hb
    simp [hb', (hn.keys e he).2.2]

/-- The ends of a reversed edge object are those of its creation, swapped. -/
theorem back_ends (h : MInv n g st L) {e : Nat} (he : e < n.E) (hb : (st e).back = true) :
    (g.edge e).head = (n.orig e).tail ∧ (g.edge e).tail = (n.orig e).head := by
  rw [h.edge e he]
  simp [EState.cur, hb]

end MInv

namespace TInv

variable {n : Net} {g : Digraph} {st : Nat → EState} {mx my : Nat → Option Nat}
  {ux uy : List Nat} {L : Ptr → List Ptr}

/-- A reversed edge was created from an X-node to a Y-node. -/
theorem back_xy (hn : n.Shape) (h : TInv n g st mx my ux uy L Mode.clean) {e : Nat}
    (he : e < n.E) (hb : (st e).back = true) : (n.orig e).tail ∈ n.X := by
  rcases hn.kind e he with k | k | k
  · exact k.1
  · rcases h.sx e he k.1 with a | a
    · rw [a.1] at hb; cases hb
    · rw [a.1] at hb; cases hb
  · rcases h.yt e he k.2 with a | a
    · rw [a.1] at hb; cases hb
    · rw [a.1] at hb; cases hb

/-- Between rounds the reversed edges are as many as the matched X-nodes, they
lead from a Y-node to an X-node, and no two of them share an end. -/
theorem back_count (hn : n.Shape) (h : TInv n g st mx my ux uy L Mode.clean) :
    ((List.range n.E).filter fun e => (g.edge e).back_edge).length + ux.length = n.X.length ∧
    (∀ e, e < n.E → (g.edge e).back_edge = true →
      (g.edge e).head ∈ n.X ∧ (g.edge e).tail ∈ n.Y) ∧
    (((List.range n.E).filter fun e => (g.edge e).back_edge).map
      fun e => (g.edge e).head).Nodup ∧
    (((List.range n.E).filter fun e => (g.edge e).back_edge).map
      fun e => (g.edge e).tail).Nodup := by
  have hmemB : ∀ e, e ∈ (List.range n.E).filter (fun e => (g.edge e).back_edge) ↔
      e < n.E ∧ (st e).back = true := by
    intro e
    rw [List.mem_filter, List.mem_range]
    constructor
    · rintro ⟨a, b⟩
      exact ⟨a, by rw [← h.mem.back_edge_eq hn a]; exact b⟩
    · rintro ⟨a, b⟩
      exact ⟨a, by rw [h.mem.back_edge_eq hn a]; exact b⟩
  have hB : ((List.range n.E).filter fun e => (g.edge e).back_edge).Nodup :=
    (List.nodup_range _).filter _
  have hM : (n.X.filterMap mx).Nodup := by
    refine List.Nodup.filterMap ?_ hn.xnodup
    intro a a' e h1 h2
    have e1 := (h.mx_some a e h1).2.1
    have e2 := (h.mx_some a' e h2).2.1
    rw [← e1, ← e2]
  have hperm : ((List.range n.E).filter fun e => (g.edge e).back_edge).Perm
      (n.X.filterMap mx) := by
    refine (List.perm_ext_iff_of_nodup hB hM).mpr ?_
    intro e
    rw [hmemB, List.mem_filterMap]
    constructor
    · rintro ⟨a, b⟩
      have hx := h.back_xy hn a b
      rcases h.back_mx e a hx b with c | c
      · exact ⟨_, hx, c⟩
      · cases c
    · rintro ⟨x, _, hm⟩
      obtain ⟨a1, _, _, a4, _⟩ := h.mx_some x e hm
      exact ⟨a1, a4⟩
  have hU : (n.X.filter fun a => (mx a).isNone).Perm ux := by
    refine (List.perm_ext_iff_of_nodup (hn.xnodup.filter _) h.ux_nodup).mpr ?_
    intro x
    rw [List.mem_filter]
    constructor
    · rintro ⟨a, b⟩
      exact (h.ux_mx x a).mp (by simpa using b)
    · intro hxu
      have hxX := h.ux_sub x hxu
      exact ⟨hxX, by rw [(h.ux_mx x hxX).mpr hxu]; rfl⟩
  refine ⟨?_, ?_, ?_, ?_⟩
  · rw [hperm.length_eq, ← hU.length_eq]
    exact filterMap_length_add mx n.X
  · intro e he hb
    have hb' : (st e).back = true := by rw [← h.mem.back_edge_eq hn he]; exact hb
    obtain ⟨e1, e2⟩ := h.mem.back_ends he hb'
    have hx := h.back_xy hn he hb'
    rw [e1, e2]
    exact ⟨hx, hn.shape_xy_head he hx⟩
  · refine List.Nodup.map_on ?_ hB
    intro e1 h1 e2 h2 heq
    obtain ⟨a1, b1⟩ := (hmemB e1).mp h1
    obtain ⟨a2, b2⟩ := (hmemB e2).mp h2
    rw [(h.mem.back_ends a1 b1).1, (h.mem.back_ends a2 b2).1] at heq
    have c1 := h.back_mx e1 a1 (h.back_xy hn a1 b1) b1
    have c2 := h.back_mx e2 a2 (h.back_xy hn a2 b2) b2
    rcases c1 with c1 | c1
    · rcases c2 with c2 | c2
      · rw [heq, c2] at c1
        exact (Option.some.inj c1).symm
      · cases c2
    · cases c1
  · refine List.Nodup.map_on ?_ hB
    intro e1 h1 e2 h2 heq
    obtain ⟨a1, b1⟩ := (hmemB e1).mp h1
    obtain ⟨a2, b2⟩ := (hmemB e2).mp h2
    rw [(h.mem.back_ends a1 b1).2, (h.mem.back_ends a2 b2).2] at heq
    have c1 := h.back_my e1 a1 (h.back_xy hn a1 b1) b1
    have c2 := h.back_my e2 a2 (h.back_xy hn a2 b2) b2
    rw [heq, c2] at c1
    exact (Option.some.inj c1).symm

end TInv

namespace EState

theorem atH_of_locH {o : Edge} {x : Nat} {σ : EState}
    (h : σ.locH o = some (Ptr.first x) ∨ σ.locH o = some (Ptr.second x)) :
    σ ≠ EState.gone ∧ (o.tail = x ∨ o.head = x) ∧ σ.atH o x = true := by
  cases σ <;> simp [locH, atH] at h ⊢ <;> simp [h]

theorem atH_of_locT {o : Edge} {x : Nat} {σ : EState} (hne : o.head ≠ o.tail)
    (h : σ.locT o = some (Ptr.first x) ∨ σ.locT o = some (Ptr.second x)) :
    σ ≠ EState.gone ∧ (o.tail = x ∨ o.head = x) ∧ σ.atH o x = false := by
  cases σ <;> simp [locT, atH] at h ⊢ <;> subst h <;> simp [hne, Ne.symm hne]

theorem loc_of_incident {o : Edge} {x : Nat} {σ : EState} (hne : o.head ≠ o.tail)
    (hg : σ ≠ EState.gone) (hi : o.tail = x ∨ o.head = x) :
    (σ.atH o x = true ∧ (σ.locH o = some (Ptr.first x) ∨ σ.locH o = some (Ptr.second x))) ∨
    (σ.atH o x = false ∧ (σ.locT o = some (Ptr.first x) ∨ σ.locT o = some (Ptr.second x))) := by
  rcases hi with hi | hi <;> subst hi <;> cases σ <;>
    simp [locH, locT, atH, hne, Ne.symm hne] at hg ⊢

end EState

namespace MInv

variable {n : Net} {g : Digraph} {st : Nat → EState} {L : Ptr → List Ptr}

/-- The two sublists of a node hold one cell for each edge at this node that
has not been removed. -/
theorem cell_count (hn : n.Shape) (h : MInv n g st L) (x : Nat) :
    (L (Ptr.first x)).length + (L (Ptr.second x)).length =
      ((List.range n.E).filter fun e =>
        (decide ((n.orig e).tail = x) || decide ((n.orig e).head = x)) &&
          decide (st e ≠ EState.gone)).length := by
  obtain ⟨f, hf⟩ : ∃ f : Nat → Ptr, f = fun e =>
      if (st e).atH (n.orig e) x = true then Ptr.cell (2 * e + 1) else Ptr.cell (2 * e) :=
    ⟨_, rfl⟩
  have hfe : ∀ e, ((st e).atH (n.orig e) x = true → f e = Ptr.cell (2 * e + 1)) ∧
      ((st e).atH (n.orig e) x = false → f e = Ptr.cell (2 * e)) := by
    intro e
    rw [hf]
    constructor
    · intro a; simp [a]
    · intro a; simp [a]
  have hfc : ∀ e, f e = Ptr.cell (2 * e + 1) ∨ f e = Ptr.cell (2 * e) := by
    intro e
    by_cases a : (st e).atH (n.orig e) x = true
    · exact Or.inl ((hfe e).1 a)
    · exact Or.inr ((hfe e).2 (by simpa using a))
  have hI : ((List.range n.E).filter fun e =>
      (decide ((n.orig e).tail = x) || decide ((n.orig e).head = x)) &&
        decide (st e ≠ EState.gone)).Nodup := (List.nodup_range _).filter _
  have hmemI : ∀ e, e ∈ ((List.range n.E).filter fun e =>
      (decide ((n.orig e).tail = x) || decide ((n.orig e).head = x)) &&
        decide (st e ≠ EState.gone)) ↔
      e < n.E ∧ ((n.orig e).tail = x ∨ (n.orig e).head = x) ∧ st e ≠ EState.gone := by
    intro e
    simp [List.mem_filter]
  have hl : (L (Ptr.first x) ++ L (Ptr.second x)).Nodup := by
    refine List.Nodup.append (h.wf.nodup _) (h.wf.nodup _) ?_
    intro c h1 h2
    have := h.wf.disj _ _ c h1 h2
    simp at this
  have hr : (((List.range n.E).filter fun e =>
      (decide ((n.orig e).tail = x) || decide ((n.orig e).head = x)) &&
        decide (st e ≠ EState.gone)).map f).Nodup := by
    refine List.Nodup.map_on ?_ hI
    intro e1 _ e2 _ heq
    rcases hfc e1 with a | a <;> rcases hfc e2 with b | b <;> rw [a, b] at heq <;>
      simp at heq <;> omega
  have hperm : (L (Ptr.first x) ++ L (Ptr.second x)).Perm
      (((List.range n.E).filter fun e =>
        (decide ((n.orig e).tail = x) || decide ((n.orig e).head = x)) &&
          decide (st e ≠ EState.gone)).map f) := by
    refine (List.perm_ext_iff_of_nodup hl hr).mpr ?_
    intro c
    rw [List.mem_append, List.mem_map]
    constructor
    · intro hc
      have key : ∀ p, (p = Ptr.first x ∨ p = Ptr.second x) → c ∈ L p →
          ∃ e, e ∈ ((List.range n.E).filter fun e =>
            (decide ((n.orig e).tail = x) || decide ((n.orig e).head = x)) &&
              decide (st e ≠ EState.gone)) ∧ f e = c := by
        intro p hp hcp
        obtain ⟨e, he, a | a⟩ := (h.loc p c).mp hcp
        · have hh : (st e).locH (n.orig e) = some (Ptr.first x) ∨
              (st e).locH (n.orig e) = some (Ptr.second x) := by
            rcases hp with q | q
            · left; rw [a.2, q]
            · right; rw [a.2, q]
          obtain ⟨b1, b2, b3⟩ := EState.atH_of_locH hh
          exact ⟨e, (hmemI e).mpr ⟨he, b2, b1⟩, by rw [(hfe e).1 b3, a.1]⟩
        · have hh : (st e).locT (n.orig e) = some (Ptr.first x) ∨
              (st e).locT (n.orig e) = some (Ptr.second x) := by
            rcases hp with q | q
            · left; rw [a.2, q]
            · right; rw [a.2, q]
          obtain ⟨b1, b2, b3⟩ := EState.atH_of_locT (hn.shape_head_ne_tail he) hh
          exact ⟨e, (hmemI e).mpr ⟨he, b2, b1⟩, by rw [(hfe e).2 b3, a.1]⟩
      rcases hc with hc | hc
      · exact key _ (Or.inl rfl) hc
      · exact key _ (Or.inr rfl) hc
    · rintro ⟨e, he, rfl⟩
      obtain ⟨a1, a2, a3⟩ := (hmemI e).mp he
      rcases EState.loc_of_incident (hn.shape_head_ne_tail a1) a3 a2 with ⟨b1, b2⟩ | ⟨b1, b2⟩
      · rw [(hfe e).1 b1]
        rcases b2 with b2 | b2
        · exact Or.inl ((h.loc _ _).mpr ⟨e, a1, Or.inl ⟨rfl, b2⟩⟩)
        · exact Or.inr ((h.loc _ _).mpr ⟨e, a1, Or.inl ⟨rfl, b2⟩⟩)
      · rw [(hfe e).2 b1]
        rcases b2 with b2 | b2
        · exact Or.inl ((h.loc _ _).mpr ⟨e, a1, Or.inr ⟨rfl, b2⟩⟩)
        · exact Or.inr ((h.loc _ _).mpr ⟨e, a1, Or.inr ⟨rfl, b2⟩⟩)
  have := hperm.length_eq
  rw [List.length_append, List.length_map] at this
  exact this

/-- The edges that iterating the out-list of a node visits. -/
theorem mem_iter_first (h : MInv n g st L) {u : Nat} (hu : u < n.N) (e : Nat) :
    e ∈ indexedList.iter_first g.store u ↔ e < n.E ∧
      ((st e).locH (n.orig e) = some (Ptr.first u) ∨
        (st e).locT (n.orig e) = some (Ptr.first u)) := by
  unfold indexedList.iter_first
  rw [h.wf.handles_first hu, List.mem_map]
  constructor
  · rintro ⟨c, hc, rfl⟩
    obtain ⟨a1, a2⟩ := h.val_of_mem hc
    refine ⟨a1, ?_⟩
    rcases a2 with a2 | a2
    · exact Or.inl a2.2
    · exact Or.inr a2.2
  · rintro ⟨he, a | a⟩
    · exact ⟨_, (h.hk_mem he a).1, (h.hk_mem he a).2⟩
    · exact ⟨_, (h.tk_mem he a).1, (h.tk_mem he a).2⟩

/-- The edges that iterating the in-list of a node visits. -/
theorem mem_iter_second (h : MInv n g st L) {u : Nat} (hu : u < n.N) (e : Nat) :
    e ∈ indexedList.iter_second g.store u ↔ e < n.E ∧
      ((st e).locH (n.orig e) = some (Ptr.second u) ∨
        (st e).locT (n.orig e) = some (Ptr.second u)) := by
  unfold indexedList.iter_second
  rw [h.wf.handles_second hu, List.mem_map]
  constructor
  · rintro ⟨c, hc, rfl⟩
    obtain ⟨a1, a2⟩ := h.val_of_mem hc
    refine ⟨a1, ?_⟩
    rcases a2 with a2 | a2
    · exact Or.inl a2.2
    · exact Or.inr a2.2
  · rintro ⟨he, a | a⟩
    · exact ⟨_, (h.hk_mem he a).1, (h.hk_mem he a).2⟩
    · exact ⟨_, (h.tk_mem he a).1, (h.tk_mem he a).2⟩

end MInv

namespace TInv

variable {n : Net} {g : Digraph} {st : Nat → EState} {mx my : Nat → Option Nat}
  {ux uy : List Nat} {L : Ptr → List Ptr}

/-- Between rounds, the only edge at an X-node that can have been removed is
its edge from `s`, and it has been removed when the node is matched. -/
theorem gone_at_x (hn : n.Shape) (h : TInv n g st mx my ux uy L Mode.clean) {x : Nat}
    (hx : x ∈ n.X) {e : Nat} (he : e < n.E)
    (hi : (n.orig e).tail = x ∨ (n.orig e).head = x) (hg : st e = EState.gone) :
    (n.orig e).tail = n.s ∧ (n.orig e).head = x ∧ x ∉ ux := by
  rcases hn.kind e he with k | k | k
  · exact absurd hg (h.xy e he k.1)
  · rcases hi with a | a
    · rw [k.1] at a; rw [← a] at hx; exact absurd hx hn.sX
    · rcases h.sx e he k.1 with b | b
      · rw [hg] at b; cases b.1
      · exact ⟨k.1, a, a ▸ b.2⟩
  · rcases hi with a | a
    · rw [a] at k; exact absurd k.1 (hn.xY x hx)
    · rw [k.2] at a; rw [← a] at hx; exact absurd hx hn.tX

/-- Between rounds, the two sublists of an X-node hold as many cells as the
node had edges at construction, less one when the node is matched, that is
when a reversed edge has it as head. -/
theorem xnode_count (hn : n.Shape) (h : TInv n g st mx my ux uy L Mode.clean) {x : Nat}
    (hx : x ∈ n.X) :
    (L (Ptr.first x)).length + (L (Ptr.second x)).length +
      ((List.range n.E).filter fun e =>
        (g.edge e).back_edge && decide ((g.edge e).head = x)).length =
    ((List.range n.E).filter fun e =>
      decide ((n.orig e).tail = x) || decide ((n.orig e).head = x)).length := by
  rw [h.mem.cell_count hn x,
    filter_length_split (fun e => decide ((n.orig e).tail = x) || decide ((n.orig e).head = x))
      (fun e => decide (st e ≠ EState.gone))]
  have hmemG : ∀ e, e ∈ ((List.range n.E).filter fun e =>
      (decide ((n.orig e).tail = x) || decide ((n.orig e).head = x)) &&
        !decide (st e ≠ EState.gone)) ↔
      e < n.E ∧ ((n.orig e).tail = x ∨ (n.orig e).head = x) ∧ st e = EState.gone := by
    intro e
    simp [List.mem_filter]
  have hmemB : ∀ e, e ∈ ((List.range n.E).filter fun e =>
      (g.edge e).back_edge && decide ((g.edge e).head = x)) ↔
      e < n.E ∧ (st e).back = true ∧ (n.orig e).tail = x := by
    intro e
    rw [List.mem_filter, List.mem_range]
    constructor
    · rintro ⟨a, b⟩
      simp only [Bool.and_eq_true, decide_eq_true_eq] at b
      have hb : (st e).back = true := by rw [← h.mem.back_edge_eq hn a]; exact b.1
      exact ⟨a, hb, by rw [← (h.mem.back_ends a hb).1]; exact b.2⟩
    · rintro ⟨a, b, c⟩
      refine ⟨a, ?_⟩
      simp only [Bool.and_eq_true, decide_eq_true_eq]
      exact ⟨by rw [h.mem.back_edge_eq hn a]; exact b, by rw [(h.mem.back_ends a b).1]; exact c⟩
  have hGnd : ((List.range n.E).filter fun e =>
      (decide ((n.orig e).tail = x) || decide ((n.orig e).head = x)) &&
        !decide (st e ≠ EState.gone)).Nodup := (List.nodup_range _).filter _
  have hBnd : ((List.range n.E).filter fun e =>
      (g.edge e).back_edge && decide ((g.edge e).head = x)).Nodup :=
    (List.nodup_range _).filter _
  have hkey : ((List.range n.E).filter fun e =>
        (g.edge e).back_edge && decide ((g.edge e).head = x)).length =
      ((List.range n.E).filter fun e =>
        (decide ((n.orig e).tail = x) || decide ((n.orig e).head = x)) &&
          !decide (st e ≠ EState.gone)).length := by
    by_cases hxu : x ∈ ux
    · have h1 : ((List.range n.E).filter fun e =>
          (g.edge e).back_edge && decide ((g.edge e).head = x)) = [] := by
        rw [List.eq_nil_iff_forall_not_mem]
        intro e he
        obtain ⟨a, b, c⟩ := (hmemB e).mp he
        have hxe : (n.orig e).tail ∈ n.X := c ▸ hx
        rcases h.back_mx e a hxe b with d | d
        · rw [c, (h.ux_mx x hx).mpr hxu] at d
          cases d
        · cases d
      have h2 : ((List.range n.E).filter fun e =>
          (decide ((n.orig e).tail = x) || decide ((n.orig e).head = x)) &&
            !decide (st e ≠ EState.gone)) = [] := by
        rw [List.eq_nil_iff_forall_not_mem]
        intro e he
        obtain ⟨a, b, c⟩ := (hmemG e).mp he
        exact (h.gone_at_x hn hx a b c).2.2 hxu
      rw [h1, h2]
    · obtain ⟨e0, q1, q2, q3⟩ := hn.sx x hx
      have hg0 : st e0 = EState.gone := by
        rcases h.sx e0 q1 q2 with a | a
        · rw [q3] at a; exact absurd a.2 hxu
        · exact a.1
      have hm : mx x ≠ none := fun e => hxu ((h.ux_mx x hx).mp e)
      obtain ⟨em, hem⟩ := Option.ne_none_iff_exists.mp hm
      obtain ⟨m1, m2, _, m4, _⟩ := h.mx_some x em hem.symm
      rw [length_one_of_all_eq hBnd ((hmemB em).mpr ⟨m1, m4, m2⟩) (by
          intro e he
          obtain ⟨a, b, c⟩ := (hmemB e).mp he
          have hxe : (n.orig e).tail ∈ n.X := c ▸ hx
          rcases h.back_mx e a hxe b with d | d
          · rw [c, ← hem] at d
            exact (Option.some.inj d).symm
          · cases d),
        length_one_of_all_eq hGnd ((hmemG e0).mpr ⟨q1, Or.inr q3, hg0⟩) (by
          intro e he
          obtain ⟨a, b, c⟩ := (hmemG e).mp he
          obtain ⟨d1, d2, _⟩ := h.gone_at_x hn hx a b c
          exact hn.sx_unique e e0 a q1 d1 q2 (by rw [d2, q3]))]
  omega

end TInv

end Hungarian

namespace Hungarian

namespace Digraph

/-- The only way `Edge::remove()` leaves defined behaviour is a `NULL`
pointer. -/
theorem remove_ne_no_fuel (g : Digraph) (e : Nat) : g.remove e ≠ .error .no_fuel := by
  unfold Digraph.remove
  split
  · split
    · simp
    · split <;> simp
  · simp

end Digraph

namespace BiDigraph

/-- On well-formed lists `min_element` over the in-list of a node ends: with
an edge, or at the dereference of the end iterator when the in-list is
empty. -/
theorem min_in_edge_ends (addr : Nat → Nat) {g : Digraph} {C : Nat → Prop} {L : Ptr → List Ptr}
    (hw : g.store.WF C L) {y : Nat} (hy : C y) :
    min_in_edge addr g y ≠ .error .no_fuel := by
  have hch := hw.chain (Ptr.second y) hy
  have hlen := hw.length_le (Ptr.second y)
  unfold min_in_edge
  cases hL : L (Ptr.second y) with
  | nil =>
    rw [hL] at hch
    simp only [Chain] at hch
    have hb : indexedList.begin_second g.store y = none := hch
    rw [hb]
    simp
  | cons p cs =>
    rw [hL] at hch hlen
    simp only [Chain] at hch
    have hb : indexedList.begin_second g.store y = some p := hch.1
    obtain ⟨r, r1, _⟩ := min_element_loop_mem addr g.store.mem cs p (g.store.ncells + 1) p
      hch.2.2.2 (by simp at hlen; omega)
    rw [hb]
    simp only [r1]
    simp

/-- On well-formed lists the loop of `initiate_node_prices` over `y` ends. -/
theorem minPrices_ends (addr : Nat → Nat) {C : Nat → Prop} {L : Ptr → List Ptr} :
    ∀ (ys : List Nat) (g : Digraph), g.store.WF C L → (∀ y ∈ ys, C y) →
      minPrices addr g ys ≠ .error .no_fuel
  | [], g, _, _ => by simp [minPrices]
  | y :: ys, g, hw, hys => by
    simp only [minPrices]
    cases hm : min_in_edge addr g y with
    | error f =>
      have := min_in_edge_ends addr hw (hys y (List.mem_cons_self _ _))
      rw [hm] at this
      simpa using this
    | ok e =>
      simp only
      exact minPrices_ends addr ys _ hw (fun y1 h1 => hys y1 (List.mem_cons_of_mem _ h1))

/-- On well-formed lists the loop of `initiate_node_prices` over `y`
dereferences the end iterator when some node of `y` has an empty in-list. -/
theorem minPrices_empty_null (addr : Nat → Nat) {C : Nat → Prop} {L : Ptr → List Ptr} :
    ∀ (ys : List Nat) (g : Digraph), g.store.WF C L → (∀ y ∈ ys, C y) →
      (∃ y ∈ ys, indexedList.begin_second g.store y = none) →
      minPrices addr g ys = .error .null_deref
  | [], g, _, _, h => by
    obtain ⟨y, hy, _⟩ := h
    cases hy
  | y :: ys, g, hw, hys, h => by
    simp only [minPrices]
    cases hm : min_in_edge addr g y with
    | error f =>
      have := min_in_edge_ends addr hw (hys y (List.mem_cons_self _ _))
      rw [hm] at this
      cases f with
      | null_deref => rfl
      | no_fuel => exact absurd rfl this
    | ok e =>
      simp only
      refine minPrices_empty_null addr ys _ hw (fun y1 h1 => hys y1 (List.mem_cons_of_mem _ h1)) ?_
      obtain ⟨k, hk, hk2⟩ := h
      rcases List.mem_cons.mp hk with e1 | e1
      · subst e1
        unfold min_in_edge at hm
        rw [hk2] at hm
        cases hm
      · exact ⟨k, e1, hk2⟩

/-- On well-formed lists `initiate_node_prices` ends. -/
theorem initiate_ends (addr : Nat → Nat) {b : BiDigraph} {C : Nat → Prop} {L : Ptr → List Ptr}
    (hw : b.store.WF C L) (hy : ∀ y ∈ b.y, C y) :
    initiate_node_prices addr b ≠ .error .no_fuel := by
  unfold initiate_node_prices
  cases hs : b.s with
  | none => simp
  | some s =>
    cases ht : b.t with
    | none => simp
    | some t =>
      simp only
      have hst : (zeroPrices
          ((b.toDigraph.setSP t { (b.node t).sp with price := 0 }).setSP s
            { ((b.toDigraph.setSP t { (b.node t).sp with price := 0 }).node s).sp with
              price := 0 }) b.x).store = b.store := by
        rw [zeroPrices_store]
        rfl
      have := minPrices_ends addr b.y _ (hst ▸ hw) hy
      cases hm : minPrices addr (zeroPrices
          ((b.toDigraph.setSP t { (b.node t).sp with price := 0 }).setSP s
            { ((b.toDigraph.setSP t { (b.node t).sp with price := 0 }).node s).sp with
              price := 0 }) b.x) b.y with
      | error f =>
        rw [hm] at this
        simpa using this
      | ok g3 => simp

/-- The first loop of `print_mapping` has no way to run on. -/
theorem totalCost_ends (g : Digraph) :
    ∀ (ys : List Nat) (acc : Int), totalCost g ys acc ≠ .error .no_fuel
  | [], acc => by simp [totalCost]
  | y :: ys, acc => by
    simp only [totalCost]
    cases indexedList.begin_first g.store y with
    | none => simp
    | some p => exact totalCost_ends g ys _

/-- The second loop of `print_mapping` has no way to run on. -/
theorem pairs_ends (g : Digraph) : ∀ ys : List Nat, pairs g ys ≠ .error .no_fuel
  | [] => by simp [pairs]
  | y :: ys => by
    simp only [pairs]
    cases indexedList.begin_first g.store y with
    | none => simp
    | some p =>
      simp only
      have := pairs_ends g ys
      cases hp : pairs g ys with
      | error f =>
        rw [hp] at this
        simpa using this
      | ok ps => simp

/-- `print_mapping` ends: it returns or dereferences the end iterator of an
empty out-list. -/
theorem print_mapping_ends (b : BiDigraph) : print_mapping b ≠ .error .no_fuel := by
  unfold print_mapping
  have h1 := totalCost_ends b.toDigraph b.y 0
  have h2 := pairs_ends b.toDigraph b.y
  cases ht : totalCost b.toDigraph b.y 0 with
  | error f =>
    rw [ht] at h1
    simpa using h1
  | ok t =>
    simp only
    cases hp : pairs b.toDigraph b.y with
    | error f =>
      rw [hp] at h2
      simpa using h2
    | ok ps => simp

/-- What the second loop of `print_mapping` returns: for every node of `y`
the head of the edge in the first cell of its out-list. -/
theorem pairs_first_out (g : Digraph) :
    ∀ (ys : List Nat) (ps : List (Nat × Nat)), pairs g ys = .ok ps →
      ∃ es, List.Forall₂ (fun y e => ∃ c, indexedList.begin_first g.store y = some c ∧
          (g.store.mem c).val = e) ys es ∧
        ps = List.zipWith (fun y e => ((g.node (g.edge e).head).name, (g.node y).name)) ys es
  | [], ps, h => by
    simp only [pairs] at h
    injection h with h
    exact ⟨[], List.Forall₂.nil, by rw [← h]; rfl⟩
  | y :: ys, ps, h => by
    simp only [pairs] at h
    cases hb : indexedList.begin_first g.store y with
    | none =>
      rw [hb] at h
      cases h
    | some p =>
      rw [hb] at h
      simp only at h
      cases hp : pairs g ys with
      | error f =>
        rw [hp] at h
        cases h
      | ok qs =>
        rw [hp] at h
        simp only at h
        injection h with h
        obtain ⟨es, e1, e2⟩ := pairs_first_out g ys qs hp
        refine ⟨(g.store.mem p).val :: es, List.Forall₂.cons ⟨p, hb, rfl⟩ e1, ?_⟩
        rw [← h, e2]
        rfl

/-- What the first loop of `print_mapping` returns: the running sum of the
negated costs of the edges in the first cells of the out-lists. -/
theorem totalCost_first_out (g : Digraph) :
    ∀ (ys : List Nat) (es : List Nat) (acc t : Int), totalCost g ys acc = .ok t →
      List.Forall₂ (fun y e => ∃ c, indexedList.begin_first g.store y = some c ∧
          (g.store.mem c).val = e) ys es →
      t = es.foldl (fun a e => wrap (a + wrap (-(g.edge e).cost))) acc
  | [], es, acc, t, h, hf => by
    cases hf
    simp only [totalCost] at h
    injection h with h
    exact h.symm
  | y :: ys, es, acc, t, h, hf => by
    cases hf with
    | @cons _ e1 _ es1 h1 h2 =>
      obtain ⟨c, c1, c2⟩ := h1
      simp only [totalCost, c1] at h
      rw [c2] at h
      exact totalCost_first_out g ys es1 _ t h h2

/-- What `print_mapping` returns: one pair for every node of `y`, naming the
head of the edge in the first cell of its out-list, and the sum of the negated
costs of these edges. -/
theorem print_mapping_first_out {b : BiDigraph} {r : Int × List (Nat × Nat)}
    (h : print_mapping b = .ok r) :
    ∃ es, List.Forall₂ (fun y e => ∃ c, indexedList.begin_first b.store y = some c ∧
        (b.store.mem c).val = e) b.y es ∧
      r = (es.foldl (fun a e => wrap (a + wrap (-(b.edge e).cost))) 0,
        List.zipWith (fun y e => ((b.node (b.edge e).head).name, (b.node y).name)) b.y es) := by
  unfold print_mapping at h
  cases ht : totalCost b.toDigraph b.y 0 with
  | error f =>
    rw [ht] at h
    cases h
  | ok t =>
    rw [ht] at h
    simp only at h
    cases hp : pairs b.toDigraph b.y with
    | error f =>
      rw [hp] at h
      cases h
    | ok ps =>
      rw [hp] at h
      simp only at h
      injection h with h
      obtain ⟨es, e1, e2⟩ := pairs_first_out b.toDigraph b.y ps hp
      refine ⟨es, e1, ?_⟩
      rw [← h, totalCost_first_out b.toDigraph b.y es 0 t ht e1, e2]

/-- The switching loop of `augment_spath` ends: the `prev` edges lead to
nodes that come earlier and earlier in the order `rank`, so that the walk
meets an edge from `s` or a node without `prev` edge before its steps are
used up. -/
theorem switchLoop_ends {n : Net} (hn : n.Shape) {stD : Nat → EState}
    {pv : Nat → Option Nat} {rank : Nat → Nat} (hpv : PrevPart n stD pv rank)
    (hyt : ∀ e, e < n.E → (n.orig e).head = n.t → (stD e).back = false) :
    ∀ (fuel v : Nat) (g : Digraph) (st : Nat → EState) (L : Ptr → List Ptr),
      MInv n g st L → (∀ u, (g.node u).sp.prev = pv u) → v < n.N → v ≠ n.t →
      (∀ e, e < n.E → st e ≠ stD e →
        ((n.orig e).head = n.t ∧ stD e = EState.F0) ∨
          rank v < rank ((stD e).cur (n.orig e)).head) →
      rank v ≤ fuel →
      switchLoop n.s fuel g (pv v) ≠ .error .no_fuel
  | 0, v, g, st, L, _, _, hv, _, _, hr => by
    cases hp : pv v with
    | none => simp [switchLoop]
    | some e =>
      obtain ⟨_, _, hrk, _⟩ := hpv v hv e hp
      omega
  | f + 1, v, g, st, L, h, hnode, hv, hvt, hun, hr => by
    cases hp : pv v with
    | none => simp [switchLoop]
    | some e =>
      obtain ⟨he, hhd, hrk, hgD⟩ := hpv v hv e hp
      have hste : st e = stD e := by
        by_contra hne
        rcases hun e he hne with a | a
        · rw [a.2, EState.cur_F0, a.1] at hhd
          exact hvt hhd.symm
        · rw [hhd] at a
          exact lt_irrefl _ a
      have hedge : g.edge e = (stD e).cur (n.orig e) := by rw [h.edge e he, hste]
      by_cases hts : (g.edge e).tail = n.s
      · rw [switchLoop_exit f hts]
        simp
      · obtain ⟨g1, L1, r1, r2, r3, _⟩ := h.reverse_gen hn he (by rw [hste]; exact hgD)
        rw [switchLoop_step f hts r1, r2, hnode, hedge]
        refine switchLoop_ends hn hpv hyt f _ g1 _ L1 r3 (by intro u; rw [r2]; exact hnode u)
          (MInv.cur_lt_gen hn he (stD e)).2 ?_ ?_ (by omega)
        · rcases EState.cur_head_tail (n.orig e) (stD e) with a | a
          · rw [a.2.1]
            rcases hn.kind e he with k | k | k
            · exact fun c => hn.tX (c ▸ k.1)
            · rw [k.1]; exact hn.st
            · exact fun c => hn.tY (c ▸ k.1)
          · rw [a.2.1]
            intro c
            have := hyt e he c
            rw [a.2.2] at this
            cases this
        · intro e1 he1 hne1
          by_cases hee : e1 = e
          · subst hee
            right
            rw [hhd]
            exact hrk
          · rw [Function.update_noteq hee] at hne1
            rcases hun e1 he1 hne1 with a | a
            · exact Or.inl a
            · exact Or.inr (lt_trans hrk a)

/-- The run of `augment_spath()` after `dijkstra_spath(s)`, between rounds,
ends: it returns or it dereferences a `NULL` pointer. -/
theorem augment_ends {n : Net} (hn : n.Shape) (hNE : n.N ≤ n.E + 2) {b : BiDigraph}
    {st : Nat → EState} {mx my : Nat → Option Nat} {ux uy : List Nat} {L : Ptr → List Ptr}
    {rank : Nat → Nat} (hs : b.s = some n.s) (ht : b.t = some n.t)
    (h : TInv n b.toDigraph st mx my ux uy L Mode.clean)
    (hpv : PrevPart n st (fun v => (b.node v).sp.prev) rank)
    (hrk : ∀ v, v < n.N → rank v < n.N) :
    augment_spath b ≠ .error .no_fuel := by
  have hch := h.mem.wf.chain (Ptr.second n.t) hn.tN
  have hll := h.mem.wf.length_le (Ptr.second n.t)
  cases hL : L (Ptr.second n.t) with
  | nil =>
    rw [hL] at hch
    simp only [Chain] at hch
    have hbegin : indexedList.begin_second b.store n.t = none := hch
    unfold augment_spath
    simp only [hs, ht, hbegin]
    simp
  | cons p0 cs =>
    obtain ⟨r, hr1, hr2⟩ := pickLoop_mem b.toDigraph (L (Ptr.second n.t)) (Ptr.second n.t)
      (b.store.ncells + 1) INF (b.store.mem p0).val hch (by omega)
    rw [hL] at hch hr2
    simp only [Chain] at hch
    have hbegin : indexedList.begin_second b.store n.t = some p0 := hch.1
    rw [hch.1] at hr1
    have hrc : ∃ c ∈ L (Ptr.second n.t), r = (b.store.mem c).val := by
      rw [hL]
      rcases hr2 with a | a
      · exact ⟨p0, List.mem_cons_self _ _, a⟩
      · exact a
    obtain ⟨c, hc1, hc2⟩ := hrc
    obtain ⟨v1, v2⟩ := h.mem.val_of_mem hc1
    rw [← hc2] at v1 v2
    have hF : st r = EState.F0 ∧ (n.orig r).head = n.t := by
      rcases v2 with ⟨_, a⟩ | ⟨_, a⟩
      · exact EState.locH_second a
      · exfalso
        have := (EState.locT_second a).2
        rcases hn.kind r v1 with k | k | k
        · rw [this] at k; exact hn.tX k.1
        · rw [this] at k; exact hn.st k.1.symm
        · rw [this] at k; exact hn.tY k.1
    obtain ⟨g1, L1, r1, r2, r3⟩ := h.tstep_remove_yt hn v1 hF.2 hF.1
    have hg1e : (g1.edge r).tail = (n.orig r).tail := by
      rw [r3.mem.edge r v1, Function.update_same]
      rfl
    have hyY : (n.orig r).tail ∈ n.Y := hn.shape_tail_of_head_t v1 hF.2
    have hE : g1.nedges = n.E := r3.mem.nedges
    have hsw := switchLoop_ends hn hpv
      (by
        intro e he het
        rcases h.yt e he het with a | a
        · rw [a.1]; rfl
        · rw [a.1]; rfl)
      (g1.nedges + 1) (n.orig r).tail g1 _ L1 r3.mem (by intro u; rw [r2])
      (hn.yN _ hyY) (fun c => hn.tY (c ▸ hyY))
      (by
        intro e1 he1 hne1
        by_cases hee : e1 = r
        · subst hee
          exact Or.inl ⟨hF.2, hF.1⟩
        · rw [Function.update_noteq hee] at hne1
          exact absurd rfl hne1)
      (by
        have := hrk _ (hn.yN _ hyY)
        omega)
    unfold augment_spath
    simp only [hs, ht, hbegin, hr1, r1]
    rw [hg1e, r2]
    cases hsl : switchLoop n.s (g1.nedges + 1) g1 (b.node (n.orig r).tail).sp.prev with
    | error f =>
      rw [hsl] at hsw
      simpa using hsw
    | ok p =>
      obtain ⟨g2, e2⟩ := p
      simp only
      have := Digraph.remove_ne_no_fuel g2 e2
      cases hrm : g2.remove e2 with
      | error f =>
        rw [hrm] at this
        simpa using this
      | ok g3 => simp

/-- One round of `min_weight_assignment`, entered between rounds, ends: it
returns or it dereferences a `NULL` pointer. -/
theorem round_ends {n : Net} (hn : n.Shape) (hNE : n.N ≤ n.E + 2) {b : BiDigraph}
    {st : Nat → EState} {mx my : Nat → Option Nat} {ux uy : List Nat} {L : Ptr → List Ptr}
    (hs : b.s = some n.s) (ht : b.t = some n.t)
    (h : TInv n b.toDigraph st mx my ux uy L Mode.clean) :
    round b ≠ .error .no_fuel := by
  obtain ⟨gD, rank, d1, d2, _⟩ := Digraph.dijkstra_spath_gen (h.mem.sready_gen hn) 0 0
  have hD : TInv n gD st mx my ux uy L Mode.clean :=
    h.tinv_of_nodes d2.store d2.edge d2.nnodes d2.nedges d2.name
  have hpv := prevpart_of_spost hD.mem d2
  have ha := augment_ends hn hNE (b := b.withGraph gD) hs ht hD hpv d2.rlt
  unfold round
  simp only [hs, d1]
  cases hau : augment_spath (b.withGraph gD) with
  | error f =>
    rw [hau] at ha
    simpa using ha
  | ok b2 => simp

/-- The loop of `min_weight_assignment` ends, whatever the number of rounds:
it returns or it dereferences a `NULL` pointer. -/
theorem rounds_ends {n : Net} (hn : n.Shape) (hNE : n.N ≤ n.E + 2) :
    ∀ (k : Nat) (b : BiDigraph) (st : Nat → EState) (mx my : Nat → Option Nat)
      (ux uy : List Nat) (L : Ptr → List Ptr),
      b.s = some n.s → b.t = some n.t → b.x = n.X → b.y = n.Y →
      TInv n b.toDigraph st mx my ux uy L Mode.clean → rounds k b ≠ .error .no_fuel
  | 0, b, _, _, _, _, _, _, _, _, _, _, _ => by simp [rounds]
  | k + 1, b, st, mx, my, ux, uy, L, hs, ht, hx, hy, h => by
    simp only [rounds]
    have hr := round_ends hn hNE hs ht h
    cases hrd : round b with
    | error f =>
      rw [hrd] at hr
      simpa using hr
    | ok b2 =>
      simp only
      obtain ⟨st1, mx1, my1, ux1, uy1, L1, r2, r3, r4, r5, r6, _⟩ :=
        round_gen hn hs ht hx hy h hrd
      exact rounds_ends hn hNE k b2 st1 mx1 my1 ux1 uy1 L1 (r2 ▸ hs) (r3 ▸ ht) (r4 ▸ hx)
        (r5 ▸ hy) r6

end BiDigraph

/-- The program ends on every input: it returns, or it dereferences a `NULL`
pointer. -/
theorem solve_ends (addr : Nat → Nat) (tr : List (Nat × Nat × Int)) :
    solve addr tr ≠ .error .no_fuel := by
  obtain ⟨n, L0, hn, hs, ht, hx, hy, hM, _, hNE⟩ := prepare_shape tr
  unfold solve BiDigraph.min_weight_assignment
  have hi := BiDigraph.initiate_ends addr (b := prepare_graph tr) hM.wf
    (by intro y hyy; rw [hy] at hyy; exact hn.yN y hyy)
  cases hin : (prepare_graph tr).initiate_node_prices addr with
  | error f =>
    rw [hin] at hi
    simpa using hi
  | ok b1 =>
    simp only
    obtain ⟨f1, f2, f3, f4, f5⟩ := BiDigraph.initiate_frame hin
    obtain ⟨i5, i4, i2, i3⟩ := BiDigraph.initiate_y hin
    have hM1 : MInv n b1.toDigraph (fun _ => EState.F0) L0 := hM.mem_of_nodes f1 f2 f3 f4 f5
    have hr := BiDigraph.rounds_ends hn hNE b1.x.length b1 _ _ _ _ _ L0 (i2 ▸ hs) (i3 ▸ ht)
      (i4 ▸ hx) (i5 ▸ hy) (TInv.tstart hn hM1)
    cases hrd : BiDigraph.rounds b1.x.length b1 with
    | error f =>
      rw [hrd] at hr
      simpa using hr
    | ok b2 =>
      simp only
      exact BiDigraph.print_mapping_ends b2

end Hungarian

namespace Hungarian

/-- The matching invariant with prices implies the one without. -/
theorem GInv.toT {n : Net} {C : Int} {g : Digraph} {st : Nat → EState}
    {mx my : Nat → Option Nat} {ux uy : List Nat} {L : Ptr → List Ptr} {mode : Mode}
    (h : GInv n C g st mx my ux uy L mode) : TInv n g st mx my ux uy L mode :=
  ⟨h.mem, h.xy, h.sx, h.yt, h.ux_sub, h.uy_sub, h.ux_nodup, h.uy_nodup, h.my_some, h.mx_some,
    h.back_my, h.back_mx, h.ux_mx, h.uy_my, h.front, h.free, h.pend⟩

/-- The backward walk depends on the tails of the edges it meets only. -/
theorem PrevWalk.walk_congr {pv : Nat → Option Nat} {tl tl' : Nat → Nat} {s v el : Nat}
    {path : List Nat} (h : PrevWalk pv tl s v path el) (ht : ∀ e ∈ el :: path, tl e = tl' e) :
    PrevWalk pv tl' s v path el := by
  induction h with
  | last h1 h2 =>
    exact PrevWalk.last h1 (by rw [← ht _ (List.mem_cons_self _ _)]; exact h2)
  | @step v e el path h1 h2 _ ih =>
    have he : tl e = tl' e := ht e (List.mem_cons_of_mem _ (List.mem_cons_self _ _))
    refine PrevWalk.step h1 (by rw [← he]; exact h2) ?_
    rw [← he]
    refine ih ?_
    intro e' he'
    rcases List.mem_cons.mp he' with a | a
    · rw [a]; exact ht el (List.mem_cons_self _ _)
    · exact ht e' (List.mem_cons_of_mem _ (List.mem_cons_of_mem _ a))

namespace BiDigraph

/-- One more round after `k` rounds makes `k + 1` rounds. -/
theorem rounds_snoc :
    ∀ (k : Nat) (b bk b' : BiDigraph), rounds k b = .ok bk → round bk = .ok b' →
      rounds (k + 1) b = .ok b'
  | 0, b, bk, b', h1, h2 => by
    simp only [rounds] at h1
    injection h1 with h1
    subst h1
    simp only [rounds, h2]
  | k + 1, b, bk, b', h1, h2 => by
    simp only [rounds] at h1
    cases hr : round b with
    | error f => rw [hr] at h1; cases h1
    | ok b1 =>
      rw [hr] at h1
      simp only at h1
      have := rounds_snoc k b1 bk b' h1 h2
      rw [rounds, hr]
      exact this

/-- The loop of `min_weight_assignment` on a complete network with small
costs: any number of rounds up to the number of unmatched X-nodes ends and
leaves a matching with as many unmatched X-nodes less. -/
theorem rounds_prefix {n : Net} {C : Int} (hn : n.OK C) :
    ∀ (k : Nat) (b : BiDigraph) (st : Nat → EState) (mx my : Nat → Option Nat)
      (ux uy : List Nat) (L : Ptr → List Ptr),
      b.s = some n.s → b.t = some n.t → b.x = n.X → b.y = n.Y →
      GInv n C b.toDigraph st mx my ux uy L Mode.clean → k ≤ ux.length →
      ∃ b1 st1 mx1 my1 ux1 uy1 L1, rounds k b = .ok b1 ∧ b1.s = b.s ∧ b1.t = b.t ∧
        b1.x = b.x ∧ b1.y = b.y ∧ GInv n C b1.toDigraph st1 mx1 my1 ux1 uy1 L1 Mode.clean ∧
        ux1.length + k = ux.length
  | 0, b, st, mx, my, ux, uy, L, _, _, _, _, h, _ =>
    ⟨b, st, mx, my, ux, uy, L, rfl, rfl, rfl, rfl, rfl, h, rfl⟩
  | k + 1, b, st, mx, my, ux, uy, L, hs, ht, hx, hy, h, hk => by
    have hux : ux ≠ [] := by
      intro e
      rw [e] at hk
      simp at hk
    obtain ⟨b1, st1, mx1, my1, ux1, uy1, L1, r1, r2, r3, r4, r5, r6, r7⟩ :=
      round_spec hn hs ht hx hy h hux
    obtain ⟨b2, st2, mx2, my2, ux2, uy2, L2, q1, q2, q3, q4, q5, q6, q7⟩ :=
      rounds_prefix hn k b1 st1 mx1 my1 ux1 uy1 L1 (r2 ▸ hs) (r3 ▸ ht) (r4 ▸ hx) (r5 ▸ hy) r6
        (by omega)
    refine ⟨b2, st2, mx2, my2, ux2, uy2, L2, ?_, by rw [q2, r2], by rw [q3, r3],
      by rw [q4, r4], by rw [q5, r5], q6, by omega⟩
    simp only [rounds, r1]
    exact q1

end BiDigraph

/-- Every edge that the backward walk meets is the `prev` edge of a node that
the walk visits. -/
theorem PrevWalk.prev_of_mem {pv : Nat → Option Nat} {tl : Nat → Nat} {s v el : Nat}
    {path : List Nat} (h : PrevWalk pv tl s v path el) (P : Nat → Prop) (hv : P v)
    (hstep : ∀ u e, P u → pv u = some e → P (tl e)) :
    ∀ e ∈ el :: path, ∃ u, P u ∧ pv u = some e := by
  induction h with
  | @last v e h1 _ =>
    intro e' he'
    simp only [List.mem_cons, List.mem_nil_iff, or_false] at he'
    subst he'
    exact ⟨v, hv, h1⟩
  | @step v e el path h1 _ _ ih =>
    intro e' he'
    rcases List.mem_cons.mp he' with a | a
    · exact ih (hstep v e hv h1) e' (a ▸ List.mem_cons_self _ _)
    · rcases List.mem_cons.mp a with b | b
      · exact ⟨v, hv, b ▸ h1⟩
      · exact ih (hstep v e hv h1) e' (List.mem_cons_of_mem _ b)

namespace BiDigraph

/-- What `augment_spath` does when it ends, in a round entered between
rounds: it takes an edge `esink` of the in-list of `t` that minimises
`dist + price` of its tail, follows the `prev` edges from the tail of `esink`
back to the first edge `esrc` whose tail is `s`, reverses the edges `path`
met before `esrc`, unlinks `esink` and `esrc`, and leaves every other edge as
it was. -/
theorem round_parts_gen {n : Net} (hn : n.Shape) {b b2 : BiDigraph} {gD : Digraph}
    {st : Nat → EState} {mx my : Nat → Option Nat} {ux uy : List Nat} {L : Ptr → List Ptr}
    (hs : b.s = some n.s) (ht : b.t = some n.t)
    (h : TInv n b.toDigraph st mx my ux uy L Mode.clean)
    (hd : b.toDigraph.dijkstra_spath n.s = .ok gD)
    (ha : augment_spath (b.withGraph gD) = .ok b2) :
    ∃ esink path esrc,
      (esink ∈ indexedList.iter_second gD.store n.t ∧
        ∀ e ∈ indexedList.iter_second gD.store n.t, gD.pickKey esink ≤ gD.pickKey e) ∧
      PrevWalk (fun v => (gD.node v).sp.prev) (fun e => (gD.edge e).tail) n.s
        (gD.edge esink).tail path esrc ∧
      (esink < gD.nedges ∧ esrc < gD.nedges ∧ (∀ e ∈ path, e < gD.nedges) ∧
        esink ∉ path ∧ esrc ∉ path) ∧
      ((gD.edge esink).head = n.t ∧ esink ∈ indexedList.iter_first gD.store (gD.edge esink).tail ∧
        (gD.edge esrc).tail = n.s ∧ esrc ∈ indexedList.iter_first gD.store n.s ∧
        esrc ∈ indexedList.iter_second gD.store (gD.edge esrc).head) ∧
      (∀ e, e < gD.nedges → b2.edge e =
        if e ∈ path then
          { gD.edge e with cost := wrap (-(gD.edge e).cost),
                           back_edge := !(gD.edge e).back_edge,
                           head := (gD.edge e).tail, tail := (gD.edge e).head }
        else gD.edge e) ∧
      (∀ v, v < gD.nnodes →
        esink ∉ indexedList.iter_first b2.store v ∧ esink ∉ indexedList.iter_second b2.store v ∧
        esrc ∉ indexedList.iter_first b2.store v ∧ esrc ∉ indexedList.iter_second b2.store v) ∧
      (∀ e, e < gD.nedges → e ≠ esink → e ≠ esrc → e ∉ path → ∀ v, v < gD.nnodes →
        (e ∈ indexedList.iter_first b2.store v ↔ e ∈ indexedList.iter_first gD.store v) ∧
        (e ∈ indexedList.iter_second b2.store v ↔ e ∈ indexedList.iter_second gD.store v)) := by
  obtain ⟨gD1, rank, d1, d2, _⟩ := Digraph.dijkstra_spath_gen (h.mem.sready_gen hn) 0 0
  rw [hd] at d1
  injection d1 with d1
  subst d1
  have hD : TInv n gD st mx my ux uy L Mode.clean :=
    h.tinv_of_nodes d2.store d2.edge d2.nnodes d2.nedges d2.name
  have hpv := prevpart_of_spost hD.mem d2
  obtain ⟨g3, st1, mx1, my1, L1, esink, path, esrc, a1, a2, a3, a4, a5, a6, a7, a8, a9, a10,
    a11, a12, a13, a14, a15, a16⟩ := augment_gen hn (b := b.withGraph gD) hs ht hD hpv ha
  subst a1
  have hN : gD.nnodes = n.N := hD.mem.nnodes
  have hE : gD.nedges = n.E := hD.mem.nedges
  have hedge : ∀ e, e < n.E → gD.edge e = (st e).cur (n.orig e) := hD.mem.edge
  have hedge3 : ∀ e, e < n.E → g3.edge e = (st1 e).cur (n.orig e) := a3.mem.edge
  have hF0 : ∀ o : Edge, EState.F0.cur o = o := fun o => rfl
  have hgone : ∀ o : Edge, EState.gone.cur o = o := fun o => rfl
  have hsinkY : (n.orig esink).tail ∈ n.Y := hn.shape_tail_of_head_t a6 a7
  have hsink_np : esink ∉ path := fun hm => hn.xY _ (a15 esink hm).2 hsinkY
  have hsrc_np : esrc ∉ path := fun hm => hn.sX (a13 ▸ (a15 esrc hm).2)
  have hwalk :
      PrevWalk (fun v => (gD.node v).sp.prev) (fun e => (gD.edge e).tail) n.s
        (gD.edge esink).tail path esrc := by
    have e0 : (gD.edge esink).tail = (n.orig esink).tail := by rw [hedge esink a6, a8, EState.cur_F0]
    rw [e0]
    refine a11.walk_congr ?_
    intro e he
    rcases List.mem_cons.mp he with c | c
    · show ((st e).cur (n.orig e)).tail = (gD.edge e).tail
      rw [c, hedge esrc a12]
    · show ((st e).cur (n.orig e)).tail = (gD.edge e).tail
      rw [hedge e (a15 e c).1]
  have hng : ∀ e ∈ path, st e ≠ EState.gone := by
    intro e he
    obtain ⟨u, hu, hpu⟩ := a11.prev_of_mem (fun u => u < n.N) (hn.yN _ hsinkY)
      (fun u e' _ hp => by
        obtain ⟨q1, _⟩ := hpv u ‹u < n.N› e' hp
        exact (MInv.cur_lt_gen hn q1 (st e')).2) e (List.mem_cons_of_mem _ he)
    exact (hpv u hu e hpu).2.2.2
  have hst_sink : st1 esink = EState.gone := by rw [a16]; simp
  have hst_src : st1 esrc = EState.gone := by rw [a16]; simp
  have i2D := fun v (hv : v < n.N) e => hD.mem.mem_iter_second hv e
  have i1D := fun v (hv : v < n.N) e => hD.mem.mem_iter_first hv e
  have i23 := fun v (hv : v < n.N) e => a3.mem.mem_iter_second hv e
  have i13 := fun v (hv : v < n.N) e => a3.mem.mem_iter_first hv e
  refine ⟨esink, path, esrc, ⟨?_, ?_⟩, hwalk, ⟨hE ▸ a6, hE ▸ a12, ?_, hsink_np, hsrc_np⟩,
    ⟨?_, ?_, ?_, ?_, ?_⟩, ?_, ?_, ?_⟩
  · rw [i2D n.t hn.tN]
    refine ⟨a6, Or.inl ?_⟩
    rw [a8]
    show some (Ptr.second (n.orig esink).head) = _
    rw [a7]
  · intro e he
    have w := hD.mem.wf.handles_second hn.tN
    unfold indexedList.iter_second at he
    rw [w] at he
    obtain ⟨c, hc, rfl⟩ := List.mem_map.mp he
    exact a10 c hc
  · intro e he
    rw [hE]
    exact (a15 e he).1
  · rw [hedge esink a6, a8, EState.cur_F0]
    exact a7
  · rw [hedge esink a6, a8, hF0, i1D _ (hn.yN _ hsinkY)]
    refine ⟨a6, Or.inr ?_⟩
    rw [a8]
    rfl
  · rw [hedge esrc a12, a14, EState.cur_F0]
    exact a13
  · rw [i1D n.s hn.sN]
    refine ⟨a12, Or.inr ?_⟩
    rw [a14]
    show some (Ptr.first (n.orig esrc).tail) = _
    rw [a13]
  · rw [hedge esrc a12, a14, hF0, i2D _ (hn.shape_head_lt a12)]
    refine ⟨a12, Or.inl ?_⟩
    rw [a14]
    rfl
  · intro e he
    rw [hE] at he
    show g3.edge e = _
    rw [hedge3 e he, hedge e he, a16]
    by_cases hp : e ∈ path
    · have h1 : ¬ (e = esink ∨ e = esrc) := by
        rintro (c | c)
        · exact hsink_np (c ▸ hp)
        · exact hsrc_np (c ▸ hp)
      rw [if_neg h1, if_pos hp, if_pos hp]
      exact (EState.cur_rev (hng e hp) (hn.keys e he).2.2).symm
    · rw [if_neg hp]
      by_cases h1 : e = esink ∨ e = esrc
      · rw [if_pos h1, hgone]
        rcases h1 with c | c
        · rw [c, a8, hF0, if_neg hsink_np]
        · rw [c, a14, hF0, if_neg hsrc_np]
      · rw [if_neg h1, if_neg hp]
  · intro v hv
    rw [hN] at hv
    show esink ∉ indexedList.iter_first g3.store v ∧ esink ∉ indexedList.iter_second g3.store v ∧
      esrc ∉ indexedList.iter_first g3.store v ∧ esrc ∉ indexedList.iter_second g3.store v
    rw [i13 v hv, i23 v hv, i13 v hv, i23 v hv, hst_sink, hst_src]
    simp [EState.locH, EState.locT]
  · intro e he h1 h2 h3 v hv
    rw [hN] at hv
    show (e ∈ indexedList.iter_first g3.store v ↔ _) ∧ (e ∈ indexedList.iter_second g3.store v ↔ _)
    have hst : st1 e = st e := by
      rw [a16, if_neg (by rintro (c | c) <;> contradiction), if_neg h3]
    rw [i13 v hv, i23 v hv, i1D v hv, i2D v hv, hst]
    exact ⟨Iff.rfl, Iff.rfl⟩

end BiDigraph

namespace BiDigraph

/-- One round on a complete network with small costs, entered between rounds
with an X-node still unmatched: `dijkstra_spath` and `augment_spath` both
end. -/
theorem round_total_parts {n : Net} {C : Int} (hn : n.OK C) {b : BiDigraph} {st : Nat → EState}
    {mx my : Nat → Option Nat} {ux uy : List Nat} {L : Ptr → List Ptr}
    (hs : b.s = some n.s) (ht : b.t = some n.t) (hx : b.x = n.X) (hy : b.y = n.Y)
    (h : GInv n C b.toDigraph st mx my ux uy L Mode.clean) (hux : ux ≠ []) :
    ∃ gD b2, b.toDigraph.dijkstra_spath n.s = .ok gD ∧
      augment_spath (b.withGraph gD) = .ok b2 ∧ round b = .ok (reduce_node_prices b2) := by
  obtain ⟨b1, _, _, _, _, _, _, r1, _⟩ := round_spec hn hs ht hx hy h hux
  obtain ⟨gD, _, d1, _⟩ := Digraph.dijkstra_spath_gen (h.toT.mem.sready_gen (Net.Shape.of_OK hn)) 0 0
  have hr := r1
  unfold round at hr
  simp only [hs, d1] at hr
  cases ha : augment_spath (b.withGraph gD) with
  | error f =>
    rw [ha] at hr
    cases hr
  | ok b2 =>
    rw [ha] at hr
    simp only at hr
    injection hr with hr
    exact ⟨gD, b2, d1, ha, by rw [r1, hr]⟩

end BiDigraph

/-- The state before the first round on a complete instance with small
costs: `prepare_graph` and `initiate_node_prices` end and leave the network
with nothing matched. -/
theorem start_total (addr : Nat → Nat) {tr : List (Nat × Nat × Int)} {xs ys : List Nat}
    {C : Int} (hc : Complete tr xs ys C) :
    ∃ b1 n L, (prepare_graph tr).initiate_node_prices addr = .ok b1 ∧ n.OK C ∧
      b1.s = some n.s ∧ b1.t = some n.t ∧ b1.x = n.X ∧ b1.y = n.Y ∧ n.X.length = xs.length ∧
      GInv n C b1.toDigraph (fun _ => EState.F0) (fun _ => none) (fun _ => none) n.X n.Y L
        Mode.clean := by
  obtain ⟨n, L, hn, hs, ht, hx, hy, hM, hyn, _, _⟩ := prepare_spec hc
  obtain ⟨b1, i1, i2, i3, i4, i5, i6⟩ := BiDigraph.initiate_spec addr hn hs ht hx hy hM
  have hlen : n.X.length = xs.length := by
    have h1 := hc.ynames_perm.length_eq
    rw [← hyn, List.length_map] at h1
    rw [hn.len, h1, hc.len]
  exact ⟨b1, n, L, i1, hn, by rw [i2, hs], by rw [i3, ht], by rw [i4, hx], by rw [i5, hy],
    hlen, i6⟩

/-- The state after `k` rounds on a complete instance with small costs: the
rounds end, and the graph holds a matching with `k` X-nodes matched. -/
theorem run_total (addr : Nat → Nat) {tr : List (Nat × Nat × Int)} {xs ys : List Nat} {C : Int}
    (hc : Complete tr xs ys C) {k : Nat} (hk : k ≤ xs.length) :
    ∃ b1 bk n st mx my ux uy L,
      (prepare_graph tr).initiate_node_prices addr = .ok b1 ∧ BiDigraph.rounds k b1 = .ok bk ∧
      n.OK C ∧ b1.x = n.X ∧ bk.s = some n.s ∧ bk.t = some n.t ∧ bk.x = n.X ∧ bk.y = n.Y ∧
      n.X.length = xs.length ∧
      GInv n C bk.toDigraph st mx my ux uy L Mode.clean ∧ ux.length + k = xs.length := by
  obtain ⟨b1, n, L, i1, hn, hs, ht, hx, hy, hlen, i6⟩ := start_total addr hc
  obtain ⟨bk, st, mx, my, ux, uy, Lk, r1, r2, r3, r4, r5, r6, r7⟩ :=
    BiDigraph.rounds_prefix hn k b1 _ _ _ n.X n.Y L hs ht hx hy i6 (by omega)
  exact ⟨b1, bk, n, st, mx, my, ux, uy, Lk, i1, r1, hn, hx, by rw [r2, hs],
    by rw [r3, ht], by rw [r4, hx], by rw [r5, hy], hlen, r6, by omega⟩

/-- The state after `k` rounds on any instance, when the rounds end: the graph
holds a matching with `k` X-nodes matched. -/
theorem run_gen (addr : Nat → Nat) {tr : List (Nat × Nat × Int)} {k : Nat} {b1 bk : BiDigraph}
    (hi : (prepare_graph tr).initiate_node_prices addr = .ok b1)
    (hr : BiDigraph.rounds k b1 = .ok bk) :
    ∃ n L0 st mx my ux uy L, n.Shape ∧
      MInv n (prepare_graph tr).toDigraph (fun _ => EState.F0) L0 ∧
      (prepare_graph tr).x = n.X ∧
      bk.s = some n.s ∧ bk.t = some n.t ∧ bk.x = n.X ∧ bk.y = n.Y ∧
      TInv n bk.toDigraph st mx my ux uy L Mode.clean ∧ ux.length + k = n.X.length := by
  obtain ⟨n, L0, hn, hs, ht, hx, hy, hM, _⟩ := prepare_shape tr
  obtain ⟨f1, f2, f3, f4, f5⟩ := BiDigraph.initiate_frame hi
  obtain ⟨i5, i4, i2, i3⟩ := BiDigraph.initiate_y hi
  have hM1 : MInv n b1.toDigraph (fun _ => EState.F0) L0 := hM.mem_of_nodes f1 f2 f3 f4 f5
  obtain ⟨st, mx, my, ux, uy, L, q2, q3, q4, q5, q6, q7⟩ :=
    BiDigraph.rounds_gen hn k b1 bk _ _ _ _ _ L0 (i2 ▸ hs) (i3 ▸ ht) (i4 ▸ hx) (i5 ▸ hy)
      (TInv.tstart hn hM1) hr
  exact ⟨n, L0, st, mx, my, ux, uy, L, hn, hM, hx, by rw [q2, i2, hs], by rw [q3, i3, ht],
    by rw [q4, i4, hx], by rw [q5, i5, hy], q6, q7⟩

end Hungarian

namespace Hungarian

set_option maxRecDepth 1000000 in
/-- C16 fails as stated, evaluated on the complete 3 by 3 instance whose third
X-node has only edges of cost `INT_MAX` (X-nodes 0, 4, 5 and Y-nodes 1, 2, 3,
every X-node joined to every Y-node): two rounds complete and leave two
reversed edges, but the third round does not complete, `augment_spath`
follows a `prev` pointer that is `NULL`; for `k = 3 = n` there is no state
after `k` completed rounds. -/
theorem C16_third_round_does_not_complete :
    (((prepare_graph [(1,1,0),(1,2,0),(1,3,0),(2,1,0),(2,2,0),(2,3,0),
        (3,1,2147483647),(3,2,2147483647),(3,3,2147483647)]).x, (prepare_graph [(1,1,0),(1,2,0),(1,3,0),(2,1,0),(2,2,0),(2,3,0),
        (3,1,2147483647),(3,2,2147483647),(3,3,2147483647)]).y) = ([0, 4, 5], [1, 2, 3]) ∧
      (List.range 9).map (fun e => (((prepare_graph [(1,1,0),(1,2,0),(1,3,0),(2,1,0),(2,2,0),(2,3,0),
        (3,1,2147483647),(3,2,2147483647),(3,3,2147483647)]).edge e).tail, ((prepare_graph [(1,1,0),(1,2,0),(1,3,0),(2,1,0),(2,2,0),(2,3,0),
        (3,1,2147483647),(3,2,2147483647),(3,3,2147483647)]).edge e).head)) =
        [(0, 1), (0, 2), (0, 3), (4, 1), (4, 2), (4, 3), (5, 1), (5, 2), (5, 3)]) ∧
    (((prepare_graph [(1,1,0),(1,2,0),(1,3,0),(2,1,0),(2,2,0),(2,3,0),
        (3,1,2147483647),(3,2,2147483647),(3,3,2147483647)]).initiate_node_prices id).bind (BiDigraph.rounds 2)).map
      (fun b => (List.range b.nedges).filter fun e => (b.edge e).back_edge) = .ok [1, 5] ∧
    (((prepare_graph [(1,1,0),(1,2,0),(1,3,0),(2,1,0),(2,2,0),(2,3,0),
        (3,1,2147483647),(3,2,2147483647),(3,3,2147483647)]).initiate_node_prices id).bind (BiDigraph.rounds 3)).map (fun _ => ()) =
      .error Fault.null_deref := by
  refine ⟨⟨?_, ?_⟩, ?_, ?_⟩
  · decide!
  · decide!
  · decide!
  · decide!

/-- C16 (amended): on every complete bipartite instance with
`|X| = |Y| = n` whose costs are at most `C` in absolute value, where
(6n + 7)·C < 2^31 − 1, and for every `k ≤ n`, the first `k` rounds of
`min_weight_assignment` (`dijkstra_spath`, `augment_spath`,
`reduce_node_prices`) complete, and after them exactly `k` edge objects have
`back_edge = true`; each of them has an X-node as head and a Y-node as tail,
and no two of them share a head or a tail, so they form a matching of size
`k`. On every instance, whatever its costs, the same holds after `k` rounds
whenever these rounds have completed. -/
theorem C16_back_edges_form_a_matching_of_size_k (addr : Nat → Nat)
    (tr : List (Nat × Nat × Int)) (k : Nat) :
    (∀ xs ys C, Complete tr xs ys C → k ≤ xs.length →
      ∃ b1 bk, (prepare_graph tr).initiate_node_prices addr = .ok b1 ∧
        BiDigraph.rounds k b1 = .ok bk ∧
      ((List.range bk.nedges).filter fun e => (bk.edge e).back_edge).length = k ∧
      (∀ e < bk.nedges, (bk.edge e).back_edge = true →
        (bk.edge e).head ∈ bk.x ∧ (bk.edge e).tail ∈ bk.y) ∧
      (((List.range bk.nedges).filter fun e => (bk.edge e).back_edge).map
        fun e => (bk.edge e).head).Nodup ∧
      (((List.range bk.nedges).filter fun e => (bk.edge e).back_edge).map
        fun e => (bk.edge e).tail).Nodup) ∧
    (∀ b1 bk, (prepare_graph tr).initiate_node_prices addr = .ok b1 →
      BiDigraph.rounds k b1 = .ok bk →
      ((List.range bk.nedges).filter fun e => (bk.edge e).back_edge).length = k ∧
      (∀ e < bk.nedges, (bk.edge e).back_edge = true →
        (bk.edge e).head ∈ bk.x ∧ (bk.edge e).tail ∈ bk.y) ∧
      (((List.range bk.nedges).filter fun e => (bk.edge e).back_edge).map
        fun e => (bk.edge e).head).Nodup ∧
      (((List.range bk.nedges).filter fun e => (bk.edge e).back_edge).map
        fun e => (bk.edge e).tail).Nodup) := by
  have hgen : ∀ b1 bk, (prepare_graph tr).initiate_node_prices addr = .ok b1 →
      BiDigraph.rounds k b1 = .ok bk →
      ((List.range bk.nedges).filter fun e => (bk.edge e).back_edge).length = k ∧
      (∀ e < bk.nedges, (bk.edge e).back_edge = true →
        (bk.edge e).head ∈ bk.x ∧ (bk.edge e).tail ∈ bk.y) ∧
      (((List.range bk.nedges).filter fun e => (bk.edge e).back_edge).map
        fun e => (bk.edge e).head).Nodup ∧
      (((List.range bk.nedges).filter fun e => (bk.edge e).back_edge).map
        fun e => (bk.edge e).tail).Nodup := by
    intro b1 bk hi hr
    obtain ⟨n, L0, st, mx, my, ux, uy, L, hn, _, _, _, _, hx, hy, hT, hlen⟩ :=
      run_gen addr hi hr
    obtain ⟨c1, c2, c3, c4⟩ := TInv.back_count hn hT
    have hE : bk.nedges = n.E := hT.mem.nedges
    rw [hE, hx, hy]
    exact ⟨by omega, c2, c3, c4⟩
  refine ⟨?_, hgen⟩
  intro xs ys C hC hk
  obtain ⟨b1, bk, _, _, _, _, _, _, _, h1, h2, _⟩ := run_total addr hC hk
  exact ⟨b1, bk, h1, h2, hgen b1 bk h1 h2⟩

/-- C16 (amended) at the complete 2x2 instance with costs 4, 2, 3, 1, after
two rounds. -/
theorem C16_back_edges_form_a_matching_of_size_k_witness :
    Complete [(1, 1, 4), (1, 2, 2), (2, 1, 3), (2, 2, 1)] [1, 2] [1, 2] 4 ∧
    ∃ b1 bk, (prepare_graph [(1, 1, 4), (1, 2, 2), (2, 1, 3), (2, 2, 1)]).initiate_node_prices id
        = .ok b1 ∧ BiDigraph.rounds 2 b1 = .ok bk ∧
      ((List.range bk.nedges).filter fun e => (bk.edge e).back_edge).length = 2 ∧
      (∀ e < bk.nedges, (bk.edge e).back_edge = true →
        (bk.edge e).head ∈ bk.x ∧ (bk.edge e).tail ∈ bk.y) ∧
      (((List.range bk.nedges).filter fun e => (bk.edge e).back_edge).map
        fun e => (bk.edge e).head).Nodup ∧
      (((List.range bk.nedges).filter fun e => (bk.edge e).back_edge).map
        fun e => (bk.edge e).tail).Nodup :=
  ⟨complete_two_by_two,
    (C16_back_edges_form_a_matching_of_size_k id [(1, 1, 4), (1, 2, 2), (2, 1, 3), (2, 2, 1)]
      2).1 _ _ _ complete_two_by_two (by decide)⟩

/-- C18: on every instance, whenever `k` rounds of `min_weight_assignment`
have completed, for each X-node the number of out-list entries plus the number
of in-list entries, plus one when the node is matched (a reversed edge has it
as head; its source edge is then the one edge at this node that augmentation
deleted), equals the number of entries the two lists held at construction. On
a complete instance with small costs the `k` rounds do complete for every
`k ≤ n`. -/
theorem C18_x_node_keeps_its_entries (addr : Nat → Nat)
    (tr : List (Nat × Nat × Int)) (k : Nat) :
    (∀ b1 bk, (prepare_graph tr).initiate_node_prices addr = .ok b1 →
      BiDigraph.rounds k b1 = .ok bk → ∀ x ∈ bk.x,
      (indexedList.iter_first bk.store x).length + (indexedList.iter_second bk.store x).length +
          ((List.range bk.nedges).filter fun e =>
            (bk.edge e).back_edge && decide ((bk.edge e).head = x)).length =
        (indexedList.iter_first (prepare_graph tr).store x).length +
          (indexedList.iter_second (prepare_graph tr).store x).length ∧
      ((List.range bk.nedges).filter fun e =>
        (bk.edge e).back_edge && decide ((bk.edge e).head = x)).length ≤ 1) ∧
    (∀ xs ys C, Complete tr xs ys C → k ≤ xs.length →
      ∃ b1 bk, (prepare_graph tr).initiate_node_prices addr = .ok b1 ∧
        BiDigraph.rounds k b1 = .ok bk) := by
  constructor
  · intro b1 bk hi hr x hxk
    obtain ⟨n, L0, st, mx, my, ux, uy, L, hn, hM0, hx0, _, _, hx, hy, hT, hlen⟩ :=
      run_gen addr hi hr
    rw [hx] at hxk
    have hxN : x < n.N := hn.xN x hxk
    have hE : bk.nedges = n.E := hT.mem.nedges
    have h1 := TInv.xnode_count hn hT hxk
    have h0 := TInv.xnode_count hn (TInv.tstart hn hM0) hxk
    have hb0 : ((List.range n.E).filter fun e =>
        ((prepare_graph tr).edge e).back_edge &&
          decide (((prepare_graph tr).edge e).head = x)) = [] := by
      rw [List.filter_eq_nil_iff]
      intro e he
      rw [List.mem_range] at he
      have := hM0.edge e he
      have hk := (hn.keys e he).2.2
      show ¬ ((((prepare_graph tr).toDigraph.edge e).back_edge &&
          decide (((prepare_graph tr).toDigraph.edge e).head = x)) = true)
      rw [this]
      simp [EState.cur, EState.back, hk]
    rw [hb0] at h0
    simp only [indexedList.iter_first, indexedList.iter_second, List.length_map]
    rw [hE]
    have w1 := hT.mem.wf.handles_first hxN
    have w2 := hT.mem.wf.handles_second hxN
    have w3 := hM0.wf.handles_first hxN
    have w4 := hM0.wf.handles_second hxN
    change indexedList.handles_first bk.store x = _ at w1
    change indexedList.handles_second bk.store x = _ at w2
    change indexedList.handles_first (prepare_graph tr).store x = _ at w3
    change indexedList.handles_second (prepare_graph tr).store x = _ at w4
    rw [w1, w2, w3, w4]
    refine ⟨by rw [h1]; simpa using h0.symm, ?_⟩
    obtain ⟨_, _, c3, _⟩ := TInv.back_count hn hT
    have hsub : ((List.range n.E).filter fun e =>
        (bk.edge e).back_edge && decide ((bk.edge e).head = x)) =
        ((List.range n.E).filter fun e => (bk.edge e).back_edge).filter
          fun e => decide ((bk.edge e).head = x) := by
      rw [List.filter_filter]
      congr 1
      funext e
      exact Bool.and_comm _ _
    rw [hsub]
    generalize ((List.range n.E).filter fun e => (bk.edge e).back_edge) = l at c3
    have c5 : (l.filter fun e => decide ((bk.edge e).head = x)).length =
        (l.map fun e => (bk.edge e).head).count x := by
      rw [List.count, List.countP_map, List.countP_eq_length_filter]
      congr 1
    rw [c5]
    exact List.nodup_iff_count_le_one.mp c3 x
  · intro xs ys C hC hk
    obtain ⟨b1, bk, _, _, _, _, _, _, _, h1, h2, _⟩ := run_total addr hC hk
    exact ⟨b1, bk, h1, h2⟩

/-- C18 at the complete 2x2 instance with costs 4, 2, 3, 1, after one round. -/
theorem C18_x_node_keeps_its_entries_witness :
    ∃ b1 bk, (prepare_graph [(1, 1, 4), (1, 2, 2), (2, 1, 3), (2, 2, 1)]).initiate_node_prices id = .ok b1 ∧
      BiDigraph.rounds 1 b1 = .ok bk ∧ ∀ x ∈ bk.x,
      (indexedList.iter_first bk.store x).length + (indexedList.iter_second bk.store x).length +
          ((List.range bk.nedges).filter fun e =>
            (bk.edge e).back_edge && decide ((bk.edge e).head = x)).length =
        (indexedList.iter_first (prepare_graph [(1, 1, 4), (1, 2, 2), (2, 1, 3), (2, 2, 1)]).store x).length +
          (indexedList.iter_second (prepare_graph [(1, 1, 4), (1, 2, 2), (2, 1, 3), (2, 2, 1)]).store x).length ∧
      ((List.range bk.nedges).filter fun e =>
        (bk.edge e).back_edge && decide ((bk.edge e).head = x)).length ≤ 1 := by
  have h := C18_x_node_keeps_its_entries id [(1, 1, 4), (1, 2, 2), (2, 1, 3), (2, 2, 1)] 1
  obtain ⟨b1, bk, h1, h2⟩ := h.2 _ _ _ complete_two_by_two (by decide)
  exact ⟨b1, bk, h1, h2, h.1 b1 bk h1 h2⟩

set_option maxRecDepth 1000000 in
/-- C15 fails as stated, evaluated in two states reached after
`dijkstra_spath(s)` in which the sink has an incoming edge and is reachable
along out-list edges.

First the instance with the edges (1,1) of cost 1, (1,2) of cost 0 and (2,3)
of cost 5, in the second round (`s` is node 5, `t` node 6): the in-list of the
sink holds the edges 7 and 5, the sink is reached along the out-list edges 4,
2, 7 with distance 5, but the tail of edge 5, the Y-node 1, is not reached:
its `dist` is `INF`, its price 1, and `dist + price` wraps to `INT_MIN`, the
minimum. `augment_spath` takes edge 5 and follows the `prev` of node 1, which
is `NULL`.

Then the complete 3 by 3 instance whose third X-node has only edges of cost
`INT_MAX`, in the third round (`s` is node 6, `t` node 7), where nothing
overflows: the in-list of the sink holds the edge 12 from the Y-node 1, the
sink is reachable along the out-list edges 11, 6, 12 of reduced cost 0,
`INT_MAX`, 0, but the `prev` of node 1 is the edge 3 from the X-node 4, which
was popped at distance `INF` with `prev = NULL`; `augment_spath` follows
it. -/
theorem C15_augment_spath_follows_a_null_prev :
    (((((prepare_graph [(1, 1, 1), (1, 2, 0), (2, 3, 5)]).initiate_node_prices id).bind
        (BiDigraph.rounds 1)).bind
        (fun b => (b.toDigraph.dijkstra_spath 5).map b.withGraph)).map
      (fun b => (b.s, b.t, indexedList.iter_second b.store 6)) = .ok (some 5, some 6, [7, 5]) ∧
    ((((prepare_graph [(1, 1, 1), (1, 2, 0), (2, 3, 5)]).initiate_node_prices id).bind
        (BiDigraph.rounds 1)).bind
        (fun b => (b.toDigraph.dijkstra_spath 5).map b.withGraph)).map
      (fun b => [indexedList.iter_first b.store 5, indexedList.iter_first b.store 3,
        indexedList.iter_first b.store 4]) = .ok [[4], [2], [7]] ∧
    ((((prepare_graph [(1, 1, 1), (1, 2, 0), (2, 3, 5)]).initiate_node_prices id).bind
        (BiDigraph.rounds 1)).bind
        (fun b => (b.toDigraph.dijkstra_spath 5).map b.withGraph)).map
      (fun b => [((b.edge 4).tail, (b.edge 4).head), ((b.edge 2).tail, (b.edge 2).head),
        ((b.edge 7).tail, (b.edge 7).head), ((b.edge 5).tail, (b.edge 5).head)]) =
      .ok [(5, 3), (3, 4), (4, 6), (1, 6)] ∧
    ((((prepare_graph [(1, 1, 1), (1, 2, 0), (2, 3, 5)]).initiate_node_prices id).bind
        (BiDigraph.rounds 1)).bind
        (fun b => (b.toDigraph.dijkstra_spath 5).map b.withGraph)).map
      (fun b => ((b.node 6).sp.dist, (b.node 6).sp.prev, b.pickKey 7, b.pickKey 5)) =
      .ok (5, some 7, 5, -2147483648) ∧
    ((((prepare_graph [(1, 1, 1), (1, 2, 0), (2, 3, 5)]).initiate_node_prices id).bind
        (BiDigraph.rounds 1)).bind
        (fun b => (b.toDigraph.dijkstra_spath 5).map b.withGraph)).map
      (fun b => ((b.node 1).sp.dist, (b.node 1).sp.price, (b.node 1).sp.prev)) =
      .ok (2147483647, 1, none) ∧
    (((((prepare_graph [(1, 1, 1), (1, 2, 0), (2, 3, 5)]).initiate_node_prices id).bind
        (BiDigraph.rounds 1)).bind
        (fun b => (b.toDigraph.dijkstra_spath 5).map b.withGraph)).bind
        BiDigraph.augment_spath).map (fun _ => ()) = .error Fault.null_deref) ∧
    (((((prepare_graph [(1,1,0),(1,2,0),(1,3,0),(2,1,0),(2,2,0),(2,3,0),
        (3,1,2147483647),(3,2,2147483647),(3,3,2147483647)]).initiate_node_prices id).bind
        (BiDigraph.rounds 2)).bind
        (fun b => (b.toDigraph.dijkstra_spath 6).map b.withGraph)).map
      (fun b => (b.s, b.t, indexedList.iter_second b.store 7)) = .ok (some 6, some 7, [12]) ∧
    ((((prepare_graph [(1,1,0),(1,2,0),(1,3,0),(2,1,0),(2,2,0),(2,3,0),
        (3,1,2147483647),(3,2,2147483647),(3,3,2147483647)]).initiate_node_prices id).bind
        (BiDigraph.rounds 2)).bind
        (fun b => (b.toDigraph.dijkstra_spath 6).map b.withGraph)).map
      (fun b => [indexedList.iter_first b.store 6, indexedList.iter_first b.store 5,
        indexedList.iter_first b.store 1]) = .ok [[11], [8, 7, 6], [12]] ∧
    ((((prepare_graph [(1,1,0),(1,2,0),(1,3,0),(2,1,0),(2,2,0),(2,3,0),
        (3,1,2147483647),(3,2,2147483647),(3,3,2147483647)]).initiate_node_prices id).bind
        (BiDigraph.rounds 2)).bind
        (fun b => (b.toDigraph.dijkstra_spath 6).map b.withGraph)).map
      (fun b => [((b.edge 11).tail, (b.edge 11).head), ((b.edge 6).tail, (b.edge 6).head),
        ((b.edge 12).tail, (b.edge 12).head), ((b.edge 3).tail, (b.edge 3).head)]) =
      .ok [(6, 5), (5, 1), (1, 7), (4, 1)] ∧
    ((((prepare_graph [(1,1,0),(1,2,0),(1,3,0),(2,1,0),(2,2,0),(2,3,0),
        (3,1,2147483647),(3,2,2147483647),(3,3,2147483647)]).initiate_node_prices id).bind
        (BiDigraph.rounds 2)).bind
        (fun b => (b.toDigraph.dijkstra_spath 6).map b.withGraph)).map
      (fun b => ((b.node 1).sp.prev, (b.node 4).sp.prev,
        [5, 1, 7].map (fun v => (b.node v).sp.dist), [11, 6, 12].map b.get_red_cost)) =
      .ok (some 3, none, [0, 2147483647, 2147483647], [0, 2147483647, 0]) ∧
    (((((prepare_graph [(1,1,0),(1,2,0),(1,3,0),(2,1,0),(2,2,0),(2,3,0),
        (3,1,2147483647),(3,2,2147483647),(3,3,2147483647)]).initiate_node_prices id).bind
        (BiDigraph.rounds 2)).bind
        (fun b => (b.toDigraph.dijkstra_spath 6).map b.withGraph)).bind
        BiDigraph.augment_spath).map (fun _ => ()) = .error Fault.null_deref) := by
  refine ⟨⟨?_, ?_, ?_, ?_, ?_, ?_⟩, ⟨?_, ?_, ?_, ?_, ?_⟩⟩
  · decide!
  · decide!
  · decide!
  · decide!
  · decide!
  · decide!
  · decide!
  · decide!
  · decide!
  · decide!
  · decide!

/-- C15 (amended): in every round of `min_weight_assignment`, on every
instance, whenever `augment_spath` returns from the state that
`dijkstra_spath(s)` left, it has taken an edge `esink` of the in-list of the
sink that minimises `dist + price` of the tail, unlinked it from the lists of
both ends, reversed the edges `path` on the `prev` chain from the tail of
`esink` back to the first edge `esrc` whose tail is the source (head and tail
swapped, cost negated in 32-bit arithmetic, `back_edge` flipped), unlinked
`esrc` from the lists of
both ends, and left the content and the list membership of every other edge
unchanged. On a complete instance with `|X| = |Y| = n` and small costs
`augment_spath` does return in each of the `n` rounds. -/
theorem C15_augment_spath_when_it_returns (addr : Nat → Nat)
    (tr : List (Nat × Nat × Int)) (k : Nat) :
    (∀ b1 bk s t gD b2, (prepare_graph tr).initiate_node_prices addr = .ok b1 →
      BiDigraph.rounds k b1 = .ok bk → bk.s = some s → bk.t = some t →
      bk.toDigraph.dijkstra_spath s = .ok gD →
      BiDigraph.augment_spath (bk.withGraph gD) = .ok b2 →
      ∃ esink path esrc,
        (esink ∈ indexedList.iter_second gD.store t ∧
          ∀ e ∈ indexedList.iter_second gD.store t, gD.pickKey esink ≤ gD.pickKey e) ∧
        PrevWalk (fun v => (gD.node v).sp.prev) (fun e => (gD.edge e).tail) s
          (gD.edge esink).tail path esrc ∧
        (esink < gD.nedges ∧ esrc < gD.nedges ∧ (∀ e ∈ path, e < gD.nedges) ∧
          esink ∉ path ∧ esrc ∉ path) ∧
        ((gD.edge esink).head = t ∧
          esink ∈ indexedList.iter_first gD.store (gD.edge esink).tail ∧
          (gD.edge esrc).tail = s ∧ esrc ∈ indexedList.iter_first gD.store s ∧
          esrc ∈ indexedList.iter_second gD.store (gD.edge esrc).head) ∧
        (∀ e, e < gD.nedges → b2.edge e =
          if e ∈ path then
            { gD.edge e with cost := wrap (-(gD.edge e).cost),
                             back_edge := !(gD.edge e).back_edge,
                             head := (gD.edge e).tail, tail := (gD.edge e).head }
          else gD.edge e) ∧
        (∀ v, v < gD.nnodes →
          esink ∉ indexedList.iter_first b2.store v ∧
          esink ∉ indexedList.iter_second b2.store v ∧
          esrc ∉ indexedList.iter_first b2.store v ∧
          esrc ∉ indexedList.iter_second b2.store v) ∧
        (∀ e, e < gD.nedges → e ≠ esink → e ≠ esrc → e ∉ path → ∀ v, v < gD.nnodes →
          (e ∈ indexedList.iter_first b2.store v ↔ e ∈ indexedList.iter_first gD.store v) ∧
          (e ∈ indexedList.iter_second b2.store v ↔ e ∈ indexedList.iter_second gD.store v))) ∧
    (∀ xs ys C, Complete tr xs ys C → k < xs.length →
      ∃ b1 bk s t gD b2, (prepare_graph tr).initiate_node_prices addr = .ok b1 ∧
        BiDigraph.rounds k b1 = .ok bk ∧ bk.s = some s ∧ bk.t = some t ∧
        bk.toDigraph.dijkstra_spath s = .ok gD ∧
        BiDigraph.augment_spath (bk.withGraph gD) = .ok b2) := by
  constructor
  · intro b1 bk s t gD b2 hi hr hs ht hd ha
    obtain ⟨n, L0, st, mx, my, ux, uy, L, hn, _, _, hs1, ht1, _, _, hT, _⟩ :=
      run_gen addr hi hr
    have es : s = n.s := by
      rw [hs] at hs1
      injection hs1
    have et : t = n.t := by
      rw [ht] at ht1
      injection ht1
    subst es et
    exact BiDigraph.round_parts_gen hn hs ht hT hd ha
  · intro xs ys C hC hk
    obtain ⟨b1, bk, n, st, mx, my, ux, uy, L, h1, h2, hn, _, hs, ht, hx, hy, _, hG, hlen⟩ :=
      run_total addr hC (Nat.le_of_lt hk)
    have hux : ux ≠ [] := by
      intro e
      rw [e] at hlen
      simp at hlen
      omega
    obtain ⟨gD, b2, d1, d2, _⟩ := BiDigraph.round_total_parts hn hs ht hx hy hG hux
    exact ⟨b1, bk, n.s, n.t, gD, b2, h1, h2, hs, ht, d1, d2⟩

/-- C15 (amended) at the complete 2x2 instance with costs 4, 2, 3, 1, in the
second round. -/
theorem C15_augment_spath_when_it_returns_witness :
    ∃ b1 bk s t gD b2,
      (prepare_graph [(1, 1, 4), (1, 2, 2), (2, 1, 3), (2, 2, 1)]).initiate_node_prices id
        = .ok b1 ∧
      BiDigraph.rounds 1 b1 = .ok bk ∧ bk.s = some s ∧ bk.t = some t ∧
      bk.toDigraph.dijkstra_spath s = .ok gD ∧
      BiDigraph.augment_spath (bk.withGraph gD) = .ok b2 ∧
      ∃ esink path esrc,
        (esink ∈ indexedList.iter_second gD.store t ∧
          ∀ e ∈ indexedList.iter_second gD.store t, gD.pickKey esink ≤ gD.pickKey e) ∧
        PrevWalk (fun v => (gD.node v).sp.prev) (fun e => (gD.edge e).tail) s
          (gD.edge esink).tail path esrc ∧
        (esink < gD.nedges ∧ esrc < gD.nedges ∧ (∀ e ∈ path, e < gD.nedges) ∧
          esink ∉ path ∧ esrc ∉ path) ∧
        ((gD.edge esink).head = t ∧
          esink ∈ indexedList.iter_first gD.store (gD.edge esink).tail ∧
          (gD.edge esrc).tail = s ∧ esrc ∈ indexedList.iter_first gD.store s ∧
          esrc ∈ indexedList.iter_second gD.store (gD.edge esrc).head) ∧
        (∀ e, e < gD.nedges → b2.edge e =
          if e ∈ path then
            { gD.edge e with cost := wrap (-(gD.edge e).cost),
                             back_edge := !(gD.edge e).back_edge,
                             head := (gD.edge e).tail, tail := (gD.edge e).head }
          else gD.edge e) ∧
        (∀ v, v < gD.nnodes →
          esink ∉ indexedList.iter_first b2.store v ∧
          esink ∉ indexedList.iter_second b2.store v ∧
          esrc ∉ indexedList.iter_first b2.store v ∧
          esrc ∉ indexedList.iter_second b2.store v) ∧
        (∀ e, e < gD.nedges → e ≠ esink → e ≠ esrc → e ∉ path → ∀ v, v < gD.nnodes →
          (e ∈ indexedList.iter_first b2.store v ↔ e ∈ indexedList.iter_first gD.store v) ∧
          (e ∈ indexedList.iter_second b2.store v ↔ e ∈ indexedList.iter_second gD.store v)) := by
  have h := C15_augment_spath_when_it_returns id [(1, 1, 4), (1, 2, 2), (2, 1, 3), (2, 2, 1)] 1
  obtain ⟨b1, bk, s, t, gD, b2, h1, h2, h3, h4, h5, h6⟩ :=
    h.2 _ _ _ complete_two_by_two (by decide)
  exact ⟨b1, bk, s, t, gD, b2, h1, h2, h3, h4, h5, h6, h.1 b1 bk s t gD b2 h1 h2 h3 h4 h5 h6⟩

/-- C20: on every complete bipartite instance with `|X| = |Y| = n ≥ 1` and
small costs, `min_weight_assignment` runs `n` rounds and every step of every
round succeeds: `dijkstra_spath` ends, the in-list of the sink is not empty
when `augment_spath` starts, the backward walk of `augment_spath` finds a
`prev` edge at every node it visits and reaches an edge whose tail is the
source after finitely many steps, and `augment_spath` ends; after the `n`
rounds every Y-node has a first out-list edge and `print_mapping` returns the
result of `min_weight_assignment`. -/
theorem C20_every_step_of_every_round_succeeds (addr : Nat → Nat)
    {tr : List (Nat × Nat × Int)} {xs ys : List Nat} {C : Int} (hc : Complete tr xs ys C) :
    ∃ b1 s t, (prepare_graph tr).initiate_node_prices addr = .ok b1 ∧
      b1.x.length = xs.length ∧ b1.s = some s ∧ b1.t = some t ∧
      (∀ k, k < xs.length → ∃ bk gD b2 esink path esrc,
        BiDigraph.rounds k b1 = .ok bk ∧ bk.s = some s ∧ bk.t = some t ∧
        bk.toDigraph.dijkstra_spath s = .ok gD ∧
        indexedList.begin_second gD.store t ≠ none ∧
        esink ∈ indexedList.iter_second gD.store t ∧
        PrevWalk (fun v => (gD.node v).sp.prev) (fun e => (gD.edge e).tail) s
          (gD.edge esink).tail path esrc ∧
        BiDigraph.augment_spath (bk.withGraph gD) = .ok b2 ∧
        BiDigraph.rounds (k + 1) b1 = .ok (BiDigraph.reduce_node_prices b2)) ∧
      ∃ bn r, BiDigraph.rounds xs.length b1 = .ok bn ∧
        (∀ y ∈ bn.y, indexedList.begin_first bn.store y ≠ none) ∧
        BiDigraph.print_mapping bn = .ok r ∧
        BiDigraph.min_weight_assignment addr (prepare_graph tr) = .ok r := by
  obtain ⟨b1, n, L, h1, hn, hs, ht, hx, hy, hlen, hG⟩ := start_total addr hc
  refine ⟨b1, n.s, n.t, h1, by rw [hx, hlen], hs, ht, ?_, ?_⟩
  · intro k hk
    obtain ⟨bk, st, mx, my, ux, uy, Lk, r1, r2, r3, r4, r5, r6, r7⟩ :=
      BiDigraph.rounds_prefix hn k b1 _ _ _ n.X n.Y L hs ht hx hy hG (by omega)
    have hux : ux ≠ [] := by
      intro e
      rw [e] at r7
      simp at r7
      omega
    have hsk : bk.s = some n.s := by rw [r2, hs]
    have htk : bk.t = some n.t := by rw [r3, ht]
    obtain ⟨gD, b2, d1, d2, d3⟩ :=
      BiDigraph.round_total_parts hn hsk htk (by rw [r4, hx]) (by rw [r5, hy]) r6 hux
    obtain ⟨esink, path, esrc, ⟨m1, _⟩, hw, _⟩ :=
      BiDigraph.round_parts_gen (Net.Shape.of_OK hn) hsk htk r6.toT d1 d2
    refine ⟨bk, gD, b2, esink, path, esrc, r1, hsk, htk, d1, ?_, m1, hw, d2,
      BiDigraph.rounds_snoc k b1 bk _ r1 d3⟩
    intro hnone
    unfold indexedList.iter_second indexedList.handles_second at m1
    rw [hnone] at m1
    simp [indexedList.walk] at m1
  · obtain ⟨bn, st, mx, my, ux, uy, Ln, r1, r2, r3, r4, r5, r6, r7⟩ :=
      BiDigraph.rounds_prefix hn n.X.length b1 _ _ _ n.X n.Y L hs ht hx hy hG (Nat.le_refl _)
    have hux : ux = [] := List.length_eq_zero.mp (by omega)
    have hl := r6.len
    simp only [if_true] at hl
    have huy : uy = [] := List.length_eq_zero.mp (by rw [hux] at hl; simpa using hl.symm)
    subst hux huy
    have hyn : bn.y = n.Y := by rw [r5, hy]
    obtain ⟨me, _, _, m3⟩ := BiDigraph.print_mapping_spec hn (b := bn) hyn r6
    refine ⟨bn, _, by rw [← hlen]; exact r1, ?_, m3, ?_⟩
    · intro y hyy
      rw [hyn] at hyy
      obtain ⟨e, _, _, _, _, _, hb, _⟩ := BiDigraph.matched_first hn r6 hyy
      intro hnone
      have hb1 : indexedList.begin_first bn.store y = some (Ptr.cell (2 * e + 1)) := hb
      rw [hnone] at hb1
      cases hb1
    · unfold BiDigraph.min_weight_assignment
      have hk : b1.x.length = n.X.length := by rw [hx]
      simp only [h1, hk, r1, m3]

/-- C20 at the complete 2x2 instance with costs 4, 2, 3, 1. -/
theorem C20_every_step_of_every_round_succeeds_witness :
    ∃ b1 s t, (prepare_graph [(1, 1, 4), (1, 2, 2), (2, 1, 3), (2, 2, 1)]).initiate_node_prices id = .ok b1 ∧
      b1.x.length = 2 ∧ b1.s = some s ∧ b1.t = some t ∧
      (∀ k, k < 2 → ∃ bk gD b2 esink path esrc,
        BiDigraph.rounds k b1 = .ok bk ∧ bk.s = some s ∧ bk.t = some t ∧
        bk.toDigraph.dijkstra_spath s = .ok gD ∧
        indexedList.begin_second gD.store t ≠ none ∧
        esink ∈ indexedList.iter_second gD.store t ∧
        PrevWalk (fun v => (gD.node v).sp.prev) (fun e => (gD.edge e).tail) s
          (gD.edge esink).tail path esrc ∧
        BiDigraph.augment_spath (bk.withGraph gD) = .ok b2 ∧
        BiDigraph.rounds (k + 1) b1 = .ok (BiDigraph.reduce_node_prices b2)) ∧
      ∃ bn r, BiDigraph.rounds 2 b1 = .ok bn ∧
        (∀ y ∈ bn.y, indexedList.begin_first bn.store y ≠ none) ∧
        BiDigraph.print_mapping bn = .ok r ∧
        BiDigraph.min_weight_assignment id (prepare_graph [(1, 1, 4), (1, 2, 2), (2, 1, 3), (2, 2, 1)]) = .ok r :=
  C20_every_step_of_every_round_succeeds id complete_two_by_two

/-- On a graph built by `add_node` and `add_edge` alone, in which some Y-node
has no incoming edge, `min_weight_assignment` dereferences a `NULL` pointer in
`initiate_node_prices`: the end iterator that `min_element` returns for the
empty in-list, or `s` or `t` when they were never set. -/
theorem BiDigraph.initiate_empty_null (addr : Nat → Nat) {b : BiDigraph} {L : Ptr → List Ptr}
    (hb : Built b.toDigraph L) (hy : ∀ y ∈ b.y, y < b.nnodes)
    (he : ∃ y ∈ b.y, indexedList.begin_second b.store y = none) :
    b.min_weight_assignment addr = .error .null_deref := by
  unfold BiDigraph.min_weight_assignment BiDigraph.initiate_node_prices
  cases hs : b.s with
  | none => rfl
  | some s =>
    cases ht : b.t with
    | none => rfl
    | some t =>
      simp only
      have hst : (BiDigraph.zeroPrices
          ((b.toDigraph.setSP t { (b.node t).sp with price := 0 }).setSP s
            { ((b.toDigraph.setSP t { (b.node t).sp with price := 0 }).node s).sp with
              price := 0 }) b.x).store = b.store := by
        rw [BiDigraph.zeroPrices_store]
        rfl
      rw [BiDigraph.minPrices_empty_null addr b.y _ (hst ▸ hb.wf) hy
        (by
          obtain ⟨y, h1, h2⟩ := he
          exact ⟨y, h1, by rw [hst]; exact h2⟩)]

/-- C4 amended: `min_weight_assignment` has no failure report. On every input
the run ends in one of two ways: it dereferences a `NULL` pointer, or it
returns a total and exactly one pair for every Y-node, in the order of `y`:
the pair of a Y-node names the head of the edge in the first cell of its
out-list after the rounds, and the total is the running 32-bit sum of the
negated costs of these edges. And on a graph built by `add_node` and
`add_edge` in which some Y-node has no incoming edge, the run dereferences a
`NULL` pointer (in `initiate_node_prices`, the end iterator that
`min_element` returns). -/
theorem C4_no_failure_is_ever_reported (addr : Nat → Nat) :
    (∀ tr : List (Nat × Nat × Int),
      solve addr tr = .error .null_deref ∨
      ∃ b1 bn es, (prepare_graph tr).initiate_node_prices addr = .ok b1 ∧
        BiDigraph.rounds (prepare_graph tr).x.length b1 = .ok bn ∧
        bn.y = (prepare_graph tr).y ∧
        List.Forall₂ (fun y e => ∃ c, indexedList.begin_first bn.store y = some c ∧
          (bn.store.mem c).val = e) bn.y es ∧
        solve addr tr =
          .ok (es.foldl (fun a e => wrap (a + wrap (-(bn.edge e).cost))) 0,
            List.zipWith (fun y e => ((bn.node (bn.edge e).head).name, (bn.node y).name))
              bn.y es)) ∧
    (∀ (b : BiDigraph) (L : Ptr → List Ptr), Built b.toDigraph L →
      (∀ y ∈ b.y, y < b.nnodes) →
      (∃ y ∈ b.y, indexedList.begin_second b.store y = none) →
      b.min_weight_assignment addr = .error .null_deref) := by
  refine ⟨?_, fun b L hb hy he => BiDigraph.initiate_empty_null addr hb hy he⟩
  intro tr
  have hends := solve_ends addr tr
  cases hsol : solve addr tr with
  | error f =>
    left
    cases f with
    | null_deref => rfl
    | no_fuel => exact absurd hsol hends
  | ok r =>
    right
    have h := hsol
    unfold solve BiDigraph.min_weight_assignment at h
    cases hi : (prepare_graph tr).initiate_node_prices addr with
    | error f =>
      rw [hi] at h
      cases h
    | ok b1 =>
      rw [hi] at h
      simp only at h
      have hx1 : b1.x = (prepare_graph tr).x := (BiDigraph.initiate_y hi).2.1
      cases hr : BiDigraph.rounds b1.x.length b1 with
      | error f =>
        rw [hr] at h
        cases h
      | ok bn =>
        rw [hr] at h
        simp only at h
        obtain ⟨es, e1, e2⟩ := BiDigraph.print_mapping_first_out h
        refine ⟨b1, bn, es, rfl, by rw [← hx1]; exact hr, ?_, e1, by rw [e2]⟩
        rw [(BiDigraph.rounds_y _ _ _ hr).1, (BiDigraph.initiate_y hi).1]

set_option maxRecDepth 1000000 in
/-- Witness of C4 amended: the instance X = {1}, Y = {1, 2} of its
counterexample, and the graph with one X-node, one Y-node, `s` and `t` and no
edge. -/
theorem C4_no_failure_is_ever_reported_witness :
    (solve id [(1, 1, 3), (1, 2, 5)] = .error .null_deref ∨
      ∃ b1 bn es, (prepare_graph [(1, 1, 3), (1, 2, 5)]).initiate_node_prices id = .ok b1 ∧
        BiDigraph.rounds (prepare_graph [(1, 1, 3), (1, 2, 5)]).x.length b1 = .ok bn ∧
        bn.y = (prepare_graph [(1, 1, 3), (1, 2, 5)]).y ∧
        List.Forall₂ (fun y e => ∃ c, indexedList.begin_first bn.store y = some c ∧
          (bn.store.mem c).val = e) bn.y es ∧
        solve id [(1, 1, 3), (1, 2, 5)] =
          .ok (es.foldl (fun a e => wrap (a + wrap (-(bn.edge e).cost))) 0,
            List.zipWith (fun y e => ((bn.node (bn.edge e).head).name, (bn.node y).name))
              bn.y es)) ∧
    ((((BiDigraph.new.add_node 1 .XNode).1.add_node 1 .YNode).1.add_node 0 .SourceNode).1.add_node
      0 .TargetNode).1.min_weight_assignment id = .error .null_deref :=
  ⟨(C4_no_failure_is_ever_reported id).1 [(1, 1, 3), (1, 2, 5)],
    (C4_no_failure_is_ever_reported id).2 _ _
      ((((Built.built_new.built_add_node 1).1.built_add_node 1).1.built_add_node 0).1.built_add_node
        0).1
      (by decide!) ⟨1, by decide!, by decide!⟩⟩

end Hungarian
